import Mathlib

/-! # JsonDiffPatch: a shallow embedding of `src/src/JsonDiffPatch.cpp`

The development models the JSON value type used by the library, the text-diff
adapter (`SimpleTextDiff`), the LCS engine (`ComputeLcs`), the delta encoder
(`Diff`, `ObjectDiff`, `ArrayDiff`) and the two delta appliers (`Patch`,
`Unpatch` with their object and array helpers), followed by theorems about them.

Conventions of the embedding
* `std::string` is a Lean `String`; a `Char` stands for one C++ `char`, so
  `String.length` is `std::string::length`.
* JSON numbers are the integer kinds of the value type (`number_integer`,
  `number_unsigned`), carried as an `Int`; floating-point numbers are outside
  the embedding.
* A JSON object is a `std::map<std::string, json>`: a list of members with
  strictly ascending keys.  `Json.wf` states that invariant.
* A C++ exception is an `Except.error`.
* Recursion of `Diff` is on the left value and recursion of `Patch`/`Unpatch`
  is on the delta; both are written with a recursion budget that is computed
  from the nesting depth of that argument.
* The functions behind `Diff` are embedded a second time, in the namespace
  `Checked`, with every subscript, unsigned difference, `substr`, iterator
  range and loop budget checked; the two embeddings are proved to agree.
-/

namespace JsonDiffPatch

/-! ## The value model -/

/-- The JSON value type (`nlohmann::json`) restricted to null, boolean,
integer number, string, array and object. -/
inductive Json where
  | null
  | bool (b : Bool)
  | num (n : Int)
  | str (s : String)
  | arr (xs : List Json)
  | obj (kvs : List (String × Json))

namespace Json

instance : Inhabited Json := ⟨Json.null⟩

mutual
/-- Structural equality test, the `operator==` of the value type. -/
def beq : Json → Json → Bool
  | obj ms, obj ns => beqKvs ms ns
  | arr xs, arr ys => beqList xs ys
  | str s, str t => decide (s = t)
  | num i, num j => decide (i = j)
  | bool p, bool q => decide (p = q)
  | null, null => true
  | _, _ => false
/-- Element-wise equality of two arrays. -/
def beqList : List Json → List Json → Bool
  | [], [] => true
  | x :: xs, y :: ys => beq x y && beqList xs ys
  | _, _ => false
/-- Member-wise equality of two objects. -/
def beqKvs : List (String × Json) → List (String × Json) → Bool
  | [], [] => true
  | (k, x) :: xs, (l, y) :: ys => k == l && beq x y && beqKvs xs ys
  | _, _ => false
end

mutual
theorem beq_iff_eq : ∀ (a b : Json), beq a b = true ↔ a = b
  | null, b => by cases b <;> simp [beq]
  | bool a, b => by cases b <;> simp [beq]
  | num a, b => by cases b <;> simp [beq]
  | str a, b => by cases b <;> simp [beq]
  | arr a, b => by
      cases b <;> simp [beq]
      exact beqList_iff_eq a _
  | obj a, b => by
      cases b <;> simp [beq]
      exact beqKvs_iff_eq a _
theorem beqList_iff_eq : ∀ (a b : List Json), beqList a b = true ↔ a = b
  | [], b => by cases b <;> simp [beqList]
  | x :: xs, b => by
      cases b with
      | nil => simp [beqList]
      | cons y ys => simp [beqList, beq_iff_eq x y, beqList_iff_eq xs ys]
theorem beqKvs_iff_eq : ∀ (a b : List (String × Json)), beqKvs a b = true ↔ a = b
  | [], b => by cases b <;> simp [beqKvs]
  | (k, x) :: xs, b => by
      cases b with
      | nil => simp [beqKvs]
      | cons y ys =>
        obtain ⟨l, y⟩ := y
        simp [beqKvs, beq_iff_eq x y, beqKvs_iff_eq xs ys, and_assoc]
end

instance : DecidableEq Json := fun a b =>
  decidable_of_iff (beq a b = true) (beq_iff_eq a b)

/-- Kind test `is_null()`. -/
def is_null : Json → Bool
  | null => true
  | _ => false

/-- Kind test `is_object()`. -/
def is_object : Json → Bool
  | obj _ => true
  | _ => false

/-- Kind test `is_array()`. -/
def is_array : Json → Bool
  | arr _ => true
  | _ => false

/-- Kind test `is_string()`. -/
def is_string : Json → Bool
  | str _ => true
  | _ => false

/-- Kind test `is_number_integer()`. -/
def is_number_integer : Json → Bool
  | num _ => true
  | _ => false

mutual
/-- Nesting depth of a value: the number of container levels. -/
def depth : Json → Nat
  | arr xs => depthList xs + 1
  | obj kvs => depthKvs kvs + 1
  | _ => 0
/-- Largest depth among the elements of an array. -/
def depthList : List Json → Nat
  | [] => 0
  | x :: xs => max (depth x) (depthList xs)
/-- Largest depth among the member values of an object. -/
def depthKvs : List (String × Json) → Nat
  | [] => 0
  | (_, x) :: xs => max (depth x) (depthKvs xs)
end

end Json

/-! ## Errors, constants, options -/

/-- The exceptions the library can raise: the three `std::runtime_error`
messages thrown by `Patch`/`Unpatch`, the `type_error` of the JSON value type,
and the two exceptions of `std::stoi`/`std::stoul`.  The last constructor is
not an exception of the library: it marks an exhausted recursion budget of the
embedding, so that no result of the embedding can be mistaken for one. -/
inductive Err where
  | invalidPatchObject
  | invalidTextline
  | textPatchFailed
  | typeError
  | invalidArgument
  | outOfRange
  | budget
  deriving DecidableEq, Repr

/-- Equality of results is decidable. -/
instance instDecidableEqExcept {ε α : Type} [DecidableEq ε] [DecidableEq α] :
    DecidableEq (Except ε α)
  | .ok a, .ok b => if h : a = b then isTrue (by rw [h]) else isFalse (fun h2 => h (by cases h2; rfl))
  | .error a, .error b =>
    if h : a = b then isTrue (by rw [h]) else isFalse (fun h2 => h (by cases h2; rfl))
  | .ok _, .error _ => isFalse (fun h => by cases h)
  | .error _, .ok _ => isFalse (fun h => by cases h)

def OP_DELETED : Int := 0
def OP_TEXTDIFF : Int := 2
def OP_ARRAYMOVE : Int := 3

def MODE_SIMPLE : Int := 0
def MODE_EFFICIENT : Int := 1

def TEXTDIFF_SIMPLE : Int := 0
def TEXTDIFF_EFFICIENT : Int := 1

def DIFF_DELETE : Int := 0
def DIFF_INSERT : Int := 1
def DIFF_EQUAL : Int := 2

/-- The record `ArrayOptions`. -/
structure ArrayOptions where
  DetectMove : Bool := false
  IncludeValueOnMove : Bool := false

/-- The record `Options`; `ObjectHash = none` is the null `std::function`. -/
structure Options where
  ArrayDiff : Int := MODE_EFFICIENT
  TextDiff : Int := TEXTDIFF_EFFICIENT
  MinEfficientTextDiffLength : Nat := 50
  DiffArrayOptions : ArrayOptions := {}
  ObjectHash : Option (Json → String) := none

/-- The default-constructed `Options`. -/
def defaultOptions : Options := {}

/-! ## Machine integers and value accessors -/

/-- Conversion of an integer to a 32-bit `int` (`static_cast<int>`). -/
def wrap32 (n : Int) : Int := (n + 2147483648) % 4294967296 - 2147483648

/-- The accessor `get<int>()`: integers are narrowed to 32 bits, a boolean
converts to 0 or 1, every other kind raises `type_error`. -/
def getInt : Json → Except Err Int
  | Json.num n => .ok (wrap32 n)
  | Json.bool b => .ok (if b then 1 else 0)
  | _ => .error Err.typeError

/-- The accessor `get<size_t>()`: integers are reduced modulo `2^64`, every
other kind raises `type_error`. -/
def getSizeT : Json → Except Err Nat
  | Json.num n => .ok (n % 18446744073709551616).toNat
  | _ => .error Err.typeError

/-- The accessor `get<std::string>()`. -/
def getString : Json → Except Err String
  | Json.str s => .ok s
  | _ => .error Err.typeError

/-- The test `v.is_array() && v.size() == n`. -/
def isArrayOfSize (v : Json) (n : Nat) : Bool :=
  match v with
  | Json.arr xs => xs.length == n
  | _ => false

/-- Unchecked array subscript `v[i]`, used only under a size test. -/
def elemAt (v : Json) (i : Nat) : Json :=
  match v with
  | Json.arr xs => xs.getD i Json.null
  | _ => Json.null

/-! ## Objects as ordered maps -/

/-- The ordering of `std::map<std::string, _>` keys: lexicographic on the
characters. -/
def keyLt (a b : String) : Bool := decide (a.data < b.data)

/-- Strictly ascending keys: the representation invariant of a map. -/
def keysSorted : List String → Bool
  | [] => true
  | [_] => true
  | a :: b :: rest => keyLt a b && keysSorted (b :: rest)

/-- Map lookup (`find`). -/
def find {α : Type} : List (String × α) → String → Option α
  | [], _ => none
  | (k, v) :: rest, key => if key = k then some v else find rest key

/-- Map membership (`contains`). -/
def contains {α : Type} (m : List (String × α)) (key : String) : Bool :=
  (find m key).isSome

/-- Map assignment `m[key] = v`: overwrite the member or insert it in key
order. -/
def setKey {α : Type} : List (String × α) → String → α → List (String × α)
  | [], key, v => [(key, v)]
  | (k, w) :: rest, key, v =>
    if key = k then (k, v) :: rest
    else if keyLt key k then (key, v) :: (k, w) :: rest
    else (k, w) :: setKey rest key v

/-- Map removal `m.erase(key)`. -/
def eraseKey {α : Type} : List (String × α) → String → List (String × α)
  | [], _ => []
  | (k, w) :: rest, key => if key = k then rest else (k, w) :: eraseKey rest key

namespace Json

mutual
/-- Well-formedness of a value: every object inside it has strictly ascending
keys. -/
def wf : Json → Bool
  | arr xs => wfList xs
  | obj kvs => keysSorted (kvs.map Prod.fst) && wfKvs kvs
  | _ => true
/-- Well-formedness of every element of an array. -/
def wfList : List Json → Bool
  | [] => true
  | x :: xs => wf x && wfList xs
/-- Well-formedness of every member value of an object. -/
def wfKvs : List (String × Json) → Bool
  | [] => true
  | (_, x) :: xs => wf x && wfKvs xs
end

end Json

/-- The call `target.erase(key)` on a value: defined on objects, `type_error`
otherwise. -/
def objErase : Json → String → Except Err Json
  | Json.obj m, key => .ok (Json.obj (eraseKey m key))
  | _, _ => .error Err.typeError

/-- The call `target.contains(key)` on a value: false on non-objects. -/
def objContains : Json → String → Bool
  | Json.obj m, key => contains m key
  | _, _ => false

/-- The read `target[key]` under `target.contains(key)`. -/
def objGet : Json → String → Json
  | Json.obj m, key => (find m key).getD Json.null
  | _, _ => Json.null

/-- The assignment `target[key] = v` on a value: null becomes an object,
an object is updated, every other kind raises `type_error`. -/
def objSet : Json → String → Json → Except Err Json
  | Json.null, key, v => .ok (Json.obj [(key, v)])
  | Json.obj m, key, v => .ok (Json.obj (setKey m key v))
  | _, _, _ => .error Err.typeError

/-! ## Identity predicates (`ItemMatch`) -/

/-- The method `ItemMatch::Match`. -/
def ItemMatch.Match (ObjectHash : Option (Json → String)) (obj1 obj2 : Json) : Bool :=
  match ObjectHash with
  | some hash =>
    if obj1.is_object then
      let hash1 := hash obj1
      let hash2 := hash obj2
      !(hash1.isEmpty) && !(hash2.isEmpty) && decide (hash1 = hash2)
    else decide (obj1 = obj2)
  | none => decide (obj1 = obj2)

/-- The method `ItemMatch::MatchArrayElement`. -/
def ItemMatch.MatchArrayElement (ObjectHash : Option (Json → String))
    (obj1 : Json) (index1 : Nat) (obj2 : Json) (index2 : Nat) : Bool :=
  match ObjectHash with
  | some _ => ItemMatch.Match ObjectHash obj1 obj2
  | none =>
    if !obj1.is_object && !obj1.is_array then decide (obj1 = obj2)
    else decide (index1 = index2)

/-! ## The text-diff adapter (`SimpleTextDiff`) -/

/-- The record `TextDiff`: an operation code and a text. -/
structure TextDiff where
  operation : Int
  text : String
  deriving DecidableEq, Repr

/-- The record `TextPatch`. -/
structure TextPatch where
  diffs : List TextDiff := []
  start1 : Int := 0
  start2 : Int := 0
  length1 : Int := 0
  length2 : Int := 0
  deriving DecidableEq, Repr

/-- Length of the common run of two character sequences from their fronts,
at most `cap` long: the loop `while (k < cap && a[k] == b[k]) k++`. -/
def matchRun : Nat → List Char → List Char → Nat
  | 0, _, _ => 0
  | _ + 1, [], _ => 0
  | _ + 1, _ :: _, [] => 0
  | cap + 1, x :: xs, y :: ys => if x = y then matchRun cap xs ys + 1 else 0

/-- The last part of `ComputeDiff`: the diffs written once the lengths
`commonStart` and `commonEnd` of the common prefix and suffix are known. -/
def emitDiffs (text1 text2 : List Char) (commonStart commonEnd : Nat) : List TextDiff :=
  let middle1 := (text1.drop commonStart).take (text1.length - commonStart - commonEnd)
  let middle2 := (text2.drop commonStart).take (text2.length - commonStart - commonEnd)
  (if commonStart > 0 then [⟨DIFF_EQUAL, String.mk (text1.take commonStart)⟩] else [])
  ++ (if middle1.isEmpty then [] else [⟨DIFF_DELETE, String.mk middle1⟩])
  ++ (if middle2.isEmpty then [] else [⟨DIFF_INSERT, String.mk middle2⟩])
  ++ (if commonEnd > 0 then [⟨DIFF_EQUAL, String.mk (text1.drop (text1.length - commonEnd))⟩]
      else [])

/-- The function `SimpleTextDiff::ComputeDiff`: common prefix, common suffix
(not overlapping the prefix), and the two middles.  The suffix loop reads the
texts from their last characters backwards, that is, it reads the reversed
texts from the front. -/
def ComputeDiff (text1 text2 : String) : List TextDiff :=
  if text1 = text2 then
    if text1.data.isEmpty then [] else [⟨DIFF_EQUAL, text1⟩]
  else
    let minLen := min text1.length text2.length
    let commonStart := matchRun minLen text1.data text2.data
    let commonEnd := matchRun (minLen - commonStart) text1.data.reverse text2.data.reverse
    emitDiffs text1.data text2.data commonStart commonEnd

/-- Percent-escaping of a character sequence. -/
def encodeChars : List Char → List Char
  | [] => []
  | c :: rest =>
    (if c = '%' then ['%', '2', '5']
     else if c = '\n' then ['%', '0', 'A']
     else if c = '\r' then ['%', '0', 'D']
     else [c]) ++ encodeChars rest

/-- The function `SimpleTextDiff::Encode`. -/
def Encode (str : String) : String := String.mk (encodeChars str.data)

/-- The C locale `isspace`. -/
def isSpaceC (c : Char) : Bool :=
  c = ' ' || c = '\t' || c = '\n' || c = '\x0b' || c = '\x0c' || c = '\r'

/-- Value of a character as a digit in some base up to 36. -/
def digitVal (c : Char) : Option Nat :=
  if '0' ≤ c ∧ c ≤ '9' then some (c.toNat - 48)
  else if 'a' ≤ c ∧ c ≤ 'z' then some (c.toNat - 97 + 10)
  else if 'A' ≤ c ∧ c ≤ 'Z' then some (c.toNat - 65 + 10)
  else none

/-- Read the longest run of digits of the given base: the value read so far
and the number of digits consumed. -/
def takeDigits (base : Nat) : List Char → Nat → Nat → Nat × Nat
  | [], acc, cnt => (acc, cnt)
  | c :: rest, acc, cnt =>
    match digitVal c with
    | some d => if d < base then takeDigits base rest (acc * base + d) (cnt + 1) else (acc, cnt)
    | none => (acc, cnt)

/-- Skip leading white space, as `strtol` and `strtoul` do. -/
def skipSpace : List Char → List Char
  | [] => []
  | c :: rest => if isSpaceC c then skipSpace rest else c :: rest

/-- Read an optional sign: whether it was a minus, and the rest. -/
def splitSign : List Char → Bool × List Char
  | [] => (false, [])
  | c :: rest => if c = '-' then (true, rest) else if c = '+' then (false, rest) else (false, c :: rest)

/-- Skip a `0x`/`0X` that is followed by a hexadecimal digit. -/
def strip0x : List Char → List Char
  | c0 :: cx :: h :: rest =>
    if decide (c0 = '0') && (decide (cx = 'x') || decide (cx = 'X'))
        && (match digitVal h with
            | some d => decide (d < 16)
            | none => false)
    then h :: rest else c0 :: cx :: h :: rest
  | cs => cs

/-- The call `std::stoi(s, nullptr, 16)`. -/
def stoi16 (s : List Char) : Except Err Int :=
  let sr := splitSign (skipSpace s)
  let vc := takeDigits 16 (strip0x sr.2) 0 0
  if vc.2 = 0 then .error Err.invalidArgument
  else
    let x : Int := if sr.1 then -(vc.1 : Int) else (vc.1 : Int)
    if x < -2147483648 ∨ 2147483647 < x then .error Err.outOfRange else .ok x

/-- The call `std::stoul(s)` with a 64-bit `unsigned long`. -/
def stoul (s : String) : Except Err Nat :=
  let sr := splitSign (skipSpace s.data)
  let vc := takeDigits 10 sr.2 0 0
  if vc.2 = 0 then .error Err.invalidArgument
  else if 18446744073709551615 < vc.1 then .error Err.outOfRange
  else .ok (if sr.1 then (18446744073709551616 - vc.1) % 18446744073709551616 else vc.1)

/-- Conversion `static_cast<char>` of an `int`. -/
def charOfInt (v : Int) : Char := Char.ofNat (v % 256).toNat

/-- Undo percent-escaping: a `%` that has at least two more characters after
it is replaced by the character whose code `std::stoi` reads from those two;
every other character is copied. -/
def decodeChars : List Char → Except Err (List Char)
  | [] => .ok []
  | [c] => .ok [c]
  | [c, d] => .ok [c, d]
  | c :: h1 :: h2 :: rest2 =>
    if c = '%' then
      match stoi16 [h1, h2] with
      | .ok v =>
        match decodeChars rest2 with
        | .ok r => .ok (charOfInt v :: r)
        | .error e => .error e
      | .error e => .error e
    else
      match decodeChars (h1 :: h2 :: rest2) with
      | .ok r => .ok (c :: r)
      | .error e => .error e

/-- The function `SimpleTextDiff::Decode`. -/
def Decode (str : String) : Except Err String :=
  match decodeChars str.data with
  | .ok r => .ok (String.mk r)
  | .error e => .error e

/-- The function `SimpleTextDiff::CreatePatches`. -/
def CreatePatches (text1 text2 : String) : List TextPatch :=
  let diffs := ComputeDiff text1 text2
  if diffs.isEmpty then []
  else [{ diffs := diffs, start1 := 0, start2 := 0,
          length1 := wrap32 text1.length, length2 := wrap32 text2.length }]

/-- The character written for an operation code in `TextPatch::ToString`. -/
def opChar (operation : Int) : Char :=
  if operation = DIFF_INSERT then '+'
  else if operation = DIFF_DELETE then '-'
  else ' '

/-- The header line of a patch, without its newline. -/
def patchHeader (p : TextPatch) : String :=
  "@@ -" ++ toString (p.start1 + 1) ++ "," ++ toString p.length1
    ++ " +" ++ toString (p.start2 + 1) ++ "," ++ toString p.length2 ++ " @@"

/-- The lines written for the diffs of a patch. -/
def diffLines : List TextDiff → List Char
  | [] => []
  | d :: rest => (opChar d.operation :: encodeChars d.text.data) ++ '\n' :: diffLines rest

/-- The method `TextPatch::ToString`. -/
def TextPatch.ToString (p : TextPatch) : String :=
  String.mk ((patchHeader p).data ++ '\n' :: diffLines p.diffs)

/-- The function `SimpleTextDiff::PatchesToText`. -/
def PatchesToText : List TextPatch → String
  | [] => ""
  | p :: rest => p.ToString ++ PatchesToText rest

/-- Reading a text line by line with `std::getline`: `cur` is the line being
read.  A final line without newline is delivered unless it is empty. -/
def getLines : List Char → List Char → List (List Char)
  | [], cur => if cur.isEmpty then [] else [cur]
  | c :: rest, cur => if c = '\n' then cur :: getLines rest [] else getLines rest (cur ++ [c])

/-- State of the loop of `PatchesFromText`. -/
structure ParseState where
  patches : List TextPatch := []
  currentPatch : TextPatch := {}
  inPatch : Bool := false

/-- One iteration of the loop of `PatchesFromText`. -/
def parseLine (st : ParseState) (line : List Char) : Except Err ParseState :=
  if line.take 2 = ['@', '@'] then
    .ok { patches := if st.inPatch then st.patches ++ [st.currentPatch] else st.patches,
          currentPatch := {}, inPatch := true }
  else if st.inPatch && !line.isEmpty then
    match (if 1 < line.length then decodeChars (line.drop 1) else .ok []) with
    | .error e => .error e
    | .ok text =>
      let op := line.headD ' '
      if op = '+' then
        .ok { st with currentPatch :=
          { st.currentPatch with diffs := st.currentPatch.diffs ++ [⟨DIFF_INSERT, String.mk text⟩] } }
      else if op = '-' then
        .ok { st with currentPatch :=
          { st.currentPatch with diffs := st.currentPatch.diffs ++ [⟨DIFF_DELETE, String.mk text⟩] } }
      else if op = ' ' then
        .ok { st with currentPatch :=
          { st.currentPatch with diffs := st.currentPatch.diffs ++ [⟨DIFF_EQUAL, String.mk text⟩] } }
      else .ok st
  else .ok st

/-- The loop of `PatchesFromText` over the lines of the text. -/
def parseLines : ParseState → List (List Char) → Except Err ParseState
  | st, [] => .ok st
  | st, line :: rest =>
    match parseLine st line with
    | .ok st2 => parseLines st2 rest
    | .error e => .error e

/-- The function `SimpleTextDiff::PatchesFromText`. -/
def PatchesFromText (patchText : String) : Except Err (List TextPatch) :=
  match parseLines {} (getLines patchText.data []) with
  | .ok st => .ok (if st.inPatch then st.patches ++ [st.currentPatch] else st.patches)
  | .error e => .error e

/-- The text a patch rebuilds: its insert and equal texts, in order. -/
def patchTarget : List TextDiff → String
  | [] => ""
  | d :: rest =>
    if d.operation = DIFF_INSERT ∨ d.operation = DIFF_EQUAL then d.text ++ patchTarget rest
    else patchTarget rest

/-- The loop of `ApplyPatches`: the running result and the success flags. -/
def applyLoop : List TextPatch → String → List Bool → String × List Bool
  | [], result, results => (result, results)
  | p :: rest, _, results => applyLoop rest (patchTarget p.diffs) (results ++ [true])

/-- The function `SimpleTextDiff::ApplyPatches`. -/
def ApplyPatches (patches : List TextPatch) (text : String) : String × List Bool :=
  if patches.isEmpty then (text, []) else applyLoop patches text []

/-- The reversed patches built by `Unpatch`: inserts and deletes swapped. -/
def reverseDiffs : List TextDiff → List TextDiff
  | [] => []
  | d :: rest =>
    (if d.operation = DIFF_DELETE then ⟨DIFF_INSERT, d.text⟩
     else if d.operation = DIFF_INSERT then ⟨DIFF_DELETE, d.text⟩
     else d) :: reverseDiffs rest

/-- The list `reversePatches` built by `Unpatch`. -/
def reversePatches (patches : List TextPatch) : List TextPatch :=
  patches.map (fun p => { p with diffs := reverseDiffs p.diffs })

/-! ## The LCS engine (`ComputeLcs`) -/

/-- The record `LcsResult`. -/
structure LcsResult where
  Sequence : List Json := []
  Indices1 : List Nat := []
  Indices2 : List Nat := []

/-- Read `matrix[i][j]`. -/
def matGet (matrix : List (List Nat)) (i j : Nat) : Nat :=
  (matrix.getD i []).getD j 0

/-- Write `matrix[i][j] = v`. -/
def matSet (matrix : List (List Nat)) (i j v : Nat) : List (List Nat) :=
  matrix.set i ((matrix.getD i []).set j v)

/-- The body of the two nested loops that fill the LCS matrix. -/
def lcsCell (ObjectHash : Option (Json → String)) (left right : List Json)
    (i : Nat) (matrix : List (List Nat)) (j : Nat) : List (List Nat) :=
  if ItemMatch.MatchArrayElement ObjectHash (left.getD (i - 1) Json.null) (i - 1)
      (right.getD (j - 1) Json.null) (j - 1) then
    matSet matrix i j (matGet matrix (i - 1) (j - 1) + 1)
  else
    matSet matrix i j (max (matGet matrix (i - 1) j) (matGet matrix i (j - 1)))

/-- The LCS matrix after the loops `for i in 1..m` / `for j in 1..n`. -/
def lcsMatrix (ObjectHash : Option (Json → String)) (left right : List Json) :
    List (List Nat) :=
  (List.range' 1 left.length).foldl
    (fun matrix i => (List.range' 1 right.length).foldl (lcsCell ObjectHash left right i) matrix)
    (List.replicate (left.length + 1) (List.replicate (right.length + 1) 0))

/-- The backtracking loop `while (i > 0 && j > 0)` of `ComputeLcs`; each
iteration lowers `i` or `j`, so `i + j` iterations are enough. -/
def lcsBacktrack (ObjectHash : Option (Json → String)) (left right : List Json)
    (matrix : List (List Nat)) : Nat → Nat → Nat → LcsResult → LcsResult
  | 0, _, _, result => result
  | fuel + 1, i, j, result =>
    if 0 < i ∧ 0 < j then
      if ItemMatch.Match ObjectHash (left.getD (i - 1) Json.null) (right.getD (j - 1) Json.null) then
        lcsBacktrack ObjectHash left right matrix fuel (i - 1) (j - 1)
          { Sequence := left.getD (i - 1) Json.null :: result.Sequence,
            Indices1 := (i - 1) :: result.Indices1,
            Indices2 := (j - 1) :: result.Indices2 }
      else if matGet matrix (i - 1) j < matGet matrix i (j - 1) then
        lcsBacktrack ObjectHash left right matrix fuel i (j - 1) result
      else
        lcsBacktrack ObjectHash left right matrix fuel (i - 1) j result
    else result

/-- The function `JsonDiffPatch::ComputeLcs`. -/
def ComputeLcs (ObjectHash : Option (Json → String)) (left right : List Json) : LcsResult :=
  lcsBacktrack ObjectHash left right (lcsMatrix ObjectHash left right)
    (left.length + right.length) left.length right.length {}

/-! ## The delta encoder (`Diff`) -/

/-- The Deleted delta `[value, 0, 0]`. -/
def deletedDelta (value : Json) : Json :=
  Json.arr [value, Json.num 0, Json.num OP_DELETED]

/-- The Added delta `[value]`. -/
def addedDelta (value : Json) : Json := Json.arr [value]

/-- First loop of `ObjectDiff`, over the members of `left`. -/
def objectDiffLeft (diff : Json → Json → Json) (right : List (String × Json))
    (diffPatch : List (String × Json)) (member : String × Json) : List (String × Json) :=
  match find right member.1 with
  | some rightValue =>
    let d := diff member.2 rightValue
    if d.is_null then diffPatch else setKey diffPatch member.1 d
  | none => setKey diffPatch member.1 (deletedDelta member.2)

/-- Second loop of `ObjectDiff`, over the members of `right`. -/
def objectDiffRight (left : List (String × Json))
    (diffPatch : List (String × Json)) (member : String × Json) : List (String × Json) :=
  if contains left member.1 then diffPatch
  else setKey diffPatch member.1 (addedDelta member.2)

/-- The function `JsonDiffPatch::ObjectDiff`; `diff` is the recursive call of
`Diff` on member values. -/
def ObjectDiff (diff : Json → Json → Json) (left right : List (String × Json)) : Json :=
  let diffPatch := right.foldl (objectDiffRight left) (left.foldl (objectDiffLeft diff right) [])
  if diffPatch.isEmpty then Json.null else Json.obj diffPatch

/-- Store a child delta under a key unless it is null. -/
def putChild (result : List (String × Json)) (key : String) (child : Json) :
    List (String × Json) :=
  if child.is_null then result else setKey result key child

/-- The common-head loop of `ArrayDiff`: the state is `commonHead` and the
result object. -/
def headLoop (ObjectHash : Option (Json → String)) (diff : Json → Json → Json)
    (leftVec rightVec : List Json) :
    Nat → Nat → List (String × Json) → Nat × List (String × Json)
  | 0, commonHead, result => (commonHead, result)
  | fuel + 1, commonHead, result =>
    if decide (commonHead < leftVec.length) && decide (commonHead < rightVec.length) &&
        ItemMatch.MatchArrayElement ObjectHash (leftVec.getD commonHead Json.null) commonHead
          (rightVec.getD commonHead Json.null) commonHead then
      headLoop ObjectHash diff leftVec rightVec fuel (commonHead + 1)
        (putChild result (toString commonHead)
          (diff (leftVec.getD commonHead Json.null) (rightVec.getD commonHead Json.null)))
    else (commonHead, result)

/-- The common-tail loop of `ArrayDiff`: the state is `commonTail` and the
result object. -/
def tailLoop (ObjectHash : Option (Json → String)) (diff : Json → Json → Json)
    (leftVec rightVec : List Json) (commonHead : Nat) :
    Nat → Nat → List (String × Json) → Nat × List (String × Json)
  | 0, commonTail, result => (commonTail, result)
  | fuel + 1, commonTail, result =>
    if decide (commonTail + commonHead < leftVec.length) &&
        decide (commonTail + commonHead < rightVec.length) &&
        ItemMatch.MatchArrayElement ObjectHash
          (leftVec.getD (leftVec.length - 1 - commonTail) Json.null)
          (leftVec.length - 1 - commonTail)
          (rightVec.getD (rightVec.length - 1 - commonTail) Json.null)
          (rightVec.length - 1 - commonTail) then
      let index1 := leftVec.length - 1 - commonTail
      let index2 := rightVec.length - 1 - commonTail
      tailLoop ObjectHash diff leftVec rightVec commonHead fuel (commonTail + 1)
        (putChild result (toString index2)
          (diff (leftVec.getD index1 Json.null) (rightVec.getD index2 Json.null)))
    else (commonTail, result)

/-- Body of the loops that record a block of added elements. -/
def addStep (rightVec : List Json) (result : List (String × Json)) (index : Nat) :
    List (String × Json) :=
  setKey result (toString index) (addedDelta (rightVec.getD index Json.null))

/-- Body of the loops that record a block of removed elements. -/
def removeStep (leftVec : List Json) (result : List (String × Json)) (index : Nat) :
    List (String × Json) :=
  setKey result ("_" ++ toString index) (deletedDelta (leftVec.getD index Json.null))

/-- Body of the loop "Mark deletions" of the LCS path. -/
def markDeletion (leftVec : List Json) (commonHead : Nat) (lcs : LcsResult)
    (result : List (String × Json)) (index : Nat) : List (String × Json) :=
  if lcs.Indices1.contains (index - commonHead) then result
  else removeStep leftVec result index

/-- Body of the loop "Mark additions and modifications" of the LCS path. -/
def markAddition (diff : Json → Json → Json) (leftVec rightVec : List Json)
    (commonHead : Nat) (lcs : LcsResult)
    (result : List (String × Json)) (index : Nat) : List (String × Json) :=
  let lcsIdx := lcs.Indices2.indexOf (index - commonHead)
  if lcsIdx = lcs.Indices2.length then addStep rightVec result index
  else
    let leftIndex := lcs.Indices1.getD lcsIdx 0 + commonHead
    putChild result (toString index)
      (diff (leftVec.getD leftIndex Json.null) (rightVec.getD index Json.null))

/-- The function `JsonDiffPatch::ArrayDiff` on the element vectors of its two
arguments; `diff` is the recursive call of `Diff` on elements. -/
def ArrayDiff (ObjectHash : Option (Json → String)) (diff : Json → Json → Json)
    (leftVec rightVec : List Json) : Json :=
  let result : List (String × Json) := [("_t", Json.str "a")]
  if leftVec = rightVec then Json.null
  else
    let hd := headLoop ObjectHash diff leftVec rightVec leftVec.length 0 result
    let commonHead := hd.1
    let tl := tailLoop ObjectHash diff leftVec rightVec commonHead leftVec.length 0 hd.2
    let commonTail := tl.1
    let result := tl.2
    if commonHead + commonTail = leftVec.length then
      Json.obj ((List.range' commonHead (rightVec.length - commonTail - commonHead)).foldl
        (addStep rightVec) result)
    else if commonHead + commonTail = rightVec.length then
      Json.obj ((List.range' commonHead (leftVec.length - commonTail - commonHead)).foldl
        (removeStep leftVec) result)
    else
      let trimmedLeft := (leftVec.drop commonHead).take (leftVec.length - commonHead - commonTail)
      let trimmedRight := (rightVec.drop commonHead).take (rightVec.length - commonHead - commonTail)
      let lcs := ComputeLcs ObjectHash trimmedLeft trimmedRight
      let result := (List.range' commonHead (leftVec.length - commonTail - commonHead)).foldl
        (markDeletion leftVec commonHead lcs) result
      let result := (List.range' commonHead (rightVec.length - commonTail - commonHead)).foldl
        (markAddition diff leftVec rightVec commonHead lcs) result
      if result.length = 1 ∧ contains result "_t" then Json.null else Json.obj result

/-- The text branch of `Diff`: the TextDiff delta, when the branch returns. -/
def textDelta (o : Options) (leftValue rightValue : Json) : Option Json :=
  if o.TextDiff = TEXTDIFF_EFFICIENT then
    match leftValue, rightValue with
    | Json.str leftStr, Json.str rightStr =>
      if o.MinEfficientTextDiffLength < leftStr.length ∨
          o.MinEfficientTextDiffLength < rightStr.length then
        let patches := CreatePatches leftStr rightStr
        if patches.isEmpty then none
        else some (Json.arr [Json.str (PatchesToText patches), Json.num 0, Json.num OP_TEXTDIFF])
      else none
    | _, _ => none
  else none

/-- The last part of `Diff`: text delta, else Replaced delta, else null. -/
def leafDiff (o : Options) (leftValue rightValue : Json) : Json :=
  match textDelta o leftValue rightValue with
  | some d => d
  | none =>
    if !ItemMatch.Match o.ObjectHash leftValue rightValue then Json.arr [leftValue, rightValue]
    else Json.null

/-- The replacement of a null argument by the empty string at the top of
`Diff`. -/
def nullToEmpty (v : Json) : Json := if v.is_null then Json.str "" else v

/-- The function `JsonDiffPatch::Diff` with a recursion budget. -/
def DiffN (o : Options) : Nat → Json → Json → Json
  | 0, _, _ => Json.null
  | n + 1, left, right =>
    match nullToEmpty left, nullToEmpty right with
    | Json.obj l, Json.obj r => ObjectDiff (DiffN o n) l r
    | Json.arr l, Json.arr r =>
      if o.ArrayDiff = MODE_EFFICIENT then ArrayDiff o.ObjectHash (DiffN o n) l r
      else leafDiff o (Json.arr l) (Json.arr r)
    | leftValue, rightValue => leafDiff o leftValue rightValue

/-- The function `JsonDiffPatch::Diff(const json&, const json&)`.  Every
recursive call is on a member or element of the left value, so the depth of
the left value bounds the recursion. -/
def Diff (o : Options) (left right : Json) : Json :=
  DiffN o (left.depth + 1) left right

/-! ## The delta appliers (`Patch`, `Unpatch`) -/

/-- The test `patch.contains("_t") && patch["_t"].is_string() &&
patch["_t"].get<std::string>() == "a"` on the members of a delta object. -/
def isArrayDelta (members : List (String × Json)) : Bool :=
  match find members "_t" with
  | some (Json.str s) => decide (s = "a")
  | _ => false

/-- The deletion test of `ObjectPatch`: a 3-array whose last element is an
integer that reads as 0. -/
def isDeletedDelta (patchValue : Json) : Bool :=
  isArrayOfSize patchValue 3 && (elemAt patchValue 2).is_number_integer &&
    (match getInt (elemAt patchValue 2) with
     | .ok op => decide (op = 0)
     | .error _ => false)

/-- The flags returned by `ApplyPatches` are all true. -/
def allSucceeded (flags : List Bool) : Bool := flags.all id

/-- The array branch of `Patch`: Added, Replaced, Deleted and TextDiff deltas. -/
def leafPatch (left : Json) (patchArray : List Json) : Except Err Json :=
  if patchArray.length = 1 then .ok (patchArray.getD 0 Json.null)
  else if patchArray.length = 2 then .ok (patchArray.getD 1 Json.null)
  else if patchArray.length = 3 then
    if !(patchArray.getD 2 Json.null).is_number_integer then .error Err.invalidPatchObject
    else
      match getInt (patchArray.getD 2 Json.null) with
      | .error e => .error e
      | .ok op =>
        if op = 0 then .ok Json.null
        else if op = OP_TEXTDIFF then
          match left with
          | Json.str leftStr =>
            match getString (patchArray.getD 0 Json.null) with
            | .error e => .error e
            | .ok patchText =>
              match PatchesFromText patchText with
              | .error e => .error e
              | .ok patches =>
                if patches.isEmpty then .error Err.invalidTextline
                else
                  let result := ApplyPatches patches leftStr
                  if allSucceeded result.2 then .ok (Json.str result.1)
                  else .error Err.textPatchFailed
          | _ => .error Err.invalidPatchObject
        else .error Err.invalidPatchObject
  else .error Err.invalidPatchObject

/-- Body of the loop of `ObjectPatch`; `patchFn` is the recursive call of
`Patch`.  The right-hand side of `target[key] = Patch(...)` is evaluated
before the subscript on the left. -/
def objectPatchStep (patchFn : Json → Json → Except Err Json) (target : Json)
    (member : String × Json) : Except Err Json :=
  if isDeletedDelta member.2 then objErase target member.1
  else
    match patchFn (if objContains target member.1 then objGet target member.1 else Json.null)
        member.2 with
    | .ok v => objSet target member.1 v
    | .error e => .error e

/-- The loop of `ObjectPatch` over the members of the delta. -/
def objectPatchLoop (patchFn : Json → Json → Except Err Json) :
    Json → List (String × Json) → Except Err Json
  | target, [] => .ok target
  | target, member :: rest =>
    match objectPatchStep patchFn target member with
    | .ok t => objectPatchLoop patchFn t rest
    | .error e => .error e

/-- The function `JsonDiffPatch::ObjectPatch` on the members of a delta
object. -/
def ObjectPatch (patchFn : Json → Json → Except Err Json) (obj : Json)
    (patch : List (String × Json)) : Except Err Json :=
  objectPatchLoop patchFn (if obj.is_null then Json.obj [] else obj) patch

/-- The record `Removal` of `ArrayPatch`. -/
structure Removal where
  index : Nat
  isMove : Bool
  moveTarget : Nat
  deriving DecidableEq

/-- The record `Modification` of `ArrayPatch` (and `ModWas` of `ArrayUnpatch`). -/
structure Modification where
  index : Nat
  value : Json

/-- The record `Insertion` of `ArrayPatch`. -/
structure Insertion where
  index : Nat
  value : Json
  isMove : Bool

/-- The record `PendingMove` of `ArrayPatch`. -/
structure PendingMove where
  target : Nat
  value : Json

/-- The three operation lists that `ArrayPatch` fills while classifying. -/
structure PatchOps where
  removals : List Removal := []
  modifications : List Modification := []
  insertions : List Insertion := []

/-- Body of the loop "Classify ops" of `ArrayPatch`. -/
def classifyPatch (ops : PatchOps) (member : String × Json) : Except Err PatchOps :=
  let key := member.1
  let v := member.2
  if key = "_t" then .ok ops
  else if key.data.head? = some '_' then
    match stoul (String.mk (key.data.drop 1)) with
    | .error e => .error e
    | .ok idx =>
      if isArrayOfSize v 3 then
        match getInt (elemAt v 2) with
        | .error e => .error e
        | .ok op =>
          if op = OP_DELETED then
            .ok { ops with removals := ops.removals ++ [⟨idx, false, 0⟩] }
          else if op = OP_ARRAYMOVE then
            match getSizeT (elemAt v 1) with
            | .error e => .error e
            | .ok toIndex => .ok { ops with removals := ops.removals ++ [⟨idx, true, toIndex⟩] }
          else .ok ops
      else .ok ops
  else
    match stoul key with
    | .error e => .error e
    | .ok idx =>
      if isArrayOfSize v 1 then
        .ok { ops with insertions := ops.insertions ++ [⟨idx, elemAt v 0, false⟩] }
      else if isArrayOfSize v 3 && (elemAt v 2).is_number_integer &&
          (match getInt (elemAt v 2) with
           | .ok op => decide (op = OP_ARRAYMOVE)
           | .error _ => false) then
        match getSizeT (elemAt v 1) with
        | .error e => .error e
        | .ok toIndex => .ok { ops with insertions := ops.insertions ++ [⟨toIndex, elemAt v 0, true⟩] }
      else .ok { ops with modifications := ops.modifications ++ [⟨idx, v⟩] }

/-- The loop "Classify ops" of `ArrayPatch`. -/
def classifyPatchLoop : PatchOps → List (String × Json) → Except Err PatchOps
  | ops, [] => .ok ops
  | ops, member :: rest =>
    match classifyPatch ops member with
    | .ok ops2 => classifyPatchLoop ops2 rest
    | .error e => .error e

/-- The removal loop of `ArrayPatch`: the array and the pending moves. -/
def removeLoop : List Removal → List Json → List PendingMove → List Json × List PendingMove
  | [], arr, pending => (arr, pending)
  | r :: rest, arr, pending =>
    if arr.isEmpty then removeLoop rest arr pending
    else
      let idx := if r.index < arr.length then r.index else arr.length - 1
      let taken := arr.getD idx Json.null
      removeLoop rest (arr.eraseIdx idx)
        (if r.isMove then pending ++ [⟨r.moveTarget, taken⟩] else pending)

/-- The modification loop of `ArrayPatch` and of `ArrayUnpatch`; `patchFn` is
the recursive call of `Patch` (of `Unpatch`). -/
def modifyLoop (patchFn : Json → Json → Except Err Json) :
    List Modification → List Json → Except Err (List Json)
  | [], arr => .ok arr
  | m :: rest, arr =>
    if m.index < arr.length then
      match patchFn (arr.getD m.index Json.null) m.value with
      | .ok v => modifyLoop patchFn rest (arr.set m.index v)
      | .error e => .error e
    else modifyLoop patchFn rest arr

/-- The call `arr.insert(arr.begin() + pos, value)` with
`pos = index <= arr.size() ? index : arr.size()`. -/
def insertClamped (arr : List Json) (index : Nat) (value : Json) : List Json :=
  arr.insertIdx (if index ≤ arr.length then index else arr.length) value

/-- The loop that re-inserts the pending moves. -/
def moveInsertLoop : List PendingMove → List Json → List Json
  | [], arr => arr
  | mv :: rest, arr => moveInsertLoop rest (insertClamped arr mv.target mv.value)

/-- The loop that applies the insertions. -/
def insertLoop : List Insertion → List Json → List Json
  | [], arr => arr
  | ins :: rest, arr => insertLoop rest (insertClamped arr ins.index ins.value)

/-- The function `JsonDiffPatch::ArrayPatch` on the element vector of `left`
and the members of the delta object.  Each `std::sort` is modelled by a stable
sort; `std::sort` leaves the order of entries with equal index open. -/
def ArrayPatch (patchFn : Json → Json → Except Err Json) (left : List Json)
    (patch : List (String × Json)) : Except Err Json :=
  match classifyPatchLoop {} patch with
  | .error e => .error e
  | .ok ops =>
    let removals := ops.removals.insertionSort (fun a b => a.index ≥ b.index)
    let removed := removeLoop removals left []
    let modifications := ops.modifications.insertionSort (fun a b => a.index ≤ b.index)
    match modifyLoop patchFn modifications removed.1 with
    | .error e => .error e
    | .ok arr =>
      let pendingMoves := removed.2.insertionSort (fun a b => a.target ≤ b.target)
      let arr := moveInsertLoop pendingMoves arr
      let insertions := ops.insertions.insertionSort (fun a b => a.index ≤ b.index)
      .ok (Json.arr (insertLoop insertions arr))

/-- The function `JsonDiffPatch::Patch` with a recursion budget. -/
def PatchN : Nat → Json → Json → Except Err Json
  | 0, _, _ => .error Err.budget
  | n + 1, left, patch =>
    match patch with
    | Json.null => .ok left
    | Json.obj members =>
      match left with
      | Json.arr arr =>
        if isArrayDelta members then ArrayPatch (PatchN n) arr members
        else ObjectPatch (PatchN n) left members
      | _ => ObjectPatch (PatchN n) left members
    | Json.arr patchArray => leafPatch left patchArray
    | _ => .ok Json.null

/-- The function `JsonDiffPatch::Patch(const json&, const json&)`.  Every
recursive call is on a member value of the delta, so the depth of the delta
bounds the recursion. -/
def Patch (left patch : Json) : Except Err Json :=
  PatchN (patch.depth + 1) left patch

/-- The array branch of `Unpatch`: Added, Replaced, Deleted and TextDiff
deltas.  No test for an empty patch list is made here. -/
def leafUnpatch (right : Json) (patchArray : List Json) : Except Err Json :=
  if patchArray.length = 1 then .ok Json.null
  else if patchArray.length = 2 then .ok (patchArray.getD 0 Json.null)
  else if patchArray.length = 3 then
    if !(patchArray.getD 2 Json.null).is_number_integer then .error Err.invalidPatchObject
    else
      match getInt (patchArray.getD 2 Json.null) with
      | .error e => .error e
      | .ok op =>
        if op = 0 then .ok (patchArray.getD 0 Json.null)
        else if op = OP_TEXTDIFF then
          match right with
          | Json.str rightStr =>
            match getString (patchArray.getD 0 Json.null) with
            | .error e => .error e
            | .ok patchText =>
              match PatchesFromText patchText with
              | .error e => .error e
              | .ok patches =>
                let result := ApplyPatches (reversePatches patches) rightStr
                if allSucceeded result.2 then .ok (Json.str result.1)
                else .error Err.textPatchFailed
          | _ => .error Err.invalidPatchObject
        else .error Err.invalidPatchObject
  else .error Err.invalidPatchObject

/-- Body of the loop of `ObjectUnpatch`; `unpatchFn` is the recursive call of
`Unpatch`. -/
def objectUnpatchStep (unpatchFn : Json → Json → Except Err Json) (target : Json)
    (member : String × Json) : Except Err Json :=
  if isArrayOfSize member.2 1 then objErase target member.1
  else
    match unpatchFn (if objContains target member.1 then objGet target member.1 else Json.null)
        member.2 with
    | .ok v => objSet target member.1 v
    | .error e => .error e

/-- The loop of `ObjectUnpatch` over the members of the delta. -/
def objectUnpatchLoop (unpatchFn : Json → Json → Except Err Json) :
    Json → List (String × Json) → Except Err Json
  | target, [] => .ok target
  | target, member :: rest =>
    match objectUnpatchStep unpatchFn target member with
    | .ok t => objectUnpatchLoop unpatchFn t rest
    | .error e => .error e

/-- The function `JsonDiffPatch::ObjectUnpatch` on the members of a delta
object. -/
def ObjectUnpatch (unpatchFn : Json → Json → Except Err Json) (obj : Json)
    (patch : List (String × Json)) : Except Err Json :=
  objectUnpatchLoop unpatchFn (if obj.is_null then Json.obj [] else obj) patch

/-- The record `DelWas` of `ArrayUnpatch`. -/
structure DelWas where
  index : Nat
  value : Json

/-- The record `MoveBack` of `ArrayUnpatch`, with fields `from` and `to`. -/
structure MoveBack where
  fromIndex : Nat
  toIndex : Nat

/-- The four operation lists that `ArrayUnpatch` fills while classifying; an
`AddWas` record is its index. -/
structure UnpatchOps where
  adds : List Nat := []
  dels : List DelWas := []
  mods : List Modification := []
  moves : List MoveBack := []

/-- Body of the classifying loop of `ArrayUnpatch`. -/
def classifyUnpatch (ops : UnpatchOps) (member : String × Json) : Except Err UnpatchOps :=
  let key := member.1
  let v := member.2
  if key = "_t" then .ok ops
  else if key.data.head? = some '_' then
    match stoul (String.mk (key.data.drop 1)) with
    | .error e => .error e
    | .ok idx =>
      if isArrayOfSize v 3 then
        match getInt (elemAt v 2) with
        | .error e => .error e
        | .ok op =>
          if op = OP_DELETED then .ok { ops with dels := ops.dels ++ [⟨idx, elemAt v 0⟩] }
          else if op = OP_ARRAYMOVE then
            match getSizeT (elemAt v 1) with
            | .error e => .error e
            | .ok toIndex => .ok { ops with moves := ops.moves ++ [⟨toIndex, idx⟩] }
          else .ok ops
      else .ok ops
  else
    match stoul key with
    | .error e => .error e
    | .ok idx =>
      if isArrayOfSize v 1 then .ok { ops with adds := ops.adds ++ [idx] }
      else .ok { ops with mods := ops.mods ++ [⟨idx, v⟩] }

/-- The classifying loop of `ArrayUnpatch`. -/
def classifyUnpatchLoop : UnpatchOps → List (String × Json) → Except Err UnpatchOps
  | ops, [] => .ok ops
  | ops, member :: rest =>
    match classifyUnpatch ops member with
    | .ok ops2 => classifyUnpatchLoop ops2 rest
    | .error e => .error e

/-- The loop "Undo additions" of `ArrayUnpatch`. -/
def undoAddLoop : List Nat → List Json → List Json
  | [], arr => arr
  | a :: rest, arr =>
    if arr.isEmpty then undoAddLoop rest arr
    else if a < arr.length then undoAddLoop rest (arr.eraseIdx a)
    else undoAddLoop rest arr.dropLast

/-- The loop "Undo moves" of `ArrayUnpatch`. -/
def undoMoveLoop : List MoveBack → List Json → List Json
  | [], arr => arr
  | mv :: rest, arr =>
    if arr.isEmpty then undoMoveLoop rest arr
    else
      let fromIdx := if mv.fromIndex < arr.length then mv.fromIndex else arr.length - 1
      let val := arr.getD fromIdx Json.null
      undoMoveLoop rest (insertClamped (arr.eraseIdx fromIdx) mv.toIndex val)

/-- The loop "Reinsert deletions" of `ArrayUnpatch`. -/
def reinsertLoop : List DelWas → List Json → List Json
  | [], arr => arr
  | d :: rest, arr => reinsertLoop rest (insertClamped arr d.index d.value)

/-- The function `JsonDiffPatch::ArrayUnpatch` on the element vector of
`right` and the members of the delta object.  Each `std::sort` is modelled by
a stable sort. -/
def ArrayUnpatch (unpatchFn : Json → Json → Except Err Json) (right : List Json)
    (patch : List (String × Json)) : Except Err Json :=
  match classifyUnpatchLoop {} patch with
  | .error e => .error e
  | .ok ops =>
    let adds := ops.adds.insertionSort (fun a b => a ≥ b)
    let arr := undoAddLoop adds right
    let moves := ops.moves.insertionSort (fun x y => x.toIndex ≤ y.toIndex)
    let arr := undoMoveLoop moves arr
    let mods := ops.mods.insertionSort (fun a b => a.index ≤ b.index)
    match modifyLoop unpatchFn mods arr with
    | .error e => .error e
    | .ok arr =>
      let dels := ops.dels.insertionSort (fun a b => a.index ≤ b.index)
      .ok (Json.arr (reinsertLoop dels arr))

/-- The function `JsonDiffPatch::Unpatch` with a recursion budget. -/
def UnpatchN : Nat → Json → Json → Except Err Json
  | 0, _, _ => .error Err.budget
  | n + 1, right, patch =>
    match patch with
    | Json.null => .ok right
    | Json.obj members =>
      match right with
      | Json.arr arr =>
        if isArrayDelta members then ArrayUnpatch (UnpatchN n) arr members
        else ObjectUnpatch (UnpatchN n) right members
      | _ => ObjectUnpatch (UnpatchN n) right members
    | Json.arr patchArray => leafUnpatch right patchArray
    | _ => .ok Json.null

/-- The function `JsonDiffPatch::Unpatch(const json&, const json&)`. -/
def Unpatch (right patch : Json) : Except Err Json :=
  UnpatchN (patch.depth + 1) right patch

/-! ## Auxiliary definitions for the statements -/

/-- The operation codes that `ComputeDiff` writes. -/
def validOp (d : TextDiff) : Prop :=
  d.operation = DIFF_DELETE ∨ d.operation = DIFF_INSERT ∨ d.operation = DIFF_EQUAL

/-- A string of 51 characters, one more than the default threshold. -/
def longText : String := String.mk (List.replicate 51 'a')

/-- The keys of a member list are strictly ascending. -/
def SortedKeys {α : Type} (m : List (String × α)) : Prop := (m.map Prod.fst).Pairwise (· < ·)

/-- The member that the delta of two objects has at a key, given the two
lookups of that key: a Deleted delta for a key only on the left, an Added
delta for a key only on the right, the child delta for a key on both sides
unless it is null. -/
def childDelta (diff : Json → Json → Json) : Option Json → Option Json → Option Json
  | some a, some b => if (diff a b).is_null then none else some (diff a b)
  | some a, none => some (deletedDelta a)
  | none, some b => some (addedDelta b)
  | none, none => none

namespace Json

mutual
/-- A value built only from objects, booleans, numbers and strings: no null
and no array at any depth. -/
def isTree : Json → Bool
  | obj kvs => isTreeKvs kvs
  | bool _ => true
  | num _ => true
  | str _ => true
  | _ => false
/-- Every member value is such a value. -/
def isTreeKvs : List (String × Json) → Bool
  | [] => true
  | (_, x) :: xs => isTree x && isTreeKvs xs
end

mutual
/-- A value built only from objects, booleans, numbers and strings of at most
50 characters. -/
def isShortTree : Json → Bool
  | obj kvs => isShortTreeKvs kvs
  | bool _ => true
  | num _ => true
  | str s => decide (s.length ≤ 50)
  | _ => false
/-- Every member value is such a value. -/
def isShortTreeKvs : List (String × Json) → Bool
  | [] => true
  | (_, x) :: xs => isShortTree x && isShortTreeKvs xs
end

end Json

/-- The forms a delta written by `Diff` can have: null, an object, a
2-array, or a 3-array `[text, 0, 2]`. -/
def isDeltaShape (d : Json) : Prop :=
  d = Json.null ∨ (∃ m, d = Json.obj m) ∨ (∃ x y, d = Json.arr [x, y]) ∨
    (∃ t, d = Json.arr [Json.str t, Json.num 0, Json.num OP_TEXTDIFF])

/-! ## The string entry points -/

/-- An ArrayMove delta: a 3-array whose last element is the integer 3. -/
def isMoveDelta (d : Json) : Bool :=
  match d with
  | Json.arr [_, _, Json.num n] => decide (n = OP_ARRAYMOVE)
  | _ => false

mutual
/-- A delta has an ArrayMove delta at a delta position: it is one itself, or
it is a delta object and one of its members has one. -/
def hasMoveDelta : Json → Bool
  | Json.obj members => hasMoveDeltaKvs members
  | d => isMoveDelta d
/-- Some member value has an ArrayMove delta at a delta position. -/
def hasMoveDeltaKvs : List (String × Json) → Bool
  | [] => false
  | (_, d) :: rest => hasMoveDelta d || hasMoveDeltaKvs rest
end

/-- An object hash for the examples: the text of the member `id`, empty
when there is none. -/
def idHash (v : Json) : String :=
  match objGet v "id" with
  | Json.str s => s
  | _ => ""

/-! ## Auxiliary definitions for array deltas -/

/-- Component-wise concatenation of two `PatchOps`. -/
def PatchOps.append (a b : PatchOps) : PatchOps :=
  { removals := a.removals ++ b.removals,
    modifications := a.modifications ++ b.modifications,
    insertions := a.insertions ++ b.insertions }

/-- Component-wise concatenation of two `UnpatchOps`. -/
def UnpatchOps.append (a b : UnpatchOps) : UnpatchOps :=
  { adds := a.adds ++ b.adds, dels := a.dels ++ b.dels, mods := a.mods ++ b.mods,
    moves := a.moves ++ b.moves }

/-- What `ArrayPatch` records for one member of the delta. -/
def patchOpsOf (member : String × Json) : PatchOps :=
  match classifyPatch {} member with
  | .ok ops => ops
  | .error _ => {}

/-- What `ArrayUnpatch` records for one member of the delta. -/
def unpatchOpsOf (member : String × Json) : UnpatchOps :=
  match classifyUnpatch {} member with
  | .ok ops => ops
  | .error _ => {}

/-- The member that `ArrayDiff` writes for a removed element. -/
def delMember (e : Nat × Json) : String × Json := ("_" ++ toString e.1, deletedDelta e.2)

/-- The member that `ArrayDiff` writes for an added element. -/
def addMember (e : Nat × Json) : String × Json := (toString e.1, addedDelta e.2)

/-- The member that `ArrayDiff` writes for a changed element. -/
def modMember (e : Nat × Json) : String × Json := (toString e.1, e.2)

/-- The size below which an index is a `size_t` and an `int` of the source. -/
def indexBound : Nat := 2147483648

/-- The elements of `L` that stay when the positions `i` with `a ≤ i < a + k`
and `P i` are taken out. -/
def keepIdx (P : Nat → Bool) (a k : Nat) (L : List Json) : List Json :=
  L.take a ++ (((List.range' a k).filter (fun i => !P i)).map (fun i => L.getD i Json.null)
    ++ L.drop (a + k))

/-- An object whose member values are all numbers; its keys are in map
order. -/
def isNumObject : Json → Bool
  | Json.obj kvs => keysSorted (kvs.map Prod.fst) && kvs.all (fun e => e.2.is_number_integer)
  | _ => false

/-- A scalar with a short text: null, a boolean, a number, or a string of at
most 50 characters. -/
def isShortScalar : Json → Bool
  | Json.null => true
  | Json.bool _ => true
  | Json.num _ => true
  | Json.str s => decide (s.length ≤ 50)
  | _ => false

/-! ## A checked embedding of `Diff`

A second embedding of the functions behind `Diff`, in which every operation
of the source that can go wrong is explicit: a subscript at or past the size,
an unsigned difference that wraps below zero, a `substr` or an iterator range
past the end, and a loop or a recursion that has not ended when its budget is
used up (for a loop: its budget is used up and the bounds part of its
condition still holds).  Each of them ends the function with an error. -/

namespace Checked

/-- Checked subscript `v[i]`: a position at or past the size is an error. -/
def subscript {α : Type} (xs : List α) (i : Nat) : Except Err α :=
  match xs[i]? with
  | some x => .ok x
  | none => .error Err.outOfRange

/-- Checked difference `a - b` of unsigned operands: a wrap below zero is an
error.  The differences `a - 1 - b` of the source are taken as `a - (1 + b)`;
they wrap, to a value past every size, exactly when this one does. -/
def sub (a b : Nat) : Except Err Nat :=
  if b ≤ a then .ok (a - b) else .error Err.outOfRange

/-- Checked `s.substr(pos, len)`: `std::out_of_range` when `pos > size()`. -/
def substr (s : List Char) (pos len : Nat) : Except Err (List Char) :=
  if pos ≤ s.length then .ok ((s.drop pos).take len) else .error Err.outOfRange

/-- Checked `s.substr(pos)`: the rest of the text from `pos`. -/
def substrFrom (s : List Char) (pos : Nat) : Except Err (List Char) :=
  if pos ≤ s.length then .ok (s.drop pos) else .error Err.outOfRange

/-- Checked range constructor `vector(v.begin() + front, v.end() - back)`: the
two iterators must lie inside the vector, the first not after the second. -/
def slice (v : List Json) (front back : Nat) : Except Err (List Json) :=
  if front + back ≤ v.length then .ok ((v.drop front).take (v.length - front - back))
  else .error Err.outOfRange

/-- A loop over a list whose body can end the function with an error. -/
def foldC {σ α : Type} (f : σ → α → Except Err σ) : σ → List α → Except Err σ
  | s, [] => .ok s
  | s, x :: rest =>
    match f s x with
    | .ok s2 => foldC f s2 rest
    | .error e => .error e

/-- The loop `while (commonStart < minLen && text1[commonStart] ==
text2[commonStart]) commonStart++` of `ComputeDiff`. -/
def commonStartLoop (text1 text2 : List Char) (minLen : Nat) : Nat → Nat → Except Err Nat
  | 0, commonStart => if commonStart < minLen then .error Err.budget else .ok commonStart
  | fuel + 1, commonStart =>
    if commonStart < minLen then do
      let a ← subscript text1 commonStart
      let b ← subscript text2 commonStart
      if a = b then commonStartLoop text1 text2 minLen fuel (commonStart + 1)
      else pure commonStart
    else pure commonStart

/-- The loop `while (commonEnd < minLen - commonStart && text1[text1.length()
- 1 - commonEnd] == text2[text2.length() - 1 - commonEnd]) commonEnd++`; `cap`
is `minLen - commonStart`. -/
def commonEndLoop (text1 text2 : List Char) (cap : Nat) : Nat → Nat → Except Err Nat
  | 0, commonEnd => if commonEnd < cap then .error Err.budget else .ok commonEnd
  | fuel + 1, commonEnd =>
    if commonEnd < cap then do
      let i1 ← sub text1.length (1 + commonEnd)
      let i2 ← sub text2.length (1 + commonEnd)
      let a ← subscript text1 i1
      let b ← subscript text2 i2
      if a = b then commonEndLoop text1 text2 cap fuel (commonEnd + 1)
      else pure commonEnd
    else pure commonEnd

/-- The last part of `ComputeDiff`, with its four `substr` calls. -/
def emitDiffs (text1 text2 : List Char) (commonStart commonEnd : Nat) :
    Except Err (List TextDiff) := do
  let head ← if commonStart > 0 then do
      let s ← substr text1 0 commonStart
      pure [(⟨DIFF_EQUAL, String.mk s⟩ : TextDiff)]
    else pure []
  let len1 ← sub text1.length (commonStart + commonEnd)
  let middle1 ← substr text1 commonStart len1
  let len2 ← sub text2.length (commonStart + commonEnd)
  let middle2 ← substr text2 commonStart len2
  let tail ← if commonEnd > 0 then do
      let pos ← sub text1.length commonEnd
      let s ← substrFrom text1 pos
      pure [(⟨DIFF_EQUAL, String.mk s⟩ : TextDiff)]
    else pure []
  pure (head
    ++ (if middle1.isEmpty then [] else [⟨DIFF_DELETE, String.mk middle1⟩])
    ++ (if middle2.isEmpty then [] else [⟨DIFF_INSERT, String.mk middle2⟩])
    ++ tail)

/-- The function `SimpleTextDiff::ComputeDiff`, checked. -/
def ComputeDiff (text1 text2 : String) : Except Err (List TextDiff) :=
  if text1 = text2 then
    .ok (if text1.data.isEmpty then [] else [⟨DIFF_EQUAL, text1⟩])
  else do
    let minLen := min text1.length text2.length
    let commonStart ← commonStartLoop text1.data text2.data minLen minLen 0
    let cap ← sub minLen commonStart
    let commonEnd ← commonEndLoop text1.data text2.data cap cap 0
    emitDiffs text1.data text2.data commonStart commonEnd

/-- The function `SimpleTextDiff::CreatePatches`, checked. -/
def CreatePatches (text1 text2 : String) : Except Err (List TextPatch) := do
  let diffs ← ComputeDiff text1 text2
  if diffs.isEmpty then pure []
  else pure [{ diffs := diffs, start1 := 0, start2 := 0,
               length1 := wrap32 text1.length, length2 := wrap32 text2.length }]

/-- Checked read `matrix[i][j]`. -/
def matGet (matrix : List (List Nat)) (i j : Nat) : Except Err Nat := do
  let row ← subscript matrix i
  subscript row j

/-- Checked write `matrix[i][j] = v`. -/
def matSet (matrix : List (List Nat)) (i j v : Nat) : Except Err (List (List Nat)) := do
  let row ← subscript matrix i
  if j < row.length then pure (matrix.set i (row.set j v)) else .error Err.outOfRange

/-- The body of the two nested loops that fill the LCS matrix, checked. -/
def lcsCell (ObjectHash : Option (Json → String)) (left right : List Json)
    (i : Nat) (matrix : List (List Nat)) (j : Nat) : Except Err (List (List Nat)) := do
  let i1 ← sub i 1
  let j1 ← sub j 1
  let a ← subscript left i1
  let b ← subscript right j1
  if ItemMatch.MatchArrayElement ObjectHash a i1 b j1 then do
    let d ← matGet matrix i1 j1
    matSet matrix i j (d + 1)
  else do
    let up ← matGet matrix i1 j
    let before ← matGet matrix i j1
    matSet matrix i j (max up before)

/-- The LCS matrix after the loops `for i in 1..m` / `for j in 1..n`,
checked. -/
def lcsMatrix (ObjectHash : Option (Json → String)) (left right : List Json) :
    Except Err (List (List Nat)) :=
  foldC (fun matrix i => foldC (lcsCell ObjectHash left right i) matrix
      (List.range' 1 right.length))
    (List.replicate (left.length + 1) (List.replicate (right.length + 1) 0))
    (List.range' 1 left.length)

/-- The backtracking loop `while (i > 0 && j > 0)` of `ComputeLcs`, checked. -/
def lcsBacktrack (ObjectHash : Option (Json → String)) (left right : List Json)
    (matrix : List (List Nat)) : Nat → Nat → Nat → LcsResult → Except Err LcsResult
  | 0, i, j, result => if 0 < i ∧ 0 < j then .error Err.budget else .ok result
  | fuel + 1, i, j, result =>
    if 0 < i ∧ 0 < j then do
      let i1 ← sub i 1
      let j1 ← sub j 1
      let a ← subscript left i1
      let b ← subscript right j1
      if ItemMatch.Match ObjectHash a b then
        lcsBacktrack ObjectHash left right matrix fuel i1 j1
          { Sequence := a :: result.Sequence,
            Indices1 := i1 :: result.Indices1,
            Indices2 := j1 :: result.Indices2 }
      else do
        let before ← matGet matrix i j1
        let up ← matGet matrix i1 j
        if up < before then lcsBacktrack ObjectHash left right matrix fuel i j1 result
        else lcsBacktrack ObjectHash left right matrix fuel i1 j result
    else pure result

/-- The function `JsonDiffPatch::ComputeLcs`, checked. -/
def ComputeLcs (ObjectHash : Option (Json → String)) (left right : List Json) :
    Except Err LcsResult := do
  let matrix ← lcsMatrix ObjectHash left right
  lcsBacktrack ObjectHash left right matrix (left.length + right.length)
    left.length right.length {}

/-- First loop of `ObjectDiff`, checked: the recursive call can fail. -/
def objectDiffLeft (diff : Json → Json → Except Err Json) (right : List (String × Json))
    (diffPatch : List (String × Json)) (member : String × Json) :
    Except Err (List (String × Json)) :=
  match find right member.1 with
  | some rightValue => do
    let d ← diff member.2 rightValue
    pure (if d.is_null then diffPatch else setKey diffPatch member.1 d)
  | none => pure (setKey diffPatch member.1 (deletedDelta member.2))

/-- The function `JsonDiffPatch::ObjectDiff`, checked. -/
def ObjectDiff (diff : Json → Json → Except Err Json) (left right : List (String × Json)) :
    Except Err Json := do
  let diffPatch ← foldC (objectDiffLeft diff right) [] left
  let diffPatch := right.foldl (objectDiffRight left) diffPatch
  pure (if diffPatch.isEmpty then Json.null else Json.obj diffPatch)

/-- The common-head loop of `ArrayDiff`, checked. -/
def headLoop (ObjectHash : Option (Json → String)) (diff : Json → Json → Except Err Json)
    (leftVec rightVec : List Json) :
    Nat → Nat → List (String × Json) → Except Err (Nat × List (String × Json))
  | 0, commonHead, result =>
    if commonHead < leftVec.length ∧ commonHead < rightVec.length then .error Err.budget
    else .ok (commonHead, result)
  | fuel + 1, commonHead, result =>
    if commonHead < leftVec.length ∧ commonHead < rightVec.length then do
      let a ← subscript leftVec commonHead
      let b ← subscript rightVec commonHead
      if ItemMatch.MatchArrayElement ObjectHash a commonHead b commonHead then do
        let child ← diff a b
        headLoop ObjectHash diff leftVec rightVec fuel (commonHead + 1)
          (putChild result (toString commonHead) child)
      else pure (commonHead, result)
    else pure (commonHead, result)

/-- The common-tail loop of `ArrayDiff`, checked. -/
def tailLoop (ObjectHash : Option (Json → String)) (diff : Json → Json → Except Err Json)
    (leftVec rightVec : List Json) (commonHead : Nat) :
    Nat → Nat → List (String × Json) → Except Err (Nat × List (String × Json))
  | 0, commonTail, result =>
    if commonTail + commonHead < leftVec.length ∧ commonTail + commonHead < rightVec.length then
      .error Err.budget
    else .ok (commonTail, result)
  | fuel + 1, commonTail, result =>
    if commonTail + commonHead < leftVec.length ∧ commonTail + commonHead < rightVec.length then do
      let index1 ← sub leftVec.length (1 + commonTail)
      let index2 ← sub rightVec.length (1 + commonTail)
      let a ← subscript leftVec index1
      let b ← subscript rightVec index2
      if ItemMatch.MatchArrayElement ObjectHash a index1 b index2 then do
        let child ← diff a b
        tailLoop ObjectHash diff leftVec rightVec commonHead fuel (commonTail + 1)
          (putChild result (toString index2) child)
      else pure (commonTail, result)
    else pure (commonTail, result)

/-- Body of the loops that record a block of added elements, checked. -/
def addStep (rightVec : List Json) (result : List (String × Json)) (index : Nat) :
    Except Err (List (String × Json)) := do
  let v ← subscript rightVec index
  pure (setKey result (toString index) (addedDelta v))

/-- Body of the loops that record a block of removed elements, checked. -/
def removeStep (leftVec : List Json) (result : List (String × Json)) (index : Nat) :
    Except Err (List (String × Json)) := do
  let v ← subscript leftVec index
  pure (setKey result ("_" ++ toString index) (deletedDelta v))

/-- Body of the loop "Mark deletions" of the LCS path, checked. -/
def markDeletion (leftVec : List Json) (commonHead : Nat) (lcs : LcsResult)
    (result : List (String × Json)) (index : Nat) : Except Err (List (String × Json)) := do
  let offset ← sub index commonHead
  if lcs.Indices1.contains offset then pure result
  else removeStep leftVec result index

/-- Body of the loop "Mark additions and modifications" of the LCS path,
checked. -/
def markAddition (diff : Json → Json → Except Err Json) (leftVec rightVec : List Json)
    (commonHead : Nat) (lcs : LcsResult)
    (result : List (String × Json)) (index : Nat) : Except Err (List (String × Json)) := do
  let offset ← sub index commonHead
  let lcsIdx := lcs.Indices2.indexOf offset
  if lcsIdx = lcs.Indices2.length then addStep rightVec result index
  else do
    let i1 ← subscript lcs.Indices1 lcsIdx
    let leftIndex := i1 + commonHead
    let a ← subscript leftVec leftIndex
    let b ← subscript rightVec index
    let child ← diff a b
    pure (putChild result (toString index) child)

/-- The function `JsonDiffPatch::ArrayDiff`, checked. -/
def ArrayDiff (ObjectHash : Option (Json → String)) (diff : Json → Json → Except Err Json)
    (leftVec rightVec : List Json) : Except Err Json :=
  if leftVec = rightVec then .ok Json.null
  else do
    let hd ← headLoop ObjectHash diff leftVec rightVec leftVec.length 0 [("_t", Json.str "a")]
    let commonHead := hd.1
    let tl ← tailLoop ObjectHash diff leftVec rightVec commonHead leftVec.length 0 hd.2
    let commonTail := tl.1
    let result := tl.2
    if commonHead + commonTail = leftVec.length then do
      let stop ← sub rightVec.length commonTail
      let result ← foldC (addStep rightVec) result (List.range' commonHead (stop - commonHead))
      pure (Json.obj result)
    else if commonHead + commonTail = rightVec.length then do
      let stop ← sub leftVec.length commonTail
      let result ← foldC (removeStep leftVec) result (List.range' commonHead (stop - commonHead))
      pure (Json.obj result)
    else do
      let trimmedLeft ← slice leftVec commonHead commonTail
      let trimmedRight ← slice rightVec commonHead commonTail
      let lcs ← ComputeLcs ObjectHash trimmedLeft trimmedRight
      let stop1 ← sub leftVec.length commonTail
      let result ← foldC (markDeletion leftVec commonHead lcs) result
        (List.range' commonHead (stop1 - commonHead))
      let stop2 ← sub rightVec.length commonTail
      let result ← foldC (markAddition diff leftVec rightVec commonHead lcs) result
        (List.range' commonHead (stop2 - commonHead))
      pure (if result.length = 1 ∧ contains result "_t" then Json.null else Json.obj result)

/-- The text branch of `Diff`, checked: `get<std::string>()` is called on
values that passed `is_string()`. -/
def textDelta (o : Options) (leftValue rightValue : Json) : Except Err (Option Json) :=
  if o.TextDiff = TEXTDIFF_EFFICIENT then
    match leftValue, rightValue with
    | Json.str leftStr, Json.str rightStr =>
      if o.MinEfficientTextDiffLength < leftStr.length ∨
          o.MinEfficientTextDiffLength < rightStr.length then do
        let patches ← CreatePatches leftStr rightStr
        if patches.isEmpty then pure none
        else pure (some (Json.arr [Json.str (PatchesToText patches), Json.num 0,
          Json.num OP_TEXTDIFF]))
      else pure none
    | _, _ => pure none
  else pure none

/-- The last part of `Diff`, checked. -/
def leafDiff (o : Options) (leftValue rightValue : Json) : Except Err Json := do
  match ← textDelta o leftValue rightValue with
  | some d => pure d
  | none =>
    if !ItemMatch.Match o.ObjectHash leftValue rightValue then
      pure (Json.arr [leftValue, rightValue])
    else pure Json.null

/-- The function `JsonDiffPatch::Diff` with a recursion budget, checked: a
call that needs more nested calls than the budget is an error. -/
def DiffN (o : Options) : Nat → Json → Json → Except Err Json
  | 0, _, _ => .error Err.budget
  | n + 1, left, right =>
    match nullToEmpty left, nullToEmpty right with
    | Json.obj l, Json.obj r => ObjectDiff (DiffN o n) l r
    | Json.arr l, Json.arr r =>
      if o.ArrayDiff = MODE_EFFICIENT then ArrayDiff o.ObjectHash (DiffN o n) l r
      else leafDiff o (Json.arr l) (Json.arr r)
    | leftValue, rightValue => leafDiff o leftValue rightValue

/-- The function `JsonDiffPatch::Diff(const json&, const json&)`, checked,
with the depth of the left value as the budget of nested calls. -/
def Diff (o : Options) (left right : Json) : Except Err Json :=
  DiffN o (left.depth + 1) left right

end Checked

/-- The forms of a delta that `Diff` returns: null, an object with at least
one member, a 2-array, or a 3-array `[text, 0, 2]`. -/
def isEmittedShape (d : Json) : Prop :=
  d = Json.null ∨ (∃ m, d = Json.obj m ∧ m ≠ []) ∨ (∃ x y, d = Json.arr [x, y]) ∨
    (∃ t, d = Json.arr [Json.str t, Json.num 0, Json.num OP_TEXTDIFF])

/-- The key of a member `"_i"` of an array delta: it starts with an
underscore and is not `"_t"`. -/
def isDelKey (key : String) : Bool :=
  decide (key.data.head? = some '_') && !decide (key = "_t")

/-- The member that the loop "Mark additions and modifications" stores for
an index, if it stores one. -/
def markMember (diff : Json → Json → Json) (leftVec rightVec : List Json)
    (commonHead : Nat) (lcs : LcsResult) (index : Nat) : Option (String × Json) :=
  if lcs.Indices2.contains (index - commonHead) then
    if (diff (leftVec.getD
        (lcs.Indices1.getD (lcs.Indices2.indexOf (index - commonHead)) 0 + commonHead) Json.null)
        (rightVec.getD index Json.null)).is_null then none
    else some (modMember (index, diff (leftVec.getD
        (lcs.Indices1.getD (lcs.Indices2.indexOf (index - commonHead)) 0 + commonHead) Json.null)
        (rightVec.getD index Json.null)))
  else some (addMember (index, rightVec.getD index Json.null))

/-! # Theorems -/

/-! ## The text-diff adapter -/

theorem digitChar_ne_newline (d : Nat) : Nat.digitChar d ≠ '\n' := by
  by_cases h : d < 16
  · interval_cases d <;> decide
  · have h2 : Nat.digitChar d = '*' := by
      unfold Nat.digitChar
      repeat rw [if_neg (by omega)]
    rw [h2]; decide

theorem toDigitsCore_no_newline : ∀ (fuel n : Nat) (ds : List Char),
    (∀ c ∈ ds, c ≠ '\n') → ∀ c ∈ Nat.toDigitsCore 10 fuel n ds, c ≠ '\n'
  | 0, _, ds, h => by simpa [Nat.toDigitsCore] using h
  | fuel + 1, n, ds, h => by
    unfold Nat.toDigitsCore
    have h2 : ∀ c ∈ Nat.digitChar (n % 10) :: ds, c ≠ '\n' := by
      intro c hc
      rcases List.mem_cons.1 hc with rfl | hc
      · exact digitChar_ne_newline _
      · exact h c hc
    simp only []
    split_ifs
    · exact h2
    · exact toDigitsCore_no_newline fuel _ _ h2

theorem natRepr_no_newline (n : Nat) : ∀ c ∈ (Nat.repr n).data, c ≠ '\n' := by
  unfold Nat.repr Nat.toDigits
  simp only [List.asString]
  exact toDigitsCore_no_newline _ _ _ (by simp)

theorem intToString_no_newline (i : Int) : ∀ c ∈ (toString i).data, c ≠ '\n' := by
  cases i with
  | ofNat m => exact natRepr_no_newline m
  | negSucc m =>
    intro c hc
    have : toString (Int.negSucc m) = "-" ++ Nat.repr (m + 1) := rfl
    rw [this, String.data_append] at hc
    rcases List.mem_append.1 hc with hc | hc
    · simp at hc; subst hc; decide
    · exact natRepr_no_newline _ c hc

theorem patchHeader_no_newline (p : TextPatch) : ∀ c ∈ (patchHeader p).data, c ≠ '\n' := by
  intro c hc
  unfold patchHeader at hc
  simp only [String.data_append, List.mem_append] at hc
  rcases hc with ((((((((hc | hc) | hc) | hc) | hc) | hc) | hc) | hc) | hc)
  all_goals first
    | exact intToString_no_newline _ c hc
    | (simp at hc; rcases hc with rfl | rfl | rfl | rfl <;> decide)

theorem patchHeader_take (p : TextPatch) : (patchHeader p).data.take 2 = ['@', '@'] := by
  unfold patchHeader
  simp only [String.data_append]
  rfl

theorem decodeChars_cons_of_ne (c : Char) (E : List Char) (hc : c ≠ '%') :
    decodeChars (c :: E) =
      match decodeChars E with
      | .ok r => .ok (c :: r)
      | .error e => .error e := by
  match E with
  | [] => simp [decodeChars]
  | [d] => simp [decodeChars]
  | d :: e :: rest =>
    rw [decodeChars, if_neg hc]

theorem decodeChars_encodeChars : ∀ s : List Char, decodeChars (encodeChars s) = .ok s
  | [] => by simp [encodeChars, decodeChars]
  | c :: rest => by
    have ih := decodeChars_encodeChars rest
    unfold encodeChars
    by_cases h1 : c = '%'
    · subst h1
      have h : stoi16 ['2', '5'] = .ok 37 := by decide
      show decodeChars ('%' :: '2' :: '5' :: encodeChars rest) = _
      rw [decodeChars, if_pos rfl, h, ih]
      rfl
    · by_cases h2 : c = '\n'
      · subst h2
        have h : stoi16 ['0', 'A'] = .ok 10 := by decide
        show decodeChars ('%' :: '0' :: 'A' :: encodeChars rest) = _
        rw [decodeChars, if_pos rfl, h, ih]
        rfl
      · by_cases h3 : c = '\r'
        · subst h3
          have h : stoi16 ['0', 'D'] = .ok 13 := by decide
          show decodeChars ('%' :: '0' :: 'D' :: encodeChars rest) = _
          rw [decodeChars, if_pos rfl, h, ih]
          rfl
        · rw [if_neg h1, if_neg h2, if_neg h3]
          show decodeChars (c :: encodeChars rest) = _
          rw [decodeChars_cons_of_ne c _ h1, ih]

theorem encodeChars_no_newline : ∀ s : List Char, ∀ c ∈ encodeChars s, c ≠ '\n'
  | [], c, hc => by simp [encodeChars] at hc
  | x :: rest, c, hc => by
    unfold encodeChars at hc
    rcases List.mem_append.1 hc with hc | hc
    · split_ifs at hc with h1 h2 h3
      · simp at hc; rcases hc with rfl | rfl | rfl <;> decide
      · simp at hc; rcases hc with rfl | rfl | rfl <;> decide
      · simp at hc; rcases hc with rfl | rfl | rfl <;> decide
      · simp at hc; subst hc; exact h2
    · exact encodeChars_no_newline rest c hc

theorem encodeChars_eq_nil : ∀ s : List Char, encodeChars s = [] → s = []
  | [], _ => rfl
  | x :: rest, h => by
    unfold encodeChars at h
    split_ifs at h <;> simp at h

theorem getLines_line : ∀ (l rest cur : List Char), (∀ c ∈ l, c ≠ '\n') →
    getLines (l ++ '\n' :: rest) cur = (cur ++ l) :: getLines rest []
  | [], rest, cur, _ => by simp [getLines]
  | x :: l, rest, cur, h => by
    have hx : x ≠ '\n' := h x (List.mem_cons_self _ _)
    have ih := getLines_line l rest (cur ++ [x]) (fun c hc => h c (List.mem_cons_of_mem _ hc))
    simp [getLines, hx, ih]

theorem getLines_diffLines : ∀ ds : List TextDiff,
    getLines (diffLines ds) [] = ds.map (fun d => opChar d.operation :: encodeChars d.text.data)
  | [] => by simp [diffLines, getLines]
  | d :: rest => by
    unfold diffLines
    rw [getLines_line _ _ _ (by
      intro c hc
      rcases List.mem_cons.1 hc with rfl | hc
      · unfold opChar; split_ifs <;> decide
      · exact encodeChars_no_newline _ c hc)]
    simp [getLines_diffLines rest]

theorem parseLine_diff (st : ParseState) (d : TextDiff) (hin : st.inPatch = true)
    (hop : validOp d) :
    parseLine st (opChar d.operation :: encodeChars d.text.data) =
      .ok { st with currentPatch :=
              { st.currentPatch with diffs := st.currentPatch.diffs ++ [d] } } := by
  have hdec : (if 1 < (opChar d.operation :: encodeChars d.text.data).length
      then decodeChars ((opChar d.operation :: encodeChars d.text.data).drop 1)
      else .ok []) = (.ok d.text.data : Except Err (List Char)) := by
    split_ifs with h
    · simp [decodeChars_encodeChars]
    · have : encodeChars d.text.data = [] := by
        rw [List.length_cons] at h
        exact List.eq_nil_of_length_eq_zero (by omega)
      rw [encodeChars_eq_nil _ this]
  have hne : ¬ ((opChar d.operation :: encodeChars d.text.data).take 2 = ['@', '@']) := by
    intro h
    have h0 : opChar d.operation = '@' := by
      cases hE : encodeChars d.text.data <;> simp [hE] at h
      exact h.1
    revert h0
    unfold opChar; split_ifs <;> decide
  unfold parseLine
  rw [if_neg hne, hdec]
  obtain ⟨op, text⟩ := d
  rcases hop with h | h | h <;> simp only at h <;> subst h <;>
    simp [hin, opChar, DIFF_INSERT, DIFF_DELETE, DIFF_EQUAL]

theorem parseLines_diffs : ∀ (ds : List TextDiff) (st : ParseState), st.inPatch = true →
    (∀ d ∈ ds, validOp d) →
    parseLines st (ds.map (fun d => opChar d.operation :: encodeChars d.text.data)) =
      .ok { st with currentPatch :=
              { st.currentPatch with diffs := st.currentPatch.diffs ++ ds } }
  | [], st, _, _ => by simp [parseLines]
  | d :: rest, st, hin, hv => by
    simp only [List.map_cons, parseLines]
    rw [parseLine_diff st d hin (hv d (List.mem_cons_self _ _))]
    have ih := parseLines_diffs rest
      { st with currentPatch := { st.currentPatch with diffs := st.currentPatch.diffs ++ [d] } }
      hin (fun x hx => hv x (List.mem_cons_of_mem _ hx))
    simp only [List.append_assoc, List.singleton_append] at ih
    exact ih

/-- Parsing the text of one patch gives back its diffs; the header numbers
are not read. -/
theorem PatchesFromText_PatchesToText (p : TextPatch) (hv : ∀ d ∈ p.diffs, validOp d) :
    PatchesFromText (PatchesToText [p]) = .ok [{ diffs := p.diffs }] := by
  have hdata : (PatchesToText [p]).data = (patchHeader p).data ++ '\n' :: diffLines p.diffs := by
    simp [PatchesToText, TextPatch.ToString, String.data_append]
  unfold PatchesFromText
  rw [hdata, getLines_line _ _ _ (patchHeader_no_newline p), getLines_diffLines]
  simp only [List.nil_append, parseLines]
  have hh : parseLine {} (patchHeader p).data =
      .ok { patches := [], currentPatch := {}, inPatch := true } := by
    unfold parseLine
    rw [if_pos (patchHeader_take p)]
    rfl
  rw [hh]
  simp only
  rw [parseLines_diffs p.diffs _ rfl hv]
  simp

theorem matchRun_le_cap : ∀ (cap : Nat) (xs ys : List Char), matchRun cap xs ys ≤ cap
  | 0, _, _ => by simp [matchRun]
  | _ + 1, [], _ => by simp [matchRun]
  | _ + 1, _ :: _, [] => by simp [matchRun]
  | cap + 1, x :: xs, y :: ys => by
    unfold matchRun
    split_ifs
    · have := matchRun_le_cap cap xs ys; omega
    · omega

theorem matchRun_take : ∀ (cap : Nat) (xs ys : List Char),
    xs.take (matchRun cap xs ys) = ys.take (matchRun cap xs ys)
  | 0, _, _ => by simp [matchRun]
  | _ + 1, [], _ => by simp [matchRun]
  | _ + 1, _ :: _, [] => by simp [matchRun]
  | cap + 1, x :: xs, y :: ys => by
    unfold matchRun
    split_ifs with h
    · simp [h, matchRun_take cap xs ys]
    · simp

theorem patchTarget_cons (d : TextDiff) (rest : List TextDiff) :
    patchTarget (d :: rest) =
      if d.operation = DIFF_INSERT ∨ d.operation = DIFF_EQUAL then d.text ++ patchTarget rest
      else patchTarget rest := rfl

theorem patchTarget_append : ∀ (xs ys : List TextDiff),
    patchTarget (xs ++ ys) = patchTarget xs ++ patchTarget ys
  | [], ys => by simp [patchTarget]
  | d :: xs, ys => by
    have ih := patchTarget_append xs ys
    show patchTarget (d :: (xs ++ ys)) = patchTarget (d :: xs) ++ patchTarget ys
    rw [patchTarget_cons, patchTarget_cons]
    split_ifs
    · rw [ih, String.append_assoc]
    · exact ih

theorem reverseDiffs_append : ∀ (xs ys : List TextDiff),
    reverseDiffs (xs ++ ys) = reverseDiffs xs ++ reverseDiffs ys
  | [], ys => by simp [reverseDiffs]
  | d :: xs, ys => by simp [reverseDiffs, reverseDiffs_append xs ys]

theorem mk_append_mk (a b : List Char) : String.mk a ++ String.mk b = String.mk (a ++ b) := by
  apply String.ext
  simp [String.data_append]

/-- Splitting of a character sequence into prefix, middle and suffix. -/
theorem split_three (b : List Char) (cs ce : Nat) (h : cs + ce ≤ b.length) :
    b.take cs ++ ((b.drop cs).take (b.length - cs - ce) ++ b.drop (b.length - ce)) = b := by
  have h1 : (b.drop cs).take (b.length - cs - ce) ++ b.drop (b.length - ce) = b.drop cs := by
    have : b.drop (b.length - ce) = (b.drop cs).drop (b.length - cs - ce) := by
      rw [List.drop_drop]; congr 1; omega
    rw [this, List.take_append_drop]
  rw [h1, List.take_append_drop]

/-- Equal reversed prefixes are equal suffixes. -/
theorem suffix_eq_of_reverse_take (a b : List Char) (ce : Nat)
    (ha : ce ≤ a.length) (hb : ce ≤ b.length)
    (h : a.reverse.take ce = b.reverse.take ce) :
    a.drop (a.length - ce) = b.drop (b.length - ce) := by
  have h1 : ∀ l : List Char, ce ≤ l.length → l.drop (l.length - ce) = (l.reverse.take ce).reverse := by
    intro l hl
    rw [List.reverse_take, List.reverse_reverse]
    simp
  rw [h1 a ha, h1 b hb, h]

theorem patchTarget_optEqual (c : Prop) [Decidable c] (l : List Char) (h : ¬ c → l = []) :
    patchTarget (if c then [⟨DIFF_EQUAL, String.mk l⟩] else []) = String.mk l := by
  split_ifs with hc
  · simp [patchTarget, DIFF_EQUAL, DIFF_INSERT]
  · rw [h hc]; rfl

theorem patchTarget_optInsert (m : List Char) :
    patchTarget (if m.isEmpty then [] else [⟨DIFF_INSERT, String.mk m⟩]) = String.mk m := by
  cases m with
  | nil => rfl
  | cons x xs => simp [patchTarget, DIFF_INSERT]

theorem patchTarget_optDelete (m : List Char) :
    patchTarget (if m.isEmpty then [] else [⟨DIFF_DELETE, String.mk m⟩]) = "" := by
  cases m with
  | nil => rfl
  | cons x xs => simp [patchTarget, DIFF_INSERT, DIFF_DELETE, DIFF_EQUAL]

theorem reverseDiffs_optEqual (c : Prop) [Decidable c] (t : String) :
    reverseDiffs (if c then [⟨DIFF_EQUAL, t⟩] else []) = if c then [⟨DIFF_EQUAL, t⟩] else [] := by
  split_ifs <;> simp [reverseDiffs, DIFF_EQUAL, DIFF_INSERT, DIFF_DELETE]

theorem reverseDiffs_optInsert (m : List Char) :
    reverseDiffs (if m.isEmpty then [] else [⟨DIFF_INSERT, String.mk m⟩]) =
      if m.isEmpty then [] else [⟨DIFF_DELETE, String.mk m⟩] := by
  split_ifs <;> simp [reverseDiffs, DIFF_EQUAL, DIFF_INSERT, DIFF_DELETE]

theorem reverseDiffs_optDelete (m : List Char) :
    reverseDiffs (if m.isEmpty then [] else [⟨DIFF_DELETE, String.mk m⟩]) =
      if m.isEmpty then [] else [⟨DIFF_INSERT, String.mk m⟩] := by
  split_ifs <;> simp [reverseDiffs, DIFF_EQUAL, DIFF_INSERT, DIFF_DELETE]

/-- The facts about the two common runs that `ComputeDiff` computes. -/
theorem commonRuns (a b : List Char) :
    let cs := matchRun (min a.length b.length) a b
    let ce := matchRun (min a.length b.length - cs) a.reverse b.reverse
    cs + ce ≤ a.length ∧ cs + ce ≤ b.length ∧ a.take cs = b.take cs ∧
      a.drop (a.length - ce) = b.drop (b.length - ce) := by
  intro cs ce
  have h1 : cs ≤ min a.length b.length := matchRun_le_cap _ _ _
  have h2 : ce ≤ min a.length b.length - cs := matchRun_le_cap _ _ _
  have h3 : min a.length b.length ≤ a.length := Nat.min_le_left _ _
  have h4 : min a.length b.length ≤ b.length := Nat.min_le_right _ _
  refine ⟨by omega, by omega, matchRun_take _ _ _, ?_⟩
  exact suffix_eq_of_reverse_take a b ce (by omega) (by omega) (matchRun_take _ _ _)

theorem patchTarget_emitDiffs (a b : List Char) (cs ce : Nat) (hB : cs + ce ≤ b.length)
    (hT : a.take cs = b.take cs) (hD : a.drop (a.length - ce) = b.drop (b.length - ce)) :
    patchTarget (emitDiffs a b cs ce) = String.mk b := by
  unfold emitDiffs
  simp only [patchTarget_append]
  rw [patchTarget_optEqual _ _ (by intro h; have h0 : cs = 0 := by omega
                                   rw [h0]; rfl),
    patchTarget_optDelete, patchTarget_optInsert,
    patchTarget_optEqual _ _ (by intro h; have h0 : ce = 0 := by omega
                                 rw [h0]; simp)]
  rw [hT, hD]
  apply String.ext
  simp only [String.append_empty, String.data_append]
  have := split_three b _ _ hB
  simpa using this

theorem patchTarget_reverseDiffs_emitDiffs (a b : List Char) (cs ce : Nat)
    (hA : cs + ce ≤ a.length) :
    patchTarget (reverseDiffs (emitDiffs a b cs ce)) = String.mk a := by
  unfold emitDiffs
  simp only [reverseDiffs_append, patchTarget_append, reverseDiffs_optEqual,
    reverseDiffs_optInsert, reverseDiffs_optDelete]
  rw [patchTarget_optEqual _ _ (by intro h; have h0 : cs = 0 := by omega
                                   rw [h0]; rfl),
    patchTarget_optDelete, patchTarget_optInsert,
    patchTarget_optEqual _ _ (by intro h; have h0 : ce = 0 := by omega
                                 rw [h0]; simp)]
  apply String.ext
  simp only [String.append_empty, String.data_append]
  have := split_three a _ _ hA
  simpa using this

/-- The inserted and kept texts of `ComputeDiff a b` spell `b`. -/
theorem patchTarget_ComputeDiff (a b : String) : patchTarget (ComputeDiff a b) = b := by
  unfold ComputeDiff
  split_ifs with h1 h2
  · subst h1
    apply String.ext
    have h3 : a.data = [] := by simpa using h2
    rw [h3]; rfl
  · subst h1
    simp [patchTarget, DIFF_EQUAL, DIFF_INSERT]
  · obtain ⟨hA, hB, hT, hD⟩ := commonRuns a.data b.data
    exact patchTarget_emitDiffs _ _ _ _ hB hT hD

/-- The deleted and kept texts of `ComputeDiff a b` spell `a`. -/
theorem patchTarget_reverseDiffs_ComputeDiff (a b : String) :
    patchTarget (reverseDiffs (ComputeDiff a b)) = a := by
  unfold ComputeDiff
  split_ifs with h1 h2
  · apply String.ext
    have h3 : a.data = [] := by simpa using h2
    rw [h3]; rfl
  · simp [reverseDiffs, patchTarget, DIFF_EQUAL, DIFF_INSERT, DIFF_DELETE]
  · obtain ⟨hA, hB, hT, hD⟩ := commonRuns a.data b.data
    exact patchTarget_reverseDiffs_emitDiffs _ _ _ _ hA

theorem validOp_ComputeDiff (a b : String) : ∀ d ∈ ComputeDiff a b, validOp d := by
  intro d hd
  unfold ComputeDiff emitDiffs at hd
  unfold validOp
  split_ifs at hd <;>
    simp only [List.mem_append, List.mem_singleton, List.not_mem_nil, or_false, false_or] at hd
  · subst hd; simp
  all_goals
    rcases hd with ((hd | hd) | hd) | hd <;> simp_all

/-- Only two empty texts have an empty diff list. -/
theorem ComputeDiff_eq_nil (a b : String) (h : ComputeDiff a b = []) : a = "" ∧ b = "" := by
  have h1 := patchTarget_ComputeDiff a b
  have h2 := patchTarget_reverseDiffs_ComputeDiff a b
  rw [h] at h1 h2
  exact ⟨h2.symm, h1.symm⟩

theorem CreatePatches_eq (a b : String) :
    (CreatePatches a b = [] ∧ a = "" ∧ b = "") ∨
    (∃ p : TextPatch, CreatePatches a b = [p] ∧ p.diffs = ComputeDiff a b) := by
  unfold CreatePatches
  cases h : ComputeDiff a b with
  | nil => left; simp; exact ComputeDiff_eq_nil a b h
  | cons d ds => right; simp

theorem CreatePatches_ne_nil (a b : String) (h : 0 < a.length ∨ 0 < b.length) :
    ∃ p : TextPatch, CreatePatches a b = [p] ∧ p.diffs = ComputeDiff a b := by
  rcases CreatePatches_eq a b with ⟨_, ha, hb⟩ | h2
  · subst ha; subst hb; simp at h
  · exact h2

theorem ApplyPatches_single (p : TextPatch) (text : String) :
    ApplyPatches [p] text = (patchTarget p.diffs, [true]) := rfl

theorem ApplyPatches_CreatePatches (a b : String) :
    (ApplyPatches (CreatePatches a b) a).1 = b ∧
      allSucceeded (ApplyPatches (CreatePatches a b) a).2 = true := by
  rcases CreatePatches_eq a b with ⟨h, ha, hb⟩ | ⟨p, h, hp⟩
  · rw [h, ha, hb]; exact ⟨rfl, rfl⟩
  · rw [h, ApplyPatches_single, hp, patchTarget_ComputeDiff]; exact ⟨rfl, rfl⟩

theorem PatchesFromText_CreatePatches (a b : String) :
    ∃ parsed, PatchesFromText (PatchesToText (CreatePatches a b)) = .ok parsed ∧
      parsed.isEmpty = (CreatePatches a b).isEmpty ∧
      ApplyPatches parsed a = ApplyPatches (CreatePatches a b) a ∧
      ApplyPatches (reversePatches parsed) b = (a, (ApplyPatches (CreatePatches a b) a).2) := by
  rcases CreatePatches_eq a b with ⟨h, ha, hb⟩ | ⟨p, h, hp⟩
  · rw [h, ha, hb]; exact ⟨[], rfl, rfl, rfl, rfl⟩
  · rw [h, PatchesFromText_PatchesToText p (by rw [hp]; exact validOp_ComputeDiff a b)]
    refine ⟨_, rfl, rfl, rfl, ?_⟩
    simp only [reversePatches, List.map_cons, List.map_nil, ApplyPatches_single, hp,
      patchTarget_reverseDiffs_ComputeDiff]

/-- Applying the text delta that `Diff` writes for two strings. -/
theorem leafPatch_text (a b : String) (h : 0 < a.length ∨ 0 < b.length) :
    leafPatch (Json.str a)
        [Json.str (PatchesToText (CreatePatches a b)), Json.num 0, Json.num OP_TEXTDIFF] =
      .ok (Json.str b) ∧
    leafUnpatch (Json.str b)
        [Json.str (PatchesToText (CreatePatches a b)), Json.num 0, Json.num OP_TEXTDIFF] =
      .ok (Json.str a) := by
  obtain ⟨parsed, h1, h2, h3, h4⟩ := PatchesFromText_CreatePatches a b
  obtain ⟨p, hp, _⟩ := CreatePatches_ne_nil a b h
  obtain ⟨h5, h6⟩ := ApplyPatches_CreatePatches a b
  have hne : parsed.isEmpty = false := by rw [h2, hp]; rfl
  constructor
  · simp [leafPatch, Json.is_number_integer, getInt, wrap32, OP_TEXTDIFF, getString, h1, hne,
      h3, h5, h6]
  · simp [leafUnpatch, Json.is_number_integer, getInt, wrap32, OP_TEXTDIFF, getString, h1,
      h4, h6]

theorem Diff_str (o : Options) (a b : String) :
    Diff o (Json.str a) (Json.str b) = leafDiff o (Json.str a) (Json.str b) := rfl

theorem Match_of_not_object (h : Option (Json → String)) (a b : Json)
    (ha : a.is_object = false) : ItemMatch.Match h a b = decide (a = b) := by
  unfold ItemMatch.Match
  cases h <;> simp [ha]

theorem textDelta_long (o : Options) (a b : String) (h : o.TextDiff = TEXTDIFF_EFFICIENT)
    (hl : o.MinEfficientTextDiffLength < a.length ∨ o.MinEfficientTextDiffLength < b.length) :
    textDelta o (Json.str a) (Json.str b) =
      some (Json.arr [Json.str (PatchesToText (CreatePatches a b)), Json.num 0,
        Json.num OP_TEXTDIFF]) := by
  obtain ⟨p, hp, _⟩ := CreatePatches_ne_nil a b (by omega)
  unfold textDelta
  rw [if_pos h]
  simp only [hl, if_true, hp]
  rfl

theorem textDelta_short (o : Options) (a b : String)
    (hl : ¬ (o.TextDiff = TEXTDIFF_EFFICIENT ∧
      (o.MinEfficientTextDiffLength < a.length ∨ o.MinEfficientTextDiffLength < b.length))) :
    textDelta o (Json.str a) (Json.str b) = none := by
  unfold textDelta
  by_cases h1 : o.TextDiff = TEXTDIFF_EFFICIENT
  · have h2 : ¬ (o.MinEfficientTextDiffLength < a.length ∨
        o.MinEfficientTextDiffLength < b.length) := fun h2 => hl ⟨h1, h2⟩
    simp only [h1, if_true, h2, if_false]
  · rw [if_neg h1]

theorem leafDiff_str_long (o : Options) (a b : String) (h : o.TextDiff = TEXTDIFF_EFFICIENT)
    (hl : o.MinEfficientTextDiffLength < a.length ∨ o.MinEfficientTextDiffLength < b.length) :
    leafDiff o (Json.str a) (Json.str b) =
      Json.arr [Json.str (PatchesToText (CreatePatches a b)), Json.num 0,
        Json.num OP_TEXTDIFF] := by
  unfold leafDiff
  rw [textDelta_long o a b h hl]

theorem leafDiff_str_short (o : Options) (a b : String)
    (hl : ¬ (o.TextDiff = TEXTDIFF_EFFICIENT ∧
      (o.MinEfficientTextDiffLength < a.length ∨ o.MinEfficientTextDiffLength < b.length))) :
    leafDiff o (Json.str a) (Json.str b) =
      if a = b then Json.null else Json.arr [Json.str a, Json.str b] := by
  unfold leafDiff
  rw [textDelta_short o a b hl, Match_of_not_object _ (Json.str a) _ rfl]
  by_cases hab : a = b
  · simp [hab]
  · have : Json.str a ≠ Json.str b := fun h => hab (by injection h)
    simp [hab, this]

/-! ## Claims on the text-diff branch -/

/-- C17: with `TextDiff = Efficient` and threshold `t`, the delta of two
strings `L` and `R` is a TextDiff 3-array `[patchText, 0, 2]` if and only if
`length L > t` or `length R > t`; when both lengths are at most `t` the delta is
Null for equal strings and the Replaced 2-array `[L, R]` otherwise. -/
theorem C17_text_threshold (o : Options) (h : o.TextDiff = TEXTDIFF_EFFICIENT) (L R : String) :
    ((∃ patchText, Diff o (Json.str L) (Json.str R) =
        Json.arr [Json.str patchText, Json.num 0, Json.num OP_TEXTDIFF]) ↔
      (o.MinEfficientTextDiffLength < L.length ∨ o.MinEfficientTextDiffLength < R.length)) ∧
    (L.length ≤ o.MinEfficientTextDiffLength → R.length ≤ o.MinEfficientTextDiffLength →
      Diff o (Json.str L) (Json.str R) =
        if L = R then Json.null else Json.arr [Json.str L, Json.str R]) := by
  rw [Diff_str]
  constructor
  · constructor
    · rintro ⟨patchText, hp⟩
      by_contra hl
      rw [leafDiff_str_short o L R (fun hh => hl hh.2)] at hp
      split_ifs at hp
      simp at hp
    · intro hl
      exact ⟨_, leafDiff_str_long o L R h hl⟩
  · intro h1 h2
    exact leafDiff_str_short o L R (fun hh => by omega)

theorem C17_text_threshold_witness :
    defaultOptions.TextDiff = TEXTDIFF_EFFICIENT ∧
    ((∃ patchText, Diff defaultOptions (Json.str "ab") (Json.str "cd") =
        Json.arr [Json.str patchText, Json.num 0, Json.num OP_TEXTDIFF]) ↔
      (defaultOptions.MinEfficientTextDiffLength < "ab".length ∨
        defaultOptions.MinEfficientTextDiffLength < "cd".length)) ∧
    ("ab".length ≤ defaultOptions.MinEfficientTextDiffLength →
      "cd".length ≤ defaultOptions.MinEfficientTextDiffLength →
      Diff defaultOptions (Json.str "ab") (Json.str "cd") =
        if "ab" = "cd" then Json.null else Json.arr [Json.str "ab", Json.str "cd"]) :=
  ⟨rfl, C17_text_threshold defaultOptions rfl "ab" "cd"⟩

/-- C19: with default options, for strings `L` and `R` of which at least one
is longer than 50 characters, the delta is the 3-array `[patchText, 0, 2]`,
`Patch` of `L` with it returns `R` and `Unpatch` of `R` with it returns `L`;
no condition is put on the characters of the strings. -/
theorem C19_long_string_round_trip (L R : String) (h : 50 < L.length ∨ 50 < R.length) :
    Diff defaultOptions (Json.str L) (Json.str R) =
      Json.arr [Json.str (PatchesToText (CreatePatches L R)), Json.num 0, Json.num OP_TEXTDIFF] ∧
    Patch (Json.str L) (Diff defaultOptions (Json.str L) (Json.str R)) = .ok (Json.str R) ∧
    Unpatch (Json.str R) (Diff defaultOptions (Json.str L) (Json.str R)) = .ok (Json.str L) := by
  have hd : Diff defaultOptions (Json.str L) (Json.str R) =
      Json.arr [Json.str (PatchesToText (CreatePatches L R)), Json.num 0,
        Json.num OP_TEXTDIFF] := by
    rw [Diff_str]
    exact leafDiff_str_long defaultOptions L R rfl h
  have ht := leafPatch_text L R (by omega)
  rw [hd]
  exact ⟨rfl, ht.1, ht.2⟩

theorem C19_long_string_round_trip_witness :
    (50 < longText.length ∨ 50 < "a%\n\rb".length) ∧
    Diff defaultOptions (Json.str longText) (Json.str "a%\n\rb") =
      Json.arr [Json.str (PatchesToText (CreatePatches longText "a%\n\rb")), Json.num 0,
        Json.num OP_TEXTDIFF] ∧
    Patch (Json.str longText) (Diff defaultOptions (Json.str longText) (Json.str "a%\n\rb")) =
      .ok (Json.str "a%\n\rb") ∧
    Unpatch (Json.str "a%\n\rb") (Diff defaultOptions (Json.str longText) (Json.str "a%\n\rb")) =
      .ok (Json.str longText) :=
  ⟨Or.inl (by decide), C19_long_string_round_trip longText "a%\n\rb" (Or.inl (by decide))⟩

/-- C20: for all strings `a` and `b`, `ApplyPatches (CreatePatches a b) a`
returns `b` with every success flag true, and parsing the text written by
`PatchesToText` with `PatchesFromText` succeeds and gives patches with the same
result. -/
theorem C20_text_adapter_contract (a b : String) :
    (ApplyPatches (CreatePatches a b) a).1 = b ∧
    allSucceeded (ApplyPatches (CreatePatches a b) a).2 = true ∧
    ∃ parsed, PatchesFromText (PatchesToText (CreatePatches a b)) = .ok parsed ∧
      ApplyPatches parsed a = ApplyPatches (CreatePatches a b) a := by
  obtain ⟨h1, h2⟩ := ApplyPatches_CreatePatches a b
  obtain ⟨parsed, h3, _, h4, _⟩ := PatchesFromText_CreatePatches a b
  exact ⟨h1, h2, parsed, h3, h4⟩

/-! ## Objects as ordered maps -/

theorem keyLt_iff (a b : String) : keyLt a b = true ↔ a < b := by
  unfold keyLt
  rw [decide_eq_true_iff, String.lt_iff_toList_lt]
  rfl

theorem keysSorted_iff : ∀ ks : List String, keysSorted ks = true ↔ ks.Pairwise (· < ·)
  | [] => by simp [keysSorted]
  | [a] => by simp [keysSorted]
  | a :: b :: rest => by
    have ih := keysSorted_iff (b :: rest)
    simp only [keysSorted, Bool.and_eq_true, keyLt_iff, ih]
    constructor
    · rintro ⟨hab, hp⟩
      refine List.pairwise_cons.2 ⟨?_, hp⟩
      intro c hc
      rcases List.mem_cons.1 hc with rfl | hc
      · exact hab
      · exact lt_trans hab ((List.pairwise_cons.1 hp).1 c hc)
    · intro hp
      have h := List.pairwise_cons.1 hp
      exact ⟨h.1 b (List.mem_cons_self _ _), h.2⟩

theorem SortedKeys_cons {α : Type} (k : String) (v : α) (m : List (String × α)) :
    SortedKeys ((k, v) :: m) ↔ (∀ k2 ∈ m.map Prod.fst, k < k2) ∧ SortedKeys m := by
  unfold SortedKeys
  simp only [List.map_cons, List.pairwise_cons]

theorem SortedKeys_nil {α : Type} : SortedKeys ([] : List (String × α)) := by
  simp [SortedKeys]

theorem find_eq_none {α : Type} : ∀ (m : List (String × α)) (k : String),
    k ∉ m.map Prod.fst → find m k = none
  | [], _, _ => rfl
  | (k0, v) :: rest, k, h => by
    simp only [List.map_cons, List.mem_cons, not_or] at h
    simp only [find, if_neg h.1]
    exact find_eq_none rest k h.2

theorem find_mem_keys {α : Type} : ∀ (m : List (String × α)) (k : String) (v : α),
    find m k = some v → k ∈ m.map Prod.fst
  | [], _, _, h => by simp [find] at h
  | (k0, w) :: rest, k, v, h => by
    simp only [find] at h
    by_cases hk : k = k0
    · simp [hk]
    · rw [if_neg hk] at h
      simp [find_mem_keys rest k v h]

theorem find_mem {α : Type} : ∀ (m : List (String × α)) (k : String) (v : α),
    find m k = some v → (k, v) ∈ m
  | [], _, _, h => by simp [find] at h
  | (k0, w) :: rest, k, v, h => by
    simp only [find] at h
    by_cases hk : k = k0
    · rw [if_pos hk] at h
      simp at h
      simp [hk, h]
    · rw [if_neg hk] at h
      exact List.mem_cons_of_mem _ (find_mem rest k v h)

theorem find_of_mem {α : Type} : ∀ (m : List (String × α)) (k : String) (v : α),
    SortedKeys m → (k, v) ∈ m → find m k = some v
  | [], _, _, _, h => by simp at h
  | (k0, w) :: rest, k, v, hs, h => by
    rw [SortedKeys_cons] at hs
    rcases List.mem_cons.1 h with h | h
    · injection h with h1 h2
      simp [find, h1, h2]
    · have hk : k ∈ rest.map Prod.fst := List.mem_map_of_mem Prod.fst h
      have : k ≠ k0 := fun e => lt_irrefl k0 (e ▸ hs.1 k hk)
      simp only [find, if_neg this]
      exact find_of_mem rest k v hs.2 h

theorem find_setKey {α : Type} : ∀ (m : List (String × α)) (k : String) (v : α) (k2 : String),
    find (setKey m k v) k2 = if k2 = k then some v else find m k2
  | [], k, v, k2 => by simp [setKey, find]
  | (k0, w) :: rest, k, v, k2 => by
    unfold setKey
    by_cases h1 : k = k0
    · subst h1
      simp only [if_true, find]
      split_ifs <;> rfl
    · rw [if_neg h1]
      by_cases h2 : keyLt k k0 = true
      · rw [if_pos h2]
        simp only [find]
      · rw [if_neg h2]
        simp only [find, find_setKey rest k v k2]
        by_cases h3 : k2 = k0
        · have : k2 ≠ k := fun e => h1 (e ▸ h3)
          simp [h3, this, Ne.symm h1]
        · simp [h3]

theorem keys_setKey {α : Type} : ∀ (m : List (String × α)) (k : String) (v : α) (k2 : String),
    k2 ∈ (setKey m k v).map Prod.fst → k2 = k ∨ k2 ∈ m.map Prod.fst
  | [], k, v, k2, h => by simpa [setKey] using h
  | (k0, w) :: rest, k, v, k2, h => by
    unfold setKey at h
    split_ifs at h with h1 h2
    · simp at h; simp [h]
    · simpa using h
    · simp only [List.map_cons, List.mem_cons] at h
      rcases h with h | h
      · simp [h]
      · rcases keys_setKey rest k v k2 h with h | h
        · exact Or.inl h
        · simp [h]

theorem SortedKeys_setKey {α : Type} : ∀ (m : List (String × α)) (k : String) (v : α),
    SortedKeys m → SortedKeys (setKey m k v)
  | [], k, v, _ => by simp [setKey, SortedKeys]
  | (k0, w) :: rest, k, v, hs => by
    have hs2 := (SortedKeys_cons k0 w rest).1 hs
    unfold setKey
    split_ifs with h1 h2
    · exact (SortedKeys_cons k0 v rest).2 hs2
    · rw [keyLt_iff] at h2
      refine (SortedKeys_cons k v _).2 ⟨?_, hs⟩
      intro k2 hk2
      simp only [List.map_cons, List.mem_cons] at hk2
      rcases hk2 with rfl | hk2
      · exact h2
      · exact lt_trans h2 (hs2.1 k2 hk2)
    · rw [keyLt_iff] at h2
      have h3 : k0 < k := by
        rcases lt_trichotomy k k0 with h | h | h
        · exact absurd h h2
        · exact absurd h h1
        · exact h
      refine (SortedKeys_cons k0 w _).2 ⟨?_, SortedKeys_setKey rest k v hs2.2⟩
      intro k2 hk2
      rcases keys_setKey rest k v k2 hk2 with rfl | hk2
      · exact h3
      · exact hs2.1 k2 hk2

theorem keys_eraseKey {α : Type} : ∀ (m : List (String × α)) (k : String),
    ((eraseKey m k).map Prod.fst).Sublist (m.map Prod.fst)
  | [], _ => by simp [eraseKey]
  | (k0, w) :: rest, k => by
    unfold eraseKey
    split_ifs
    · simp
    · simpa using keys_eraseKey rest k

theorem SortedKeys_eraseKey {α : Type} (m : List (String × α)) (k : String)
    (hs : SortedKeys m) : SortedKeys (eraseKey m k) :=
  List.Pairwise.sublist (keys_eraseKey m k) hs

theorem find_eraseKey {α : Type} : ∀ (m : List (String × α)) (k k2 : String), SortedKeys m →
    find (eraseKey m k) k2 = if k2 = k then none else find m k2
  | [], k, k2, _ => by simp [eraseKey, find]
  | (k0, w) :: rest, k, k2, hs => by
    have hs2 := (SortedKeys_cons k0 w rest).1 hs
    unfold eraseKey
    by_cases h1 : k = k0
    · subst h1
      rw [if_pos rfl]
      by_cases h2 : k2 = k
      · subst h2
        rw [if_pos rfl]
        exact find_eq_none rest k2 (fun hm => lt_irrefl _ (hs2.1 k2 hm))
      · simp [find, h2]
    · rw [if_neg h1]
      simp only [find, find_eraseKey rest k k2 hs2.2]
      by_cases h3 : k2 = k0
      · have : k2 ≠ k := fun e => h1 (e ▸ h3)
        simp [h3, Ne.symm h1]
      · simp [h3]

/-- Two maps with the same lookups are equal. -/
theorem SortedKeys_ext {α : Type} : ∀ (m1 m2 : List (String × α)), SortedKeys m1 → SortedKeys m2 →
    (∀ k, find m1 k = find m2 k) → m1 = m2
  | [], [], _, _, _ => rfl
  | [], (k2, v2) :: r2, _, _, h => by
    have := h k2
    simp [find] at this
  | (k1, v1) :: r1, [], _, _, h => by
    have := h k1
    simp [find] at this
  | (k1, v1) :: r1, (k2, v2) :: r2, hs1, hs2, h => by
    have hs1c := (SortedKeys_cons k1 v1 r1).1 hs1
    have hs2c := (SortedKeys_cons k2 v2 r2).1 hs2
    have hn1 : find r1 k1 = none := find_eq_none r1 k1 (fun hm => lt_irrefl _ (hs1c.1 k1 hm))
    have hn2 : find r2 k2 = none := find_eq_none r2 k2 (fun hm => lt_irrefl _ (hs2c.1 k2 hm))
    rcases lt_trichotomy k1 k2 with hlt | heq | hgt
    · exfalso
      have h1 := h k1
      have hne : k1 ≠ k2 := ne_of_lt hlt
      simp only [find, if_true, if_neg hne] at h1
      have := find_mem_keys r2 k1 v1 h1.symm
      exact lt_asymm hlt (hs2c.1 k1 this)
    · subst heq
      have h1 := h k1
      simp only [find, if_true] at h1
      injection h1 with h1
      subst h1
      have hrest : ∀ k, find r1 k = find r2 k := by
        intro k
        by_cases hk : k = k1
        · subst hk; rw [hn1, hn2]
        · have := h k
          simpa [find, hk] using this
      rw [SortedKeys_ext r1 r2 hs1c.2 hs2c.2 hrest]
    · exfalso
      have h1 := h k2
      have hne : k2 ≠ k1 := ne_of_lt hgt
      simp only [find, if_true, if_neg hne] at h1
      have := find_mem_keys r1 k2 v2 h1
      exact lt_asymm hgt (hs1c.1 k2 this)

/-! ## The delta of two objects -/

theorem SortedKeys_foldLeft (diff : Json → Json → Json) (r : List (String × Json)) :
    ∀ (l acc : List (String × Json)), SortedKeys acc →
      SortedKeys (l.foldl (objectDiffLeft diff r) acc)
  | [], acc, h => h
  | m :: l, acc, h => by
    simp only [List.foldl_cons]
    apply SortedKeys_foldLeft diff r l
    unfold objectDiffLeft
    split
    · simp only []
      split_ifs
      · exact h
      · exact SortedKeys_setKey _ _ _ h
    · exact SortedKeys_setKey _ _ _ h

theorem SortedKeys_foldRight (l : List (String × Json)) :
    ∀ (r acc : List (String × Json)), SortedKeys acc →
      SortedKeys (r.foldl (objectDiffRight l) acc)
  | [], acc, h => h
  | m :: r, acc, h => by
    simp only [List.foldl_cons]
    apply SortedKeys_foldRight l r
    unfold objectDiffRight
    split_ifs
    · exact h
    · exact SortedKeys_setKey _ _ _ h

theorem find_foldLeft (diff : Json → Json → Json) (r : List (String × Json)) (k : String) :
    ∀ (l acc : List (String × Json)), SortedKeys l →
      find (l.foldl (objectDiffLeft diff r) acc) k =
        match find l k with
        | none => find acc k
        | some a =>
          match find r k with
          | some b => if (diff a b).is_null then find acc k else some (diff a b)
          | none => some (deletedDelta a)
  | [], acc, _ => rfl
  | (k0, a0) :: l, acc, hs => by
    have hs2 := (SortedKeys_cons k0 a0 l).1 hs
    simp only [List.foldl_cons]
    rw [find_foldLeft diff r k l _ hs2.2]
    by_cases hk : k = k0
    · subst hk
      have hn : find l k = none := find_eq_none l k (fun hm => lt_irrefl _ (hs2.1 k hm))
      simp only [hn, find, if_true]
      unfold objectDiffLeft
      cases hr : find r k with
      | none => simp [find_setKey]
      | some b =>
        simp only []
        split_ifs with hnull
        · rfl
        · simp [find_setKey]
    · simp only [find, if_neg hk]
      have hacc : find (objectDiffLeft diff r acc (k0, a0)) k = find acc k := by
        unfold objectDiffLeft
        cases hr : find r k0 with
        | none => simp [find_setKey, hk]
        | some b =>
          simp only []
          split_ifs
          · rfl
          · simp [find_setKey, hk]
      rw [hacc]

theorem find_foldRight (l : List (String × Json)) (k : String) :
    ∀ (r acc : List (String × Json)), SortedKeys r →
      find (r.foldl (objectDiffRight l) acc) k =
        match find r k with
        | none => find acc k
        | some b => if contains l k then find acc k else some (addedDelta b)
  | [], acc, _ => rfl
  | (k0, b0) :: r, acc, hs => by
    have hs2 := (SortedKeys_cons k0 b0 r).1 hs
    simp only [List.foldl_cons]
    rw [find_foldRight l k r _ hs2.2]
    by_cases hk : k = k0
    · subst hk
      have hn : find r k = none := find_eq_none r k (fun hm => lt_irrefl _ (hs2.1 k hm))
      simp only [hn, find, if_true]
      unfold objectDiffRight
      split_ifs <;> simp [find_setKey]
    · simp only [find, if_neg hk]
      have hacc : find (objectDiffRight l acc (k0, b0)) k = find acc k := by
        unfold objectDiffRight
        split_ifs
        · rfl
        · simp [find_setKey, hk]
      rw [hacc]

/-- The members of the delta of two objects, by key. -/
theorem ObjectDiff_spec (diff : Json → Json → Json) (l r : List (String × Json))
    (hl : SortedKeys l) (hr : SortedKeys r) :
    ∃ members, SortedKeys members ∧
      (∀ k, find members k = childDelta diff (find l k) (find r k)) ∧
      ObjectDiff diff l r = if members.isEmpty then Json.null else Json.obj members := by
  refine ⟨r.foldl (objectDiffRight l) (l.foldl (objectDiffLeft diff r) []), ?_, ?_, rfl⟩
  · exact SortedKeys_foldRight l r _ (SortedKeys_foldLeft diff r l [] SortedKeys_nil)
  · intro k
    rw [find_foldRight l k r _ hr, find_foldLeft diff r k l _ hl]
    cases h1 : find l k <;> cases h2 : find r k <;>
      simp [childDelta, contains, h1, h2, find]

/-! ## Applying a delta to an object -/

theorem objGet_or_null (t : List (String × Json)) (k : String) :
    (if objContains (Json.obj t) k then objGet (Json.obj t) k else Json.null) =
      (find t k).getD Json.null := by
  simp only [objContains, objGet, contains]
  cases h : find t k <;> simp

theorem objectPatchStep_obj (patchFn : Json → Json → Except Err Json)
    (t : List (String × Json)) (k : String) (v : Json) :
    objectPatchStep patchFn (Json.obj t) (k, v) =
      if isDeletedDelta v then .ok (Json.obj (eraseKey t k))
      else
        match patchFn ((find t k).getD Json.null) v with
        | .ok p => .ok (Json.obj (setKey t k p))
        | .error e => .error e := by
  unfold objectPatchStep
  simp only [objGet_or_null]
  split_ifs
  · rfl
  · cases patchFn ((find t k).getD Json.null) v <;> rfl

theorem objectUnpatchStep_obj (patchFn : Json → Json → Except Err Json)
    (t : List (String × Json)) (k : String) (v : Json) :
    objectUnpatchStep patchFn (Json.obj t) (k, v) =
      if isArrayOfSize v 1 then .ok (Json.obj (eraseKey t k))
      else
        match patchFn ((find t k).getD Json.null) v with
        | .ok p => .ok (Json.obj (setKey t k p))
        | .error e => .error e := by
  unfold objectUnpatchStep
  simp only [objGet_or_null]
  split_ifs
  · rfl
  · cases patchFn ((find t k).getD Json.null) v <;> rfl

/-- The loop of `ObjectPatch` turns the map `t` into the map `r` when every
member of the delta, applied at its key, gives the lookup of `r` there and the
other keys have equal lookups. -/
theorem objectPatchLoop_spec (patchFn : Json → Json → Except Err Json)
    (r : List (String × Json)) (hr : SortedKeys r) :
    ∀ (d t : List (String × Json)), SortedKeys d → SortedKeys t →
      (∀ k v, (k, v) ∈ d →
        (isDeletedDelta v = true ∧ find r k = none) ∨
        (isDeletedDelta v = false ∧
          ∃ p, patchFn ((find t k).getD Json.null) v = .ok p ∧ find r k = some p)) →
      (∀ k, k ∉ d.map Prod.fst → find t k = find r k) →
      objectPatchLoop patchFn (Json.obj t) d = .ok (Json.obj r)
  | [], t, _, ht, _, hrest => by
    have : t = r := SortedKeys_ext t r ht hr (fun k => hrest k (by simp))
    rw [this]; rfl
  | (k, v) :: rest, t, hd, ht, hmem, hrest => by
    have hd2 := (SortedKeys_cons k v rest).1 hd
    have hkn : k ∉ rest.map Prod.fst := fun hm => lt_irrefl _ (hd2.1 k hm)
    unfold objectPatchLoop
    rw [objectPatchStep_obj]
    rcases hmem k v (List.mem_cons_self _ _) with ⟨h1, h2⟩ | ⟨h1, p, h2, h3⟩
    · rw [if_pos h1]
      simp only []
      apply objectPatchLoop_spec patchFn r hr rest _ hd2.2 (SortedKeys_eraseKey t k ht)
      · intro k2 v2 hm
        have hk2 : k2 ≠ k :=
          fun e => hkn (e ▸ List.mem_map_of_mem Prod.fst hm)
        rw [find_eraseKey t k k2 ht, if_neg hk2]
        exact hmem k2 v2 (List.mem_cons_of_mem _ hm)
      · intro k2 hk2
        rw [find_eraseKey t k k2 ht]
        by_cases e : k2 = k
        · rw [if_pos e, e, h2]
        · rw [if_neg e]
          exact hrest k2 (by simp [e, hk2])
    · rw [h1, h2]
      simp only [Bool.false_eq_true, if_false]
      apply objectPatchLoop_spec patchFn r hr rest _ hd2.2 (SortedKeys_setKey t k p ht)
      · intro k2 v2 hm
        have hk2 : k2 ≠ k :=
          fun e => hkn (e ▸ List.mem_map_of_mem Prod.fst hm)
        rw [find_setKey t k p k2, if_neg hk2]
        exact hmem k2 v2 (List.mem_cons_of_mem _ hm)
      · intro k2 hk2
        rw [find_setKey t k p k2]
        by_cases e : k2 = k
        · rw [if_pos e, e, h3]
        · rw [if_neg e]
          exact hrest k2 (by simp [e, hk2])

/-- The loop of `ObjectUnpatch`, as `objectPatchLoop_spec`. -/
theorem objectUnpatchLoop_spec (patchFn : Json → Json → Except Err Json)
    (r : List (String × Json)) (hr : SortedKeys r) :
    ∀ (d t : List (String × Json)), SortedKeys d → SortedKeys t →
      (∀ k v, (k, v) ∈ d →
        (isArrayOfSize v 1 = true ∧ find r k = none) ∨
        (isArrayOfSize v 1 = false ∧
          ∃ p, patchFn ((find t k).getD Json.null) v = .ok p ∧ find r k = some p)) →
      (∀ k, k ∉ d.map Prod.fst → find t k = find r k) →
      objectUnpatchLoop patchFn (Json.obj t) d = .ok (Json.obj r)
  | [], t, _, ht, _, hrest => by
    have : t = r := SortedKeys_ext t r ht hr (fun k => hrest k (by simp))
    rw [this]; rfl
  | (k, v) :: rest, t, hd, ht, hmem, hrest => by
    have hd2 := (SortedKeys_cons k v rest).1 hd
    have hkn : k ∉ rest.map Prod.fst := fun hm => lt_irrefl _ (hd2.1 k hm)
    unfold objectUnpatchLoop
    rw [objectUnpatchStep_obj]
    rcases hmem k v (List.mem_cons_self _ _) with ⟨h1, h2⟩ | ⟨h1, p, h2, h3⟩
    · rw [if_pos h1]
      simp only []
      apply objectUnpatchLoop_spec patchFn r hr rest _ hd2.2 (SortedKeys_eraseKey t k ht)
      · intro k2 v2 hm
        have hk2 : k2 ≠ k :=
          fun e => hkn (e ▸ List.mem_map_of_mem Prod.fst hm)
        rw [find_eraseKey t k k2 ht, if_neg hk2]
        exact hmem k2 v2 (List.mem_cons_of_mem _ hm)
      · intro k2 hk2
        rw [find_eraseKey t k k2 ht]
        by_cases e : k2 = k
        · rw [if_pos e, e, h2]
        · rw [if_neg e]
          exact hrest k2 (by simp [e, hk2])
    · rw [h1, h2]
      simp only [Bool.false_eq_true, if_false]
      apply objectUnpatchLoop_spec patchFn r hr rest _ hd2.2 (SortedKeys_setKey t k p ht)
      · intro k2 v2 hm
        have hk2 : k2 ≠ k :=
          fun e => hkn (e ▸ List.mem_map_of_mem Prod.fst hm)
        rw [find_setKey t k p k2, if_neg hk2]
        exact hmem k2 v2 (List.mem_cons_of_mem _ hm)
      · intro k2 hk2
        rw [find_setKey t k p k2]
        by_cases e : k2 = k
        · rw [if_pos e, e, h3]
        · rw [if_neg e]
          exact hrest k2 (by simp [e, hk2])

/-! ## The forms of a delta -/

theorem ObjectDiff_shape (diff : Json → Json → Json) (l r : List (String × Json)) :
    isDeltaShape (ObjectDiff diff l r) := by
  unfold ObjectDiff
  simp only []
  split_ifs
  · exact Or.inl rfl
  · exact Or.inr (Or.inl ⟨_, rfl⟩)

theorem ArrayDiff_shape (h : Option (Json → String)) (diff : Json → Json → Json)
    (l r : List Json) : isDeltaShape (ArrayDiff h diff l r) := by
  unfold ArrayDiff
  simp only []
  split_ifs
  all_goals first
    | exact Or.inl rfl
    | exact Or.inr (Or.inl ⟨_, rfl⟩)

theorem leafDiff_shape (o : Options) (a b : Json) : isDeltaShape (leafDiff o a b) := by
  unfold leafDiff
  cases h : textDelta o a b with
  | some d =>
    simp only []
    unfold textDelta at h
    split_ifs at h
    split at h
    · split_ifs at h
      simp at h
      exact Or.inr (Or.inr (Or.inr ⟨_, h.2.symm⟩))
    · simp at h
  | none =>
    simp only []
    split_ifs
    · exact Or.inr (Or.inr (Or.inl ⟨_, _, rfl⟩))
    · exact Or.inl rfl

theorem DiffN_shape (o : Options) : ∀ (m : Nat) (a b : Json), isDeltaShape (DiffN o m a b)
  | 0, _, _ => Or.inl rfl
  | m + 1, a, b => by
    unfold DiffN
    split
    · exact ObjectDiff_shape _ _ _
    · split_ifs
      · exact ArrayDiff_shape _ _ _ _
      · exact leafDiff_shape _ _ _
    · exact leafDiff_shape _ _ _

theorem isDeletedDelta_of_shape (d : Json) (h : isDeltaShape d) : isDeletedDelta d = false := by
  rcases h with rfl | ⟨m, rfl⟩ | ⟨x, y, rfl⟩ | ⟨t, rfl⟩ <;> rfl

theorem isArrayOfSize_one_of_shape (d : Json) (h : isDeltaShape d) :
    isArrayOfSize d 1 = false := by
  rcases h with rfl | ⟨m, rfl⟩ | ⟨x, y, rfl⟩ | ⟨t, rfl⟩ <;> rfl

/-! ## Members of well-formed values -/

theorem depth_le_depthKvs : ∀ (kvs : List (String × Json)) (k : String) (v : Json),
    (k, v) ∈ kvs → v.depth ≤ Json.depthKvs kvs
  | [], _, _, h => by simp at h
  | (k0, x) :: rest, k, v, h => by
    rw [Json.depthKvs]
    rcases List.mem_cons.1 h with h | h
    · injection h with _ h2
      subst h2
      exact Nat.le_max_left _ _
    · exact le_trans (depth_le_depthKvs rest k v h) (Nat.le_max_right _ _)

theorem isTree_of_mem : ∀ (kvs : List (String × Json)) (k : String) (v : Json),
    Json.isTreeKvs kvs = true → (k, v) ∈ kvs → v.isTree = true
  | [], _, _, _, h => by simp at h
  | (k0, x) :: rest, k, v, ht, h => by
    rw [Json.isTreeKvs, Bool.and_eq_true] at ht
    rcases List.mem_cons.1 h with h | h
    · injection h with _ h2
      subst h2
      exact ht.1
    · exact isTree_of_mem rest k v ht.2 h

theorem wf_of_mem : ∀ (kvs : List (String × Json)) (k : String) (v : Json),
    Json.wfKvs kvs = true → (k, v) ∈ kvs → v.wf = true
  | [], _, _, _, h => by simp at h
  | (k0, x) :: rest, k, v, ht, h => by
    rw [Json.wfKvs, Bool.and_eq_true] at ht
    rcases List.mem_cons.1 h with h | h
    · injection h with _ h2
      subst h2
      exact ht.1
    · exact wf_of_mem rest k v ht.2 h

theorem wf_obj (kvs : List (String × Json)) :
    (Json.obj kvs).wf = true ↔ SortedKeys kvs ∧ Json.wfKvs kvs = true := by
  rw [Json.wf, Bool.and_eq_true, keysSorted_iff]
  rfl

theorem isShortTree_isTree : ∀ (n : Nat) (a : Json), a.depth < n → a.isShortTree = true →
    a.isTree = true
  | 0, _, h, _ => by omega
  | n + 1, a, hd, h => by
    cases a with
    | null => simp [Json.isShortTree] at h
    | bool _ => rfl
    | num _ => rfl
    | str _ => rfl
    | arr _ => simp [Json.isShortTree] at h
    | obj kvs =>
      rw [Json.isShortTree] at h
      rw [Json.isTree]
      rw [Json.depth] at hd
      have hd2 : Json.depthKvs kvs < n := by omega
      clear hd
      induction kvs with
      | nil => rfl
      | cons kv rest ih =>
        obtain ⟨k, v⟩ := kv
        rw [Json.isShortTreeKvs, Bool.and_eq_true] at h
        rw [Json.depthKvs] at hd2
        rw [Json.isTreeKvs, Bool.and_eq_true]
        have h1 : v.depth < n := lt_of_le_of_lt (Nat.le_max_left _ _) hd2
        have h2 : Json.depthKvs rest < n := lt_of_le_of_lt (Nat.le_max_right _ _) hd2
        exact ⟨isShortTree_isTree n v h1 h.1, ih h.2 h2⟩

/-! ## Round trip of leaf deltas -/

theorem textDelta_some (o : Options) (a b d : Json) (h : textDelta o a b = some d) :
    ∃ s1 s2, a = Json.str s1 ∧ b = Json.str s2 ∧ o.TextDiff = TEXTDIFF_EFFICIENT ∧
      (o.MinEfficientTextDiffLength < s1.length ∨ o.MinEfficientTextDiffLength < s2.length) ∧
      d = Json.arr [Json.str (PatchesToText (CreatePatches s1 s2)), Json.num 0,
        Json.num OP_TEXTDIFF] := by
  unfold textDelta at h
  split_ifs at h with h1
  split at h
  · rename_i s1 s2
    split_ifs at h with h2
    simp at h
    exact ⟨s1, s2, rfl, rfl, h1, h2, h.2.symm⟩
  · simp at h

theorem PatchN_arr (n : Nat) (left : Json) (xs : List Json) :
    PatchN (n + 1) left (Json.arr xs) = leafPatch left xs := rfl

theorem UnpatchN_arr (n : Nat) (right : Json) (xs : List Json) :
    UnpatchN (n + 1) right (Json.arr xs) = leafUnpatch right xs := rfl

theorem PatchN_null (n : Nat) (left : Json) : PatchN (n + 1) left Json.null = .ok left := rfl

theorem UnpatchN_null (n : Nat) (right : Json) :
    UnpatchN (n + 1) right Json.null = .ok right := rfl

/-- A delta written by the last part of `Diff` is undone and redone by
`Unpatch` and `Patch`, whatever the two values are. -/
theorem leaf_round_trip (o : Options) (ho : o.ObjectHash = none) (a b : Json) :
    (leafDiff o a b = Json.null → a = b) ∧
    (∀ n, 0 < n → PatchN n a (leafDiff o a b) = .ok b ∧
      UnpatchN n b (leafDiff o a b) = .ok a) := by
  cases h : textDelta o a b with
  | some d =>
    obtain ⟨s1, s2, rfl, rfl, h1, h2, rfl⟩ := textDelta_some o a b d h
    have hd : leafDiff o (Json.str s1) (Json.str s2) =
        Json.arr [Json.str (PatchesToText (CreatePatches s1 s2)), Json.num 0,
          Json.num OP_TEXTDIFF] := by
      unfold leafDiff; rw [h]
    rw [hd]
    refine ⟨fun hh => by simp at hh, ?_⟩
    intro n hn
    obtain ⟨n, rfl⟩ : ∃ k, n = k + 1 := ⟨n - 1, by omega⟩
    rw [PatchN_arr, UnpatchN_arr]
    exact leafPatch_text s1 s2 (by omega)
  | none =>
    have hm : ItemMatch.Match o.ObjectHash a b = decide (a = b) := by
      rw [ho]; rfl
    have hd : leafDiff o a b = if a = b then Json.null else Json.arr [a, b] := by
      unfold leafDiff; rw [h]
      simp only [hm]
      by_cases hab : a = b <;> simp [hab]
    rw [hd]
    by_cases hab : a = b
    · subst hab
      rw [if_pos rfl]
      refine ⟨fun _ => rfl, ?_⟩
      intro n hn
      obtain ⟨n, rfl⟩ : ∃ k, n = k + 1 := ⟨n - 1, by omega⟩
      exact ⟨rfl, rfl⟩
    · simp only [if_neg hab]
      refine ⟨fun hh => by simp at hh, ?_⟩
      intro n hn
      obtain ⟨n, rfl⟩ : ∃ k, n = k + 1 := ⟨n - 1, by omega⟩
      exact ⟨rfl, rfl⟩

/-! ## Round trip of object trees -/

theorem is_null_iff (d : Json) : d.is_null = true ↔ d = Json.null := by
  cases d <;> simp [Json.is_null]

theorem DiffN_obj (o : Options) (m : Nat) (l r : List (String × Json)) :
    DiffN o (m + 1) (Json.obj l) (Json.obj r) = ObjectDiff (DiffN o m) l r := rfl

theorem DiffN_leaf_of_tree (o : Options) (m : Nat) (a b : Json)
    (ha : a.isTree = true) (hb : b.isTree = true)
    (hab : a.is_object = false ∨ b.is_object = false) :
    DiffN o (m + 1) a b = leafDiff o a b := by
  cases a <;> cases b <;> simp [Json.isTree, Json.is_object] at ha hb hab <;> rfl

theorem PatchN_obj_obj (n : Nat) (l d : List (String × Json)) :
    PatchN (n + 1) (Json.obj l) (Json.obj d) = objectPatchLoop (PatchN n) (Json.obj l) d := rfl

theorem UnpatchN_obj_obj (n : Nat) (r d : List (String × Json)) :
    UnpatchN (n + 1) (Json.obj r) (Json.obj d) =
      objectUnpatchLoop (UnpatchN n) (Json.obj r) d := rfl

/-- The round trip of two objects, given the round trip of their members:
`rt a b d` says that the child delta `d` of `a` and `b` behaves. -/
theorem object_round_trip (diff : Json → Json → Json) (n : Nat)
    (l r : List (String × Json)) (hl : SortedKeys l) (hr : SortedKeys r)
    (hshape : ∀ a b, isDeltaShape (diff a b))
    (hnull : ∀ k a b, find l k = some a → find r k = some b → diff a b = Json.null → a = b)
    (hrt : ∀ k a b, find l k = some a → find r k = some b → (diff a b).depth < n →
      PatchN n a (diff a b) = .ok b ∧ UnpatchN n b (diff a b) = .ok a) :
    (ObjectDiff diff l r = Json.null → l = r) ∧
    ((ObjectDiff diff l r).depth < n + 1 →
      PatchN (n + 1) (Json.obj l) (ObjectDiff diff l r) = .ok (Json.obj r) ∧
      UnpatchN (n + 1) (Json.obj r) (ObjectDiff diff l r) = .ok (Json.obj l)) := by
  obtain ⟨M, hMs, hMf, hMeq⟩ := ObjectDiff_spec diff l r hl hr
  have hequal : ∀ k, childDelta diff (find l k) (find r k) = none → find l k = find r k := by
    intro k hk
    cases hlk : find l k with
    | none =>
      cases hrk : find r k with
      | none => rfl
      | some b => rw [hlk, hrk] at hk; simp [childDelta] at hk
    | some a =>
      cases hrk : find r k with
      | none => rw [hlk, hrk] at hk; simp [childDelta] at hk
      | some b =>
        rw [hlk, hrk] at hk
        simp only [childDelta] at hk
        split_ifs at hk with h0
        rw [hnull k a b hlk hrk ((is_null_iff _).1 h0)]
  have hpart1 : ObjectDiff diff l r = Json.null → l = r := by
    intro h0
    rw [hMeq] at h0
    split_ifs at h0 with hE
    apply SortedKeys_ext l r hl hr
    intro k
    apply hequal
    rw [← hMf k]
    have : M = [] := by simpa using hE
    rw [this]; rfl
  refine ⟨hpart1, ?_⟩
  intro hdepth
  by_cases hE : M.isEmpty = true
  · have hd0 : ObjectDiff diff l r = Json.null := by rw [hMeq, if_pos hE]
    have hlr := hpart1 hd0
    rw [hd0, hlr]
    exact ⟨rfl, rfl⟩
  · have hd0 : ObjectDiff diff l r = Json.obj M := by rw [hMeq, if_neg hE]
    rw [hd0] at hdepth ⊢
    rw [Json.depth] at hdepth
    have hn : Json.depthKvs M < n := by omega
    rw [PatchN_obj_obj, UnpatchN_obj_obj]
    constructor
    · apply objectPatchLoop_spec (PatchN n) r hr M l hMs hl
      · intro k v hm
        have hf : find M k = some v := find_of_mem M k v hMs hm
        rw [hMf k] at hf
        have hdv : v.depth < n := lt_of_le_of_lt (depth_le_depthKvs M k v hm) hn
        obtain ⟨n2, rfl⟩ : ∃ j, n = j + 1 := ⟨n - 1, by omega⟩
        cases hlk : find l k with
        | none =>
          cases hrk : find r k with
          | none => rw [hlk, hrk] at hf; simp [childDelta] at hf
          | some b =>
            rw [hlk, hrk] at hf
            simp only [childDelta, Option.some.injEq] at hf
            subst hf
            exact Or.inr ⟨rfl, b, rfl, rfl⟩
        | some a =>
          cases hrk : find r k with
          | none =>
            rw [hlk, hrk] at hf
            simp only [childDelta, Option.some.injEq] at hf
            subst hf
            exact Or.inl ⟨rfl, rfl⟩
          | some b =>
            rw [hlk, hrk] at hf
            simp only [childDelta] at hf
            split_ifs at hf with h0
            simp only [Option.some.injEq] at hf
            subst hf
            exact Or.inr ⟨isDeletedDelta_of_shape _ (hshape a b), b,
              (hrt k a b hlk hrk hdv).1, rfl⟩
      · intro k hk
        apply hequal
        rw [← hMf k]
        exact find_eq_none M k hk
    · apply objectUnpatchLoop_spec (UnpatchN n) l hl M r hMs hr
      · intro k v hm
        have hf : find M k = some v := find_of_mem M k v hMs hm
        rw [hMf k] at hf
        have hdv : v.depth < n := lt_of_le_of_lt (depth_le_depthKvs M k v hm) hn
        obtain ⟨n2, rfl⟩ : ∃ j, n = j + 1 := ⟨n - 1, by omega⟩
        cases hlk : find l k with
        | none =>
          cases hrk : find r k with
          | none => rw [hlk, hrk] at hf; simp [childDelta] at hf
          | some b =>
            rw [hlk, hrk] at hf
            simp only [childDelta, Option.some.injEq] at hf
            subst hf
            exact Or.inl ⟨rfl, rfl⟩
        | some a =>
          cases hrk : find r k with
          | none =>
            rw [hlk, hrk] at hf
            simp only [childDelta, Option.some.injEq] at hf
            subst hf
            exact Or.inr ⟨rfl, a, rfl, rfl⟩
          | some b =>
            rw [hlk, hrk] at hf
            simp only [childDelta] at hf
            split_ifs at hf with h0
            simp only [Option.some.injEq] at hf
            subst hf
            exact Or.inr ⟨isArrayOfSize_one_of_shape _ (hshape a b), a,
              (hrt k a b hlk hrk hdv).2, rfl⟩
      · intro k hk
        symm
        apply hequal
        rw [← hMf k]
        exact find_eq_none M k hk

/-- Round trip of values without null and without arrays, for any budget of
`Diff` above the depth of the left value and any budget of `Patch`/`Unpatch`
above the depth of the delta. -/
theorem tree_round_trip (o : Options) (ho : o.ObjectHash = none) :
    ∀ (m : Nat) (a b : Json), a.depth < m → a.isTree = true → b.isTree = true →
      a.wf = true → b.wf = true →
      (DiffN o m a b = Json.null → a = b) ∧
      (∀ n, (DiffN o m a b).depth < n →
        PatchN n a (DiffN o m a b) = .ok b ∧ UnpatchN n b (DiffN o m a b) = .ok a)
  | 0, _, _, h, _, _, _, _ => by omega
  | m + 1, a, b, hd, hta, htb, hwa, hwb => by
    by_cases hobj : a.is_object = true ∧ b.is_object = true
    · cases a with
      | obj l =>
        cases b with
        | obj r =>
          rw [DiffN_obj]
          rw [wf_obj] at hwa hwb
          rw [Json.isTree] at hta htb
          rw [Json.depth] at hd
          have hmem : ∀ k a b, find l k = some a → find r k = some b →
              a.depth < m ∧ a.isTree = true ∧ b.isTree = true ∧ a.wf = true ∧ b.wf = true := by
            intro k a b h1 h2
            have m1 := find_mem l k a h1
            have m2 := find_mem r k b h2
            exact ⟨lt_of_le_of_lt (depth_le_depthKvs l k a m1) (by omega),
              isTree_of_mem l k a hta m1, isTree_of_mem r k b htb m2,
              wf_of_mem l k a hwa.2 m1, wf_of_mem r k b hwb.2 m2⟩
          have key : ∀ n, (ObjectDiff (DiffN o m) l r = Json.null → l = r) ∧
              ((ObjectDiff (DiffN o m) l r).depth < n + 1 →
                PatchN (n + 1) (Json.obj l) (ObjectDiff (DiffN o m) l r) = .ok (Json.obj r) ∧
                UnpatchN (n + 1) (Json.obj r) (ObjectDiff (DiffN o m) l r) =
                  .ok (Json.obj l)) := by
            intro n
            apply object_round_trip (DiffN o m) n l r hwa.1 hwb.1 (DiffN_shape o m)
            · intro k a b h1 h2
              obtain ⟨e1, e2, e3, e4, e5⟩ := hmem k a b h1 h2
              exact (tree_round_trip o ho m a b e1 e2 e3 e4 e5).1
            · intro k a b h1 h2 h3
              obtain ⟨e1, e2, e3, e4, e5⟩ := hmem k a b h1 h2
              exact (tree_round_trip o ho m a b e1 e2 e3 e4 e5).2 n h3
          refine ⟨fun h0 => by rw [(key 0).1 h0], ?_⟩
          intro n hn
          obtain ⟨n2, rfl⟩ : ∃ j, n = j + 1 := ⟨n - 1, by omega⟩
          exact (key n2).2 hn
        | _ => simp [Json.is_object] at hobj
      | _ => simp [Json.is_object] at hobj
    · have hab : a.is_object = false ∨ b.is_object = false := by
        cases h1 : a.is_object <;> cases h2 : b.is_object <;> simp_all
      rw [DiffN_leaf_of_tree o m a b hta htb hab]
      obtain ⟨h1, h2⟩ := leaf_round_trip o ho a b
      exact ⟨h1, fun n hn => h2 n (by omega)⟩

/-! ## The recursion budget of `Diff` -/

theorem foldl_congr_mem {α β : Type} (f g : β → α → β) :
    ∀ (l : List α) (acc : β), (∀ x ∈ l, ∀ b, f b x = g b x) → l.foldl f acc = l.foldl g acc
  | [], _, _ => rfl
  | x :: rest, acc, h => by
    simp only [List.foldl_cons]
    rw [h x (List.mem_cons_self _ _) acc]
    exact foldl_congr_mem f g rest _ (fun y hy => h y (List.mem_cons_of_mem _ hy))

theorem ObjectDiff_congr (f g : Json → Json → Json) (l r : List (String × Json))
    (h : ∀ k x, (k, x) ∈ l → ∀ y, f x y = g x y) : ObjectDiff f l r = ObjectDiff g l r := by
  unfold ObjectDiff
  have : l.foldl (objectDiffLeft f r) [] = l.foldl (objectDiffLeft g r) [] := by
    apply foldl_congr_mem
    intro m hm acc
    obtain ⟨k, x⟩ := m
    unfold objectDiffLeft
    cases find r k with
    | none => rfl
    | some y => simp only [h k x hm y]
  rw [this]

theorem depth_getD_le : ∀ (l : List Json) (i : Nat), (l.getD i Json.null).depth ≤ Json.depthList l
  | [], i => by simp [Json.depth]
  | x :: rest, 0 => by
    rw [Json.depthList]
    exact Nat.le_max_left _ _
  | x :: rest, i + 1 => by
    rw [Json.depthList]
    exact le_trans (depth_getD_le rest i) (Nat.le_max_right _ _)

theorem headLoop_congr (h : Option (Json → String)) (f g : Json → Json → Json)
    (l r : List Json) (hfg : ∀ x y, x.depth ≤ Json.depthList l → f x y = g x y) :
    ∀ (fuel c : Nat) (res : List (String × Json)),
      headLoop h f l r fuel c res = headLoop h g l r fuel c res
  | 0, _, _ => rfl
  | fuel + 1, c, res => by
    unfold headLoop
    rw [hfg _ _ (depth_getD_le l c)]
    split_ifs
    · exact headLoop_congr h f g l r hfg fuel _ _
    · rfl

theorem tailLoop_congr (h : Option (Json → String)) (f g : Json → Json → Json)
    (l r : List Json) (ch : Nat) (hfg : ∀ x y, x.depth ≤ Json.depthList l → f x y = g x y) :
    ∀ (fuel c : Nat) (res : List (String × Json)),
      tailLoop h f l r ch fuel c res = tailLoop h g l r ch fuel c res
  | 0, _, _ => rfl
  | fuel + 1, c, res => by
    unfold tailLoop
    simp only []
    rw [hfg _ _ (depth_getD_le l _)]
    split_ifs
    · exact tailLoop_congr h f g l r ch hfg fuel _ _
    · rfl

theorem markAddition_congr (f g : Json → Json → Json) (l r : List Json) (ch : Nat)
    (lcs : LcsResult) (hfg : ∀ x y, x.depth ≤ Json.depthList l → f x y = g x y)
    (res : List (String × Json)) (i : Nat) :
    markAddition f l r ch lcs res i = markAddition g l r ch lcs res i := by
  unfold markAddition
  simp only []
  rw [hfg _ _ (depth_getD_le l _)]

theorem ArrayDiff_congr (h : Option (Json → String)) (f g : Json → Json → Json)
    (l r : List Json) (hfg : ∀ x y, x.depth ≤ Json.depthList l → f x y = g x y) :
    ArrayDiff h f l r = ArrayDiff h g l r := by
  unfold ArrayDiff
  simp only [headLoop_congr h f g l r hfg, tailLoop_congr h f g l r _ hfg]
  have hm : markAddition f l r = markAddition g l r := by
    funext ch lcs res i
    exact markAddition_congr f g l r ch lcs hfg res i
  rw [hm]

theorem nullToEmpty_depth (a : Json) : (nullToEmpty a).depth = a.depth := by
  cases a <;> rfl

/-- The result of `DiffN` does not depend on the budget once the budget
exceeds the depth of the left value. -/
theorem DiffN_stable (o : Options) : ∀ (n : Nat) (a b : Json), a.depth < n →
    DiffN o n a b = DiffN o (a.depth + 1) a b := by
  intro n
  induction n using Nat.strong_induction_on with
  | _ n ih =>
    intro a b hd
    obtain ⟨k, rfl⟩ : ∃ j, n = j + 1 := ⟨n - 1, by omega⟩
    have hda := nullToEmpty_depth a
    unfold DiffN
    split
    · rename_i l r hl hr
      rw [hl, Json.depth] at hda
      apply ObjectDiff_congr
      intro key x hx y
      have hx2 := depth_le_depthKvs l key x hx
      rw [ih k (by omega) x y (by omega), ih a.depth (by omega) x y (by omega)]
    · rename_i l r hl hr
      rw [hl, Json.depth] at hda
      split_ifs
      · apply ArrayDiff_congr
        intro x y hx
        rw [ih k (by omega) x y (by omega), ih a.depth (by omega) x y (by omega)]
      · rfl
    · rfl

theorem DiffN_eq_Diff (o : Options) (n : Nat) (a b : Json) (h : a.depth < n) :
    DiffN o n a b = Diff o a b := DiffN_stable o n a b h

/-! ## Claims on round trips, reflexivity and objects -/

theorem Diff_obj (o : Options) (l r : List (String × Json)) :
    Diff o (Json.obj l) (Json.obj r) = ObjectDiff (DiffN o (Json.depthKvs l + 1)) l r := rfl

theorem childDelta_congr (f g : Json → Json → Json) (x y : Option Json)
    (h : ∀ a b, x = some a → y = some b → f a b = g a b) :
    childDelta f x y = childDelta g x y := by
  cases x with
  | none => cases y <;> rfl
  | some a =>
    cases y with
    | none => rfl
    | some b => simp only [childDelta, h a b rfl rfl]

/-- C1, counterexample: with default options the delta of the number 5 and
null is the Replaced delta `[5, ""]`, so `Patch` returns the empty string and
not null. -/
theorem C1_counterexample :
    Patch (Json.num 5) (Diff defaultOptions (Json.num 5) Json.null) = .ok (Json.str "") ∧
    Patch (Json.num 5) (Diff defaultOptions (Json.num 5) Json.null) ≠ .ok Json.null := by
  decide

/-- C1, amended: for all well-formed values `L` and `R` built from objects,
booleans, numbers and strings of any length (no null and no array at any
depth), with default options `Patch L (Diff L R)` returns `R`. -/
theorem C1_round_trip_forward (L R : Json) (hL : L.isTree = true) (hR : R.isTree = true)
    (hwL : L.wf = true) (hwR : R.wf = true) :
    Patch L (Diff defaultOptions L R) = .ok R :=
  ((tree_round_trip defaultOptions rfl (L.depth + 1) L R (Nat.lt_succ_self _) hL hR hwL hwR).2
    _ (Nat.lt_succ_self _)).1

theorem C1_round_trip_forward_witness :
    Patch (Json.obj [("a", Json.num 1), ("s", Json.str longText)])
      (Diff defaultOptions (Json.obj [("a", Json.num 1), ("s", Json.str longText)])
        (Json.obj [("b", Json.obj [("c", Json.bool true)]), ("s", Json.str "x")])) =
      .ok (Json.obj [("b", Json.obj [("c", Json.bool true)]), ("s", Json.str "x")]) :=
  C1_round_trip_forward _ _ (by decide) (by decide) (by decide) (by decide)

/-- C2, counterexample: with default options the delta of null and the number
5 is the Replaced delta `["", 5]`, so `Unpatch` returns the empty string and
not null. -/
theorem C2_counterexample :
    Unpatch (Json.num 5) (Diff defaultOptions Json.null (Json.num 5)) = .ok (Json.str "") ∧
    Unpatch (Json.num 5) (Diff defaultOptions Json.null (Json.num 5)) ≠ .ok Json.null := by
  decide

/-- C2, amended: for all well-formed values `L` and `R` built from objects,
booleans, numbers and strings of any length (no null and no array at any
depth), with default options `Unpatch R (Diff L R)` returns `L`. -/
theorem C2_round_trip_backward (L R : Json) (hL : L.isTree = true) (hR : R.isTree = true)
    (hwL : L.wf = true) (hwR : R.wf = true) :
    Unpatch R (Diff defaultOptions L R) = .ok L :=
  ((tree_round_trip defaultOptions rfl (L.depth + 1) L R (Nat.lt_succ_self _) hL hR hwL hwR).2
    _ (Nat.lt_succ_self _)).2

theorem C2_round_trip_backward_witness :
    Unpatch (Json.obj [("b", Json.obj [("c", Json.bool true)]), ("s", Json.str "x")])
      (Diff defaultOptions (Json.obj [("a", Json.num 1), ("s", Json.str longText)])
        (Json.obj [("b", Json.obj [("c", Json.bool true)]), ("s", Json.str "x")])) =
      .ok (Json.obj [("a", Json.num 1), ("s", Json.str longText)]) :=
  C2_round_trip_backward _ _ (by decide) (by decide) (by decide) (by decide)

/-- C3, failing input: with default options the delta of a string of 51
characters and itself is a TextDiff 3-array, not null. -/
theorem C3_long_string_self_diff :
    Diff defaultOptions (Json.str longText) (Json.str longText) =
      Json.arr [Json.str (PatchesToText (CreatePatches longText longText)), Json.num 0,
        Json.num OP_TEXTDIFF] ∧
    Diff defaultOptions (Json.str longText) (Json.str longText) ≠ Json.null := by
  decide

/-- C4, counterexample: with default options the delta of null and a string
of 51 characters is a TextDiff delta, and `Patch` of null with it raises
"Invalid patch object". -/
theorem C4_counterexample :
    Patch Json.null (Diff defaultOptions Json.null (Json.str longText)) =
      .error Err.invalidPatchObject := by
  decide

/-- C4, amended: for all well-formed values `L` and `R` built from objects,
booleans, numbers and strings of any length (no null and no array at any
depth), with default options `Patch L (Diff L R)` and `Unpatch R (Diff L R)`
both return a value. -/
theorem C4_no_error_on_own_delta (L R : Json) (hL : L.isTree = true) (hR : R.isTree = true)
    (hwL : L.wf = true) (hwR : R.wf = true) :
    (∃ v, Patch L (Diff defaultOptions L R) = .ok v) ∧
    (∃ w, Unpatch R (Diff defaultOptions L R) = .ok w) :=
  have h := (tree_round_trip defaultOptions rfl (L.depth + 1) L R (Nat.lt_succ_self _)
    hL hR hwL hwR).2 _ (Nat.lt_succ_self _)
  ⟨⟨R, h.1⟩, ⟨L, h.2⟩⟩

theorem C4_no_error_on_own_delta_witness :
    (∃ v, Patch (Json.obj [("a", Json.num 1)])
      (Diff defaultOptions (Json.obj [("a", Json.num 1)]) (Json.str longText)) = .ok v) ∧
    (∃ w, Unpatch (Json.str longText)
      (Diff defaultOptions (Json.obj [("a", Json.num 1)]) (Json.str longText)) = .ok w) :=
  C4_no_error_on_own_delta _ _ (by decide) (by decide) (by decide) (by decide)

/-- C6: for every value `L`, `Patch L null` and `Unpatch L null` return `L`. -/
theorem C6_null_identity (L : Json) :
    Patch L Json.null = .ok L ∧ Unpatch L Json.null = .ok L :=
  ⟨rfl, rfl⟩

/-- C7: for all objects `L` and `R` (maps with ascending keys) and all
options, `Diff L R` is null when the set of per-key members is empty and is
otherwise the object with exactly these members: `[L[k], 0, 0]` for a key only
in `L`, `[R[k]]` for a key only in `R`, and `Diff L[k] R[k]` for a key in both
whose child delta is not null. -/
theorem C7_object_diff_per_key (o : Options) (l r : List (String × Json))
    (hl : keysSorted (l.map Prod.fst) = true) (hr : keysSorted (r.map Prod.fst) = true) :
    ∃ members, keysSorted (members.map Prod.fst) = true ∧
      (∀ k, find members k = childDelta (Diff o) (find l k) (find r k)) ∧
      Diff o (Json.obj l) (Json.obj r) =
        if members.isEmpty then Json.null else Json.obj members := by
  rw [keysSorted_iff] at hl hr
  obtain ⟨M, h1, h2, h3⟩ := ObjectDiff_spec (DiffN o (Json.depthKvs l + 1)) l r hl hr
  refine ⟨M, (keysSorted_iff _).2 h1, ?_, ?_⟩
  · intro k
    rw [h2 k]
    apply childDelta_congr
    intro a b hlk hrk
    exact DiffN_eq_Diff o _ a b
      (Nat.lt_succ_of_le (depth_le_depthKvs l k a (find_mem l k a hlk)))
  · rw [Diff_obj, h3]

theorem C7_object_diff_per_key_witness :
    ∃ members, keysSorted (members.map Prod.fst) = true ∧
      (∀ k, find members k = childDelta (Diff defaultOptions)
        (find [("a", Json.num 1), ("b", Json.num 2)] k)
        (find [("b", Json.num 3), ("c", Json.num 4)] k)) ∧
      Diff defaultOptions (Json.obj [("a", Json.num 1), ("b", Json.num 2)])
          (Json.obj [("b", Json.num 3), ("c", Json.num 4)]) =
        if members.isEmpty then Json.null else Json.obj members :=
  C7_object_diff_per_key defaultOptions _ _ (by decide) (by decide)

/-- C8, failing input: with default options, for the object `{"k": s}` with
`s` a string of 51 characters on both sides, the delta has a member `k`. -/
theorem C8_unchanged_long_string_member :
    Diff defaultOptions (Json.obj [("k", Json.str longText)])
        (Json.obj [("k", Json.str longText)]) =
      Json.obj [("k", Json.arr [Json.str (PatchesToText (CreatePatches longText longText)),
        Json.num 0, Json.num OP_TEXTDIFF])] := by
  decide

/-- The text delta of an unchanged long string shows in an append as well:
with default options, for `L = [s]` with `s` a string of 51 characters and
`X = [1]`, the delta of `L` and `L ++ X` has a member `"0"` besides `"_t"` and
`"1"`. -/
theorem append_after_long_string :
    Diff defaultOptions (Json.arr [Json.str longText])
        (Json.arr ([Json.str longText] ++ [Json.num 1])) =
      Json.obj [("0", Json.arr [Json.str (PatchesToText (CreatePatches longText longText)),
          Json.num 0, Json.num OP_TEXTDIFF]),
        ("1", Json.arr [Json.num 1]), ("_t", Json.str "a")] := by
  decide

/-- The text delta of an unchanged long string shows in a removal as well:
with default options, for `L = [s]` with `s` a string of 51 characters and
`X = [1]`, the delta of `L ++ X` and `L` has a member `"0"` besides `"_t"` and
`"_1"`. -/
theorem removal_after_long_string :
    Diff defaultOptions (Json.arr ([Json.str longText] ++ [Json.num 1]))
        (Json.arr [Json.str longText]) =
      Json.obj [("0", Json.arr [Json.str (PatchesToText (CreatePatches longText longText)),
          Json.num 0, Json.num OP_TEXTDIFF]),
        ("_1", Json.arr [Json.num 1, Json.num 0, Json.num 0]), ("_t", Json.str "a")] := by
  decide

/-- C14: for all well-formed values `L` and `R` built only from objects,
numbers, booleans and strings of at most 50 characters, the delta
`d = Diff L R` (default options) satisfies `Patch L d = R` and
`Unpatch R d = L`. -/
theorem C14_object_trees_round_trip (L R : Json) (hL : L.isShortTree = true)
    (hR : R.isShortTree = true) (hwL : L.wf = true) (hwR : R.wf = true) :
    Patch L (Diff defaultOptions L R) = .ok R ∧ Unpatch R (Diff defaultOptions L R) = .ok L :=
  (tree_round_trip defaultOptions rfl (L.depth + 1) L R (Nat.lt_succ_self _)
    (isShortTree_isTree _ L (Nat.lt_succ_self _) hL)
    (isShortTree_isTree _ R (Nat.lt_succ_self _) hR) hwL hwR).2 _ (Nat.lt_succ_self _)

theorem C14_object_trees_round_trip_witness :
    Patch (Json.obj [("a", Json.obj [("x", Json.num 1), ("y", Json.str "p")]), ("b", Json.bool true)])
      (Diff defaultOptions
        (Json.obj [("a", Json.obj [("x", Json.num 1), ("y", Json.str "p")]), ("b", Json.bool true)])
        (Json.obj [("a", Json.obj [("x", Json.num 2), ("z", Json.str "q")]), ("c", Json.num 0)])) =
      .ok (Json.obj [("a", Json.obj [("x", Json.num 2), ("z", Json.str "q")]), ("c", Json.num 0)]) ∧
    Unpatch (Json.obj [("a", Json.obj [("x", Json.num 2), ("z", Json.str "q")]), ("c", Json.num 0)])
      (Diff defaultOptions
        (Json.obj [("a", Json.obj [("x", Json.num 1), ("y", Json.str "p")]), ("b", Json.bool true)])
        (Json.obj [("a", Json.obj [("x", Json.num 2), ("z", Json.str "q")]), ("c", Json.num 0)])) =
      .ok (Json.obj [("a", Json.obj [("x", Json.num 1), ("y", Json.str "p")]), ("b", Json.bool true)]) :=
  C14_object_trees_round_trip _ _ (by decide) (by decide) (by decide) (by decide)

/-- C15, failing input: with default options and no ObjectHash, for
`L = [1, {"a": 1}]` and `R = [2, {"a": 2}]` the modification recorded at index
1 is skipped by `Patch`, which returns `[2, {"a": 1}]`, and by `Unpatch`,
which returns `[1, {"a": 2}]`. -/
theorem C15_modification_after_removal :
    Patch (Json.arr [Json.num 1, Json.obj [("a", Json.num 1)]])
      (Diff defaultOptions (Json.arr [Json.num 1, Json.obj [("a", Json.num 1)]])
        (Json.arr [Json.num 2, Json.obj [("a", Json.num 2)]])) =
      .ok (Json.arr [Json.num 2, Json.obj [("a", Json.num 1)]]) ∧
    Unpatch (Json.arr [Json.num 2, Json.obj [("a", Json.num 2)]])
      (Diff defaultOptions (Json.arr [Json.num 1, Json.obj [("a", Json.num 1)]])
        (Json.arr [Json.num 2, Json.obj [("a", Json.num 2)]])) =
      .ok (Json.arr [Json.num 1, Json.obj [("a", Json.num 2)]]) := by
  decide

/-! ## Array index keys -/

theorem digitVal_digitChar (d : Nat) (h : d < 10) : digitVal (Nat.digitChar d) = some d := by
  interval_cases d <;> decide

theorem isDigit_digitChar (d : Nat) (h : d < 10) : (Nat.digitChar d).isDigit = true := by
  interval_cases d <;> decide

theorem takeDigits_digitChar (d : Nat) (h : d < 10) (rest : List Char) (acc cnt : Nat) :
    takeDigits 10 (Nat.digitChar d :: rest) acc cnt = takeDigits 10 rest (acc * 10 + d) (cnt + 1) := by
  rw [takeDigits, digitVal_digitChar d h]
  simp [h]

/-- Reading back the digits that `Nat.toDigitsCore` writes in front of `ds`. -/
theorem takeDigits_toDigitsCore : ∀ (fuel n : Nat) (ds : List Char) (acc cnt : Nat), n < fuel →
    ∃ len, 0 < len ∧
      takeDigits 10 (Nat.toDigitsCore 10 fuel n ds) acc cnt =
        takeDigits 10 ds (acc * 10 ^ len + n) (cnt + len)
  | 0, _, _, _, _, h => by omega
  | fuel + 1, n, ds, acc, cnt, h => by
    unfold Nat.toDigitsCore
    simp only []
    have hmod : n % 10 < 10 := Nat.mod_lt _ (by decide)
    split_ifs with h0
    · refine ⟨1, by decide, ?_⟩
      rw [takeDigits_digitChar _ hmod]
      have : n % 10 = n := by omega
      rw [this]; simp
    · have hlt : n / 10 < fuel := by omega
      obtain ⟨len, hlen, heq⟩ := takeDigits_toDigitsCore fuel (n / 10)
        (Nat.digitChar (n % 10) :: ds) acc cnt hlt
      refine ⟨len + 1, by omega, ?_⟩
      rw [heq, takeDigits_digitChar _ hmod]
      have e1 : (acc * 10 ^ len + n / 10) * 10 + n % 10 = acc * 10 ^ (len + 1) + n := by
        rw [pow_succ]
        have := Nat.div_add_mod n 10
        nlinarith [this]
      rw [e1, Nat.add_assoc]

theorem toDigitsCore_all_digit : ∀ (fuel n : Nat) (ds : List Char),
    (∀ c ∈ ds, c.isDigit = true) → ∀ c ∈ Nat.toDigitsCore 10 fuel n ds, c.isDigit = true
  | 0, _, ds, h => by simpa [Nat.toDigitsCore] using h
  | fuel + 1, n, ds, h => by
    unfold Nat.toDigitsCore
    have h2 : ∀ c ∈ Nat.digitChar (n % 10) :: ds, c.isDigit = true := by
      intro c hc
      rcases List.mem_cons.1 hc with rfl | hc
      · exact isDigit_digitChar _ (Nat.mod_lt _ (by decide))
      · exact h c hc
    simp only []
    split_ifs
    · exact h2
    · exact toDigitsCore_all_digit fuel _ _ h2

theorem toDigitsCore_ne_nil : ∀ (fuel n : Nat) (ds : List Char),
    Nat.toDigitsCore 10 (fuel + 1) n ds ≠ []
  | 0, n, ds => by
    unfold Nat.toDigitsCore
    simp only []
    split_ifs <;> simp [Nat.toDigitsCore]
  | fuel + 1, n, ds => by
    unfold Nat.toDigitsCore
    simp only []
    split_ifs
    · simp
    · exact toDigitsCore_ne_nil fuel _ _

/-- The decimal text of an index: a digit followed by digits. -/
theorem toString_nat_data (i : Nat) :
    ∃ c cs, (toString i).data = c :: cs ∧ ∀ x ∈ c :: cs, x.isDigit = true := by
  have h1 : (toString i).data = Nat.toDigitsCore 10 (i + 1) i [] := rfl
  have h2 := toDigitsCore_ne_nil i i []
  have h3 := toDigitsCore_all_digit (i + 1) i [] (by simp)
  rw [h1]
  cases h : Nat.toDigitsCore 10 (i + 1) i [] with
  | nil => exact absurd h h2
  | cons c cs => exact ⟨c, cs, rfl, by rw [← h]; exact h3⟩

theorem not_isSpaceC_of_isDigit (c : Char) (h : c.isDigit = true) : isSpaceC c = false := by
  unfold isSpaceC
  simp only [Bool.or_eq_false_iff, decide_eq_false_iff_not]
  refine ⟨⟨⟨⟨⟨?_, ?_⟩, ?_⟩, ?_⟩, ?_⟩, ?_⟩ <;> (rintro rfl; revert h; decide)

/-- The call `std::stoul` reads back the decimal text of an index. -/
theorem stoul_toString (i : Nat) (h : i < 18446744073709551616) :
    stoul (toString i) = .ok i := by
  obtain ⟨c, cs, hd, hall⟩ := toString_nat_data i
  have hc : c.isDigit = true := hall c (List.mem_cons_self _ _)
  have h1 : (toString i).data = Nat.toDigitsCore 10 (i + 1) i [] := rfl
  obtain ⟨len, hlen, heq⟩ := takeDigits_toDigitsCore (i + 1) i [] 0 0 (Nat.lt_succ_self _)
  have hskip : skipSpace (toString i).data = (toString i).data := by
    rw [hd, skipSpace, not_isSpaceC_of_isDigit c hc]; rfl
  have hsign : splitSign (toString i).data = (false, (toString i).data) := by
    rw [hd, splitSign]
    have e1 : c ≠ '-' := by rintro rfl; revert hc; decide
    have e2 : c ≠ '+' := by rintro rfl; revert hc; decide
    simp [e1, e2]
  unfold stoul
  simp only [hskip, hsign]
  rw [h1, heq]
  simp only [takeDigits, Nat.zero_mul, Nat.zero_add]
  rw [if_neg (by omega), if_neg (by omega)]
  rfl

theorem toString_nat_injective (i j : Nat) (hi : i < 18446744073709551616)
    (hj : j < 18446744073709551616) (h : toString i = toString j) : i = j := by
  have h1 := stoul_toString i hi
  rw [h, stoul_toString j hj] at h1
  injection h1 with h1
  exact h1.symm

/-! ## Claims on simple array mode, the text branch and the escaping -/

theorem textDelta_of_not_str (o : Options) (a b : Json) (h : a.is_string = false) :
    textDelta o a b = none := by
  unfold textDelta
  split_ifs
  · cases a <;> first | rfl | simp [Json.is_string] at h
  · rfl

theorem leafDiff_of_not_str (o : Options) (a b : Json) (h : a.is_string = false)
    (ho : a.is_object = false) :
    leafDiff o a b = if a = b then Json.null else Json.arr [a, b] := by
  unfold leafDiff
  rw [textDelta_of_not_str o a b h, Match_of_not_object _ a b ho]
  by_cases hab : a = b <;> simp [hab]

theorem Diff_arr_simple (o : Options) (h : o.ArrayDiff ≠ MODE_EFFICIENT) (l r : List Json) :
    Diff o (Json.arr l) (Json.arr r) = leafDiff o (Json.arr l) (Json.arr r) := by
  show (if o.ArrayDiff = MODE_EFFICIENT then _ else _) = _
  rw [if_neg h]

/-- C16: with `ArrayDiff = Simple`, for all arrays `L` and `R` the delta is
null when `L = R` and otherwise exactly the Replaced 2-array `[L, R]`, and
`Patch L (Diff L R)` returns `R`. -/
theorem C16_simple_array_mode (o : Options) (h : o.ArrayDiff = MODE_SIMPLE) (l r : List Json) :
    Diff o (Json.arr l) (Json.arr r) =
      (if l = r then Json.null else Json.arr [Json.arr l, Json.arr r]) ∧
    Patch (Json.arr l) (Diff o (Json.arr l) (Json.arr r)) = .ok (Json.arr r) := by
  have hne : o.ArrayDiff ≠ MODE_EFFICIENT := by rw [h]; decide
  have hd : Diff o (Json.arr l) (Json.arr r) =
      (if l = r then Json.null else Json.arr [Json.arr l, Json.arr r]) := by
    rw [Diff_arr_simple o hne, leafDiff_of_not_str o (Json.arr l) (Json.arr r) rfl rfl]
    by_cases hlr : l = r
    · simp [hlr]
    · have : Json.arr l ≠ Json.arr r := fun e => hlr (by injection e)
      simp [hlr, this]
  refine ⟨hd, ?_⟩
  rw [hd]
  by_cases hlr : l = r
  · rw [if_pos hlr, hlr]; rfl
  · rw [if_neg hlr]; rfl

theorem C16_simple_array_mode_witness :
    ({ ArrayDiff := MODE_SIMPLE } : Options).ArrayDiff = MODE_SIMPLE ∧
    Diff { ArrayDiff := MODE_SIMPLE } (Json.arr [Json.num 1, Json.num 2])
        (Json.arr [Json.num 1, Json.num 3]) =
      (if [Json.num 1, Json.num 2] = [Json.num 1, Json.num 3] then Json.null
        else Json.arr [Json.arr [Json.num 1, Json.num 2], Json.arr [Json.num 1, Json.num 3]]) ∧
    Patch (Json.arr [Json.num 1, Json.num 2])
        (Diff { ArrayDiff := MODE_SIMPLE } (Json.arr [Json.num 1, Json.num 2])
          (Json.arr [Json.num 1, Json.num 3])) =
      .ok (Json.arr [Json.num 1, Json.num 3]) :=
  ⟨rfl, C16_simple_array_mode { ArrayDiff := MODE_SIMPLE } rfl _ _⟩

/-- C18, counterexample: with default options the delta of the empty string
and a string of 51 characters is a TextDiff 3-array, although the left string
is not longer than the threshold. -/
theorem C18_counterexample :
    ¬ (50 < "".length) ∧
    Diff defaultOptions (Json.str "") (Json.str longText) =
      Json.arr [Json.str (PatchesToText (CreatePatches "" longText)), Json.num 0,
        Json.num OP_TEXTDIFF] := by
  decide

/-- C18, amended: for all values `L` and `R` and all options, `Diff L R` is a
3-array only when `TextDiff` is enabled and `L` and `R`, with null read as the
empty string, are both strings of which at least one is longer than the
threshold; and when that is not the case, no ObjectHash is set, the two values
(null read as the empty string) differ, are not both objects and are not both
arrays diffed in Efficient mode, the delta is the Replaced 2-array of the two
values. -/
theorem C18_text_diff_only_for_strings (o : Options) (L R : Json) :
    (∀ x y z, Diff o L R = Json.arr [x, y, z] →
      o.TextDiff = TEXTDIFF_EFFICIENT ∧
      ∃ s1 s2, nullToEmpty L = Json.str s1 ∧ nullToEmpty R = Json.str s2 ∧
        (o.MinEfficientTextDiffLength < s1.length ∨ o.MinEfficientTextDiffLength < s2.length)) ∧
    (o.ObjectHash = none →
      ¬ (o.TextDiff = TEXTDIFF_EFFICIENT ∧
        ∃ s1 s2, nullToEmpty L = Json.str s1 ∧ nullToEmpty R = Json.str s2 ∧
          (o.MinEfficientTextDiffLength < s1.length ∨
            o.MinEfficientTextDiffLength < s2.length)) →
      nullToEmpty L ≠ nullToEmpty R →
      ¬ ((nullToEmpty L).is_object = true ∧ (nullToEmpty R).is_object = true) →
      ¬ ((nullToEmpty L).is_array = true ∧ (nullToEmpty R).is_array = true ∧
          o.ArrayDiff = MODE_EFFICIENT) →
      Diff o L R = Json.arr [nullToEmpty L, nullToEmpty R]) := by
  have hleaf3 : ∀ a b x y z, leafDiff o a b = Json.arr [x, y, z] →
      o.TextDiff = TEXTDIFF_EFFICIENT ∧
      ∃ s1 s2, a = Json.str s1 ∧ b = Json.str s2 ∧
        (o.MinEfficientTextDiffLength < s1.length ∨
          o.MinEfficientTextDiffLength < s2.length) := by
    intro a b x y z h
    cases ht : textDelta o a b with
    | some d =>
      obtain ⟨s1, s2, h1, h2, h3, h4, _⟩ := textDelta_some o a b d ht
      exact ⟨h3, s1, s2, h1, h2, h4⟩
    | none =>
      unfold leafDiff at h
      rw [ht] at h
      simp only [] at h
      split_ifs at h
      simp at h
  have hleaf2 : ∀ a b, o.ObjectHash = none → textDelta o a b = none → a ≠ b →
      leafDiff o a b = Json.arr [a, b] := by
    intro a b ho ht hab
    unfold leafDiff
    rw [ht, ho]
    simp [ItemMatch.Match, hab]
  constructor
  · intro x y z h
    unfold Diff DiffN at h
    split at h
    · exfalso
      unfold ObjectDiff at h
      simp only [] at h
      split_ifs at h
    · split_ifs at h
      · exfalso
        unfold ArrayDiff at h
        simp only [] at h
        split_ifs at h
      · obtain ⟨_, s1, s2, h1, _⟩ := hleaf3 _ _ x y z h
        simp at h1
    · exact hleaf3 _ _ x y z h
  · intro ho hcond hne hobj harr
    have ht : textDelta o (nullToEmpty L) (nullToEmpty R) = none := by
      cases hd : textDelta o (nullToEmpty L) (nullToEmpty R) with
      | none => rfl
      | some d =>
        obtain ⟨s1, s2, h1, h2, h3, h4, _⟩ := textDelta_some o _ _ d hd
        exact absurd ⟨h3, s1, s2, h1, h2, h4⟩ hcond
    unfold Diff DiffN
    split
    · rename_i l r hl hr
      exact absurd ⟨by rw [hl]; rfl, by rw [hr]; rfl⟩ hobj
    · rename_i l r hl hr
      split_ifs with he
      · exact absurd ⟨by rw [hl]; rfl, by rw [hr]; rfl, he⟩ harr
      · rw [← hl, ← hr]
        exact hleaf2 _ _ ho ht hne
    · exact hleaf2 _ _ ho ht hne

/-! ## Claims on escaping, malformed deltas and the string entry points -/

theorem encodeChars_no_cr : ∀ s : List Char, ∀ c ∈ encodeChars s, c ≠ '\r'
  | [], c, hc => by simp [encodeChars] at hc
  | x :: rest, c, hc => by
    unfold encodeChars at hc
    rcases List.mem_append.1 hc with hc | hc
    · split_ifs at hc with h1 h2 h3
      · simp at hc; rcases hc with rfl | rfl | rfl <;> decide
      · simp at hc; rcases hc with rfl | rfl | rfl <;> decide
      · simp at hc; rcases hc with rfl | rfl | rfl <;> decide
      · simp at hc; subst hc; exact h3
    · exact encodeChars_no_cr rest c hc

/-- The characters of a concatenation of strings. -/
theorem join_data (l : List String) : (String.join l).data = l.flatMap String.data := by
  have h : ∀ (l : List String) (a : String),
      (l.foldl (fun r s => r ++ s) a).data = a.data ++ l.flatMap String.data := by
    intro l
    induction l with
    | nil => intro a; simp
    | cons x xs ih => intro a; simp [ih, String.data_append]
  simpa [String.join] using h l ""

/-- The escaped sequence is the concatenation of one piece for each character:
the three-character escape for a newline, a carriage return or a percent
sign, and the character itself for every other character. -/
theorem encodeChars_table (l : List Char) :
    encodeChars l = (l.map (fun c => if c = '\n' then "%0A" else if c = '\r' then "%0D"
      else if c = '%' then "%25" else String.singleton c)).flatMap String.data := by
  induction l with
  | nil => rfl
  | cons c rest ih =>
    unfold encodeChars
    rw [ih]
    simp only [List.map_cons, List.flatMap_cons]
    congr 1
    by_cases h1 : c = '%'
    · subst h1; decide
    · by_cases h2 : c = '\n'
      · subst h2; decide
      · by_cases h3 : c = '\r'
        · subst h3; decide
        · simp [h1, h2, h3, String.singleton]

theorem Encode_table (s : String) :
    Encode s = String.join (s.data.map (fun c => if c = '\n' then "%0A"
      else if c = '\r' then "%0D" else if c = '%' then "%25" else String.singleton c)) := by
  apply String.ext
  rw [join_data, ← encodeChars_table]
  rfl

/-- C21: for every string `s`, `Decode (Encode s)` returns `s`; `Encode s`
contains no newline and no carriage-return character; and `Encode s` is the
concatenation, character by character of `s`, of `%0A` for a newline, `%0D`
for a carriage return, `%25` for a percent sign and the character itself for
every other character. On the text of the test `TextEncoding` this gives
`Hello%0AWorld%0D%0AWith%25Percent`. -/
theorem C21_escaping_round_trip (s : String) :
    Decode (Encode s) = .ok s ∧
    (∀ c ∈ (Encode s).data, c ≠ '\n' ∧ c ≠ '\r') ∧
    Encode s = String.join (s.data.map (fun c => if c = '\n' then "%0A"
      else if c = '\r' then "%0D" else if c = '%' then "%25" else String.singleton c)) ∧
    Encode "Hello\nWorld\r\nWith%Percent" = "Hello%0AWorld%0D%0AWith%25Percent" := by
  refine ⟨?_, ?_, Encode_table s, by decide⟩
  · unfold Decode Encode
    simp only [decodeChars_encodeChars]
  · intro c hc
    exact ⟨encodeChars_no_newline _ c hc, encodeChars_no_cr _ c hc⟩

/-- C22, failing input: a 3-array delta whose third element is the integer
4294967296, which is neither 0 nor 2, is applied without error: `get<int>()`
narrows it to 0, so `Patch` returns null and `Unpatch` returns the first
element. -/
theorem C22_wrapped_op_code :
    Patch (Json.num 7) (Json.arr [Json.num 1, Json.num 0, Json.num 4294967296]) =
      .ok Json.null ∧
    Unpatch (Json.num 7) (Json.arr [Json.num 1, Json.num 0, Json.num 4294967296]) =
      .ok (Json.num 1) := by
  decide

theorem parseLines_no_header : ∀ (lines : List (List Char)) (st : ParseState),
    st.inPatch = false → (∀ line ∈ lines, line.take 2 ≠ ['@', '@']) →
    parseLines st lines = .ok st
  | [], st, _, _ => rfl
  | line :: rest, st, hin, h => by
    have h1 : parseLine st line = .ok st := by
      unfold parseLine
      rw [if_neg (h line (List.mem_cons_self _ _))]
      simp [hin]
    rw [parseLines, h1]
    exact parseLines_no_header rest st hin (fun l hl => h l (List.mem_cons_of_mem _ hl))

theorem PatchesFromText_no_header (t : String)
    (h : ∀ line ∈ getLines t.data [], line.take 2 ≠ ['@', '@']) :
    PatchesFromText t = .ok [] := by
  unfold PatchesFromText
  rw [parseLines_no_header _ {} rfl h]
  rfl

/-- C24: for every string base `s` and every TextDiff delta `[t, 0, 2]` whose
text `t` has no line starting with `@@`, `Patch s [t, 0, 2]` raises
"Invalid textline". -/
theorem C24_patch_without_header (s t : String)
    (h : ∀ line ∈ getLines t.data [], line.take 2 ≠ ['@', '@']) :
    Patch (Json.str s) (Json.arr [Json.str t, Json.num 0, Json.num OP_TEXTDIFF]) =
      .error Err.invalidTextline := by
  show leafPatch (Json.str s) [Json.str t, Json.num 0, Json.num OP_TEXTDIFF] = _
  simp [leafPatch, Json.is_number_integer, getInt, wrap32, OP_TEXTDIFF, getString,
    PatchesFromText_no_header t h]

theorem C24_patch_without_header_witness :
    (∀ line ∈ getLines "garbage\n+x".data [], line.take 2 ≠ ['@', '@']) ∧
    Patch (Json.str "abc") (Json.arr [Json.str "garbage\n+x", Json.num 0, Json.num OP_TEXTDIFF]) =
      .error Err.invalidTextline :=
  ⟨by decide, C24_patch_without_header "abc" "garbage\n+x" (by decide)⟩

/-- C25, failing input: for the string base `"abc"` and the TextDiff delta
`["garbage", 0, 2]`, whose text has no header line, `Patch` raises
"Invalid textline" but `Unpatch` returns `"abc"`. -/
theorem C25_unpatch_without_header :
    Patch (Json.str "abc") (Json.arr [Json.str "garbage", Json.num 0, Json.num OP_TEXTDIFF]) =
      .error Err.invalidTextline ∧
    Unpatch (Json.str "abc") (Json.arr [Json.str "garbage", Json.num 0, Json.num OP_TEXTDIFF]) =
      .ok (Json.str "abc") := by
  decide

/-- C27, failing input: with `DetectMove` set and the object hash `idHash`,
for `L = [A, D]` and `R = [D, A2]`, where `A2` has the hash of `A` and another
value of `v`, the delta records the change of `A` at index 1, `Patch` skips it
and returns `[D, A]`. -/
theorem C27_move_with_modification :
    Patch (Json.arr [Json.obj [("id", Json.str "a"), ("v", Json.num 1)],
        Json.obj [("id", Json.str "d")]])
      (Diff { DiffArrayOptions := { DetectMove := true }, ObjectHash := some idHash }
        (Json.arr [Json.obj [("id", Json.str "a"), ("v", Json.num 1)],
          Json.obj [("id", Json.str "d")]])
        (Json.arr [Json.obj [("id", Json.str "d")],
          Json.obj [("id", Json.str "a"), ("v", Json.num 2)]])) =
      .ok (Json.arr [Json.obj [("id", Json.str "d")],
        Json.obj [("id", Json.str "a"), ("v", Json.num 1)]]) := by
  decide

/-- C30, counterexample: with the object hash that is empty on every value,
the number 1 matches the number 1 as an array element, although both hashes
are empty. -/
theorem C30_counterexample :
    ItemMatch.MatchArrayElement (some (fun _ => "")) (Json.num 1) 0 (Json.num 1) 0 = true ∧
    ((fun _ => "") (Json.num 1) : String).isEmpty = true := by
  decide

/-- C30, amended: when an ObjectHash function is supplied, for all values
`a`, `b` and indices `ia`, `ib`, `MatchArrayElement a ia b ib` holds, for an
object `a`, if and only if the hashes of `a` and `b` are both non-empty and
equal, and for every other `a` if and only if `a = b`. -/
theorem C30_hash_identity (hash : Json → String) (a b : Json) (ia ib : Nat) :
    (a.is_object = true →
      (ItemMatch.MatchArrayElement (some hash) a ia b ib = true ↔
        ((hash a).isEmpty = false ∧ (hash b).isEmpty = false ∧ hash a = hash b))) ∧
    (a.is_object = false →
      (ItemMatch.MatchArrayElement (some hash) a ia b ib = true ↔ a = b)) := by
  constructor
  · intro h
    simp [ItemMatch.MatchArrayElement, ItemMatch.Match, h, and_assoc]
  · intro h
    simp [ItemMatch.MatchArrayElement, ItemMatch.Match, h]

/-! ## The LCS engine -/

/-- The invariant of the backtracking loop of `ComputeLcs`: what has been
collected so far lies at or beyond the current position `(i, j)`. -/
theorem lcsBacktrack_inv (h : Option (Json → String)) (left right : List Json)
    (matrix : List (List Nat)) :
    ∀ (fuel i j : Nat) (res : LcsResult), i ≤ left.length → j ≤ right.length →
      res.Sequence = res.Indices1.map (fun x => left.getD x Json.null) →
      List.Forall₂ (fun x y => ItemMatch.Match h (left.getD x Json.null)
        (right.getD y Json.null) = true) res.Indices1 res.Indices2 →
      res.Indices1.Pairwise (· < ·) → res.Indices2.Pairwise (· < ·) →
      (∀ x ∈ res.Indices1, i ≤ x ∧ x < left.length) →
      (∀ y ∈ res.Indices2, j ≤ y ∧ y < right.length) →
      let out := lcsBacktrack h left right matrix fuel i j res
      out.Sequence = out.Indices1.map (fun x => left.getD x Json.null) ∧
      List.Forall₂ (fun x y => ItemMatch.Match h (left.getD x Json.null)
        (right.getD y Json.null) = true) out.Indices1 out.Indices2 ∧
      out.Indices1.Pairwise (· < ·) ∧ out.Indices2.Pairwise (· < ·) ∧
      (∀ x ∈ out.Indices1, x < left.length) ∧
      (∀ y ∈ out.Indices2, y < right.length)
  | 0, i, j, res, _, _, h1, h2, h3, h4, h5, h6 => by
    exact ⟨h1, h2, h3, h4, fun x hx => (h5 x hx).2, fun y hy => (h6 y hy).2⟩
  | fuel + 1, i, j, res, hi, hj, h1, h2, h3, h4, h5, h6 => by
    unfold lcsBacktrack
    split_ifs with hpos hm hlt
    · apply lcsBacktrack_inv h left right matrix fuel (i - 1) (j - 1) _ (by omega) (by omega)
      · simp only [List.map_cons, h1]
      · exact List.Forall₂.cons hm h2
      · exact List.pairwise_cons.2 ⟨fun x hx => by have := (h5 x hx).1; omega, h3⟩
      · exact List.pairwise_cons.2 ⟨fun y hy => by have := (h6 y hy).1; omega, h4⟩
      · intro x hx
        rcases List.mem_cons.1 hx with rfl | hx
        · omega
        · have := h5 x hx; omega
      · intro y hy
        rcases List.mem_cons.1 hy with rfl | hy
        · omega
        · have := h6 y hy; omega
    · exact lcsBacktrack_inv h left right matrix fuel i (j - 1) res hi (by omega) h1 h2 h3 h4 h5
        (fun y hy => by have := h6 y hy; omega)
    · exact lcsBacktrack_inv h left right matrix fuel (i - 1) j res (by omega) hj h1 h2 h3 h4
        (fun x hx => by have := h5 x hx; omega) h6
    · exact ⟨h1, h2, h3, h4, fun x hx => (h5 x hx).2, fun y hy => (h6 y hy).2⟩

/-- The backtracking loop stops by itself within `i + j` iterations: a larger
budget gives the same result. -/
theorem lcsBacktrack_fuel (h : Option (Json → String)) (left right : List Json)
    (matrix : List (List Nat)) :
    ∀ (fuel i j k : Nat) (res : LcsResult), i + j ≤ fuel →
      lcsBacktrack h left right matrix (fuel + k) i j res =
        lcsBacktrack h left right matrix fuel i j res
  | 0, i, j, k, res, hf => by
    have hi : i = 0 := by omega
    cases k with
    | zero => rfl
    | succ k =>
      rw [Nat.zero_add]
      unfold lcsBacktrack
      rw [if_neg (by omega)]
  | fuel + 1, i, j, k, res, hf => by
    rw [show fuel + 1 + k = (fuel + k) + 1 by omega]
    unfold lcsBacktrack
    split_ifs with hpos hm hlt
    · exact lcsBacktrack_fuel h left right matrix fuel (i - 1) (j - 1) k _ (by omega)
    · exact lcsBacktrack_fuel h left right matrix fuel i (j - 1) k _ (by omega)
    · exact lcsBacktrack_fuel h left right matrix fuel (i - 1) j k _ (by omega)
    · rfl

theorem ComputeLcs_inv (h : Option (Json → String)) (left right : List Json) :
    (ComputeLcs h left right).Sequence =
      (ComputeLcs h left right).Indices1.map (fun x => left.getD x Json.null) ∧
    List.Forall₂ (fun x y => ItemMatch.Match h (left.getD x Json.null)
      (right.getD y Json.null) = true)
      (ComputeLcs h left right).Indices1 (ComputeLcs h left right).Indices2 ∧
    (ComputeLcs h left right).Indices1.Pairwise (· < ·) ∧
    (ComputeLcs h left right).Indices2.Pairwise (· < ·) ∧
    (∀ x ∈ (ComputeLcs h left right).Indices1, x < left.length) ∧
    (∀ y ∈ (ComputeLcs h left right).Indices2, y < right.length) := by
  unfold ComputeLcs
  exact lcsBacktrack_inv h left right _ _ _ _ {} (le_refl _) (le_refl _) rfl
    List.Forall₂.nil List.Pairwise.nil List.Pairwise.nil (by simp) (by simp)

/-- C29: for all sequences `left` and `right` and every ObjectHash setting,
the three lists returned by `ComputeLcs` have equal length, `Indices1` and
`Indices2` are strictly ascending and in range, `Sequence[k]` is
`left[Indices1[k]]`, and every pair `(left[Indices1[k]], right[Indices2[k]])`
satisfies `Match`. -/
theorem C29_lcs_result_shape (h : Option (Json → String)) (left right : List Json) :
    (ComputeLcs h left right).Sequence.length = (ComputeLcs h left right).Indices1.length ∧
    (ComputeLcs h left right).Indices1.length = (ComputeLcs h left right).Indices2.length ∧
    (ComputeLcs h left right).Indices1.Pairwise (· < ·) ∧
    (ComputeLcs h left right).Indices2.Pairwise (· < ·) ∧
    (∀ x ∈ (ComputeLcs h left right).Indices1, x < left.length) ∧
    (∀ y ∈ (ComputeLcs h left right).Indices2, y < right.length) ∧
    (ComputeLcs h left right).Sequence =
      (ComputeLcs h left right).Indices1.map (fun x => left.getD x Json.null) ∧
    List.Forall₂ (fun x y => ItemMatch.Match h (left.getD x Json.null)
      (right.getD y Json.null) = true)
      (ComputeLcs h left right).Indices1 (ComputeLcs h left right).Indices2 := by
  obtain ⟨h1, h2, h3, h4, h5, h6⟩ := ComputeLcs_inv h left right
  refine ⟨?_, h2.length_eq, h3, h4, h5, h6, h1, h2⟩
  rw [h1, List.length_map]

/-! ## The recursion budget of `Patch` and `Unpatch` -/

theorem stoi16_ne_budget (s : List Char) (e : Err) (h : stoi16 s = .error e) :
    e ≠ Err.budget := by
  unfold stoi16 at h
  simp only [] at h
  split_ifs at h <;> (injection h with h; subst h; decide)

theorem stoul_ne_budget (s : String) (e : Err) (h : stoul s = .error e) : e ≠ Err.budget := by
  unfold stoul at h
  simp only [] at h
  split_ifs at h <;> (injection h with h; subst h; decide)

theorem getInt_ne_budget (v : Json) (e : Err) (h : getInt v = .error e) : e ≠ Err.budget := by
  cases v <;> simp [getInt] at h <;> (subst h; decide)

theorem getSizeT_ne_budget (v : Json) (e : Err) (h : getSizeT v = .error e) :
    e ≠ Err.budget := by
  cases v <;> simp [getSizeT] at h <;> (subst h; decide)

theorem getString_ne_budget (v : Json) (e : Err) (h : getString v = .error e) :
    e ≠ Err.budget := by
  cases v <;> simp [getString] at h <;> (subst h; decide)

theorem decodeChars_ne_budget : ∀ (s : List Char) (e : Err), decodeChars s = .error e →
    e ≠ Err.budget
  | [], e, h => by simp [decodeChars] at h
  | [c], e, h => by simp [decodeChars] at h
  | [c, d], e, h => by simp [decodeChars] at h
  | c :: h1 :: h2 :: rest, e, h => by
    rw [decodeChars] at h
    split_ifs at h
    · cases hs : stoi16 [h1, h2] with
      | error e2 =>
        rw [hs] at h
        injection h with h
        subst h
        exact stoi16_ne_budget _ _ hs
      | ok v =>
        rw [hs] at h
        cases hd : decodeChars rest with
        | error e2 =>
          rw [hd] at h
          injection h with h
          subst h
          exact decodeChars_ne_budget rest _ hd
        | ok r => rw [hd] at h; simp at h
    · cases hd : decodeChars (h1 :: h2 :: rest) with
      | error e2 =>
        rw [hd] at h
        injection h with h
        subst h
        exact decodeChars_ne_budget _ _ hd
      | ok r => rw [hd] at h; simp at h

theorem parseLine_ne_budget (st : ParseState) (line : List Char) (e : Err)
    (h : parseLine st line = .error e) : e ≠ Err.budget := by
  unfold parseLine at h
  by_cases h1 : line.take 2 = ['@', '@']
  · rw [if_pos h1] at h; simp at h
  · rw [if_neg h1] at h
    by_cases h2 : (st.inPatch && !line.isEmpty) = true
    · rw [if_pos h2] at h
      cases hd : (if 1 < line.length then decodeChars (line.drop 1) else .ok []) with
      | error e2 =>
        rw [hd] at h
        injection h with h
        subst h
        split_ifs at hd
        exact decodeChars_ne_budget _ _ hd
      | ok text =>
        rw [hd] at h
        simp only [] at h
        split_ifs at h
    · rw [if_neg h2] at h; simp at h

theorem parseLines_ne_budget : ∀ (lines : List (List Char)) (st : ParseState) (e : Err),
    parseLines st lines = .error e → e ≠ Err.budget
  | [], st, e, h => by simp [parseLines] at h
  | line :: rest, st, e, h => by
    rw [parseLines] at h
    cases hp : parseLine st line with
    | error e2 =>
      rw [hp] at h
      injection h with h
      subst h
      exact parseLine_ne_budget st line _ hp
    | ok st2 =>
      rw [hp] at h
      exact parseLines_ne_budget rest st2 e h

theorem PatchesFromText_ne_budget (t : String) (e : Err) (h : PatchesFromText t = .error e) :
    e ≠ Err.budget := by
  unfold PatchesFromText at h
  cases hp : parseLines {} (getLines t.data []) with
  | error e2 =>
    rw [hp] at h
    injection h with h
    subst h
    exact parseLines_ne_budget _ _ _ hp
  | ok st => rw [hp] at h; simp at h

theorem leafPatch_ne_budget (left : Json) (xs : List Json) (e : Err)
    (h : leafPatch left xs = .error e) : e ≠ Err.budget := by
  unfold leafPatch at h
  split_ifs at h
  · injection h with h; subst h; decide
  · split at h
    · rename_i e2 he
      injection h with h; subst h
      exact getInt_ne_budget _ _ he
    · split_ifs at h
      · split at h
        · split at h
          · rename_i e2 he
            injection h with h; subst h
            exact getString_ne_budget _ _ he
          · split at h
            · rename_i e2 he
              injection h with h; subst h
              exact PatchesFromText_ne_budget _ _ he
            · simp only [] at h
              split_ifs at h <;> (injection h with h; subst h; decide)
        · injection h with h; subst h; decide
      · injection h with h; subst h; decide
  · injection h with h; subst h; decide

theorem leafUnpatch_ne_budget (right : Json) (xs : List Json) (e : Err)
    (h : leafUnpatch right xs = .error e) : e ≠ Err.budget := by
  unfold leafUnpatch at h
  split_ifs at h
  · injection h with h; subst h; decide
  · split at h
    · rename_i e2 he
      injection h with h; subst h
      exact getInt_ne_budget _ _ he
    · split_ifs at h
      · split at h
        · split at h
          · rename_i e2 he
            injection h with h; subst h
            exact getString_ne_budget _ _ he
          · split at h
            · rename_i e2 he
              injection h with h; subst h
              exact PatchesFromText_ne_budget _ _ he
            · simp only [] at h
              split_ifs at h
              injection h with h; subst h; decide
        · injection h with h; subst h; decide
      · injection h with h; subst h; decide
  · injection h with h; subst h; decide

theorem objErase_error (t : Json) (k : String) (e : Err) (h : objErase t k = .error e) :
    e = Err.typeError := by
  cases t <;> simp [objErase] at h <;> exact h.symm

theorem objSet_error (t : Json) (k : String) (v : Json) (e : Err)
    (h : objSet t k v = .error e) : e = Err.typeError := by
  cases t <;> simp [objSet] at h <;> exact h.symm

theorem objectPatchLoop_error (fn : Json → Json → Except Err Json) :
    ∀ (members : List (String × Json)) (t : Json) (e : Err),
      objectPatchLoop fn t members = .error e →
      e = Err.typeError ∨ ∃ mem ∈ members, ∃ x, fn x mem.2 = .error e
  | [], t, e, h => by simp [objectPatchLoop] at h
  | mem :: rest, t, e, h => by
    rw [objectPatchLoop] at h
    cases hs : objectPatchStep fn t mem with
    | ok t2 =>
      rw [hs] at h
      rcases objectPatchLoop_error fn rest t2 e h with h1 | ⟨m, hm, x, hx⟩
      · exact Or.inl h1
      · exact Or.inr ⟨m, List.mem_cons_of_mem _ hm, x, hx⟩
    | error e2 =>
      rw [hs] at h
      injection h with h
      subst h
      unfold objectPatchStep at hs
      by_cases hdel : isDeletedDelta mem.2 = true
      · rw [if_pos hdel] at hs
        exact Or.inl (objErase_error _ _ _ hs)
      · rw [if_neg hdel] at hs
        generalize (if objContains t mem.1 then objGet t mem.1 else Json.null) = x at hs
        cases hf : fn x mem.2 with
        | ok v =>
          rw [hf] at hs
          exact Or.inl (objSet_error _ _ _ _ hs)
        | error e3 =>
          rw [hf] at hs
          injection hs with hs
          subst hs
          exact Or.inr ⟨mem, List.mem_cons_self _ _, x, hf⟩

theorem objectUnpatchLoop_error (fn : Json → Json → Except Err Json) :
    ∀ (members : List (String × Json)) (t : Json) (e : Err),
      objectUnpatchLoop fn t members = .error e →
      e = Err.typeError ∨ ∃ mem ∈ members, ∃ x, fn x mem.2 = .error e
  | [], t, e, h => by simp [objectUnpatchLoop] at h
  | mem :: rest, t, e, h => by
    rw [objectUnpatchLoop] at h
    cases hs : objectUnpatchStep fn t mem with
    | ok t2 =>
      rw [hs] at h
      rcases objectUnpatchLoop_error fn rest t2 e h with h1 | ⟨m, hm, x, hx⟩
      · exact Or.inl h1
      · exact Or.inr ⟨m, List.mem_cons_of_mem _ hm, x, hx⟩
    | error e2 =>
      rw [hs] at h
      injection h with h
      subst h
      unfold objectUnpatchStep at hs
      by_cases hdel : isArrayOfSize mem.2 1 = true
      · rw [if_pos hdel] at hs
        exact Or.inl (objErase_error _ _ _ hs)
      · rw [if_neg hdel] at hs
        generalize (if objContains t mem.1 then objGet t mem.1 else Json.null) = x at hs
        cases hf : fn x mem.2 with
        | ok v =>
          rw [hf] at hs
          exact Or.inl (objSet_error _ _ _ _ hs)
        | error e3 =>
          rw [hf] at hs
          injection hs with hs
          subst hs
          exact Or.inr ⟨mem, List.mem_cons_self _ _, x, hf⟩

theorem modifyLoop_error (fn : Json → Json → Except Err Json) :
    ∀ (mods : List Modification) (arr : List Json) (e : Err),
      modifyLoop fn mods arr = .error e → ∃ md ∈ mods, ∃ x, fn x md.value = .error e
  | [], arr, e, h => by simp [modifyLoop] at h
  | md :: rest, arr, e, h => by
    rw [modifyLoop] at h
    split_ifs at h
    · cases hf : fn (arr.getD md.index Json.null) md.value with
      | ok v =>
        rw [hf] at h
        obtain ⟨m2, hm2, x, hx⟩ := modifyLoop_error fn rest _ e h
        exact ⟨m2, List.mem_cons_of_mem _ hm2, x, hx⟩
      | error e2 =>
        rw [hf] at h
        injection h with h
        subst h
        exact ⟨md, List.mem_cons_self _ _, _, hf⟩
    · obtain ⟨m2, hm2, x, hx⟩ := modifyLoop_error fn rest _ e h
      exact ⟨m2, List.mem_cons_of_mem _ hm2, x, hx⟩

theorem classifyPatch_error (ops : PatchOps) (mem : String × Json) (e : Err)
    (h : classifyPatch ops mem = .error e) : e ≠ Err.budget := by
  unfold classifyPatch at h
  simp only [] at h
  repeat' split at h
  all_goals first
    | (injection h with h; subst h
       first
        | exact stoul_ne_budget _ _ (by assumption)
        | exact getInt_ne_budget _ _ (by assumption)
        | exact getSizeT_ne_budget _ _ (by assumption))
    | (exfalso; exact Except.noConfusion h)

theorem classifyPatch_mods (ops ops2 : PatchOps) (mem : String × Json)
    (h : classifyPatch ops mem = .ok ops2) :
    ∀ md ∈ ops2.modifications, md ∈ ops.modifications ∨ md.value = mem.2 := by
  unfold classifyPatch at h
  simp only [] at h
  repeat' split at h
  all_goals first
    | (exfalso; exact Except.noConfusion h)
    | (injection h with h; subst h; intro md hmd
       first
        | exact Or.inl hmd
        | (simp only [List.mem_append, List.mem_singleton] at hmd
           rcases hmd with hmd | hmd
           · exact Or.inl hmd
           · exact Or.inr (by rw [hmd])))

theorem classifyPatchLoop_error : ∀ (members : List (String × Json)) (ops : PatchOps) (e : Err),
    classifyPatchLoop ops members = .error e → e ≠ Err.budget
  | [], ops, e, h => by simp [classifyPatchLoop] at h
  | mem :: rest, ops, e, h => by
    rw [classifyPatchLoop] at h
    cases hc : classifyPatch ops mem with
    | ok ops2 => rw [hc] at h; exact classifyPatchLoop_error rest ops2 e h
    | error e2 =>
      rw [hc] at h
      injection h with h
      subst h
      exact classifyPatch_error ops mem _ hc

theorem classifyPatchLoop_mods : ∀ (members : List (String × Json)) (ops ops2 : PatchOps),
    classifyPatchLoop ops members = .ok ops2 →
    ∀ md ∈ ops2.modifications, md ∈ ops.modifications ∨ ∃ mem ∈ members, md.value = mem.2
  | [], ops, ops2, h => by
    simp only [classifyPatchLoop, Except.ok.injEq] at h
    subst h
    exact fun md hmd => Or.inl hmd
  | mem :: rest, ops, ops2, h => by
    rw [classifyPatchLoop] at h
    cases hc : classifyPatch ops mem with
    | error e2 => rw [hc] at h; simp at h
    | ok ops3 =>
      rw [hc] at h
      intro md hmd
      rcases classifyPatchLoop_mods rest ops3 ops2 h md hmd with h1 | ⟨m, hm, hv⟩
      · rcases classifyPatch_mods ops ops3 mem hc md h1 with h2 | h2
        · exact Or.inl h2
        · exact Or.inr ⟨mem, List.mem_cons_self _ _, h2⟩
      · exact Or.inr ⟨m, List.mem_cons_of_mem _ hm, hv⟩

theorem classifyUnpatch_error (ops : UnpatchOps) (mem : String × Json) (e : Err)
    (h : classifyUnpatch ops mem = .error e) : e ≠ Err.budget := by
  unfold classifyUnpatch at h
  simp only [] at h
  repeat' split at h
  all_goals first
    | (injection h with h; subst h
       first
        | exact stoul_ne_budget _ _ (by assumption)
        | exact getInt_ne_budget _ _ (by assumption)
        | exact getSizeT_ne_budget _ _ (by assumption))
    | (exfalso; exact Except.noConfusion h)

theorem classifyUnpatch_mods (ops ops2 : UnpatchOps) (mem : String × Json)
    (h : classifyUnpatch ops mem = .ok ops2) :
    ∀ md ∈ ops2.mods, md ∈ ops.mods ∨ md.value = mem.2 := by
  unfold classifyUnpatch at h
  simp only [] at h
  repeat' split at h
  all_goals first
    | (exfalso; exact Except.noConfusion h)
    | (injection h with h; subst h; intro md hmd
       first
        | exact Or.inl hmd
        | (simp only [List.mem_append, List.mem_singleton] at hmd
           rcases hmd with hmd | hmd
           · exact Or.inl hmd
           · exact Or.inr (by rw [hmd])))

theorem classifyUnpatchLoop_error : ∀ (members : List (String × Json)) (ops : UnpatchOps)
    (e : Err), classifyUnpatchLoop ops members = .error e → e ≠ Err.budget
  | [], ops, e, h => by simp [classifyUnpatchLoop] at h
  | mem :: rest, ops, e, h => by
    rw [classifyUnpatchLoop] at h
    cases hc : classifyUnpatch ops mem with
    | ok ops2 => rw [hc] at h; exact classifyUnpatchLoop_error rest ops2 e h
    | error e2 =>
      rw [hc] at h
      injection h with h
      subst h
      exact classifyUnpatch_error ops mem _ hc

theorem classifyUnpatchLoop_mods : ∀ (members : List (String × Json)) (ops ops2 : UnpatchOps),
    classifyUnpatchLoop ops members = .ok ops2 →
    ∀ md ∈ ops2.mods, md ∈ ops.mods ∨ ∃ mem ∈ members, md.value = mem.2
  | [], ops, ops2, h => by
    simp only [classifyUnpatchLoop, Except.ok.injEq] at h
    subst h
    exact fun md hmd => Or.inl hmd
  | mem :: rest, ops, ops2, h => by
    rw [classifyUnpatchLoop] at h
    cases hc : classifyUnpatch ops mem with
    | error e2 => rw [hc] at h; simp at h
    | ok ops3 =>
      rw [hc] at h
      intro md hmd
      rcases classifyUnpatchLoop_mods rest ops3 ops2 h md hmd with h1 | ⟨m, hm, hv⟩
      · rcases classifyUnpatch_mods ops ops3 mem hc md h1 with h2 | h2
        · exact Or.inl h2
        · exact Or.inr ⟨mem, List.mem_cons_self _ _, h2⟩
      · exact Or.inr ⟨m, List.mem_cons_of_mem _ hm, hv⟩

theorem ArrayPatch_error (fn : Json → Json → Except Err Json) (left : List Json)
    (patch : List (String × Json)) (e : Err) (h : ArrayPatch fn left patch = .error e) :
    e ≠ Err.budget ∨ ∃ mem ∈ patch, ∃ x, fn x mem.2 = .error e := by
  unfold ArrayPatch at h
  cases hc : classifyPatchLoop {} patch with
  | error e2 =>
    rw [hc] at h
    injection h with h
    subst h
    exact Or.inl (classifyPatchLoop_error patch {} _ hc)
  | ok ops =>
    rw [hc] at h
    simp only [] at h
    split at h
    · rename_i e2 hm
      injection h with h
      subst h
      obtain ⟨md, hmd, x, hx⟩ := modifyLoop_error fn _ _ _ hm
      have hmd2 : md ∈ ops.modifications := (List.perm_insertionSort _ _).mem_iff.1 hmd
      rcases classifyPatchLoop_mods patch {} ops hc md hmd2 with h1 | ⟨mem, hmem, hv⟩
      · simp at h1
      · exact Or.inr ⟨mem, hmem, x, by rw [← hv]; exact hx⟩
    · simp at h

theorem ArrayUnpatch_error (fn : Json → Json → Except Err Json) (right : List Json)
    (patch : List (String × Json)) (e : Err) (h : ArrayUnpatch fn right patch = .error e) :
    e ≠ Err.budget ∨ ∃ mem ∈ patch, ∃ x, fn x mem.2 = .error e := by
  unfold ArrayUnpatch at h
  cases hc : classifyUnpatchLoop {} patch with
  | error e2 =>
    rw [hc] at h
    injection h with h
    subst h
    exact Or.inl (classifyUnpatchLoop_error patch {} _ hc)
  | ok ops =>
    rw [hc] at h
    simp only [] at h
    split at h
    · rename_i e2 hm
      injection h with h
      subst h
      obtain ⟨md, hmd, x, hx⟩ := modifyLoop_error fn _ _ _ hm
      have hmd2 : md ∈ ops.mods := (List.perm_insertionSort _ _).mem_iff.1 hmd
      rcases classifyUnpatchLoop_mods patch {} ops hc md hmd2 with h1 | ⟨mem, hmem, hv⟩
      · simp at h1
      · exact Or.inr ⟨mem, hmem, x, by rw [← hv]; exact hx⟩
    · simp at h

/-- The budget of `Patch` is never exhausted: no call of `PatchN` with a
budget above the depth of the delta returns the budget marker. -/
theorem PatchN_ne_budget : ∀ (n : Nat) (left patch : Json), patch.depth < n →
    PatchN n left patch ≠ .error Err.budget
  | 0, _, _, h => by omega
  | n + 1, left, patch, hd => by
    intro hb
    have hrec : ∀ (members : List (String × Json)), Json.depthKvs members < n →
        ¬ ∃ mem ∈ members, ∃ x, PatchN n x mem.2 = .error Err.budget := by
      rintro members hdm ⟨mem, hmem, x, hx⟩
      exact PatchN_ne_budget n x mem.2
        (lt_of_le_of_lt (depth_le_depthKvs members mem.1 mem.2 hmem) hdm) hx
    cases patch with
    | null => simp [PatchN] at hb
    | bool _ => simp [PatchN] at hb
    | num _ => simp [PatchN] at hb
    | str _ => simp [PatchN] at hb
    | arr xs => exact leafPatch_ne_budget left xs _ hb rfl
    | obj members =>
      rw [Json.depth] at hd
      have hdm : Json.depthKvs members < n := by omega
      have hobj : ObjectPatch (PatchN n) left members ≠ .error Err.budget := by
        intro h
        rcases objectPatchLoop_error (PatchN n) members _ _ h with h1 | h1
        · exact absurd h1 (by decide)
        · exact hrec members hdm h1
      have harr : ∀ arr, ArrayPatch (PatchN n) arr members ≠ .error Err.budget := by
        intro arr h
        rcases ArrayPatch_error (PatchN n) arr members _ h with h1 | h1
        · exact h1 rfl
        · exact hrec members hdm h1
      cases left with
      | arr a =>
        simp only [PatchN] at hb
        split_ifs at hb
        · exact harr a hb
        · exact hobj hb
      | null => exact hobj hb
      | bool _ => exact hobj hb
      | num _ => exact hobj hb
      | str _ => exact hobj hb
      | obj _ => exact hobj hb

/-- The budget of `Unpatch` is never exhausted. -/
theorem UnpatchN_ne_budget : ∀ (n : Nat) (right patch : Json), patch.depth < n →
    UnpatchN n right patch ≠ .error Err.budget
  | 0, _, _, h => by omega
  | n + 1, right, patch, hd => by
    intro hb
    have hrec : ∀ (members : List (String × Json)), Json.depthKvs members < n →
        ¬ ∃ mem ∈ members, ∃ x, UnpatchN n x mem.2 = .error Err.budget := by
      rintro members hdm ⟨mem, hmem, x, hx⟩
      exact UnpatchN_ne_budget n x mem.2
        (lt_of_le_of_lt (depth_le_depthKvs members mem.1 mem.2 hmem) hdm) hx
    cases patch with
    | null => simp [UnpatchN] at hb
    | bool _ => simp [UnpatchN] at hb
    | num _ => simp [UnpatchN] at hb
    | str _ => simp [UnpatchN] at hb
    | arr xs => exact leafUnpatch_ne_budget right xs _ hb rfl
    | obj members =>
      rw [Json.depth] at hd
      have hdm : Json.depthKvs members < n := by omega
      have hobj : ObjectUnpatch (UnpatchN n) right members ≠ .error Err.budget := by
        intro h
        rcases objectUnpatchLoop_error (UnpatchN n) members _ _ h with h1 | h1
        · exact absurd h1 (by decide)
        · exact hrec members hdm h1
      have harr : ∀ arr, ArrayUnpatch (UnpatchN n) arr members ≠ .error Err.budget := by
        intro arr h
        rcases ArrayUnpatch_error (UnpatchN n) arr members _ h with h1 | h1
        · exact h1 rfl
        · exact hrec members hdm h1
      cases right with
      | arr a =>
        simp only [UnpatchN] at hb
        split_ifs at hb
        · exact harr a hb
        · exact hobj hb
      | null => exact hobj hb
      | bool _ => exact hobj hb
      | num _ => exact hobj hb
      | str _ => exact hobj hb
      | obj _ => exact hobj hb

theorem Patch_ne_budget (left patch : Json) : Patch left patch ≠ .error Err.budget :=
  PatchN_ne_budget _ left patch (Nat.lt_succ_self _)

theorem Unpatch_ne_budget (right patch : Json) : Unpatch right patch ≠ .error Err.budget :=
  UnpatchN_ne_budget _ right patch (Nat.lt_succ_self _)

/-! ## Claims on array deltas against other bases -/

theorem objErase_scalar (x : Json) (k : String) (ho : x.is_object = false) :
    objErase x k = .error Err.typeError := by
  cases x <;> simp [Json.is_object] at ho <;> rfl

theorem objSet_scalar (x : Json) (k : String) (v : Json) (hn : x.is_null = false)
    (ho : x.is_object = false) : objSet x k v = .error Err.typeError := by
  cases x <;> simp [Json.is_object, Json.is_null] at ho hn <;> rfl

theorem objectPatchStep_scalar (fn : Json → Json → Except Err Json) (x : Json)
    (mem : String × Json) (hn : x.is_null = false) (ho : x.is_object = false) :
    ∃ e, objectPatchStep fn x mem = .error e := by
  unfold objectPatchStep
  by_cases hdel : isDeletedDelta mem.2 = true
  · rw [if_pos hdel]; exact ⟨_, objErase_scalar x _ ho⟩
  · rw [if_neg hdel]
    generalize (if objContains x mem.1 then objGet x mem.1 else Json.null) = y
    cases fn y mem.2 with
    | ok v => exact ⟨_, objSet_scalar x _ v hn ho⟩
    | error e => exact ⟨e, rfl⟩

theorem objectUnpatchStep_scalar (fn : Json → Json → Except Err Json) (x : Json)
    (mem : String × Json) (hn : x.is_null = false) (ho : x.is_object = false) :
    ∃ e, objectUnpatchStep fn x mem = .error e := by
  unfold objectUnpatchStep
  by_cases hdel : isArrayOfSize mem.2 1 = true
  · rw [if_pos hdel]; exact ⟨_, objErase_scalar x _ ho⟩
  · rw [if_neg hdel]
    generalize (if objContains x mem.1 then objGet x mem.1 else Json.null) = y
    cases fn y mem.2 with
    | ok v => exact ⟨_, objSet_scalar x _ v hn ho⟩
    | error e => exact ⟨e, rfl⟩

theorem PatchN_scalar_obj (n : Nat) (x : Json) (mem : String × Json)
    (rest : List (String × Json)) (hn : x.is_null = false) (ho : x.is_object = false)
    (ha : x.is_array = false) :
    ∃ e, PatchN (n + 1) x (Json.obj (mem :: rest)) = .error e := by
  obtain ⟨e, he⟩ := objectPatchStep_scalar (PatchN n) x mem hn ho
  refine ⟨e, ?_⟩
  have h1 : PatchN (n + 1) x (Json.obj (mem :: rest)) =
      objectPatchLoop (PatchN n) x (mem :: rest) := by
    cases x <;> simp [Json.is_null, Json.is_array] at hn ha <;> rfl
  rw [h1, objectPatchLoop, he]

theorem UnpatchN_scalar_obj (n : Nat) (x : Json) (mem : String × Json)
    (rest : List (String × Json)) (hn : x.is_null = false) (ho : x.is_object = false)
    (ha : x.is_array = false) :
    ∃ e, UnpatchN (n + 1) x (Json.obj (mem :: rest)) = .error e := by
  obtain ⟨e, he⟩ := objectUnpatchStep_scalar (UnpatchN n) x mem hn ho
  refine ⟨e, ?_⟩
  have h1 : UnpatchN (n + 1) x (Json.obj (mem :: rest)) =
      objectUnpatchLoop (UnpatchN n) x (mem :: rest) := by
    cases x <;> simp [Json.is_null, Json.is_array] at hn ha <;> rfl
  rw [h1, objectUnpatchLoop, he]

/-- C23, counterexample: the array delta `{"_t": "a"}` applied to the empty
object, which is not an array, raises nothing: `Patch` and `Unpatch` treat it
as an object delta and return `{"_t": null}`. -/
theorem C23_counterexample :
    Patch (Json.obj []) (Json.obj [("_t", Json.str "a")]) =
      .ok (Json.obj [("_t", Json.null)]) ∧
    Unpatch (Json.obj []) (Json.obj [("_t", Json.str "a")]) =
      .ok (Json.obj [("_t", Json.null)]) := by
  decide

/-- C23, amended: for every base value `x` that is a boolean, a number or a
string and every delta object with member `"_t"` equal to `"a"`, `Patch` and
`Unpatch` raise an exception of the library. -/
theorem C23_array_delta_on_scalar (x : Json) (members : List (String × Json))
    (hn : x.is_null = false) (ho : x.is_object = false) (ha : x.is_array = false)
    (ht : find members "_t" = some (Json.str "a")) :
    (∃ e, e ≠ Err.budget ∧ Patch x (Json.obj members) = .error e) ∧
    (∃ e, e ≠ Err.budget ∧ Unpatch x (Json.obj members) = .error e) := by
  cases members with
  | nil => simp [find] at ht
  | cons mem rest =>
    obtain ⟨e1, h1⟩ := PatchN_scalar_obj (Json.obj (mem :: rest)).depth x mem rest hn ho ha
    obtain ⟨e2, h2⟩ := UnpatchN_scalar_obj (Json.obj (mem :: rest)).depth x mem rest hn ho ha
    refine ⟨⟨e1, ?_, h1⟩, ⟨e2, ?_, h2⟩⟩
    · intro hb
      rw [hb] at h1
      exact Patch_ne_budget x _ h1
    · intro hb
      rw [hb] at h2
      exact Unpatch_ne_budget x _ h2

theorem C23_array_delta_on_scalar_witness :
    (∃ e, e ≠ Err.budget ∧
      Patch (Json.num 1) (Json.obj [("0", Json.arr [Json.num 2]), ("_t", Json.str "a")]) =
        .error e) ∧
    (∃ e, e ≠ Err.budget ∧
      Unpatch (Json.num 1) (Json.obj [("0", Json.arr [Json.num 2]), ("_t", Json.str "a")]) =
        .error e) :=
  C23_array_delta_on_scalar (Json.num 1) _ rfl rfl rfl (by decide)

/-! ## Claims on move detection -/

theorem hasMoveDeltaKvs_setKey : ∀ (m : List (String × Json)) (k : String) (v : Json),
    hasMoveDeltaKvs m = false → hasMoveDelta v = false → hasMoveDeltaKvs (setKey m k v) = false
  | [], k, v, _, hv => by simp [setKey, hasMoveDeltaKvs, hv]
  | (k0, w) :: rest, k, v, hm, hv => by
    rw [hasMoveDeltaKvs, Bool.or_eq_false_iff] at hm
    unfold setKey
    split_ifs
    · rw [hasMoveDeltaKvs, hv, hm.2]; rfl
    · rw [hasMoveDeltaKvs, hv, hasMoveDeltaKvs, hm.1, hm.2]; rfl
    · rw [hasMoveDeltaKvs, hm.1, hasMoveDeltaKvs_setKey rest k v hm.2 hv]; rfl

theorem hasMoveDelta_deletedDelta (x : Json) : hasMoveDelta (deletedDelta x) = false := by
  rfl

theorem hasMoveDelta_addedDelta (x : Json) : hasMoveDelta (addedDelta x) = false := by
  rfl

theorem foldl_invariant {α β : Type} (P : β → Prop) (f : β → α → β) :
    ∀ (l : List α) (acc : β), P acc → (∀ b x, P b → P (f b x)) → P (l.foldl f acc)
  | [], _, h, _ => h
  | x :: rest, acc, h, hf => foldl_invariant P f rest _ (hf acc x h) hf

theorem hasMoveDelta_ObjectDiff (diff : Json → Json → Json) (l r : List (String × Json))
    (hd : ∀ a b, hasMoveDelta (diff a b) = false) :
    hasMoveDelta (ObjectDiff diff l r) = false := by
  unfold ObjectDiff
  simp only []
  have key : hasMoveDeltaKvs
      (r.foldl (objectDiffRight l) (l.foldl (objectDiffLeft diff r) [])) = false := by
    apply foldl_invariant (fun m => hasMoveDeltaKvs m = false)
    · apply foldl_invariant (fun m => hasMoveDeltaKvs m = false)
      · rfl
      · intro m x hm
        unfold objectDiffLeft
        split
        · simp only []
          split_ifs
          · exact hm
          · exact hasMoveDeltaKvs_setKey _ _ _ hm (hd _ _)
        · exact hasMoveDeltaKvs_setKey _ _ _ hm (hasMoveDelta_deletedDelta _)
    · intro m x hm
      unfold objectDiffRight
      split_ifs
      · exact hm
      · exact hasMoveDeltaKvs_setKey _ _ _ hm (hasMoveDelta_addedDelta _)
  split_ifs
  · rfl
  · rw [hasMoveDelta]; exact key

theorem hasMoveDeltaKvs_putChild (m : List (String × Json)) (k : String) (v : Json)
    (hm : hasMoveDeltaKvs m = false) (hv : hasMoveDelta v = false) :
    hasMoveDeltaKvs (putChild m k v) = false := by
  unfold putChild
  split_ifs
  · exact hm
  · exact hasMoveDeltaKvs_setKey m k v hm hv

theorem hasMoveDeltaKvs_headLoop (h : Option (Json → String)) (diff : Json → Json → Json)
    (l r : List Json) (hd : ∀ a b, hasMoveDelta (diff a b) = false) :
    ∀ (fuel c : Nat) (res : List (String × Json)), hasMoveDeltaKvs res = false →
      hasMoveDeltaKvs (headLoop h diff l r fuel c res).2 = false
  | 0, _, _, hres => hres
  | fuel + 1, c, res, hres => by
    unfold headLoop
    split_ifs
    · exact hasMoveDeltaKvs_headLoop h diff l r hd fuel _ _
        (hasMoveDeltaKvs_putChild _ _ _ hres (hd _ _))
    · exact hres

theorem hasMoveDeltaKvs_tailLoop (h : Option (Json → String)) (diff : Json → Json → Json)
    (l r : List Json) (ch : Nat) (hd : ∀ a b, hasMoveDelta (diff a b) = false) :
    ∀ (fuel c : Nat) (res : List (String × Json)), hasMoveDeltaKvs res = false →
      hasMoveDeltaKvs (tailLoop h diff l r ch fuel c res).2 = false
  | 0, _, _, hres => hres
  | fuel + 1, c, res, hres => by
    unfold tailLoop
    simp only []
    split_ifs
    · exact hasMoveDeltaKvs_tailLoop h diff l r ch hd fuel _ _
        (hasMoveDeltaKvs_putChild _ _ _ hres (hd _ _))
    · exact hres

theorem hasMoveDelta_ArrayDiff (h : Option (Json → String)) (diff : Json → Json → Json)
    (l r : List Json) (hd : ∀ a b, hasMoveDelta (diff a b) = false) :
    hasMoveDelta (ArrayDiff h diff l r) = false := by
  unfold ArrayDiff
  simp only []
  have h0 : hasMoveDeltaKvs [("_t", Json.str "a")] = false := rfl
  have h1 := hasMoveDeltaKvs_headLoop h diff l r hd l.length 0 _ h0
  have h2 := hasMoveDeltaKvs_tailLoop h diff l r
    (headLoop h diff l r l.length 0 [("_t", Json.str "a")]).1 hd l.length 0 _ h1
  have hadd : ∀ b x, hasMoveDeltaKvs b = false → hasMoveDeltaKvs (addStep r b x) = false :=
    fun b x hb => hasMoveDeltaKvs_setKey _ _ _ hb (hasMoveDelta_addedDelta _)
  have hrem : ∀ b x, hasMoveDeltaKvs b = false → hasMoveDeltaKvs (removeStep l b x) = false :=
    fun b x hb => hasMoveDeltaKvs_setKey _ _ _ hb (hasMoveDelta_deletedDelta _)
  split_ifs
  · rfl
  · rw [hasMoveDelta]
    exact foldl_invariant (fun m => hasMoveDeltaKvs m = false) _ _ _ h2 hadd
  · rw [hasMoveDelta]
    exact foldl_invariant (fun m => hasMoveDeltaKvs m = false) _ _ _ h2 hrem
  · rfl
  · rw [hasMoveDelta]
    apply foldl_invariant (fun m => hasMoveDeltaKvs m = false)
    · apply foldl_invariant (fun m => hasMoveDeltaKvs m = false) _ _ _ h2
      intro b x hb
      unfold markDeletion
      split_ifs
      · exact hb
      · exact hrem b x hb
    · intro b x hb
      unfold markAddition
      simp only []
      split_ifs
      · exact hadd b x hb
      · exact hasMoveDeltaKvs_putChild _ _ _ hb (hd _ _)

theorem hasMoveDelta_leafDiff (o : Options) (a b : Json) :
    hasMoveDelta (leafDiff o a b) = false := by
  rcases leafDiff_shape o a b with h | ⟨m, h⟩ | ⟨x, y, h⟩ | ⟨t, h⟩
  · rw [h]; rfl
  · exfalso
    unfold leafDiff at h
    split at h
    · rename_i d hd
      obtain ⟨_, _, _, _, _, _, h2⟩ := textDelta_some o a b d hd
      rw [h2] at h; simp at h
    · split_ifs at h
  · rw [h]; rfl
  · rw [h]; rfl

theorem hasMoveDelta_DiffN (o : Options) : ∀ (n : Nat) (a b : Json),
    hasMoveDelta (DiffN o n a b) = false
  | 0, _, _ => rfl
  | n + 1, a, b => by
    unfold DiffN
    split
    · exact hasMoveDelta_ObjectDiff _ _ _ (hasMoveDelta_DiffN o n)
    · split_ifs
      · exact hasMoveDelta_ArrayDiff _ _ _ _ (hasMoveDelta_DiffN o n)
      · exact hasMoveDelta_leafDiff _ _ _
    · exact hasMoveDelta_leafDiff _ _ _

theorem DiffN_arrayOptions (o : Options) (ao : ArrayOptions) : ∀ (n : Nat),
    DiffN { o with DiffArrayOptions := ao } n = DiffN o n
  | 0 => rfl
  | n + 1 => by
    funext a b
    unfold DiffN
    rw [DiffN_arrayOptions o ao n]
    rfl

/-- C28: for all values `L` and `R` and all options, `Diff L R` does not
depend on the values of `DetectMove` and `IncludeValueOnMove`, and the delta
has no ArrayMove 3-array (op code 3) at any delta position: neither the delta
itself nor a member of a delta object inside it is one. -/
theorem C28_move_detection_not_wired (o : Options) (ao : ArrayOptions) (L R : Json) :
    Diff { o with DiffArrayOptions := ao } L R = Diff o L R ∧
    hasMoveDelta (Diff o L R) = false := by
  constructor
  · unfold Diff
    rw [DiffN_arrayOptions o ao]
  · exact hasMoveDelta_DiffN o _ L R

/-! ## The keys of an array delta -/

theorem isDigit_lt (c : Char) (h : c.isDigit = true) : c < '_' ∧ c < 't' := by
  unfold Char.isDigit at h
  simp only [Bool.and_eq_true, decide_eq_true_eq] at h
  have h2 := h.2
  rw [UInt32.le_def, BitVec.le_def] at h2
  have e1 : (UInt32.toBitVec 57).toNat = 57 := rfl
  have e2 : ('_'.val.toBitVec).toNat = 95 := rfl
  have e3 : ('t'.val.toBitVec).toNat = 116 := rfl
  rw [e1] at h2
  constructor
  · rw [Char.lt_iff_val_lt_val, UInt32.lt_def, BitVec.lt_def, e2]; omega
  · rw [Char.lt_iff_val_lt_val, UInt32.lt_def, BitVec.lt_def, e3]; omega

theorem numKey_data (i : Nat) : ∃ c cs, (toString i).data = c :: cs ∧ c.isDigit = true := by
  obtain ⟨c, cs, h1, h2⟩ := toString_nat_data i
  exact ⟨c, cs, h1, h2 c (List.mem_cons_self _ _)⟩

theorem delKey_data (i : Nat) : ("_" ++ toString i).data = '_' :: (toString i).data := by
  rw [String.data_append]; rfl

theorem numKey_ne_tag (i : Nat) : toString i ≠ "_t" := by
  obtain ⟨c, cs, h1, h2⟩ := numKey_data i
  intro h
  rw [h] at h1
  injection h1 with h1 _
  subst h1
  revert h2; decide

theorem delKey_ne_tag (i : Nat) : "_" ++ toString i ≠ "_t" := by
  obtain ⟨c, cs, h1, h2⟩ := numKey_data i
  intro h
  have h3 := congrArg String.data h
  rw [delKey_data, h1] at h3
  injection h3 with _ h3
  injection h3 with h3 _
  subst h3
  revert h2; decide

theorem numKey_ne_delKey (i j : Nat) : toString i ≠ "_" ++ toString j := by
  obtain ⟨c, cs, h1, h2⟩ := numKey_data i
  intro h
  have h3 := congrArg String.data h
  rw [delKey_data, h1] at h3
  injection h3 with h3 _
  subst h3
  revert h2; decide

theorem delKey_injective (i j : Nat) (hi : i < 18446744073709551616)
    (hj : j < 18446744073709551616) (h : "_" ++ toString i = "_" ++ toString j) : i = j := by
  have h3 := congrArg String.data h
  rw [delKey_data, delKey_data] at h3
  injection h3 with _ h3
  exact toString_nat_injective i j hi hj (String.ext h3)

theorem keyLt_numKey_delKey (i j : Nat) : keyLt (toString i) ("_" ++ toString j) = true := by
  obtain ⟨c, cs, h1, h2⟩ := numKey_data i
  unfold keyLt
  rw [decide_eq_true_iff, delKey_data, h1]
  exact List.Lex.rel (isDigit_lt c h2).1

theorem keyLt_delKey_tag (i : Nat) : keyLt ("_" ++ toString i) "_t" = true := by
  obtain ⟨c, cs, h1, h2⟩ := numKey_data i
  unfold keyLt
  rw [decide_eq_true_iff, delKey_data, h1]
  exact List.Lex.cons (List.Lex.rel (isDigit_lt c h2).2)

theorem keyLt_numKey_tag (i : Nat) : keyLt (toString i) "_t" = true := by
  obtain ⟨c, cs, h1, h2⟩ := numKey_data i
  unfold keyLt
  rw [decide_eq_true_iff, h1]
  exact List.Lex.rel (isDigit_lt c h2).1

theorem numKey_head (i : Nat) : (toString i).data.head? ≠ some '_' := by
  obtain ⟨c, cs, h1, h2⟩ := numKey_data i
  rw [h1]
  intro h
  simp at h
  subst h
  revert h2; decide

theorem delKey_head (i : Nat) : ("_" ++ toString i).data.head? = some '_' := by
  rw [delKey_data]; rfl

theorem delKey_drop (i : Nat) : String.mk (("_" ++ toString i).data.drop 1) = toString i := by
  rw [delKey_data]; rfl

/-! ## Classifying the members of an array delta -/

theorem classifyPatch_tag (ops : PatchOps) (v : Json) :
    classifyPatch ops ("_t", v) = .ok ops := by
  simp [classifyPatch]

theorem classifyPatch_del (ops : PatchOps) (e : Nat × Json) (h : e.1 < 18446744073709551616) :
    classifyPatch ops (delMember e) =
      .ok { ops with removals := ops.removals ++ [⟨e.1, false, 0⟩] } := by
  unfold classifyPatch delMember
  simp only [if_neg (delKey_ne_tag e.1), delKey_head, if_true, delKey_drop,
    stoul_toString e.1 h]
  rfl

theorem classifyPatch_add (ops : PatchOps) (e : Nat × Json) (h : e.1 < 18446744073709551616) :
    classifyPatch ops (addMember e) =
      .ok { ops with insertions := ops.insertions ++ [⟨e.1, e.2, false⟩] } := by
  unfold classifyPatch addMember
  simp only [if_neg (numKey_ne_tag e.1), if_neg (numKey_head e.1), stoul_toString e.1 h]
  rfl

/-- A delta that `ArrayPatch` takes for a change of an element: not a
1-array and not a 3-array with op code 3. -/
theorem classifyPatch_mod (ops : PatchOps) (e : Nat × Json) (h : e.1 < 18446744073709551616)
    (hs : isDeltaShape e.2) :
    classifyPatch ops (modMember e) =
      .ok { ops with modifications := ops.modifications ++ [⟨e.1, e.2⟩] } := by
  unfold classifyPatch modMember
  simp only [if_neg (numKey_ne_tag e.1), if_neg (numKey_head e.1), stoul_toString e.1 h]
  rcases hs with h0 | ⟨m, h0⟩ | ⟨x, y, h0⟩ | ⟨t, h0⟩ <;> rw [h0] <;> rfl

theorem classifyUnpatch_tag (ops : UnpatchOps) (v : Json) :
    classifyUnpatch ops ("_t", v) = .ok ops := by
  simp [classifyUnpatch]

theorem classifyUnpatch_del (ops : UnpatchOps) (e : Nat × Json)
    (h : e.1 < 18446744073709551616) :
    classifyUnpatch ops (delMember e) =
      .ok { ops with dels := ops.dels ++ [⟨e.1, e.2⟩] } := by
  unfold classifyUnpatch delMember
  simp only [if_neg (delKey_ne_tag e.1), delKey_head, if_true, delKey_drop,
    stoul_toString e.1 h]
  rfl

theorem classifyUnpatch_add (ops : UnpatchOps) (e : Nat × Json)
    (h : e.1 < 18446744073709551616) :
    classifyUnpatch ops (addMember e) = .ok { ops with adds := ops.adds ++ [e.1] } := by
  unfold classifyUnpatch addMember
  simp only [if_neg (numKey_ne_tag e.1), if_neg (numKey_head e.1), stoul_toString e.1 h]
  rfl

theorem classifyUnpatch_mod (ops : UnpatchOps) (e : Nat × Json)
    (h : e.1 < 18446744073709551616) (hs : isDeltaShape e.2) :
    classifyUnpatch ops (modMember e) =
      .ok { ops with mods := ops.mods ++ [⟨e.1, e.2⟩] } := by
  unfold classifyUnpatch modMember
  simp only [if_neg (numKey_ne_tag e.1), if_neg (numKey_head e.1), stoul_toString e.1 h]
  rcases hs with h0 | ⟨m, h0⟩ | ⟨x, y, h0⟩ | ⟨t, h0⟩ <;> rw [h0] <;> rfl

theorem classifyPatchLoop_good : ∀ (M : List (String × Json)) (ops : PatchOps),
    (∀ m ∈ M, ∀ o, classifyPatch o m = .ok (o.append (patchOpsOf m))) →
    classifyPatchLoop ops M = .ok (ops.append
      { removals := M.flatMap (fun m => (patchOpsOf m).removals),
        modifications := M.flatMap (fun m => (patchOpsOf m).modifications),
        insertions := M.flatMap (fun m => (patchOpsOf m).insertions) })
  | [], ops, _ => by
    simp [classifyPatchLoop, PatchOps.append]
  | m :: rest, ops, h => by
    rw [classifyPatchLoop, h m (List.mem_cons_self _ _) ops]
    simp only []
    rw [classifyPatchLoop_good rest _ (fun x hx => h x (List.mem_cons_of_mem _ hx))]
    simp [PatchOps.append, List.flatMap_cons, List.append_assoc]

theorem classifyUnpatchLoop_good : ∀ (M : List (String × Json)) (ops : UnpatchOps),
    (∀ m ∈ M, ∀ o, classifyUnpatch o m = .ok (o.append (unpatchOpsOf m))) →
    classifyUnpatchLoop ops M = .ok (ops.append
      { adds := M.flatMap (fun m => (unpatchOpsOf m).adds),
        dels := M.flatMap (fun m => (unpatchOpsOf m).dels),
        mods := M.flatMap (fun m => (unpatchOpsOf m).mods),
        moves := M.flatMap (fun m => (unpatchOpsOf m).moves) })
  | [], ops, _ => by
    simp [classifyUnpatchLoop, UnpatchOps.append]
  | m :: rest, ops, h => by
    rw [classifyUnpatchLoop, h m (List.mem_cons_self _ _) ops]
    simp only []
    rw [classifyUnpatchLoop_good rest _ (fun x hx => h x (List.mem_cons_of_mem _ hx))]
    simp [UnpatchOps.append, List.flatMap_cons, List.append_assoc]

theorem insertionSort_eq_of_perm {α : Type} (r : α → α → Prop) [DecidableRel r]
    [IsTotal α r] [IsTrans α r] (X Y : List α) (hp : X.Perm Y) (hs : Y.Pairwise r)
    (hanti : ∀ a ∈ Y, ∀ b ∈ Y, r a b → r b a → a = b) : X.insertionSort r = Y := by
  have hp2 : (X.insertionSort r).Perm Y := (List.perm_insertionSort r X).trans hp
  refine List.Perm.eq_of_sorted ?_ (List.sorted_insertionSort r X) hs hp2
  intro a b ha hb hab hba
  exact hanti a (hp2.mem_iff.1 ha) b hb hab hba

/-- Entries with strictly ordered indices are determined by their index. -/
theorem eq_of_index_eq {α : Type} (idx : α → Nat) (lt : Nat → Nat → Prop)
    (hirr : ∀ a b, lt a b → a ≠ b) (Y : List α)
    (hs : Y.Pairwise (fun a b => lt (idx a) (idx b))) :
    ∀ a ∈ Y, ∀ b ∈ Y, idx a = idx b → a = b := by
  have h1 : Y.Pairwise (fun a b => idx a = idx b → a = b) :=
    hs.imp (fun {a b} h e => absurd e (hirr _ _ h))
  have hsym : Symmetric (fun a b : α => idx a = idx b → a = b) :=
    fun a b h e => (h e.symm).symm
  exact List.Pairwise.forall_of_forall hsym (fun _ _ _ => rfl) h1

theorem removeLoop_no_moves : ∀ (rs : List Removal) (arr : List Json) (p : List PendingMove),
    (∀ r ∈ rs, r.isMove = false) → (removeLoop rs arr p).2 = p
  | [], _, _, _ => rfl
  | r :: rest, arr, p, h => by
    have hr := h r (List.mem_cons_self _ _)
    have ih := fun a q => removeLoop_no_moves rest a q
      (fun x hx => h x (List.mem_cons_of_mem _ hx))
    rw [removeLoop]
    by_cases he : arr.isEmpty = true
    · rw [if_pos he]; exact ih _ _
    · rw [if_neg he]
      simp only [hr, Bool.false_eq_true, if_false]
      exact ih _ _

theorem flatMap_map_single {α β γ : Type} (g : α → β) (f : β → List γ) (h : α → γ) :
    ∀ (l : List α), (∀ e ∈ l, f (g e) = [h e]) → (l.map g).flatMap f = l.map h
  | [], _ => rfl
  | e :: rest, hl => by
    simp only [List.map_cons, List.flatMap_cons, hl e (List.mem_cons_self _ _)]
    rw [flatMap_map_single g f h rest (fun x hx => hl x (List.mem_cons_of_mem _ hx))]
    rfl

theorem flatMap_map_nil {α β γ : Type} (g : α → β) (f : β → List γ) :
    ∀ (l : List α), (∀ e ∈ l, f (g e) = []) → (l.map g).flatMap f = []
  | [], _ => rfl
  | e :: rest, hl => by
    simp only [List.map_cons, List.flatMap_cons, hl e (List.mem_cons_self _ _)]
    rw [flatMap_map_nil g f rest (fun x hx => hl x (List.mem_cons_of_mem _ hx))]
    rfl

theorem patchOpsOf_tag (v : Json) : patchOpsOf ("_t", v) = {} := by
  unfold patchOpsOf; rw [classifyPatch_tag]

theorem patchOpsOf_del (e : Nat × Json) (h : e.1 < 18446744073709551616) :
    patchOpsOf (delMember e) = { removals := [⟨e.1, false, 0⟩] } := by
  unfold patchOpsOf; rw [classifyPatch_del _ e h]; rfl

theorem patchOpsOf_add (e : Nat × Json) (h : e.1 < 18446744073709551616) :
    patchOpsOf (addMember e) = { insertions := [⟨e.1, e.2, false⟩] } := by
  unfold patchOpsOf; rw [classifyPatch_add _ e h]; rfl

theorem patchOpsOf_mod (e : Nat × Json) (h : e.1 < 18446744073709551616)
    (hs : isDeltaShape e.2) : patchOpsOf (modMember e) = { modifications := [⟨e.1, e.2⟩] } := by
  unfold patchOpsOf; rw [classifyPatch_mod _ e h hs]; rfl

theorem unpatchOpsOf_tag (v : Json) : unpatchOpsOf ("_t", v) = {} := by
  unfold unpatchOpsOf; rw [classifyUnpatch_tag]

theorem unpatchOpsOf_del (e : Nat × Json) (h : e.1 < 18446744073709551616) :
    unpatchOpsOf (delMember e) = { dels := [⟨e.1, e.2⟩] } := by
  unfold unpatchOpsOf; rw [classifyUnpatch_del _ e h]; rfl

theorem unpatchOpsOf_add (e : Nat × Json) (h : e.1 < 18446744073709551616) :
    unpatchOpsOf (addMember e) = { adds := [e.1] } := by
  unfold unpatchOpsOf; rw [classifyUnpatch_add _ e h]; rfl

theorem unpatchOpsOf_mod (e : Nat × Json) (h : e.1 < 18446744073709551616)
    (hs : isDeltaShape e.2) : unpatchOpsOf (modMember e) = { mods := [⟨e.1, e.2⟩] } := by
  unfold unpatchOpsOf; rw [classifyUnpatch_mod _ e h hs]; rfl

/-- What `ArrayPatch` does with a delta whose members are, in some order, the
tag, removals `dels` (listed with descending indices), changes `mods` and
additions `adds` (both listed with ascending indices). -/
theorem ArrayPatch_of_perm (fn : Json → Json → Except Err Json) (L : List Json)
    (M : List (String × Json)) (dels mods adds : List (Nat × Json))
    (hperm : M.Perm (("_t", Json.str "a") ::
      (dels.map delMember ++ (mods.map modMember ++ adds.map addMember))))
    (hbd : ∀ e ∈ dels, e.1 < 18446744073709551616)
    (hbm : ∀ e ∈ mods, e.1 < 18446744073709551616 ∧ isDeltaShape e.2)
    (hba : ∀ e ∈ adds, e.1 < 18446744073709551616)
    (hd : dels.Pairwise (fun a b => a.1 > b.1)) (hm : mods.Pairwise (fun a b => a.1 < b.1))
    (ha : adds.Pairwise (fun a b => a.1 < b.1)) :
    ArrayPatch fn L M =
      match modifyLoop fn (mods.map (fun e => ⟨e.1, e.2⟩))
          (removeLoop (dels.map (fun e => ⟨e.1, false, 0⟩)) L []).1 with
      | .error e => .error e
      | .ok arr => .ok (Json.arr (insertLoop (adds.map (fun e => ⟨e.1, e.2, false⟩)) arr)) := by
  have hgood : ∀ m ∈ M, ∀ o, classifyPatch o m = .ok (o.append (patchOpsOf m)) := by
    intro m hmem o
    have hm2 := hperm.mem_iff.1 hmem
    simp only [List.mem_cons, List.mem_append, List.mem_map] at hm2
    rcases hm2 with rfl | ⟨e, he, rfl⟩ | ⟨e, he, rfl⟩ | ⟨e, he, rfl⟩
    · rw [classifyPatch_tag, patchOpsOf_tag]; simp [PatchOps.append]
    · rw [classifyPatch_del _ e (hbd e he), patchOpsOf_del e (hbd e he)]
      simp [PatchOps.append]
    · rw [classifyPatch_mod _ e (hbm e he).1 (hbm e he).2,
        patchOpsOf_mod e (hbm e he).1 (hbm e he).2]
      simp [PatchOps.append]
    · rw [classifyPatch_add _ e (hba e he), patchOpsOf_add e (hba e he)]
      simp [PatchOps.append]
  have hrem : (M.flatMap (fun m => (patchOpsOf m).removals)).Perm
      (dels.map (fun e => (⟨e.1, false, 0⟩ : Removal))) := by
    refine (List.Perm.flatMap_right _ hperm).trans ?_
    simp only [List.flatMap_cons, List.flatMap_append, patchOpsOf_tag]
    rw [flatMap_map_single delMember _ (fun e => (⟨e.1, false, 0⟩ : Removal)) dels
        (fun e he => by rw [patchOpsOf_del e (hbd e he)]),
      flatMap_map_nil modMember _ mods
        (fun e he => by rw [patchOpsOf_mod e (hbm e he).1 (hbm e he).2]),
      flatMap_map_nil addMember _ adds (fun e he => by rw [patchOpsOf_add e (hba e he)])]
    simp
  have hmod : (M.flatMap (fun m => (patchOpsOf m).modifications)).Perm
      (mods.map (fun e => (⟨e.1, e.2⟩ : Modification))) := by
    refine (List.Perm.flatMap_right _ hperm).trans ?_
    simp only [List.flatMap_cons, List.flatMap_append, patchOpsOf_tag]
    rw [flatMap_map_nil delMember _ dels (fun e he => by rw [patchOpsOf_del e (hbd e he)]),
      flatMap_map_single modMember _ (fun e => (⟨e.1, e.2⟩ : Modification)) mods
        (fun e he => by rw [patchOpsOf_mod e (hbm e he).1 (hbm e he).2]),
      flatMap_map_nil addMember _ adds (fun e he => by rw [patchOpsOf_add e (hba e he)])]
    simp
  have hins : (M.flatMap (fun m => (patchOpsOf m).insertions)).Perm
      (adds.map (fun e => (⟨e.1, e.2, false⟩ : Insertion))) := by
    refine (List.Perm.flatMap_right _ hperm).trans ?_
    simp only [List.flatMap_cons, List.flatMap_append, patchOpsOf_tag]
    rw [flatMap_map_nil delMember _ dels (fun e he => by rw [patchOpsOf_del e (hbd e he)]),
      flatMap_map_nil modMember _ mods
        (fun e he => by rw [patchOpsOf_mod e (hbm e he).1 (hbm e he).2]),
      flatMap_map_single addMember _ (fun e => (⟨e.1, e.2, false⟩ : Insertion)) adds
        (fun e he => by rw [patchOpsOf_add e (hba e he)])]
    simp
  haveI : IsTotal Removal (fun a b => a.index ≥ b.index) := ⟨fun a b => Nat.le_total _ _⟩
  haveI : IsTrans Removal (fun a b => a.index ≥ b.index) :=
    ⟨fun a b c h1 h2 => Nat.le_trans h2 h1⟩
  haveI : IsTotal Modification (fun a b => a.index ≤ b.index) := ⟨fun a b => Nat.le_total _ _⟩
  haveI : IsTrans Modification (fun a b => a.index ≤ b.index) :=
    ⟨fun a b c h1 h2 => Nat.le_trans h1 h2⟩
  haveI : IsTotal Insertion (fun a b => a.index ≤ b.index) := ⟨fun a b => Nat.le_total _ _⟩
  haveI : IsTrans Insertion (fun a b => a.index ≤ b.index) :=
    ⟨fun a b c h1 h2 => Nat.le_trans h1 h2⟩
  haveI : IsTotal PendingMove (fun a b => a.target ≤ b.target) := ⟨fun a b => Nat.le_total _ _⟩
  have hd2 : (dels.map (fun e => (⟨e.1, false, 0⟩ : Removal))).Pairwise
      (fun a b => b.index < a.index) := by
    rw [List.pairwise_map]; exact hd
  have hm2 : (mods.map (fun e => (⟨e.1, e.2⟩ : Modification))).Pairwise
      (fun a b => a.index < b.index) := by
    rw [List.pairwise_map]; exact hm
  have ha2 : (adds.map (fun e => (⟨e.1, e.2, false⟩ : Insertion))).Pairwise
      (fun a b => a.index < b.index) := by
    rw [List.pairwise_map]; exact ha
  have s1 := insertionSort_eq_of_perm (fun a b : Removal => a.index ≥ b.index) _ _ hrem
    (hd2.imp (fun h => Nat.le_of_lt h))
    (fun a ha b hb h1 h2 => eq_of_index_eq Removal.index (fun x y => y < x)
      (fun x y h e => by omega) _ hd2 a ha b hb (Nat.le_antisymm h2 h1))
  have s2 := insertionSort_eq_of_perm (fun a b : Modification => a.index ≤ b.index) _ _ hmod
    (hm2.imp (fun h => Nat.le_of_lt h))
    (fun a ha b hb h1 h2 => eq_of_index_eq Modification.index (fun x y => x < y)
      (fun x y h e => by omega) _ hm2 a ha b hb (Nat.le_antisymm h1 h2))
  have s3 := insertionSort_eq_of_perm (fun a b : Insertion => a.index ≤ b.index) _ _ hins
    (ha2.imp (fun h => Nat.le_of_lt h))
    (fun a ha b hb h1 h2 => eq_of_index_eq Insertion.index (fun x y => x < y)
      (fun x y h e => by omega) _ ha2 a ha b hb (Nat.le_antisymm h1 h2))
  unfold ArrayPatch
  rw [classifyPatchLoop_good M {} hgood]
  simp only [PatchOps.append, List.nil_append]
  rw [s1, s2, s3]
  have hnm : (removeLoop (dels.map (fun e => (⟨e.1, false, 0⟩ : Removal))) L []).2 = [] :=
    removeLoop_no_moves _ _ _ (by
      intro r hr
      obtain ⟨e, _, rfl⟩ := List.mem_map.1 hr
      rfl)
  rw [hnm]
  rfl

/-- What `ArrayUnpatch` does with a delta whose members are, in some order,
the tag, removals `dels` and changes `mods` (both listed with ascending
indices) and additions `adds` (listed with descending indices). -/
theorem ArrayUnpatch_of_perm (fn : Json → Json → Except Err Json) (R : List Json)
    (M : List (String × Json)) (dels mods adds : List (Nat × Json))
    (hperm : M.Perm (("_t", Json.str "a") ::
      (dels.map delMember ++ (mods.map modMember ++ adds.map addMember))))
    (hbd : ∀ e ∈ dels, e.1 < 18446744073709551616)
    (hbm : ∀ e ∈ mods, e.1 < 18446744073709551616 ∧ isDeltaShape e.2)
    (hba : ∀ e ∈ adds, e.1 < 18446744073709551616)
    (hd : dels.Pairwise (fun a b => a.1 < b.1)) (hm : mods.Pairwise (fun a b => a.1 < b.1))
    (ha : adds.Pairwise (fun a b => a.1 > b.1)) :
    ArrayUnpatch fn R M =
      match modifyLoop fn (mods.map (fun e => ⟨e.1, e.2⟩))
          (undoAddLoop (adds.map (fun e => e.1)) R) with
      | .error e => .error e
      | .ok arr => .ok (Json.arr (reinsertLoop (dels.map (fun e => ⟨e.1, e.2⟩)) arr)) := by
  have hgood : ∀ m ∈ M, ∀ o, classifyUnpatch o m = .ok (o.append (unpatchOpsOf m)) := by
    intro m hmem o
    have hm2 := hperm.mem_iff.1 hmem
    simp only [List.mem_cons, List.mem_append, List.mem_map] at hm2
    rcases hm2 with rfl | ⟨e, he, rfl⟩ | ⟨e, he, rfl⟩ | ⟨e, he, rfl⟩
    · rw [classifyUnpatch_tag, unpatchOpsOf_tag]; simp [UnpatchOps.append]
    · rw [classifyUnpatch_del _ e (hbd e he), unpatchOpsOf_del e (hbd e he)]
      simp [UnpatchOps.append]
    · rw [classifyUnpatch_mod _ e (hbm e he).1 (hbm e he).2,
        unpatchOpsOf_mod e (hbm e he).1 (hbm e he).2]
      simp [UnpatchOps.append]
    · rw [classifyUnpatch_add _ e (hba e he), unpatchOpsOf_add e (hba e he)]
      simp [UnpatchOps.append]
  have hadds : (M.flatMap (fun m => (unpatchOpsOf m).adds)).Perm (adds.map (fun e => e.1)) := by
    refine (List.Perm.flatMap_right _ hperm).trans ?_
    simp only [List.flatMap_cons, List.flatMap_append, unpatchOpsOf_tag]
    rw [flatMap_map_nil delMember _ dels (fun e he => by rw [unpatchOpsOf_del e (hbd e he)]),
      flatMap_map_nil modMember _ mods
        (fun e he => by rw [unpatchOpsOf_mod e (hbm e he).1 (hbm e he).2]),
      flatMap_map_single addMember _ (fun e => e.1) adds
        (fun e he => by rw [unpatchOpsOf_add e (hba e he)])]
    simp
  have hdels : (M.flatMap (fun m => (unpatchOpsOf m).dels)).Perm
      (dels.map (fun e => (⟨e.1, e.2⟩ : DelWas))) := by
    refine (List.Perm.flatMap_right _ hperm).trans ?_
    simp only [List.flatMap_cons, List.flatMap_append, unpatchOpsOf_tag]
    rw [flatMap_map_single delMember _ (fun e => (⟨e.1, e.2⟩ : DelWas)) dels
        (fun e he => by rw [unpatchOpsOf_del e (hbd e he)]),
      flatMap_map_nil modMember _ mods
        (fun e he => by rw [unpatchOpsOf_mod e (hbm e he).1 (hbm e he).2]),
      flatMap_map_nil addMember _ adds (fun e he => by rw [unpatchOpsOf_add e (hba e he)])]
    simp
  have hmods : (M.flatMap (fun m => (unpatchOpsOf m).mods)).Perm
      (mods.map (fun e => (⟨e.1, e.2⟩ : Modification))) := by
    refine (List.Perm.flatMap_right _ hperm).trans ?_
    simp only [List.flatMap_cons, List.flatMap_append, unpatchOpsOf_tag]
    rw [flatMap_map_nil delMember _ dels (fun e he => by rw [unpatchOpsOf_del e (hbd e he)]),
      flatMap_map_single modMember _ (fun e => (⟨e.1, e.2⟩ : Modification)) mods
        (fun e he => by rw [unpatchOpsOf_mod e (hbm e he).1 (hbm e he).2]),
      flatMap_map_nil addMember _ adds (fun e he => by rw [unpatchOpsOf_add e (hba e he)])]
    simp
  have hmoves : (M.flatMap (fun m => (unpatchOpsOf m).moves)) = [] := by
    refine List.Perm.eq_nil ((List.Perm.flatMap_right _ hperm).trans ?_)
    simp only [List.flatMap_cons, List.flatMap_append, unpatchOpsOf_tag]
    rw [flatMap_map_nil delMember _ dels (fun e he => by rw [unpatchOpsOf_del e (hbd e he)]),
      flatMap_map_nil modMember _ mods
        (fun e he => by rw [unpatchOpsOf_mod e (hbm e he).1 (hbm e he).2]),
      flatMap_map_nil addMember _ adds (fun e he => by rw [unpatchOpsOf_add e (hba e he)])]
    simp
  haveI : IsTotal Nat (fun a b => a ≥ b) := ⟨fun a b => Nat.le_total _ _⟩
  haveI : IsTrans Nat (fun a b => a ≥ b) := ⟨fun a b c h1 h2 => Nat.le_trans h2 h1⟩
  haveI : IsTotal Modification (fun a b => a.index ≤ b.index) := ⟨fun a b => Nat.le_total _ _⟩
  haveI : IsTrans Modification (fun a b => a.index ≤ b.index) :=
    ⟨fun a b c h1 h2 => Nat.le_trans h1 h2⟩
  haveI : IsTotal DelWas (fun a b => a.index ≤ b.index) := ⟨fun a b => Nat.le_total _ _⟩
  haveI : IsTrans DelWas (fun a b => a.index ≤ b.index) :=
    ⟨fun a b c h1 h2 => Nat.le_trans h1 h2⟩
  have ha2 : (adds.map (fun e => e.1)).Pairwise (fun a b => b < a) := by
    rw [List.pairwise_map]; exact ha
  have hm2 : (mods.map (fun e => (⟨e.1, e.2⟩ : Modification))).Pairwise
      (fun a b => a.index < b.index) := by
    rw [List.pairwise_map]; exact hm
  have hd2 : (dels.map (fun e => (⟨e.1, e.2⟩ : DelWas))).Pairwise
      (fun a b => a.index < b.index) := by
    rw [List.pairwise_map]; exact hd
  have s1 := insertionSort_eq_of_perm (fun a b : Nat => a ≥ b) _ _ hadds
    (ha2.imp (fun h => Nat.le_of_lt h)) (fun a _ b _ h1 h2 => Nat.le_antisymm h2 h1)
  have s2 := insertionSort_eq_of_perm (fun a b : Modification => a.index ≤ b.index) _ _ hmods
    (hm2.imp (fun h => Nat.le_of_lt h))
    (fun a ha b hb h1 h2 => eq_of_index_eq Modification.index (fun x y => x < y)
      (fun x y h e => by omega) _ hm2 a ha b hb (Nat.le_antisymm h1 h2))
  have s3 := insertionSort_eq_of_perm (fun a b : DelWas => a.index ≤ b.index) _ _ hdels
    (hd2.imp (fun h => Nat.le_of_lt h))
    (fun a ha b hb h1 h2 => eq_of_index_eq DelWas.index (fun x y => x < y)
      (fun x y h e => by omega) _ hd2 a ha b hb (Nat.le_antisymm h1 h2))
  unfold ArrayUnpatch
  rw [classifyUnpatchLoop_good M {} hgood]
  simp only [UnpatchOps.append, List.nil_append]
  rw [s1, s2, s3, hmoves]
  rfl

/-! ## The loops of `ArrayPatch` and `ArrayUnpatch` -/

theorem removeLoop_cons_valid (r : Removal) (rest : List Removal) (arr : List Json)
    (p : List PendingMove) (h : r.index < arr.length) (hm : r.isMove = false) :
    removeLoop (r :: rest) arr p = removeLoop rest (arr.eraseIdx r.index) p := by
  rw [removeLoop]
  have he : arr.isEmpty = false := by
    cases arr with
    | nil => simp at h
    | cons _ _ => rfl
  simp [he, h, hm]

theorem getD_eraseIdx_lt (L : List Json) (i j : Nat) (h : i < j) :
    (L.eraseIdx j).getD i Json.null = L.getD i Json.null := by
  simp only [List.getD_eq_getElem?_getD]
  rw [List.getElem?_eraseIdx]
  simp [h]

theorem keepIdx_erase (P : Nat → Bool) (a k : Nat) (L : List Json) (hP : P (a + k) = true) :
    keepIdx P a k (L.eraseIdx (a + k)) = keepIdx P a (k + 1) L := by
  unfold keepIdx
  have h1 : (L.eraseIdx (a + k)).take a = L.take a := by
    rw [List.eraseIdx_eq_take_drop_succ, List.take_append_eq_append_take, List.take_take]
    have : a - (List.take (a + k) L).length = 0 ∨ L.length < a + k := by
      by_cases hl : a + k ≤ L.length
      · left; rw [List.length_take]; omega
      · right; omega
    rcases this with h | h
    · rw [h]; simp
    · rw [List.drop_eq_nil_of_le (by omega)]; simp
  have h2 : (L.eraseIdx (a + k)).drop (a + k) = L.drop (a + (k + 1)) := by
    rw [List.eraseIdx_eq_take_drop_succ]
    by_cases hl : a + k ≤ L.length
    · rw [List.drop_append_eq_append_drop, List.drop_take]
      simp [List.length_take, Nat.min_eq_left hl]
      rfl
    · rw [List.drop_eq_nil_of_le (by simp; omega), List.drop_eq_nil_of_le (by omega)]
  have h3 : ((List.range' a (k + 1)).filter (fun i => !P i)) =
      ((List.range' a k).filter (fun i => !P i)) := by
    rw [List.range'_concat, List.filter_append]
    simp [hP]
  rw [h1, h2, h3]
  congr 2
  apply List.map_congr_left
  intro i hi
  have hi2 := (List.mem_filter.1 hi).1
  rw [List.mem_range'_1] at hi2
  exact getD_eraseIdx_lt L i (a + k) hi2.2

theorem keepIdx_keep (P : Nat → Bool) (a k : Nat) (L : List Json) (hP : P (a + k) = false)
    (h : a + k < L.length) : keepIdx P a k L = keepIdx P a (k + 1) L := by
  unfold keepIdx
  have h3 : ((List.range' a (k + 1)).filter (fun i => !P i)) =
      ((List.range' a k).filter (fun i => !P i)) ++ [a + k] := by
    rw [List.range'_concat, List.filter_append]
    simp [hP]
  rw [h3, List.map_append, List.append_assoc]
  congr 2
  rw [List.drop_eq_getElem_cons h]
  simp only [List.map_cons, List.map_nil, List.singleton_append, List.getD_eq_getElem _ _ h]
  rfl

/-- Removing in descending order the positions selected by `P`. -/
theorem removeLoop_filter (P : Nat → Bool) (a : Nat) : ∀ (k : Nat) (L : List Json),
    a + k ≤ L.length →
    (removeLoop ((((List.range' a k).filter P).reverse).map (fun i => ⟨i, false, 0⟩)) L []).1 =
      keepIdx P a k L
  | 0, L, _ => by
    simp [keepIdx, removeLoop]
  | k + 1, L, h => by
    rw [List.range'_concat, List.filter_append, List.reverse_append, List.map_append]
    by_cases hP : P (a + k) = true
    · have e1 : List.filter P [a + 1 * k] = [a + k] := by simp [hP]
      rw [e1]
      simp only [List.reverse_singleton, List.map_singleton, List.singleton_append]
      rw [removeLoop_cons_valid _ _ _ _ (by show a + k < L.length; omega) rfl]
      rw [removeLoop_filter P a k _ (by rw [List.length_eraseIdx]; split_ifs <;> omega)]
      exact keepIdx_erase P a k L hP
    · have hP2 : P (a + k) = false := by simpa using hP
      have e1 : List.filter P [a + 1 * k] = [] := by simp [hP2]
      rw [e1]
      simp only [List.reverse_nil, List.map_nil, List.nil_append]
      rw [removeLoop_filter P a k L (by omega)]
      exact keepIdx_keep P a k L hP2 (by omega)

theorem insertLoop_append : ∀ (xs ys : List Insertion) (arr : List Json),
    insertLoop (xs ++ ys) arr = insertLoop ys (insertLoop xs arr)
  | [], _, _ => rfl
  | x :: xs, ys, arr => by
    simp only [List.cons_append, insertLoop]
    exact insertLoop_append xs ys _

theorem insertClamped_at_length (A T : List Json) (n : Nat) (v : Json) (h : A.length = n) :
    insertClamped (A ++ T) n v = A ++ v :: T := by
  unfold insertClamped
  rw [if_pos (by rw [List.length_append]; omega)]
  subst h
  induction A with
  | nil => rfl
  | cons x xs ih => simp [List.insertIdx_succ_cons, ih]

/-- Inserting in ascending order the elements of `R` at the positions selected
by `P` into what stays of `R` without them. -/
theorem insertLoop_filter (P : Nat → Bool) (a : Nat) (R : List Json) :
    ∀ (k : Nat) (T : List Json), a + k ≤ R.length →
    insertLoop (((List.range' a k).filter P).map (fun j => ⟨j, R.getD j Json.null, false⟩))
      (R.take a ++ (((List.range' a k).filter (fun i => !P i)).map
        (fun i => R.getD i Json.null) ++ T)) = R.take (a + k) ++ T
  | 0, T, _ => by simp [insertLoop]
  | k + 1, T, h => by
    have hlt : a + k < R.length := by omega
    have htk : R.take (a + (k + 1)) = R.take (a + k) ++ [R.getD (a + k) Json.null] := by
      rw [← Nat.add_assoc, List.take_succ, List.getD_eq_getElem?_getD,
        List.getElem?_eq_getElem hlt]
      rfl
    rw [List.range'_concat, List.filter_append, List.filter_append, List.map_append,
      List.map_append, insertLoop_append]
    by_cases hP : P (a + k) = true
    · have e1 : List.filter P [a + 1 * k] = [a + k] := by simp [hP]
      have e2 : List.filter (fun i => !P i) [a + 1 * k] = [] := by simp [hP]
      rw [e1, e2]
      simp only [List.map_nil, List.append_nil, List.map_singleton]
      rw [insertLoop_filter P a R k T (by omega)]
      simp only [insertLoop]
      rw [insertClamped_at_length _ _ _ _ (by rw [List.length_take]; omega), htk]
      simp
    · have hP2 : P (a + k) = false := by simpa using hP
      have e1 : List.filter P [a + 1 * k] = [] := by simp [hP2]
      have e2 : List.filter (fun i => !P i) [a + 1 * k] = [a + k] := by simp [hP2]
      rw [e1, e2]
      simp only [List.map_nil, List.map_singleton, insertLoop, List.append_assoc,
        List.singleton_append]
      rw [insertLoop_filter P a R k _ (by omega), htk]
      simp

theorem insertLoop_keepIdx (P : Nat → Bool) (a k : Nat) (R : List Json)
    (h : a + k ≤ R.length) :
    insertLoop (((List.range' a k).filter P).map (fun j => ⟨j, R.getD j Json.null, false⟩))
      (keepIdx P a k R) = R := by
  unfold keepIdx
  rw [insertLoop_filter P a R k _ h, List.take_append_drop]

theorem undoAddLoop_eq_removeLoop : ∀ (idxs : List Nat) (arr : List Json),
    undoAddLoop idxs arr = (removeLoop (idxs.map (fun i => ⟨i, false, 0⟩)) arr []).1
  | [], _ => rfl
  | i :: rest, arr => by
    rw [undoAddLoop, List.map_cons, removeLoop]
    by_cases he : arr.isEmpty = true
    · rw [if_pos he, if_pos he]
      exact undoAddLoop_eq_removeLoop rest arr
    · rw [if_neg he, if_neg he]
      simp only [Bool.false_eq_true, if_false]
      by_cases hi : i < arr.length
      · rw [if_pos hi, if_pos hi]
        exact undoAddLoop_eq_removeLoop rest _
      · rw [if_neg hi, if_neg hi]
        have hl : arr.length - 1 + 1 = arr.length := by
          cases arr with
          | nil => simp at he
          | cons _ _ => simp
        rw [List.dropLast_eq_eraseIdx hl]
        exact undoAddLoop_eq_removeLoop rest _

theorem reinsertLoop_eq_insertLoop : ∀ (ds : List DelWas) (arr : List Json),
    reinsertLoop ds arr = insertLoop (ds.map (fun d => ⟨d.index, d.value, false⟩)) arr
  | [], _ => rfl
  | d :: rest, arr => by
    rw [reinsertLoop, List.map_cons, insertLoop]
    exact reinsertLoop_eq_insertLoop rest _

/-! ## The members written by `ArrayDiff` -/

theorem setKey_perm {α : Type} : ∀ (m : List (String × α)) (k : String) (v : α),
    k ∉ m.map Prod.fst → (setKey m k v).Perm ((k, v) :: m)
  | [], _, _, _ => List.Perm.refl _
  | (k0, w) :: rest, k, v, h => by
    simp only [List.map_cons, List.mem_cons, not_or] at h
    unfold setKey
    rw [if_neg h.1]
    split_ifs
    · exact List.Perm.refl _
    · exact ((setKey_perm rest k v h.2).cons (k0, w)).trans (List.Perm.swap _ _ _)

/-- A loop that stores one member per index, for the indices that have one,
leaves the members that were there and the stored ones. -/
theorem foldl_setKey_perm (f : Nat → Option (String × Json)) :
    ∀ (xs : List Nat) (m : List (String × Json)),
      ((m ++ xs.filterMap f).map Prod.fst).Nodup →
      (xs.foldl (fun acc x =>
        match f x with
        | none => acc
        | some e => setKey acc e.1 e.2) m).Perm (m ++ xs.filterMap f)
  | [], m, _ => by simp
  | x :: rest, m, h => by
    simp only [List.foldl_cons]
    cases hf : f x with
    | none =>
      simp only [List.filterMap_cons, hf] at h ⊢
      exact foldl_setKey_perm f rest m h
    | some e =>
      simp only [List.filterMap_cons, hf] at h ⊢
      have hk : e.1 ∉ m.map Prod.fst := by
        intro hm
        rw [List.map_append, List.map_cons] at h
        have := List.nodup_append.1 h
        exact this.2.2 hm (List.mem_cons_self _ _)
      have hp : (setKey m e.1 e.2).Perm (m ++ [e]) :=
        (setKey_perm m e.1 e.2 hk).trans (List.perm_append_singleton e m).symm
      have hnd : ((setKey m e.1 e.2 ++ rest.filterMap f).map Prod.fst).Nodup := by
        have hp2 : (setKey m e.1 e.2 ++ rest.filterMap f).Perm (m ++ e :: rest.filterMap f) := by
          refine (hp.append_right _).trans ?_
          simp
        exact (hp2.map Prod.fst).nodup_iff.2 h
      refine (foldl_setKey_perm f rest _ hnd).trans ?_
      refine (hp.append_right _).trans ?_
      simp

theorem SortedKeys_foldl_setKey (f : Nat → Option (String × Json)) :
    ∀ (xs : List Nat) (m : List (String × Json)), SortedKeys m →
      SortedKeys (xs.foldl (fun acc x =>
        match f x with
        | none => acc
        | some e => setKey acc e.1 e.2) m)
  | [], _, h => h
  | x :: rest, m, h => by
    simp only [List.foldl_cons]
    apply SortedKeys_foldl_setKey f rest
    cases f x with
    | none => exact h
    | some e => exact SortedKeys_setKey _ _ _ h

theorem filterMap_ite {α β : Type} (c : α → Bool) (g : α → β) :
    ∀ (l : List α), l.filterMap (fun x => if c x then none else some (g x)) =
      (l.filter (fun x => !c x)).map g
  | [] => rfl
  | x :: rest => by
    simp only [List.filterMap_cons, List.filter_cons]
    cases hc : c x <;> simp [filterMap_ite c g rest]

theorem eq_of_getD_eq (A B : List Json) (hl : A.length = B.length)
    (h : ∀ j, A.getD j Json.null = B.getD j Json.null) : A = B := by
  apply List.ext_getElem hl
  intro j h1 h2
  have := h j
  rw [List.getD_eq_getElem _ _ h1, List.getD_eq_getElem _ _ h2] at this
  exact this

theorem getD_set (A : List Json) (i j : Nat) (v : Json) :
    (A.set i v).getD j Json.null =
      if i = j ∧ i < A.length then v else A.getD j Json.null := by
  simp only [List.getD_eq_getElem?_getD, List.getElem?_set]
  by_cases hij : i = j
  · subst hij
    by_cases hi : i < A.length
    · simp [hi]
    · simp [hi]
      rw [List.getElem?_eq_none (by omega)]
      rfl
  · simp [hij]

/-- The modification loop turns `arr` into `K` when every recorded change,
applied to the element at its index, gives the element of `K` there and the
other elements agree. -/
theorem modifyLoop_spec (fn : Json → Json → Except Err Json) :
    ∀ (mods : List (Nat × Json)) (arr K : List Json), arr.length = K.length →
      mods.Pairwise (fun a b => a.1 < b.1) →
      (∀ e ∈ mods, e.1 < arr.length ∧
        fn (arr.getD e.1 Json.null) e.2 = .ok (K.getD e.1 Json.null)) →
      (∀ j, (∀ e ∈ mods, e.1 ≠ j) → arr.getD j Json.null = K.getD j Json.null) →
      modifyLoop fn (mods.map (fun e => ⟨e.1, e.2⟩)) arr = .ok K
  | [], arr, K, hl, _, _, hrest => by
    rw [eq_of_getD_eq arr K hl (fun j => hrest j (by simp))]
    rfl
  | e :: rest, arr, K, hl, hp, hm, hrest => by
    have hp2 := List.pairwise_cons.1 hp
    obtain ⟨he1, he2⟩ := hm e (List.mem_cons_self _ _)
    simp only [List.map_cons, modifyLoop]
    rw [if_pos he1, he2]
    simp only []
    apply modifyLoop_spec fn rest _ K (by rw [List.length_set]; exact hl) hp2.2
    · intro e2 h2
      have hne : e.1 ≠ e2.1 := ne_of_lt (hp2.1 e2 h2)
      obtain ⟨h3, h4⟩ := hm e2 (List.mem_cons_of_mem _ h2)
      refine ⟨by rw [List.length_set]; exact h3, ?_⟩
      rw [getD_set, if_neg (fun hh => hne hh.1)]
      exact h4
    · intro j hj
      rw [getD_set]
      by_cases hij : e.1 = j
      · rw [if_pos ⟨hij, he1⟩, hij]
      · rw [if_neg (fun hh => hij hh.1)]
        apply hrest
        intro e2 h2
        rcases List.mem_cons.1 h2 with rfl | h2
        · exact hij
        · exact hj e2 h2

theorem putChild_eq (acc : List (String × Json)) (k : String) (c : Json) :
    putChild acc k c =
      match (if c.is_null then none else some (k, c) : Option (String × Json)) with
      | none => acc
      | some e => setKey acc e.1 e.2 := by
  unfold putChild
  split_ifs <;> rfl

/-- The keys of the tag, of removals and of changes and additions are
pairwise different when the indices are. -/
theorem entries_keys_nodup (di mi : List Nat)
    (hbd : ∀ i ∈ di, i < 18446744073709551616) (hbm : ∀ j ∈ mi, j < 18446744073709551616)
    (hd : di.Nodup) (hm : mi.Nodup) :
    ("_t" :: (di.map (fun i => "_" ++ toString i) ++ mi.map (fun j => toString j))).Nodup := by
  rw [List.nodup_cons]
  refine ⟨?_, ?_⟩
  · simp only [List.mem_append, List.mem_map, not_or, not_exists, not_and]
    exact ⟨fun i _ h => delKey_ne_tag i h, fun j _ h => numKey_ne_tag j h⟩
  · rw [List.nodup_append]
    refine ⟨?_, ?_, ?_⟩
    · exact List.Nodup.map_on
        (fun x hx y hy h => delKey_injective x y (hbd x hx) (hbd y hy) h) hd
    · exact List.Nodup.map_on
        (fun x hx y hy h => toString_nat_injective x y (hbm x hx) (hbm y hy) h) hm
    · intro k h1 h2
      obtain ⟨i, _, rfl⟩ := List.mem_map.1 h1
      obtain ⟨j, _, hj⟩ := List.mem_map.1 h2
      exact numKey_ne_delKey j i hj

/-! ## The loops of `ArrayDiff` as lists of stored members -/

theorem foldl_entries_perm : ∀ (es : List (String × Json)) (m : List (String × Json)),
    ((m ++ es).map Prod.fst).Nodup →
    (es.foldl (fun acc e => setKey acc e.1 e.2) m).Perm (m ++ es)
  | [], m, _ => by simp
  | e :: rest, m, h => by
    simp only [List.foldl_cons]
    have hk : e.1 ∉ m.map Prod.fst := by
      intro hmem
      rw [List.map_append, List.map_cons] at h
      have := (List.nodup_append.1 h).2.2 hmem
      exact this (List.mem_cons_self _ _)
    have hp := setKey_perm m e.1 e.2 hk
    have hp2 : (setKey m e.1 e.2 ++ rest).Perm (m ++ e :: rest) :=
      (hp.append_right rest).trans (by
        simpa using (@List.perm_middle _ e m rest).symm)
    have hn : ((setKey m e.1 e.2 ++ rest).map Prod.fst).Nodup :=
      ((hp2.map Prod.fst).nodup_iff).2 h
    exact (foldl_entries_perm rest _ hn).trans hp2

theorem SortedKeys_foldl_entries : ∀ (es : List (String × Json)) (m : List (String × Json)),
    SortedKeys m → SortedKeys (es.foldl (fun acc e => setKey acc e.1 e.2) m)
  | [], _, h => h
  | e :: rest, m, h => by
    simp only [List.foldl_cons]
    exact SortedKeys_foldl_entries rest _ (SortedKeys_setKey _ _ _ h)

theorem foldl_putChild_entries (key : Nat → String) (val : Nat → Json) :
    ∀ (xs : List Nat) (m : List (String × Json)),
    xs.foldl (fun acc i => putChild acc (key i) (val i)) m =
      ((xs.filter (fun i => !(val i).is_null)).map (fun i => (key i, val i))).foldl
        (fun acc e => setKey acc e.1 e.2) m
  | [], _ => rfl
  | x :: rest, m => by
    simp only [List.foldl_cons, List.filter_cons]
    rw [foldl_putChild_entries key val rest]
    cases hc : (val x).is_null <;> simp [putChild, hc]

theorem foldl_addStep_entries (R : List Json) : ∀ (xs : List Nat) (m : List (String × Json)),
    xs.foldl (addStep R) m =
      (xs.map (fun i => addMember (i, R.getD i Json.null))).foldl
        (fun acc e => setKey acc e.1 e.2) m
  | [], _ => rfl
  | x :: rest, m => by
    simp only [List.foldl_cons, List.map_cons]
    rw [foldl_addStep_entries R rest]
    rfl

theorem foldl_removeStep_entries (L : List Json) : ∀ (xs : List Nat) (m : List (String × Json)),
    xs.foldl (removeStep L) m =
      (xs.map (fun i => delMember (i, L.getD i Json.null))).foldl
        (fun acc e => setKey acc e.1 e.2) m
  | [], _ => rfl
  | x :: rest, m => by
    simp only [List.foldl_cons, List.map_cons]
    rw [foldl_removeStep_entries L rest]
    rfl

/-- The common-head loop runs over a block of indices at which the elements
match, stores the child deltas of the block, and stops at the budget or at
the first index where its condition fails. -/
theorem headLoop_spec (h : Option (Json → String)) (diff : Json → Json → Json)
    (L R : List Json) : ∀ (fuel c : Nat) (res : List (String × Json)),
    ∃ k, k ≤ fuel ∧
      headLoop h diff L R fuel c res =
        (c + k, (List.range' c k).foldl (fun acc i => putChild acc (toString i)
          (diff (L.getD i Json.null) (R.getD i Json.null))) res) ∧
      (∀ i, c ≤ i → i < c + k → i < L.length ∧ i < R.length ∧
        ItemMatch.MatchArrayElement h (L.getD i Json.null) i (R.getD i Json.null) i = true) ∧
      (k = fuel ∨ ¬ (c + k < L.length ∧ c + k < R.length ∧
        ItemMatch.MatchArrayElement h (L.getD (c + k) Json.null) (c + k)
          (R.getD (c + k) Json.null) (c + k) = true))
  | 0, c, res => ⟨0, le_refl _, rfl, fun i h1 h2 => by omega, Or.inl rfl⟩
  | fuel + 1, c, res => by
    by_cases hc : c < L.length ∧ c < R.length ∧
        ItemMatch.MatchArrayElement h (L.getD c Json.null) c (R.getD c Json.null) c = true
    · obtain ⟨k, hk, he, hall, hstop⟩ := headLoop_spec h diff L R fuel (c + 1)
        (putChild res (toString c) (diff (L.getD c Json.null) (R.getD c Json.null)))
      refine ⟨k + 1, by omega, ?_, ?_, ?_⟩
      · unfold headLoop
        rw [if_pos (by
          rw [Bool.and_eq_true, Bool.and_eq_true, decide_eq_true_eq, decide_eq_true_eq]
          exact ⟨⟨hc.1, hc.2.1⟩, hc.2.2⟩), he]
        rw [List.range'_succ, List.foldl_cons]
        congr 1
        omega
      · intro i h1 h2
        by_cases hi : i = c
        · subst hi
          exact hc
        · exact hall i (by omega) (by omega)
      · rcases hstop with hs | hs
        · exact Or.inl (by omega)
        · right
          rw [show c + (k + 1) = c + 1 + k by omega]
          exact hs
    · refine ⟨0, by omega, ?_, fun i h1 h2 => by omega, Or.inr hc⟩
      unfold headLoop
      rw [if_neg (by
        rw [Bool.and_eq_true, Bool.and_eq_true, decide_eq_true_eq, decide_eq_true_eq, and_assoc]
        exact hc)]
      rfl

/-- The common-tail loop, in the same way. -/
theorem tailLoop_spec (h : Option (Json → String)) (diff : Json → Json → Json)
    (L R : List Json) (ch : Nat) : ∀ (fuel t : Nat) (res : List (String × Json)),
    ∃ k, k ≤ fuel ∧
      tailLoop h diff L R ch fuel t res =
        (t + k, (List.range' t k).foldl (fun acc i => putChild acc (toString (R.length - 1 - i))
          (diff (L.getD (L.length - 1 - i) Json.null) (R.getD (R.length - 1 - i) Json.null))) res) ∧
      (∀ i, t ≤ i → i < t + k → i + ch < L.length ∧ i + ch < R.length ∧
        ItemMatch.MatchArrayElement h (L.getD (L.length - 1 - i) Json.null) (L.length - 1 - i)
          (R.getD (R.length - 1 - i) Json.null) (R.length - 1 - i) = true) ∧
      (k = fuel ∨ ¬ (t + k + ch < L.length ∧ t + k + ch < R.length ∧
        ItemMatch.MatchArrayElement h (L.getD (L.length - 1 - (t + k)) Json.null)
          (L.length - 1 - (t + k))
          (R.getD (R.length - 1 - (t + k)) Json.null) (R.length - 1 - (t + k)) = true))
  | 0, t, res => ⟨0, le_refl _, rfl, fun i h1 h2 => by omega, Or.inl rfl⟩
  | fuel + 1, t, res => by
    by_cases hc : t + ch < L.length ∧ t + ch < R.length ∧
        ItemMatch.MatchArrayElement h (L.getD (L.length - 1 - t) Json.null) (L.length - 1 - t)
          (R.getD (R.length - 1 - t) Json.null) (R.length - 1 - t) = true
    · obtain ⟨k, hk, he, hall, hstop⟩ := tailLoop_spec h diff L R ch fuel (t + 1)
        (putChild res (toString (R.length - 1 - t))
          (diff (L.getD (L.length - 1 - t) Json.null) (R.getD (R.length - 1 - t) Json.null)))
      refine ⟨k + 1, by omega, ?_, ?_, ?_⟩
      · unfold tailLoop
        rw [if_pos (by
          rw [Bool.and_eq_true, Bool.and_eq_true, decide_eq_true_eq, decide_eq_true_eq]
          exact ⟨⟨hc.1, hc.2.1⟩, hc.2.2⟩)]
        simp only []
        rw [he, List.range'_succ, List.foldl_cons]
        congr 1
        omega
      · intro i h1 h2
        by_cases hi : i = t
        · subst hi
          exact hc
        · exact hall i (by omega) (by omega)
      · rcases hstop with hs | hs
        · exact Or.inl (by omega)
        · right
          rw [show t + (k + 1) = t + 1 + k by omega]
          exact hs
    · refine ⟨0, by omega, ?_, fun i h1 h2 => by omega, Or.inr hc⟩
      unfold tailLoop
      rw [if_neg (by
        rw [Bool.and_eq_true, Bool.and_eq_true, decide_eq_true_eq, decide_eq_true_eq, and_assoc]
        exact hc)]
      rfl

theorem ArrayDiff_of_loops (h : Option (Json → String)) (diff : Json → Json → Json)
    (L R : List Json) (ch ct : Nat) (res1 res2 : List (String × Json)) (hne : L ≠ R)
    (h1 : headLoop h diff L R L.length 0 [("_t", Json.str "a")] = (ch, res1))
    (h2 : tailLoop h diff L R ch L.length 0 res1 = (ct, res2)) :
    ArrayDiff h diff L R =
      if ch + ct = L.length then
        Json.obj ((List.range' ch (R.length - ct - ch)).foldl (addStep R) res2)
      else if ch + ct = R.length then
        Json.obj ((List.range' ch (L.length - ct - ch)).foldl (removeStep L) res2)
      else
        let lcs := ComputeLcs h ((L.drop ch).take (L.length - ch - ct))
          ((R.drop ch).take (R.length - ch - ct))
        let result := (List.range' ch (R.length - ct - ch)).foldl
          (markAddition diff L R ch lcs)
          ((List.range' ch (L.length - ct - ch)).foldl (markDeletion L ch lcs) res2)
        if result.length = 1 ∧ contains result "_t" then Json.null else Json.obj result := by
  unfold ArrayDiff
  rw [if_neg hne]
  simp only [h1, h2]

theorem getD_mem (L : List Json) (i : Nat) (h : i < L.length) : L.getD i Json.null ∈ L := by
  rw [List.getD_eq_getElem _ _ h]
  exact List.getElem_mem h

theorem getD_take (L : List Json) (k i : Nat) :
    (L.take k).getD i Json.null = if i < k then L.getD i Json.null else Json.null := by
  simp only [List.getD_eq_getElem?_getD, List.getElem?_take]
  split_ifs <;> rfl

/-- With no object hash, two arrays of objects are matched position by
position: the common-head loop covers the shorter length and the common-tail
loop does nothing. -/
theorem positional_loops (diff : Json → Json → Json) (L R : List Json)
    (hL : ∀ x ∈ L, x.is_object = true) :
    ∃ res1, headLoop none diff L R L.length 0 [("_t", Json.str "a")] =
        (min L.length R.length, res1) ∧
      tailLoop none diff L R (min L.length R.length) L.length 0 res1 = (0, res1) ∧
      res1 = (((List.range' 0 (min L.length R.length)).filter
        (fun i => !(diff (L.getD i Json.null) (R.getD i Json.null)).is_null)).map
        (fun i => modMember (i, diff (L.getD i Json.null) (R.getD i Json.null)))).foldl
        (fun acc e => setKey acc e.1 e.2) [("_t", Json.str "a")] := by
  obtain ⟨k, hk, he, hall, hstop⟩ := headLoop_spec none diff L R L.length 0 [("_t", Json.str "a")]
  have hmatch : ∀ i, i < L.length → ItemMatch.MatchArrayElement none (L.getD i Json.null) i
      (R.getD i Json.null) i = true := by
    intro i hi
    have := hL _ (getD_mem L i hi)
    unfold ItemMatch.MatchArrayElement
    simp only [this, Bool.not_true, Bool.false_and, Bool.false_eq_true, if_false, decide_True]
  have hk1 : k ≤ R.length := by
    by_contra hc
    have := hall (k - 1) (by omega) (by omega)
    omega
  have hk2 : k = min L.length R.length := by
    rcases hstop with hs | hs
    · omega
    · have : ¬ (0 + k < L.length ∧ 0 + k < R.length) := fun hh =>
        hs ⟨hh.1, hh.2, hmatch _ hh.1⟩
      omega
  rw [Nat.zero_add] at he
  subst hk2
  refine ⟨_, he, ?_, ?_⟩
  · obtain ⟨k2, _, he2, hall2, _⟩ := tailLoop_spec none diff L R (min L.length R.length)
      L.length 0 ((List.range' 0 (min L.length R.length)).foldl
        (fun acc i => putChild acc (toString i)
          (diff (L.getD i Json.null) (R.getD i Json.null))) [("_t", Json.str "a")])
    have hk0 : k2 = 0 := by
      by_contra hc
      have := hall2 0 (le_refl _) (by omega)
      omega
    subst hk0
    rw [he2]
    rfl
  · rw [foldl_putChild_entries]
    rfl


theorem range_pairwise_lt (a k : Nat) : (List.range' a k).Pairwise (· < ·) := by
  simpa using List.pairwise_lt_range' a k

theorem range_nodup (a k : Nat) : (List.range' a k).Nodup := List.nodup_range' a k

/-- Storing the members of removals, changes and additions with pairwise
different indices into the tagged object gives exactly these members, in key
order. -/
theorem members_of_entries (dels mods adds : List (Nat × Json)) (E : List (String × Json))
    (hE : E.Perm (dels.map delMember ++ (mods.map modMember ++ adds.map addMember)))
    (hbd : ∀ e ∈ dels, e.1 < 18446744073709551616)
    (hbm : ∀ e ∈ mods ++ adds, e.1 < 18446744073709551616)
    (hd : (dels.map Prod.fst).Nodup) (hma : ((mods ++ adds).map Prod.fst).Nodup) :
    SortedKeys (E.foldl (fun acc e => setKey acc e.1 e.2) [("_t", Json.str "a")]) ∧
    (E.foldl (fun acc e => setKey acc e.1 e.2) [("_t", Json.str "a")]).Perm
      (("_t", Json.str "a") ::
        (dels.map delMember ++ (mods.map modMember ++ adds.map addMember))) := by
  have hs : SortedKeys [("_t", Json.str "a")] := by simp [SortedKeys]
  refine ⟨SortedKeys_foldl_entries E _ hs, ?_⟩
  have hkeys : ((("_t", Json.str "a") ::
      (dels.map delMember ++ (mods.map modMember ++ adds.map addMember))).map Prod.fst) =
      "_t" :: ((dels.map Prod.fst).map (fun i => "_" ++ toString i) ++
        ((mods ++ adds).map Prod.fst).map (fun j => toString j)) := by
    simp only [List.map_cons, List.map_append, List.map_map]
    rfl
  have hnd := entries_keys_nodup (dels.map Prod.fst) ((mods ++ adds).map Prod.fst)
    (fun i hi => by
      obtain ⟨e, he, rfl⟩ := List.mem_map.1 hi
      exact hbd e he)
    (fun i hi => by
      obtain ⟨e, he, rfl⟩ := List.mem_map.1 hi
      exact hbm e he) hd hma
  rw [← hkeys] at hnd
  have hp : ([("_t", Json.str "a")] ++ E).Perm (("_t", Json.str "a") ::
      (dels.map delMember ++ (mods.map modMember ++ adds.map addMember))) := by
    simpa using hE
  exact (foldl_entries_perm E _ (((hp.map Prod.fst).nodup_iff).2 hnd)).trans hp

/-- The delta of two different arrays of objects, with no object hash: the
child deltas of the common positions, then the block of added or of removed
positions. -/
theorem ArrayDiff_positional (diff : Json → Json → Json) (L R : List Json)
    (hL : ∀ x ∈ L, x.is_object = true) (hne : L ≠ R)
    (hbL : L.length < 18446744073709551616) (hbR : R.length < 18446744073709551616) :
    ∃ M, ArrayDiff none diff L R = Json.obj M ∧ SortedKeys M ∧
      M.Perm (("_t", Json.str "a") ::
        ((((List.range' R.length (L.length - R.length)).reverse).map
            (fun i => (i, L.getD i Json.null))).map delMember ++
          ((((List.range' 0 (min L.length R.length)).filter
            (fun i => !(diff (L.getD i Json.null) (R.getD i Json.null)).is_null)).map
            (fun i => (i, diff (L.getD i Json.null) (R.getD i Json.null)))).map modMember ++
           ((List.range' L.length (R.length - L.length)).map
            (fun i => (i, R.getD i Json.null))).map addMember))) := by
  obtain ⟨res1, h1, h2, h3⟩ := positional_loops diff L R hL
  rw [ArrayDiff_of_loops none diff L R _ _ _ _ hne h1 h2]
  by_cases hmn : L.length ≤ R.length
  · have hmin : min L.length R.length = L.length := Nat.min_eq_left hmn
    rw [if_pos (by omega)]
    refine ⟨_, rfl, ?_⟩
    rw [foldl_addStep_entries, h3, ← List.foldl_append]
    have h0 : L.length - R.length = 0 := by omega
    simp only [h0, List.range'_zero, List.reverse_nil, List.map_nil, List.nil_append,
      Nat.add_zero, Nat.sub_zero, hmin]
    have := members_of_entries []
      (((List.range' 0 L.length).filter
        (fun i => !(diff (L.getD i Json.null) (R.getD i Json.null)).is_null)).map
        (fun i => (i, diff (L.getD i Json.null) (R.getD i Json.null))))
      ((List.range' L.length (R.length - L.length)).map (fun i => (i, R.getD i Json.null)))
      _ (List.Perm.refl _) (by simp) ?_ (by simp) ?_
    · simpa [List.map_map, Function.comp] using this
    · intro e he
      simp only [List.mem_append, List.mem_map, List.mem_filter, List.mem_range'_1] at he
      rcases he with ⟨i, hi, rfl⟩ | ⟨i, hi, rfl⟩ <;> simp only [] <;> omega
    · rw [List.map_append, List.map_map, List.map_map]
      simp only [Function.comp_def, List.map_id']
      rw [List.nodup_append]
      refine ⟨(range_nodup _ _).filter _, range_nodup _ _, ?_⟩
      intro i h1 h2
      simp only [List.mem_filter, List.mem_range'_1] at h1 h2
      omega
  · have hmin : min L.length R.length = R.length := Nat.min_eq_right (by omega)
    rw [if_neg (by omega), if_pos (by omega)]
    refine ⟨_, rfl, ?_⟩
    rw [foldl_removeStep_entries, h3, ← List.foldl_append]
    have h0 : R.length - L.length = 0 := by omega
    simp only [h0, List.range'_zero, List.map_nil, List.append_nil,
      Nat.add_zero, Nat.sub_zero, hmin]
    have := members_of_entries
      (((List.range' R.length (L.length - R.length)).reverse).map
        (fun i => (i, L.getD i Json.null)))
      (((List.range' 0 R.length).filter
        (fun i => !(diff (L.getD i Json.null) (R.getD i Json.null)).is_null)).map
        (fun i => (i, diff (L.getD i Json.null) (R.getD i Json.null))))
      []
      ((((List.range' 0 R.length).filter
        (fun i => !(diff (L.getD i Json.null) (R.getD i Json.null)).is_null)).map
        (fun i => modMember (i, diff (L.getD i Json.null) (R.getD i Json.null)))) ++
        ((List.range' R.length (L.length - R.length)).map
          (fun i => delMember (i, L.getD i Json.null)))) ?_ ?_ ?_ ?_ ?_
    · simpa [List.map_map, Function.comp] using this
    · simp only [List.map_nil, List.append_nil, List.map_map, List.map_reverse]
      exact List.perm_append_comm.trans
        ((List.reverse_perm _).symm.append_right _)
    · intro e he
      simp only [List.mem_map, List.mem_reverse, List.mem_range'_1] at he
      obtain ⟨i, hi, rfl⟩ := he
      simp only []
      omega
    · intro e he
      simp only [List.append_nil, List.mem_map, List.mem_filter, List.mem_range'_1] at he
      obtain ⟨i, hi, rfl⟩ := he
      simp only []
      omega
    · rw [List.map_map]
      simp only [Function.comp_def, List.map_id']
      exact List.nodup_reverse.2 (range_nodup _ _)
    · rw [List.append_nil, List.map_map]
      simp only [Function.comp_def, List.map_id']
      exact (range_nodup _ _).filter _


/-- Applying the positional delta: the removed block goes, the child deltas
are applied in place, the added block is appended. -/
theorem positional_patch (fn : Json → Json → Except Err Json) (diff : Json → Json → Json)
    (L R : List Json) (M : List (String × Json))
    (hperm : M.Perm (("_t", Json.str "a") ::
        ((((List.range' R.length (L.length - R.length)).reverse).map
            (fun i => (i, L.getD i Json.null))).map delMember ++
          ((((List.range' 0 (min L.length R.length)).filter
            (fun i => !(diff (L.getD i Json.null) (R.getD i Json.null)).is_null)).map
            (fun i => (i, diff (L.getD i Json.null) (R.getD i Json.null)))).map modMember ++
           ((List.range' L.length (R.length - L.length)).map
            (fun i => (i, R.getD i Json.null))).map addMember))))
    (hbL : L.length < 18446744073709551616) (hbR : R.length < 18446744073709551616)
    (hshape : ∀ a b, isDeltaShape (diff a b))
    (hnull : ∀ i, i < min L.length R.length →
      diff (L.getD i Json.null) (R.getD i Json.null) = Json.null →
      L.getD i Json.null = R.getD i Json.null)
    (hrt : ∀ i, i < min L.length R.length →
      (diff (L.getD i Json.null) (R.getD i Json.null)).is_null = false →
      fn (L.getD i Json.null) (diff (L.getD i Json.null) (R.getD i Json.null)) =
        .ok (R.getD i Json.null)) :
    ArrayPatch fn L M = .ok (Json.arr R) := by
  rw [ArrayPatch_of_perm fn L M _ _ _ hperm ?_ ?_ ?_ ?_ ?_ ?_]
  · have hrem : (removeLoop ((((List.range' R.length (L.length - R.length)).reverse).map
        (fun i => (i, L.getD i Json.null))).map (fun e => ⟨e.1, false, 0⟩)) L []).1 =
        L.take (min L.length R.length) := by
      by_cases hmn : L.length ≤ R.length
      · have h0 : L.length - R.length = 0 := by omega
        rw [h0, Nat.min_eq_left hmn]
        simp [removeLoop]
      · have := removeLoop_filter (fun _ => true) R.length (L.length - R.length) L (by omega)
        simp only [List.filter_true] at this
        rw [List.map_map]
        rw [show ((fun e : Nat × Json => (⟨e.1, false, 0⟩ : Removal)) ∘
          fun i => (i, L.getD i Json.null)) = (fun i => (⟨i, false, 0⟩ : Removal)) from rfl, this]
        rw [Nat.min_eq_right (by omega)]
        simp [keepIdx]
        omega
    rw [hrem]
    rw [modifyLoop_spec fn _ (L.take (min L.length R.length)) (R.take (min L.length R.length))
      (by simp) ?_ ?_ ?_]
    · simp only []
      congr 2
      by_cases hmn : L.length ≤ R.length
      · have := insertLoop_filter (fun _ => true) L.length R (R.length - L.length) [] (by omega)
        simp only [List.filter_true, Bool.not_true, List.filter_false, List.map_nil,
          List.append_nil] at this
        rw [List.map_map, Nat.min_eq_left hmn]
        rw [show ((fun e : Nat × Json => (⟨e.1, e.2, false⟩ : Insertion)) ∘
          fun i => (i, R.getD i Json.null)) = (fun i => (⟨i, R.getD i Json.null, false⟩ : Insertion))
          from rfl, this]
        rw [show L.length + (R.length - L.length) = R.length by omega, List.take_length]
      · have h0 : R.length - L.length = 0 := by omega
        rw [h0, Nat.min_eq_right (by omega)]
        simp [insertLoop]
    · exact List.pairwise_map.2 ((range_pairwise_lt _ _).filter _)
    · intro e he
      simp only [List.mem_map, List.mem_filter, List.mem_range'_1, Bool.not_eq_true'] at he
      obtain ⟨i, ⟨hi, hnn⟩, rfl⟩ := he
      have hi2 : i < min L.length R.length := by omega
      refine ⟨by simp only [List.length_take]; omega, ?_⟩
      simp only []
      rw [getD_take, getD_take, if_pos hi2, if_pos hi2]
      exact hrt i hi2 hnn
    · intro j hj
      rw [getD_take, getD_take]
      by_cases hj2 : j < min L.length R.length
      · rw [if_pos hj2, if_pos hj2]
        apply hnull j hj2
        by_contra hc
        have hnn : (diff (L.getD j Json.null) (R.getD j Json.null)).is_null = false := by
          cases hd : diff (L.getD j Json.null) (R.getD j Json.null) <;>
            first | rfl | exact absurd hd hc
        exact hj (j, diff (L.getD j Json.null) (R.getD j Json.null))
          (List.mem_map.2 ⟨j, List.mem_filter.2 ⟨List.mem_range'_1.2 ⟨by omega, by omega⟩,
            by rw [hnn]; rfl⟩, rfl⟩) rfl
      · rw [if_neg hj2, if_neg hj2]
  · intro e he
    simp only [List.mem_map, List.mem_reverse, List.mem_range'_1] at he
    obtain ⟨i, hi, rfl⟩ := he
    simp only []
    omega
  · intro e he
    simp only [List.mem_map, List.mem_filter, List.mem_range'_1] at he
    obtain ⟨i, hi, rfl⟩ := he
    exact ⟨by simp only []; omega, hshape _ _⟩
  · intro e he
    simp only [List.mem_map, List.mem_range'_1] at he
    obtain ⟨i, hi, rfl⟩ := he
    simp only []
    omega
  · apply List.pairwise_map.2
    rw [List.pairwise_reverse]
    exact (range_pairwise_lt _ _).imp (fun h => h)
  · exact List.pairwise_map.2 ((range_pairwise_lt _ _).filter _)
  · exact List.pairwise_map.2 (range_pairwise_lt _ _)

theorem numbers_isTreeKvs : ∀ (kvs : List (String × Json)),
    kvs.all (fun e => e.2.is_number_integer) = true →
    Json.isTreeKvs kvs = true ∧ Json.wfKvs kvs = true
  | [], _ => ⟨rfl, rfl⟩
  | (k, v) :: rest, h => by
    rw [List.all_cons, Bool.and_eq_true] at h
    have ih := numbers_isTreeKvs rest h.2
    cases v <;> simp [Json.is_number_integer] at h
    simp [Json.isTreeKvs, Json.wfKvs, Json.isTree, Json.wf, ih.1, ih.2]

theorem isNumObject_tree (x : Json) (h : isNumObject x = true) :
    x.is_object = true ∧ x.isTree = true ∧ x.wf = true := by
  cases x with
  | obj kvs =>
    rw [isNumObject, Bool.and_eq_true] at h
    have := numbers_isTreeKvs kvs h.2
    refine ⟨rfl, ?_, ?_⟩
    · rw [Json.isTree]
      exact this.1
    · rw [Json.wf, Bool.and_eq_true]
      exact ⟨h.1, this.2⟩
  | _ => simp [isNumObject] at h

theorem Diff_arr_default (L R : List Json) :
    Diff defaultOptions (Json.arr L) (Json.arr R) =
      ArrayDiff none (DiffN defaultOptions (Json.depthList L + 1)) L R := rfl

theorem Patch_array_delta (L : List Json) (M : List (String × Json))
    (h : isArrayDelta M = true) :
    Patch (Json.arr L) (Json.obj M) = ArrayPatch (PatchN (Json.depthKvs M + 1)) L M := by
  show (if isArrayDelta M then ArrayPatch (PatchN (Json.depthKvs M + 1)) L M else _) = _
  rw [if_pos h]

/-- Arrays of tree-shaped objects, with no object hash: applying the delta of
`left` and `right` to `left` gives `right`. -/
theorem array_of_objects_patch (o : Options) (ho : o.ObjectHash = none) (L R : List Json)
    (hL : ∀ x ∈ L, x.is_object = true ∧ x.isTree = true ∧ x.wf = true)
    (hR : ∀ x ∈ R, x.is_object = true ∧ x.isTree = true ∧ x.wf = true)
    (hbL : L.length < 18446744073709551616) (hbR : R.length < 18446744073709551616)
    (n : Nat) (hn : Json.depthList L < n) :
    Patch (Json.arr L) (ArrayDiff none (DiffN o n) L R) = .ok (Json.arr R) := by
  by_cases hne : L = R
  · subst hne
    unfold ArrayDiff
    rw [if_pos rfl]
    rfl
  · obtain ⟨M, hM, hs, hperm⟩ := ArrayDiff_positional (DiffN o n) L R (fun x hx => (hL x hx).1)
      hne hbL hbR
    rw [hM]
    have htag : isArrayDelta M = true := by
      unfold isArrayDelta
      rw [find_of_mem M "_t" (Json.str "a") hs (hperm.mem_iff.2 (List.mem_cons_self _ _))]
      rfl
    rw [Patch_array_delta L M htag]
    have hfacts : ∀ i, i < min L.length R.length →
        (L.getD i Json.null).depth < n ∧ (L.getD i Json.null).isTree = true ∧
        (R.getD i Json.null).isTree = true ∧ (L.getD i Json.null).wf = true ∧
        (R.getD i Json.null).wf = true := by
      intro i hi
      have h1 := hL _ (getD_mem L i (by omega))
      have h2 := hR _ (getD_mem R i (by omega))
      exact ⟨lt_of_le_of_lt (depth_getD_le L i) hn, h1.2.1, h2.2.1, h1.2.2, h2.2.2⟩
    apply positional_patch (PatchN (Json.depthKvs M + 1)) (DiffN o n) L R M hperm hbL hbR
      (DiffN_shape o n)
    · intro i hi
      obtain ⟨f1, f2, f3, f4, f5⟩ := hfacts i hi
      exact (tree_round_trip o ho n _ _ f1 f2 f3 f4 f5).1
    · intro i hi hnn
      obtain ⟨f1, f2, f3, f4, f5⟩ := hfacts i hi
      have hmem : (toString i, DiffN o n (L.getD i Json.null) (R.getD i Json.null)) ∈ M := by
        apply hperm.mem_iff.2
        apply List.mem_cons_of_mem
        apply List.mem_append_right
        apply List.mem_append_left
        apply List.mem_map.2
        refine ⟨(i, DiffN o n (L.getD i Json.null) (R.getD i Json.null)), ?_, rfl⟩
        apply List.mem_map.2
        refine ⟨i, List.mem_filter.2 ⟨List.mem_range'_1.2 ⟨by omega, by omega⟩, ?_⟩, rfl⟩
        rw [hnn]
        rfl
      have hdep := depth_le_depthKvs M _ _ hmem
      exact ((tree_round_trip o ho n _ _ f1 f2 f3 f4 f5).2 _ (by omega)).1

/-- Claim C13: for all arrays `L` and `R`, of any two lengths below `2^31`
(the range of the `int` indices of the source), whose elements are all objects
with number values (their keys in map order), with default options (so with no
object hash), `Patch(L, Diff(L, R))` returns `R`. -/
theorem C13_arrays_of_objects_round_trip (L R : List Json)
    (hL : ∀ x ∈ L, isNumObject x = true) (hR : ∀ x ∈ R, isNumObject x = true)
    (hbL : L.length < indexBound) (hbR : R.length < indexBound) :
    Patch (Json.arr L) (Diff defaultOptions (Json.arr L) (Json.arr R)) = .ok (Json.arr R) :=
  array_of_objects_patch defaultOptions rfl L R (fun x hx => isNumObject_tree x (hL x hx))
    (fun x hx => isNumObject_tree x (hR x hx))
    (lt_trans hbL (by decide)) (lt_trans hbR (by decide)) _ (Nat.lt_succ_self _)

theorem C13_arrays_of_objects_round_trip_witness :
    Patch (Json.arr [Json.obj [("a", Json.num 1), ("b", Json.num 2)], Json.obj [("c", Json.num 3)],
        Json.obj []])
      (Diff defaultOptions
        (Json.arr [Json.obj [("a", Json.num 1), ("b", Json.num 2)], Json.obj [("c", Json.num 3)],
          Json.obj []])
        (Json.arr [Json.obj [("a", Json.num 1), ("b", Json.num 5)], Json.obj [("d", Json.num 3)]])) =
      .ok (Json.arr [Json.obj [("a", Json.num 1), ("b", Json.num 5)], Json.obj [("d", Json.num 3)]]) :=
  C13_arrays_of_objects_round_trip _ _ (by decide) (by decide) (by decide) (by decide)

/-! ## Deltas of removals and additions only -/

theorem Unpatch_array_delta (R : List Json) (M : List (String × Json))
    (h : isArrayDelta M = true) :
    Unpatch (Json.arr R) (Json.obj M) = ArrayUnpatch (UnpatchN (Json.depthKvs M + 1)) R M := by
  show (if isArrayDelta M then ArrayUnpatch (UnpatchN (Json.depthKvs M + 1)) R M else _) = _
  rw [if_pos h]

/-- A delta that removes the positions of a block of `L` selected by `P1` and
adds the positions of a block of `R` selected by `P2`, where what stays of `L`
is what stays of `R`: `ArrayPatch` turns `L` into `R` and `ArrayUnpatch` turns
`R` into `L`. -/
theorem filtered_delta_round_trip (fn gn : Json → Json → Except Err Json) (L R : List Json)
    (P1 P2 : Nat → Bool) (a k1 k2 : Nat) (M : List (String × Json))
    (hperm : M.Perm (("_t", Json.str "a") ::
      ((((List.range' a k1).filter P1).map (fun i => (i, L.getD i Json.null))).map delMember ++
       (((List.range' a k2).filter P2).map (fun i => (i, R.getD i Json.null))).map addMember)))
    (h1 : a + k1 ≤ L.length) (h2 : a + k2 ≤ R.length)
    (hbL : L.length < 18446744073709551616) (hbR : R.length < 18446744073709551616)
    (hkept : keepIdx P1 a k1 L = keepIdx P2 a k2 R) :
    ArrayPatch fn L M = .ok (Json.arr R) ∧ ArrayUnpatch gn R M = .ok (Json.arr L) := by
  have hbd : ∀ (l : List Nat) (f : Nat → Json), (∀ i ∈ l, i < 18446744073709551616) →
      ∀ e ∈ l.map (fun i => (i, f i)), e.1 < 18446744073709551616 := by
    intro l f hl e he
    obtain ⟨i, hi, rfl⟩ := List.mem_map.1 he
    exact hl i hi
  have hr1 : ∀ i ∈ (List.range' a k1).filter P1, i < 18446744073709551616 := by
    intro i hi
    have := List.mem_range'_1.1 (List.mem_filter.1 hi).1
    omega
  have hr2 : ∀ i ∈ (List.range' a k2).filter P2, i < 18446744073709551616 := by
    intro i hi
    have := List.mem_range'_1.1 (List.mem_filter.1 hi).1
    omega
  constructor
  · have hp : M.Perm (("_t", Json.str "a") ::
        (((((List.range' a k1).filter P1).reverse).map
            (fun i => (i, L.getD i Json.null))).map delMember ++
          ((([] : List (Nat × Json))).map modMember ++
           (((List.range' a k2).filter P2).map (fun i => (i, R.getD i Json.null))).map
             addMember))) := by
      refine hperm.trans (List.Perm.cons _ ?_)
      simp only [List.map_nil, List.nil_append]
      exact List.Perm.append_right _ (((List.reverse_perm _).map _).map _).symm
    rw [ArrayPatch_of_perm fn L M _ _ _ hp
      (hbd _ _ (fun i hi => hr1 i (List.mem_reverse.1 hi)))
      (by simp) (hbd _ _ hr2)
      (List.pairwise_map.2 (List.pairwise_reverse.2
        (((range_pairwise_lt a k1).filter P1).imp (fun h => h))))
      (by simp) (List.pairwise_map.2 ((range_pairwise_lt a k2).filter P2))]
    rw [List.map_map]
    rw [show ((fun e : Nat × Json => (⟨e.1, false, 0⟩ : Removal)) ∘
          fun i => (i, L.getD i Json.null)) = (fun i => (⟨i, false, 0⟩ : Removal)) from rfl,
      removeLoop_filter P1 a k1 L h1]
    simp only [List.map_nil, modifyLoop]
    rw [List.map_map]
    rw [show ((fun e : Nat × Json => (⟨e.1, e.2, false⟩ : Insertion)) ∘
          fun i => (i, R.getD i Json.null)) = (fun i => (⟨i, R.getD i Json.null, false⟩ : Insertion))
          from rfl, hkept, insertLoop_keepIdx P2 a k2 R h2]
  · have hp : M.Perm (("_t", Json.str "a") ::
        ((((List.range' a k1).filter P1).map
            (fun i => (i, L.getD i Json.null))).map delMember ++
          ((([] : List (Nat × Json))).map modMember ++
           ((((List.range' a k2).filter P2).reverse).map
             (fun i => (i, R.getD i Json.null))).map addMember))) := by
      refine hperm.trans (List.Perm.cons _ ?_)
      simp only [List.map_nil, List.nil_append]
      exact List.Perm.append_left _ (((List.reverse_perm _).map _).map _).symm
    rw [ArrayUnpatch_of_perm gn R M _ _ _ hp (hbd _ _ hr1) (by simp)
      (hbd _ _ (fun i hi => hr2 i (List.mem_reverse.1 hi)))
      (List.pairwise_map.2 ((range_pairwise_lt a k1).filter P1)) (by simp)
      (List.pairwise_map.2 (List.pairwise_reverse.2
        (((range_pairwise_lt a k2).filter P2).imp (fun h => h))))]
    rw [undoAddLoop_eq_removeLoop, List.map_map, List.map_map]
    rw [show (((fun i => (⟨i, false, 0⟩ : Removal)) ∘ (fun e : Nat × Json => e.1)) ∘
          fun i => (i, R.getD i Json.null)) = (fun i => (⟨i, false, 0⟩ : Removal)) from rfl,
      removeLoop_filter P2 a k2 R h2]
    simp only [List.map_nil, modifyLoop]
    rw [reinsertLoop_eq_insertLoop, List.map_map, List.map_map]
    rw [show (((fun d : DelWas => (⟨d.index, d.value, false⟩ : Insertion)) ∘
          (fun e : Nat × Json => (⟨e.1, e.2⟩ : DelWas))) ∘ fun i => (i, L.getD i Json.null)) =
          (fun i => (⟨i, L.getD i Json.null, false⟩ : Insertion)) from rfl,
      ← hkept, insertLoop_keepIdx P1 a k1 L h1]

/-! ## Lists of indices -/

theorem getD_drop_take (L : List Json) (a k y : Nat) :
    ((L.drop a).take k).getD y Json.null =
      if y < k then L.getD (a + y) Json.null else Json.null := by
  rw [getD_take]
  split_ifs
  · simp only [List.getD_eq_getElem?_getD, List.getElem?_drop]
  · rfl

theorem getD_drop (L : List Json) (a y : Nat) :
    (L.drop a).getD y Json.null = L.getD (a + y) Json.null := by
  simp only [List.getD_eq_getElem?_getD, List.getElem?_drop]

/-- Two strictly ascending lists with the same elements are equal. -/
theorem eq_of_sorted_of_mem (A B : List Nat) (hA : A.Pairwise (· < ·)) (hB : B.Pairwise (· < ·))
    (h : ∀ x, x ∈ A ↔ x ∈ B) : A = B := by
  have hp : A.Perm B :=
    (List.perm_ext_iff_of_nodup (hA.imp (fun h => ne_of_lt h)) (hB.imp (fun h => ne_of_lt h))).2 h
  exact List.eq_of_perm_of_sorted hp hA hB

/-- The positions of a block whose offset is in a strictly ascending list of
offsets below the block length are the offsets, shifted. -/
theorem filter_range_contains (I : List Nat) (a k : Nat) (hI : I.Pairwise (· < ·))
    (hb : ∀ x ∈ I, x < k) :
    (List.range' a k).filter (fun i => I.contains (i - a)) = I.map (fun x => x + a) := by
  apply eq_of_sorted_of_mem
  · exact (range_pairwise_lt a k).filter _
  · exact List.pairwise_map.2 (hI.imp (fun h => by omega))
  · intro x
    simp only [List.mem_filter, List.mem_range'_1, List.contains_iff_exists_mem_beq, beq_iff_eq, exists_eq_right', List.mem_map]
    constructor
    · rintro ⟨⟨h1, h2⟩, h3⟩
      exact ⟨x - a, h3, by omega⟩
    · rintro ⟨y, hy, rfl⟩
      have := hb y hy
      refine ⟨⟨by omega, by omega⟩, ?_⟩
      rw [Nat.add_sub_cancel]
      exact hy

theorem map_eq_of_forallTwo {α : Type} (f g : Nat → α) : ∀ (A B : List Nat),
    List.Forall₂ (fun x y => f x = g y) A B → A.map f = B.map g
  | _, _, List.Forall₂.nil => rfl
  | _, _, List.Forall₂.cons h rest => by
    rw [List.map_cons, List.map_cons, h, map_eq_of_forallTwo f g _ _ rest]

theorem foldl_putChild_null (key : Nat → String) (val : Nat → Json) :
    ∀ (xs : List Nat) (m : List (String × Json)), (∀ i ∈ xs, val i = Json.null) →
    xs.foldl (fun acc i => putChild acc (key i) (val i)) m = m
  | [], _, _ => rfl
  | x :: rest, m, h => by
    rw [List.foldl_cons, h x (List.mem_cons_self _ _)]
    exact foldl_putChild_null key val rest m (fun i hi => h i (List.mem_cons_of_mem _ hi))

theorem take_eq_of_getD (L R : List Json) (c : Nat) (h1 : c ≤ L.length) (h2 : c ≤ R.length)
    (h : ∀ i, i < c → L.getD i Json.null = R.getD i Json.null) : L.take c = R.take c := by
  apply eq_of_getD_eq
  · simp only [List.length_take]
    omega
  · intro j
    rw [getD_take, getD_take]
    split_ifs with hj
    · exact h j hj
    · rfl

theorem drop_eq_of_getD (L R : List Json) (c : Nat) (h1 : c ≤ L.length) (h2 : c ≤ R.length)
    (h : ∀ i, i < c → L.getD (L.length - 1 - i) Json.null = R.getD (R.length - 1 - i) Json.null) :
    L.drop (L.length - c) = R.drop (R.length - c) := by
  apply eq_of_getD_eq
  · simp only [List.length_drop]
    omega
  · intro j
    rw [getD_drop, getD_drop]
    by_cases hj : j < c
    · have := h (c - 1 - j) (by omega)
      rw [show L.length - 1 - (c - 1 - j) = L.length - c + j by omega,
        show R.length - 1 - (c - 1 - j) = R.length - c + j by omega] at this
      exact this
    · rw [List.getD_eq_default _ _ (by omega), List.getD_eq_default _ _ (by omega)]

/-! ## Arrays of scalars -/

theorem scalar_not_container (x : Json) (h : isShortScalar x = true) :
    x.is_object = false ∧ x.is_array = false := by
  cases x <;> simp [isShortScalar] at h <;> exact ⟨rfl, rfl⟩

theorem scalar_MatchArrayElement (x y : Json) (i j : Nat)
    (h : x.is_object = false ∧ x.is_array = false) :
    ItemMatch.MatchArrayElement none x i y j = decide (x = y) := by
  unfold ItemMatch.MatchArrayElement
  simp only [h.1, h.2, Bool.not_false, Bool.and_self, if_true]

theorem scalar_DiffN_self (n : Nat) (x : Json) (h : isShortScalar x = true) :
    DiffN defaultOptions (n + 1) x x = Json.null := by
  cases x with
  | null => simp [DiffN, nullToEmpty, Json.is_null, leafDiff, textDelta, ItemMatch.Match,
      defaultOptions]
  | bool b => simp [DiffN, nullToEmpty, Json.is_null, leafDiff, textDelta, ItemMatch.Match,
      defaultOptions]
  | num i => simp [DiffN, nullToEmpty, Json.is_null, leafDiff, textDelta, ItemMatch.Match,
      defaultOptions]
  | str s =>
    simp only [isShortScalar, decide_eq_true_eq] at h
    have h2 : ¬ (50 < s.length) := by omega
    simp [DiffN, nullToEmpty, Json.is_null, leafDiff, textDelta, ItemMatch.Match,
      defaultOptions, h2]
  | arr _ => simp [isShortScalar] at h
  | obj _ => simp [isShortScalar] at h


/-- On arrays of scalars whose own delta is null, the two common-part loops
store nothing; they find a common head and a common tail, and stop where the
elements differ or an array is used up. -/
theorem scalar_loops (diff : Json → Json → Json) (L R : List Json)
    (hL : ∀ x ∈ L, x.is_object = false ∧ x.is_array = false)
    (hdiff : ∀ x ∈ R, diff x x = Json.null) :
    ∃ ch ct, headLoop none diff L R L.length 0 [("_t", Json.str "a")] =
        (ch, [("_t", Json.str "a")]) ∧
      tailLoop none diff L R ch L.length 0 [("_t", Json.str "a")] =
        (ct, [("_t", Json.str "a")]) ∧
      ch + ct ≤ L.length ∧ ch + ct ≤ R.length ∧
      (∀ i, i < ch → L.getD i Json.null = R.getD i Json.null) ∧
      (∀ i, i < ct → L.getD (L.length - 1 - i) Json.null = R.getD (R.length - 1 - i) Json.null) ∧
      (ch = L.length ∨ ¬ (ch < L.length ∧ ch < R.length ∧
        L.getD ch Json.null = R.getD ch Json.null)) ∧
      (ct = L.length ∨ ¬ (ct + ch < L.length ∧ ct + ch < R.length ∧
        L.getD (L.length - 1 - ct) Json.null = R.getD (R.length - 1 - ct) Json.null)) := by
  obtain ⟨ch, hk, he, hall, hstop⟩ := headLoop_spec none diff L R L.length 0 [("_t", Json.str "a")]
  obtain ⟨ct, hk2, he2, hall2, hstop2⟩ := tailLoop_spec none diff L R ch L.length 0
    [("_t", Json.str "a")]
  simp only [Nat.zero_add] at he hall hstop he2 hall2 hstop2
  have hm : ∀ i j, i < L.length → (ItemMatch.MatchArrayElement none (L.getD i Json.null) i
      (R.getD j Json.null) j = true ↔ L.getD i Json.null = R.getD j Json.null) := by
    intro i j hi
    rw [scalar_MatchArrayElement _ _ _ _ (hL _ (getD_mem L i hi)), decide_eq_true_eq]
  have hhead : ∀ i, i < ch → L.getD i Json.null = R.getD i Json.null := by
    intro i hi
    have := hall i (Nat.zero_le _) hi
    exact (hm i i this.1).1 this.2.2
  have htail : ∀ i, i < ct →
      L.getD (L.length - 1 - i) Json.null = R.getD (R.length - 1 - i) Json.null := by
    intro i hi
    have := hall2 i (Nat.zero_le _) hi
    exact (hm _ _ (by omega)).1 this.2.2
  refine ⟨ch, ct, ?_, ?_, ?_, ?_, hhead, htail, ?_, ?_⟩
  · rw [he, foldl_putChild_null]
    intro i hi
    have hi2 := (List.mem_range'_1.1 hi).2
    have := hall i (Nat.zero_le _) (by omega)
    rw [hhead i (by omega)]
    exact hdiff _ (getD_mem R i this.2.1)
  · rw [he2, foldl_putChild_null]
    intro i hi
    have hi2 := (List.mem_range'_1.1 hi).2
    have := hall2 i (Nat.zero_le _) (by omega)
    rw [htail i (by omega)]
    exact hdiff _ (getD_mem R _ (by omega))
  · by_cases h0 : ct = 0
    · by_cases h1 : ch = 0
      · omega
      · have := hall (ch - 1) (Nat.zero_le _) (by omega)
        omega
    · have := hall2 (ct - 1) (Nat.zero_le _) (by omega)
      omega
  · by_cases h0 : ct = 0
    · by_cases h1 : ch = 0
      · omega
      · have := hall (ch - 1) (Nat.zero_le _) (by omega)
        omega
    · have := hall2 (ct - 1) (Nat.zero_le _) (by omega)
      omega
  · rcases hstop with h | h
    · exact Or.inl h
    · right
      intro hh
      exact h ⟨hh.1, hh.2.1, (hm _ _ hh.1).2 hh.2.2⟩
  · rcases hstop2 with h | h
    · exact Or.inl h
    · right
      intro hh
      exact h ⟨hh.1, hh.2.1, (hm _ _ (by omega)).2 hh.2.2⟩

theorem foldl_markDeletion_entries (L : List Json) (ch : Nat) (lcs : LcsResult) :
    ∀ (xs : List Nat) (m : List (String × Json)),
    xs.foldl (markDeletion L ch lcs) m =
      ((xs.filter (fun i => !lcs.Indices1.contains (i - ch))).map
        (fun i => delMember (i, L.getD i Json.null))).foldl (fun acc e => setKey acc e.1 e.2) m
  | [], _ => rfl
  | x :: rest, m => by
    simp only [List.foldl_cons, List.filter_cons]
    rw [foldl_markDeletion_entries L ch lcs rest]
    unfold markDeletion
    cases hc : lcs.Indices1.contains (x - ch)
    · simp only [Bool.false_eq_true, if_false, Bool.not_false, if_true, List.map_cons,
        List.foldl_cons]
      rfl
    · simp only [if_true, Bool.not_true, Bool.false_eq_true, if_false]

theorem foldl_markAddition_entries (diff : Json → Json → Json) (L R : List Json) (ch : Nat)
    (lcs : LcsResult) :
    ∀ (xs : List Nat) (m : List (String × Json)),
    (∀ i ∈ xs, (i - ch) ∈ lcs.Indices2 →
      diff (L.getD (lcs.Indices1.getD (lcs.Indices2.indexOf (i - ch)) 0 + ch) Json.null)
        (R.getD i Json.null) = Json.null) →
    xs.foldl (markAddition diff L R ch lcs) m =
      ((xs.filter (fun i => !lcs.Indices2.contains (i - ch))).map
        (fun i => addMember (i, R.getD i Json.null))).foldl (fun acc e => setKey acc e.1 e.2) m
  | [], _, _ => rfl
  | x :: rest, m, h => by
    simp only [List.foldl_cons, List.filter_cons]
    rw [foldl_markAddition_entries diff L R ch lcs rest _
      (fun i hi => h i (List.mem_cons_of_mem _ hi))]
    unfold markAddition
    by_cases hc : (x - ch) ∈ lcs.Indices2
    · have hc2 : lcs.Indices2.contains (x - ch) = true := by
        simp only [List.contains_iff_exists_mem_beq, beq_iff_eq, exists_eq_right']
        exact hc
      have hne : ¬ (lcs.Indices2.indexOf (x - ch) = lcs.Indices2.length) := by
        rw [List.indexOf_eq_length]
        exact fun hh => hh hc
      simp only [hc2, Bool.not_true, Bool.false_eq_true, if_false, if_neg hne]
      rw [h x (List.mem_cons_self _ _) hc]
      rfl
    · have hc2 : lcs.Indices2.contains (x - ch) = false := by
        rw [Bool.eq_false_iff]
        simp only [ne_eq, List.contains_iff_exists_mem_beq, beq_iff_eq, exists_eq_right']
        exact hc
      have he : lcs.Indices2.indexOf (x - ch) = lcs.Indices2.length :=
        List.indexOf_eq_length.2 hc
      simp only [hc2, Bool.not_false, if_true, if_pos he, List.map_cons, List.foldl_cons]
      rfl

theorem forallTwo_imp_mem {S T : Nat → Nat → Prop} : ∀ (A B : List Nat),
    List.Forall₂ S A B → (∀ x ∈ A, ∀ y ∈ B, S x y → T x y) → List.Forall₂ T A B
  | _, _, List.Forall₂.nil, _ => List.Forall₂.nil
  | _, _, List.Forall₂.cons h rest, himp =>
    List.Forall₂.cons (himp _ (List.mem_cons_self _ _) _ (List.mem_cons_self _ _) h)
      (forallTwo_imp_mem _ _ rest
        (fun x hx y hy => himp x (List.mem_cons_of_mem _ hx) y (List.mem_cons_of_mem _ hy)))

theorem forallTwo_indexOf {S : Nat → Nat → Prop} : ∀ (A B : List Nat),
    List.Forall₂ S A B → ∀ y ∈ B, S (A.getD (B.indexOf y) 0) y
  | _, _, List.Forall₂.nil, y, hy => by simp at hy
  | x :: A, y0 :: B, List.Forall₂.cons h rest, y, hy => by
    by_cases he : y0 = y
    · subst he
      simp only [List.indexOf_cons_self, List.getD_cons_zero]
      exact h
    · rw [List.indexOf_cons_ne _ he, List.getD_cons_succ]
      rcases List.mem_cons.1 hy with h1 | h1
      · exact absurd h1.symm he
      · exact forallTwo_indexOf A B rest y h1

theorem keepIdx_contains (I : List Nat) (a k : Nat) (L : List Json) (hI : I.Pairwise (· < ·))
    (hb : ∀ x ∈ I, x < k) :
    keepIdx (fun i => !I.contains (i - a)) a k L =
      L.take a ++ (I.map (fun x => L.getD (x + a) Json.null) ++ L.drop (a + k)) := by
  unfold keepIdx
  simp only [Bool.not_not]
  rw [filter_range_contains I a k hI hb, List.map_map]
  rfl

theorem keepIdx_all (a k : Nat) (L : List Json) :
    keepIdx (fun _ => true) a k L = L.take a ++ L.drop (a + k) := by
  unfold keepIdx
  simp

/-- The delta of two different arrays of scalars: removals of positions of
a block of `L`, additions of positions of a block of `R`, and what stays of
`L` is what stays of `R`. -/
theorem ArrayDiff_scalars (diff : Json → Json → Json) (L R : List Json)
    (hL : ∀ x ∈ L, x.is_object = false ∧ x.is_array = false)
    (hdiff : ∀ x ∈ R, diff x x = Json.null) (hne : L ≠ R)
    (hbL : L.length < 18446744073709551616) (hbR : R.length < 18446744073709551616) :
    ∃ (P1 P2 : Nat → Bool) (a k1 k2 : Nat), a + k1 ≤ L.length ∧ a + k2 ≤ R.length ∧
      keepIdx P1 a k1 L = keepIdx P2 a k2 R ∧
      ((ArrayDiff none diff L R = Json.null ∧ (List.range' a k1).filter P1 = [] ∧
          (List.range' a k2).filter P2 = []) ∨
        ∃ M, ArrayDiff none diff L R = Json.obj M ∧ SortedKeys M ∧
          M.Perm (("_t", Json.str "a") ::
            ((((List.range' a k1).filter P1).map (fun i => (i, L.getD i Json.null))).map delMember ++
             (((List.range' a k2).filter P2).map (fun i => (i, R.getD i Json.null))).map
               addMember))) := by
  obtain ⟨ch, ct, h1, h2, hle1, hle2, hhead, htail, _, _⟩ := scalar_loops diff L R hL hdiff
  have hpre : L.take ch = R.take ch := take_eq_of_getD L R ch (by omega) (by omega) hhead
  have hsuf : L.drop (L.length - ct) = R.drop (R.length - ct) :=
    drop_eq_of_getD L R ct (by omega) (by omega) htail
  have hmem : ∀ (P1 P2 : Nat → Bool) (k1 k2 : Nat), ch + k1 ≤ L.length → ch + k2 ≤ R.length →
      SortedKeys (((((List.range' ch k1).filter P1).map (fun i => delMember (i, L.getD i Json.null)))
          ++ (((List.range' ch k2).filter P2).map (fun i => addMember (i, R.getD i Json.null)))).foldl
          (fun acc e => setKey acc e.1 e.2) [("_t", Json.str "a")]) ∧
      (((((List.range' ch k1).filter P1).map (fun i => delMember (i, L.getD i Json.null)))
          ++ (((List.range' ch k2).filter P2).map (fun i => addMember (i, R.getD i Json.null)))).foldl
          (fun acc e => setKey acc e.1 e.2) [("_t", Json.str "a")]).Perm
        (("_t", Json.str "a") ::
            ((((List.range' ch k1).filter P1).map (fun i => (i, L.getD i Json.null))).map delMember ++
             (((List.range' ch k2).filter P2).map (fun i => (i, R.getD i Json.null))).map
               addMember)) := by
    intro P1 P2 k1 k2 hk1 hk2
    have := members_of_entries
      (((List.range' ch k1).filter P1).map (fun i => (i, L.getD i Json.null))) []
      (((List.range' ch k2).filter P2).map (fun i => (i, R.getD i Json.null)))
      ((((List.range' ch k1).filter P1).map (fun i => delMember (i, L.getD i Json.null)))
          ++ (((List.range' ch k2).filter P2).map (fun i => addMember (i, R.getD i Json.null))))
      (by simp only [List.map_nil, List.nil_append, List.map_map]; rfl)
      (by
        intro e he
        simp only [List.mem_map, List.mem_filter, List.mem_range'_1] at he
        obtain ⟨i, hi, rfl⟩ := he
        simp only []
        omega)
      (by
        intro e he
        simp only [List.nil_append, List.mem_map, List.mem_filter, List.mem_range'_1] at he
        obtain ⟨i, hi, rfl⟩ := he
        simp only []
        omega)
      (by
        rw [List.map_map]
        simp only [Function.comp_def, List.map_id']
        exact (range_nodup _ _).filter _)
      (by
        rw [List.nil_append, List.map_map]
        simp only [Function.comp_def, List.map_id']
        exact (range_nodup _ _).filter _)
    simpa only [List.map_nil, List.nil_append] using this
  rw [ArrayDiff_of_loops none diff L R _ _ _ _ hne h1 h2]
  by_cases hA : ch + ct = L.length
  · rw [if_pos hA]
    refine ⟨fun _ => true, fun _ => true, ch, 0, R.length - ct - ch, by omega, by omega, ?_,
      Or.inr ⟨_, rfl, ?_⟩⟩
    · rw [keepIdx_all, keepIdx_all, hpre,
        show ch + 0 = L.length - ct by omega,
        show ch + (R.length - ct - ch) = R.length - ct by omega, hsuf]
    · rw [foldl_addStep_entries]
      have := hmem (fun _ => true) (fun _ => true) 0 (R.length - ct - ch) (by omega) (by omega)
      simpa only [List.range'_zero, List.filter_nil, List.map_nil, List.nil_append,
        List.filter_true] using this
  · rw [if_neg hA]
    by_cases hB : ch + ct = R.length
    · rw [if_pos hB]
      refine ⟨fun _ => true, fun _ => true, ch, L.length - ct - ch, 0, by omega, by omega, ?_,
        Or.inr ⟨_, rfl, ?_⟩⟩
      · rw [keepIdx_all, keepIdx_all, hpre,
          show ch + 0 = R.length - ct by omega,
          show ch + (L.length - ct - ch) = L.length - ct by omega, hsuf]
      · rw [foldl_removeStep_entries]
        have := hmem (fun _ => true) (fun _ => true) (L.length - ct - ch) 0 (by omega) (by omega)
        simpa only [List.range'_zero, List.filter_nil, List.map_nil, List.append_nil,
          List.filter_true] using this
    · rw [if_neg hB]
      obtain ⟨_, hF, hI1, hI2, hb1, hb2⟩ := ComputeLcs_inv none
        ((L.drop ch).take (L.length - ch - ct)) ((R.drop ch).take (R.length - ch - ct))
      have hlenL : ((L.drop ch).take (L.length - ch - ct)).length = L.length - ct - ch := by
        simp only [List.length_take, List.length_drop]
        omega
      have hlenR : ((R.drop ch).take (R.length - ch - ct)).length = R.length - ct - ch := by
        simp only [List.length_take, List.length_drop]
        omega
      rw [hlenL] at hb1
      rw [hlenR] at hb2
      have hF2 : List.Forall₂ (fun x y => L.getD (x + ch) Json.null = R.getD (y + ch) Json.null)
          (ComputeLcs none ((L.drop ch).take (L.length - ch - ct))
            ((R.drop ch).take (R.length - ch - ct))).Indices1
          (ComputeLcs none ((L.drop ch).take (L.length - ch - ct))
            ((R.drop ch).take (R.length - ch - ct))).Indices2 := by
        refine forallTwo_imp_mem _ _ hF ?_
        intro x hx y hy hxy
        have hx2 := hb1 x hx
        have hy2 := hb2 y hy
        rw [getD_drop_take, getD_drop_take, if_pos (by omega), if_pos (by omega)] at hxy
        simp only [ItemMatch.Match, decide_eq_true_eq] at hxy
        rw [Nat.add_comm x ch, Nat.add_comm y ch]
        exact hxy
      simp only []
      generalize ComputeLcs none ((L.drop ch).take (L.length - ch - ct))
        ((R.drop ch).take (R.length - ch - ct)) = lcs at hF2 hI1 hI2 hb1 hb2 ⊢
      refine ⟨fun i => !lcs.Indices1.contains (i - ch), fun i => !lcs.Indices2.contains (i - ch),
        ch, L.length - ct - ch, R.length - ct - ch, by omega, by omega, ?_, ?_⟩
      · rw [keepIdx_contains _ _ _ _ hI1 hb1, keepIdx_contains _ _ _ _ hI2 hb2, hpre,
          map_eq_of_forallTwo _ _ _ _ hF2,
          show ch + (L.length - ct - ch) = L.length - ct by omega,
          show ch + (R.length - ct - ch) = R.length - ct by omega, hsuf]
      · rw [foldl_markDeletion_entries, foldl_markAddition_entries, ← List.foldl_append]
        · obtain ⟨hs, hp⟩ := hmem (fun i => !lcs.Indices1.contains (i - ch))
            (fun i => !lcs.Indices2.contains (i - ch)) (L.length - ct - ch) (R.length - ct - ch)
            (by omega) (by omega)
          split_ifs with hc
          · left
            have hlen := hp.length_eq
            rw [hc.1] at hlen
            simp only [List.length_cons, List.length_append, List.length_map] at hlen
            refine ⟨rfl, ?_, ?_⟩
            · exact List.length_eq_zero.1 (by omega)
            · exact List.length_eq_zero.1 (by omega)
          · exact Or.inr ⟨_, rfl, hs, hp⟩
        · intro i hi hi2
          have hr := List.mem_range'_1.1 hi
          have := forallTwo_indexOf _ _ hF2 (i - ch) hi2
          rw [show i - ch + ch = i by omega] at this
          rw [this]
          exact hdiff _ (getD_mem R i (by omega))

/-- Arrays of short scalars: the delta of `left` and `right` takes `left` to
`right` under `Patch` and `right` to `left` under `Unpatch`. -/
theorem scalar_arrays_round_trip (L R : List Json)
    (hL : ∀ x ∈ L, isShortScalar x = true) (hR : ∀ x ∈ R, isShortScalar x = true)
    (hbL : L.length < 18446744073709551616) (hbR : R.length < 18446744073709551616) (n : Nat) :
    Patch (Json.arr L) (ArrayDiff none (DiffN defaultOptions (n + 1)) L R) = .ok (Json.arr R) ∧
    Unpatch (Json.arr R) (ArrayDiff none (DiffN defaultOptions (n + 1)) L R) =
      .ok (Json.arr L) := by
  by_cases hne : L = R
  · subst hne
    unfold ArrayDiff
    rw [if_pos rfl]
    exact ⟨rfl, rfl⟩
  · obtain ⟨P1, P2, a, k1, k2, h1, h2, hkept, hd⟩ :=
      ArrayDiff_scalars (DiffN defaultOptions (n + 1)) L R
        (fun x hx => scalar_not_container x (hL x hx))
        (fun x hx => scalar_DiffN_self n x (hR x hx)) hne hbL hbR
    rcases hd with ⟨_, hf1, hf2⟩ | ⟨M, hM, hs, hperm⟩
    · exfalso
      apply hne
      have e1 := removeLoop_filter P1 a k1 L h1
      have e2 := removeLoop_filter P2 a k2 R h2
      rw [hf1] at e1
      rw [hf2] at e2
      simp only [List.reverse_nil, List.map_nil, removeLoop] at e1 e2
      rw [e1, e2]
      exact hkept
    · rw [hM]
      have htag : isArrayDelta M = true := by
        unfold isArrayDelta
        rw [find_of_mem M "_t" (Json.str "a") hs (hperm.mem_iff.2 (List.mem_cons_self _ _))]
        rfl
      rw [Patch_array_delta L M htag, Unpatch_array_delta R M htag]
      exact filtered_delta_round_trip _ _ L R P1 P2 a k1 k2 M hperm h1 h2 hbL hbR hkept

/-- Claim C12: for all arrays `L` and `R` whose elements are null, booleans,
numbers or strings of at most 50 characters, of any lengths below `2^31` (the
range of the `int` indices of the source), with duplicates and reorderings
allowed, with default options the delta `d = Diff(L, R)` satisfies
`Patch(L, d) = R` and `Unpatch(R, d) = L`. -/
theorem C12_scalar_arrays_round_trip (L R : List Json)
    (hL : ∀ x ∈ L, isShortScalar x = true) (hR : ∀ x ∈ R, isShortScalar x = true)
    (hbL : L.length < indexBound) (hbR : R.length < indexBound) :
    Patch (Json.arr L) (Diff defaultOptions (Json.arr L) (Json.arr R)) = .ok (Json.arr R) ∧
    Unpatch (Json.arr R) (Diff defaultOptions (Json.arr L) (Json.arr R)) = .ok (Json.arr L) :=
  scalar_arrays_round_trip L R hL hR (lt_trans hbL (by decide)) (lt_trans hbR (by decide)) _

theorem C12_scalar_arrays_round_trip_witness :
    Patch (Json.arr [Json.num 1, Json.str "a", Json.null, Json.num 1, Json.bool false])
      (Diff defaultOptions
        (Json.arr [Json.num 1, Json.str "a", Json.null, Json.num 1, Json.bool false])
        (Json.arr [Json.null, Json.num 1, Json.bool true, Json.num 1, Json.str "a", Json.str ""])) =
      .ok (Json.arr [Json.null, Json.num 1, Json.bool true, Json.num 1, Json.str "a", Json.str ""]) ∧
    Unpatch (Json.arr [Json.null, Json.num 1, Json.bool true, Json.num 1, Json.str "a", Json.str ""])
      (Diff defaultOptions
        (Json.arr [Json.num 1, Json.str "a", Json.null, Json.num 1, Json.bool false])
        (Json.arr [Json.null, Json.num 1, Json.bool true, Json.num 1, Json.str "a", Json.str ""])) =
      .ok (Json.arr [Json.num 1, Json.str "a", Json.null, Json.num 1, Json.bool false]) :=
  C12_scalar_arrays_round_trip _ _ (by decide) (by decide) (by decide) (by decide)

/-- Two one-element arrays with different elements have no common
subsequence, whatever the matrix holds. -/
theorem lcsBacktrack_singletons (x y : Json) (h : x ≠ y) (matrix : List (List Nat)) :
    lcsBacktrack none [x] [y] matrix 2 1 1 {} = {} := by
  have hm : ItemMatch.Match none x y = false := by
    simp [ItemMatch.Match, h]
  unfold lcsBacktrack
  simp only [Nat.lt_one_iff, Nat.sub_self, List.getD_cons_zero, hm, Bool.false_eq_true, if_false,
    Nat.zero_lt_one, and_self, if_true]
  split_ifs <;> unfold lcsBacktrack <;> simp

theorem ComputeLcs_singletons (x y : Json) (h : x ≠ y) : ComputeLcs none [x] [y] = {} :=
  lcsBacktrack_singletons x y h _

theorem drop_take_one (L : List Json) (k : Nat) (h : k < L.length) :
    (L.drop k).take 1 = [L.getD k Json.null] := by
  apply eq_of_getD_eq
  · simp only [List.length_take, List.length_drop, List.length_singleton]
    omega
  · intro j
    rw [getD_drop_take]
    cases j with
    | zero => simp
    | succ j => simp

/-- The delta of two arrays of scalars of the same length that differ at the
index `k` only. -/
theorem ArrayDiff_single_change (diff : Json → Json → Json) (L R : List Json) (k : Nat)
    (hL : ∀ x ∈ L, x.is_object = false ∧ x.is_array = false)
    (hdiff : ∀ x ∈ R, diff x x = Json.null)
    (hlen : L.length = R.length) (hk : k < L.length)
    (hne : L.getD k Json.null ≠ R.getD k Json.null)
    (heq : ∀ i, i ≠ k → L.getD i Json.null = R.getD i Json.null) :
    ArrayDiff none diff L R =
      Json.obj [(toString k, Json.arr [R.getD k Json.null]),
        ("_" ++ toString k, Json.arr [L.getD k Json.null, Json.num 0, Json.num 0]),
        ("_t", Json.str "a")] := by
  have hLR : L ≠ R := fun h => hne (by rw [h])
  obtain ⟨ch, ct, h1, h2, hle1, hle2, hhead, htail, hs1, hs2⟩ := scalar_loops diff L R hL hdiff
  have hch1 : ch ≤ k := by
    by_contra hc
    exact hne (hhead k (by omega))
  have hch : ch = k := by
    rcases hs1 with hs | hs
    · omega
    · by_contra hc
      exact hs ⟨by omega, by omega, heq ch hc⟩
  subst hch
  have hct1 : ct ≤ L.length - 1 - ch := by
    by_contra hc
    have := htail (L.length - 1 - ch) (by omega)
    rw [← hlen, show L.length - 1 - (L.length - 1 - ch) = ch by omega] at this
    exact hne this
  have hct : ct = L.length - 1 - ch := by
    rcases hs2 with hs | hs
    · omega
    · by_contra hc
      apply hs
      refine ⟨by omega, by omega, ?_⟩
      rw [← hlen]
      exact heq _ (by omega)
  rw [ArrayDiff_of_loops none diff L R _ _ _ _ hLR h1 h2, if_neg (by omega), if_neg (by omega)]
  have e1 : L.length - ch - ct = 1 := by omega
  have e2 : R.length - ch - ct = 1 := by omega
  have e3 : L.length - ct - ch = 1 := by omega
  have e4 : R.length - ct - ch = 1 := by omega
  simp only [e1, e2, e3, e4]
  rw [drop_take_one L ch hk, drop_take_one R ch (by omega), ComputeLcs_singletons _ _ hne]
  simp only [List.range'_one, List.foldl_cons, List.foldl_nil, markDeletion, markAddition,
    List.contains_nil, Bool.false_eq_true, if_false, List.indexOf_nil, List.length_nil, if_true,
    removeStep, addStep]
  have s1 : setKey [("_t", Json.str "a")] ("_" ++ toString ch) (deletedDelta (L.getD ch Json.null)) =
      [("_" ++ toString ch, deletedDelta (L.getD ch Json.null)), ("_t", Json.str "a")] := by
    unfold setKey
    rw [if_neg (delKey_ne_tag ch), if_pos (keyLt_delKey_tag ch)]
  have s2 : setKey [("_" ++ toString ch, deletedDelta (L.getD ch Json.null)), ("_t", Json.str "a")]
      (toString ch) (addedDelta (R.getD ch Json.null)) =
      [(toString ch, addedDelta (R.getD ch Json.null)),
        ("_" ++ toString ch, deletedDelta (L.getD ch Json.null)), ("_t", Json.str "a")] := by
    unfold setKey
    rw [if_neg (numKey_ne_delKey ch ch), if_pos (keyLt_numKey_delKey ch ch)]
  rw [s1, s2, if_neg (by simp)]
  rfl

/-- Claim C11: for all arrays `L` and `R` of the same length whose elements
are numbers, booleans or strings of at most 50 characters (null elements are
allowed as well) and which differ at exactly one index `k`, with default
options `Diff(L, R)` is exactly the object with the three members `"_t": "a"`,
`"_k": [L[k], 0, 0]` and `"k": [R[k]]`, here in key order. -/
theorem C11_single_element_change (L R : List Json) (k : Nat)
    (hL : ∀ x ∈ L, isShortScalar x = true) (hR : ∀ x ∈ R, isShortScalar x = true)
    (hlen : L.length = R.length) (hk : k < L.length)
    (hne : L.getD k Json.null ≠ R.getD k Json.null)
    (heq : ∀ i, i ≠ k → L.getD i Json.null = R.getD i Json.null) :
    Diff defaultOptions (Json.arr L) (Json.arr R) =
      Json.obj [(toString k, Json.arr [R.getD k Json.null]),
        ("_" ++ toString k, Json.arr [L.getD k Json.null, Json.num 0, Json.num 0]),
        ("_t", Json.str "a")] :=
  ArrayDiff_single_change _ L R k (fun x hx => scalar_not_container x (hL x hx))
    (fun x hx => scalar_DiffN_self _ x (hR x hx)) hlen hk hne heq


theorem C11_single_element_change_witness :
    Diff defaultOptions (Json.arr [Json.num 1, Json.num 2, Json.num 3, Json.str "x"])
        (Json.arr [Json.num 1, Json.num 2, Json.num 4, Json.str "x"]) =
      Json.obj [("2", Json.arr [Json.num 4]),
        ("_2", Json.arr [Json.num 3, Json.num 0, Json.num 0]), ("_t", Json.str "a")] :=
  C11_single_element_change [Json.num 1, Json.num 2, Json.num 3, Json.str "x"]
    [Json.num 1, Json.num 2, Json.num 4, Json.str "x"] 2 (by decide) (by decide) rfl (by decide)
    (by decide)
    (fun i hi =>
      match i, hi with
      | 0, _ => rfl
      | 1, _ => rfl
      | 2, h => absurd rfl h
      | 3, _ => rfl
      | _ + 4, _ => rfl)

/-! ## The checked embedding of `Diff` agrees with the embedding -/

theorem bind_ok {α β : Type} (a : α) (f : α → Except Err β) : (Except.ok a >>= f) = f a := rfl

theorem pure_ok {α : Type} (a : α) : (pure a : Except Err α) = .ok a := rfl

theorem subscript_ok {α : Type} (xs : List α) (i : Nat) (h : i < xs.length) :
    Checked.subscript xs i = .ok (xs.get ⟨i, h⟩) := by
  unfold Checked.subscript
  rw [List.getElem?_eq_getElem h]
  rfl

theorem subscript_getD (xs : List Json) (i : Nat) (h : i < xs.length) :
    Checked.subscript xs i = .ok (xs.getD i Json.null) := by
  rw [subscript_ok xs i h, List.getD_eq_getElem _ _ h]
  rfl

theorem sub_ok (a b : Nat) (h : b ≤ a) : Checked.sub a b = .ok (a - b) := by
  unfold Checked.sub
  rw [if_pos h]

theorem commonStartLoop_ok (t1 t2 : List Char) (minLen : Nat) (h1 : minLen ≤ t1.length)
    (h2 : minLen ≤ t2.length) : ∀ (fuel c : Nat), c ≤ minLen → minLen ≤ c + fuel →
    Checked.commonStartLoop t1 t2 minLen fuel c =
      .ok (c + matchRun (minLen - c) (t1.drop c) (t2.drop c))
  | 0, c, hc, hf => by
    have : minLen - c = 0 := by omega
    unfold Checked.commonStartLoop
    rw [if_neg (by omega), this]
    simp [matchRun]
  | fuel + 1, c, hc, hf => by
    unfold Checked.commonStartLoop
    by_cases hlt : c < minLen
    · have hc1 : c < t1.length := by omega
      have hc2 : c < t2.length := by omega
      rw [if_pos hlt, subscript_ok t1 c hc1, subscript_ok t2 c hc2]
      simp only [bind_ok]
      rw [List.drop_eq_getElem_cons hc1, List.drop_eq_getElem_cons hc2,
        show minLen - c = (minLen - (c + 1)) + 1 by omega]
      simp only [matchRun, List.get_eq_getElem]
      by_cases he : t1[c] = t2[c]
      · rw [if_pos he, if_pos he, commonStartLoop_ok t1 t2 minLen h1 h2 fuel (c + 1) (by omega)
          (by omega)]
        congr 1
        omega
      · rw [if_neg he, if_neg he]
        rfl
    · have : minLen - c = 0 := by omega
      rw [if_neg hlt, this]
      simp [matchRun, pure_ok]

theorem commonEndLoop_ok (t1 t2 : List Char) (cap : Nat) (h1 : cap ≤ t1.length)
    (h2 : cap ≤ t2.length) : ∀ (fuel e : Nat), e ≤ cap → cap ≤ e + fuel →
    Checked.commonEndLoop t1 t2 cap fuel e =
      .ok (e + matchRun (cap - e) (t1.reverse.drop e) (t2.reverse.drop e))
  | 0, e, hc, hf => by
    have : cap - e = 0 := by omega
    unfold Checked.commonEndLoop
    rw [if_neg (by omega), this]
    simp [matchRun]
  | fuel + 1, e, hc, hf => by
    unfold Checked.commonEndLoop
    by_cases hlt : e < cap
    · have hc1 : e < t1.reverse.length := by rw [List.length_reverse]; omega
      have hc2 : e < t2.reverse.length := by rw [List.length_reverse]; omega
      have hi1 : t1.length - (1 + e) < t1.length := by omega
      have hi2 : t2.length - (1 + e) < t2.length := by omega
      rw [if_pos hlt, sub_ok _ _ (by omega), sub_ok _ _ (by omega)]
      simp only [bind_ok]
      rw [subscript_ok t1 _ hi1, subscript_ok t2 _ hi2]
      simp only [bind_ok]
      rw [List.drop_eq_getElem_cons hc1, List.drop_eq_getElem_cons hc2,
        show cap - e = (cap - (e + 1)) + 1 by omega]
      simp only [matchRun, List.get_eq_getElem, List.getElem_reverse]
      have e1 : t1.length - 1 - e = t1.length - (1 + e) := by omega
      have e2 : t2.length - 1 - e = t2.length - (1 + e) := by omega
      simp only [e1, e2]
      by_cases he : t1[t1.length - (1 + e)] = t2[t2.length - (1 + e)]
      · rw [if_pos he, if_pos he, commonEndLoop_ok t1 t2 cap h1 h2 fuel (e + 1) (by omega)
          (by omega)]
        congr 1
        omega
      · rw [if_neg he, if_neg he]
        rfl
    · have : cap - e = 0 := by omega
      rw [if_neg hlt, this]
      simp [matchRun, pure_ok]

theorem emitDiffs_ok (t1 t2 : List Char) (cs ce : Nat) (h1 : cs + ce ≤ t1.length)
    (h2 : cs + ce ≤ t2.length) :
    Checked.emitDiffs t1 t2 cs ce = .ok (emitDiffs t1 t2 cs ce) := by
  unfold Checked.emitDiffs emitDiffs Checked.substr Checked.substrFrom
  have c1 : cs ≤ t1.length := by omega
  have c2 : cs ≤ t2.length := by omega
  have c3 : t1.length - ce ≤ t1.length := by omega
  have e1 : t1.length - (cs + ce) = t1.length - cs - ce := by omega
  have e2 : t2.length - (cs + ce) = t2.length - cs - ce := by omega
  by_cases hs : cs > 0 <;> by_cases he : ce > 0 <;>
    simp only [sub_ok _ _ h1, sub_ok _ _ h2, sub_ok _ _ (by omega : ce ≤ t1.length), c1, c2, c3,
      Nat.zero_le, e1, e2, hs, he, if_true, if_false, bind_ok, pure_ok, List.drop_zero]

theorem ComputeDiffChecked_ok (text1 text2 : String) :
    Checked.ComputeDiff text1 text2 = .ok (ComputeDiff text1 text2) := by
  unfold Checked.ComputeDiff ComputeDiff
  by_cases h : text1 = text2
  · rw [if_pos h, if_pos h]
  · rw [if_neg h, if_neg h]
    simp only []
    have hl1 : text1.length = text1.data.length := rfl
    have hl2 : text2.length = text2.data.length := rfl
    rw [commonStartLoop_ok _ _ _ (by rw [hl1]; exact Nat.min_le_left _ _)
      (by rw [hl2]; exact Nat.min_le_right _ _) _ 0 (Nat.zero_le _) (by omega)]
    simp only [bind_ok, Nat.zero_add, Nat.sub_zero, List.drop_zero]
    have hcs := matchRun_le_cap (min text1.length text2.length) text1.data text2.data
    rw [sub_ok _ _ hcs]
    simp only [bind_ok]
    rw [commonEndLoop_ok _ _ _ (by rw [← hl1]; omega) (by rw [← hl2]; omega) _ 0 (Nat.zero_le _)
      (by omega)]
    simp only [bind_ok, Nat.zero_add, Nat.sub_zero, List.drop_zero]
    have hce := matchRun_le_cap (min text1.length text2.length -
      matchRun (min text1.length text2.length) text1.data text2.data)
      text1.data.reverse text2.data.reverse
    exact emitDiffs_ok _ _ _ _ (by rw [← hl1]; omega) (by rw [← hl2]; omega)

theorem CreatePatchesChecked_ok (text1 text2 : String) :
    Checked.CreatePatches text1 text2 = .ok (CreatePatches text1 text2) := by
  unfold Checked.CreatePatches CreatePatches
  rw [ComputeDiffChecked_ok]
  simp only [bind_ok]
  split_ifs <;> rfl

theorem foldC_inv {σ α : Type} (f : σ → α → Except Err σ) (g : σ → α → σ) (I : σ → Prop) :
    ∀ (xs : List α), (∀ s, I s → ∀ x ∈ xs, f s x = .ok (g s x) ∧ I (g s x)) →
    ∀ s, I s → Checked.foldC f s xs = .ok (xs.foldl g s) ∧ I (xs.foldl g s)
  | [], _, s, hs => ⟨rfl, hs⟩
  | x :: rest, hstep, s, hs => by
    obtain ⟨h1, h2⟩ := hstep s hs x (List.mem_cons_self _ _)
    unfold Checked.foldC
    rw [h1]
    exact foldC_inv f g I rest (fun s hs y hy => hstep s hs y (List.mem_cons_of_mem _ hy)) _ h2

/-- The size of the LCS matrix: `m + 1` rows of `n + 1` cells. -/
theorem matGet_ok (matrix : List (List Nat)) (m n i j : Nat)
    (hd : matrix.length = m + 1 ∧ ∀ row ∈ matrix, row.length = n + 1)
    (hi : i ≤ m) (hj : j ≤ n) :
    Checked.matGet matrix i j = .ok (matGet matrix i j) := by
  have hi2 : i < matrix.length := by omega
  have hrow : (matrix.get ⟨i, hi2⟩).length = n + 1 := hd.2 _ (List.get_mem _ _ _)
  have hgd : matrix.getD i [] = matrix.get ⟨i, hi2⟩ := by
    simp only [List.getD_eq_getElem?_getD, List.getElem?_eq_getElem hi2, Option.getD_some,
      List.get_eq_getElem]
  unfold Checked.matGet matGet
  rw [subscript_ok matrix i hi2]
  simp only [bind_ok]
  rw [subscript_ok _ j (by omega), hgd, List.getD_eq_getElem _ _ (by omega)]
  rfl

theorem matSet_ok (matrix : List (List Nat)) (m n i j v : Nat)
    (hd : matrix.length = m + 1 ∧ ∀ row ∈ matrix, row.length = n + 1)
    (hi : i ≤ m) (hj : j ≤ n) :
    Checked.matSet matrix i j v = .ok (matSet matrix i j v) ∧
    ((matSet matrix i j v).length = m + 1 ∧ ∀ row ∈ matSet matrix i j v, row.length = n + 1) := by
  have hi2 : i < matrix.length := by omega
  have hrow : (matrix.get ⟨i, hi2⟩).length = n + 1 := hd.2 _ (List.get_mem _ _ _)
  have hgd : matrix.getD i [] = matrix.get ⟨i, hi2⟩ := by
    simp only [List.getD_eq_getElem?_getD, List.getElem?_eq_getElem hi2, Option.getD_some,
      List.get_eq_getElem]
  refine ⟨?_, ?_, ?_⟩
  · unfold Checked.matSet matSet
    rw [subscript_ok matrix i hi2]
    simp only [bind_ok]
    rw [if_pos (by omega), hgd]
    rfl
  · unfold matSet
    rw [List.length_set]
    exact hd.1
  · intro row hrow2
    unfold matSet at hrow2
    rcases List.mem_or_eq_of_mem_set hrow2 with h | h
    · exact hd.2 row h
    · rw [h, List.length_set, hgd]
      exact hrow

theorem lcsCell_ok (h : Option (Json → String)) (left right : List Json)
    (matrix : List (List Nat)) (i j : Nat)
    (hd : matrix.length = left.length + 1 ∧ ∀ row ∈ matrix, row.length = right.length + 1)
    (hi1 : 1 ≤ i) (hi : i ≤ left.length) (hj1 : 1 ≤ j) (hj : j ≤ right.length) :
    Checked.lcsCell h left right i matrix j = .ok (lcsCell h left right i matrix j) ∧
    ((lcsCell h left right i matrix j).length = left.length + 1 ∧
      ∀ row ∈ lcsCell h left right i matrix j, row.length = right.length + 1) := by
  unfold Checked.lcsCell lcsCell
  rw [sub_ok _ _ hi1, sub_ok _ _ hj1]
  simp only [bind_ok]
  rw [subscript_getD left _ (by omega), subscript_getD right _ (by omega)]
  simp only [bind_ok]
  split_ifs with hm
  · rw [matGet_ok matrix _ _ _ _ hd (by omega : i - 1 ≤ left.length)
      (by omega : j - 1 ≤ right.length)]
    simp only [bind_ok]
    exact matSet_ok matrix _ _ i j _ hd hi hj
  · rw [matGet_ok matrix _ _ _ _ hd (by omega : i - 1 ≤ left.length) hj,
      matGet_ok matrix _ _ _ _ hd hi (by omega : j - 1 ≤ right.length)]
    simp only [bind_ok]
    exact matSet_ok matrix _ _ i j _ hd hi hj

theorem lcsMatrix_ok (h : Option (Json → String)) (left right : List Json) :
    Checked.lcsMatrix h left right = .ok (lcsMatrix h left right) ∧
    ((lcsMatrix h left right).length = left.length + 1 ∧
      ∀ row ∈ lcsMatrix h left right, row.length = right.length + 1) := by
  unfold Checked.lcsMatrix lcsMatrix
  refine foldC_inv
    (fun matrix i => Checked.foldC (Checked.lcsCell h left right i) matrix
      (List.range' 1 right.length))
    (fun matrix i => List.foldl (lcsCell h left right i) matrix (List.range' 1 right.length))
    (fun matrix => matrix.length = left.length + 1 ∧
      ∀ row ∈ matrix, row.length = right.length + 1) _ ?_ _ ?_
  · intro matrix hd i hi
    have hi2 := List.mem_range'_1.1 hi
    refine foldC_inv (Checked.lcsCell h left right i) (lcsCell h left right i)
      (fun matrix => matrix.length = left.length + 1 ∧
        ∀ row ∈ matrix, row.length = right.length + 1) _ ?_ _ ?_
    · intro matrix2 hd2 j hj
      have hj2 := List.mem_range'_1.1 hj
      exact lcsCell_ok h left right matrix2 i j hd2 hi2.1 (by omega) hj2.1 (by omega)
    · exact hd
  · refine ⟨by simp, ?_⟩
    intro row hrow
    rw [List.eq_of_mem_replicate hrow]
    simp

theorem lcsBacktrack_ok (h : Option (Json → String)) (left right : List Json)
    (matrix : List (List Nat))
    (hd : matrix.length = left.length + 1 ∧ ∀ row ∈ matrix, row.length = right.length + 1) :
    ∀ (fuel i j : Nat) (res : LcsResult), i ≤ left.length → j ≤ right.length → i + j ≤ fuel →
    Checked.lcsBacktrack h left right matrix fuel i j res =
      .ok (lcsBacktrack h left right matrix fuel i j res)
  | 0, i, j, res, _, _, hf => by
    unfold Checked.lcsBacktrack lcsBacktrack
    rw [if_neg (by omega)]
  | fuel + 1, i, j, res, hi, hj, hf => by
    unfold Checked.lcsBacktrack lcsBacktrack
    by_cases hc : 0 < i ∧ 0 < j
    · rw [if_pos hc, if_pos hc, sub_ok _ _ (by omega : 1 ≤ i), sub_ok _ _ (by omega : 1 ≤ j)]
      simp only [bind_ok]
      rw [subscript_getD left _ (by omega), subscript_getD right _ (by omega)]
      simp only [bind_ok]
      by_cases hm : ItemMatch.Match h (left.getD (i - 1) Json.null)
          (right.getD (j - 1) Json.null) = true
      · rw [if_pos hm, if_pos hm]
        exact lcsBacktrack_ok h left right matrix hd fuel _ _ _ (by omega) (by omega) (by omega)
      · rw [if_neg hm, if_neg hm,
          matGet_ok matrix _ _ _ _ hd hi (by omega : j - 1 ≤ right.length),
          matGet_ok matrix _ _ _ _ hd (by omega : i - 1 ≤ left.length) hj]
        simp only [bind_ok]
        split_ifs
        · exact lcsBacktrack_ok h left right matrix hd fuel _ _ _ (by omega) (by omega) (by omega)
        · exact lcsBacktrack_ok h left right matrix hd fuel _ _ _ (by omega) (by omega) (by omega)
    · rw [if_neg hc, if_neg hc]
      rfl

theorem ComputeLcsChecked_ok (h : Option (Json → String)) (left right : List Json) :
    Checked.ComputeLcs h left right = .ok (ComputeLcs h left right) := by
  unfold Checked.ComputeLcs ComputeLcs
  obtain ⟨h1, h2⟩ := lcsMatrix_ok h left right
  rw [h1]
  simp only [bind_ok]
  exact lcsBacktrack_ok h left right _ h2 _ _ _ _ (le_refl _) (le_refl _) (le_refl _)

theorem headLoopChecked_ok (h : Option (Json → String)) (diffC : Json → Json → Except Err Json)
    (diff : Json → Json → Json) (L R : List Json)
    (hdiff : ∀ a ∈ L, ∀ b, diffC a b = .ok (diff a b)) :
    ∀ (fuel c : Nat) (res : List (String × Json)), L.length ≤ c + fuel →
    Checked.headLoop h diffC L R fuel c res = .ok (headLoop h diff L R fuel c res)
  | 0, c, res, hf => by
    unfold Checked.headLoop headLoop
    rw [if_neg (by omega)]
  | fuel + 1, c, res, hf => by
    unfold Checked.headLoop headLoop
    by_cases hc : c < L.length ∧ c < R.length
    · rw [if_pos hc, subscript_getD L c hc.1, subscript_getD R c hc.2]
      simp only [bind_ok]
      by_cases hm : ItemMatch.MatchArrayElement h (L.getD c Json.null) c
          (R.getD c Json.null) c = true
      · rw [if_pos hm, if_pos (by
          rw [Bool.and_eq_true, Bool.and_eq_true, decide_eq_true_eq, decide_eq_true_eq]
          exact ⟨hc, hm⟩), hdiff _ (getD_mem L c hc.1)]
        simp only [bind_ok]
        exact headLoopChecked_ok h diffC diff L R hdiff fuel (c + 1) _ (by omega)
      · rw [if_neg hm, if_neg (by
          rw [Bool.and_eq_true, Bool.and_eq_true, decide_eq_true_eq, decide_eq_true_eq]
          exact fun hh => hm hh.2)]
        rfl
    · rw [if_neg hc, if_neg (by
        rw [Bool.and_eq_true, Bool.and_eq_true, decide_eq_true_eq, decide_eq_true_eq]
        exact fun hh => hc hh.1)]
      rfl

theorem tailLoopChecked_ok (h : Option (Json → String)) (diffC : Json → Json → Except Err Json)
    (diff : Json → Json → Json) (L R : List Json) (ch : Nat)
    (hdiff : ∀ a ∈ L, ∀ b, diffC a b = .ok (diff a b)) :
    ∀ (fuel t : Nat) (res : List (String × Json)), L.length ≤ t + ch + fuel →
    Checked.tailLoop h diffC L R ch fuel t res = .ok (tailLoop h diff L R ch fuel t res)
  | 0, t, res, hf => by
    unfold Checked.tailLoop tailLoop
    rw [if_neg (by omega)]
  | fuel + 1, t, res, hf => by
    unfold Checked.tailLoop tailLoop
    by_cases hc : t + ch < L.length ∧ t + ch < R.length
    · have e1 : L.length - (1 + t) = L.length - 1 - t := by omega
      have e2 : R.length - (1 + t) = R.length - 1 - t := by omega
      rw [if_pos hc, sub_ok _ _ (by omega), sub_ok _ _ (by omega)]
      simp only [bind_ok]
      rw [subscript_getD L _ (by omega), subscript_getD R _ (by omega), e1, e2]
      simp only [bind_ok]
      by_cases hm : ItemMatch.MatchArrayElement h (L.getD (L.length - 1 - t) Json.null)
          (L.length - 1 - t) (R.getD (R.length - 1 - t) Json.null) (R.length - 1 - t) = true
      · rw [if_pos hm, if_pos (by
          rw [Bool.and_eq_true, Bool.and_eq_true, decide_eq_true_eq, decide_eq_true_eq]
          exact ⟨hc, hm⟩), hdiff _ (getD_mem L _ (by omega))]
        simp only [bind_ok]
        exact tailLoopChecked_ok h diffC diff L R ch hdiff fuel (t + 1) _ (by omega)
      · rw [if_neg hm, if_neg (by
          rw [Bool.and_eq_true, Bool.and_eq_true, decide_eq_true_eq, decide_eq_true_eq]
          exact fun hh => hm hh.2)]
        rfl
    · rw [if_neg hc, if_neg (by
        rw [Bool.and_eq_true, Bool.and_eq_true, decide_eq_true_eq, decide_eq_true_eq]
        exact fun hh => hc hh.1)]
      rfl

theorem addStepChecked_ok (R : List Json) (res : List (String × Json)) (i : Nat)
    (hi : i < R.length) : Checked.addStep R res i = .ok (addStep R res i) := by
  unfold Checked.addStep addStep
  rw [subscript_getD R i hi]
  rfl

theorem removeStepChecked_ok (L : List Json) (res : List (String × Json)) (i : Nat)
    (hi : i < L.length) : Checked.removeStep L res i = .ok (removeStep L res i) := by
  unfold Checked.removeStep removeStep
  rw [subscript_getD L i hi]
  rfl

theorem markDeletionChecked_ok (L : List Json) (ch : Nat) (lcs : LcsResult)
    (res : List (String × Json)) (i : Nat) (h1 : ch ≤ i) (hi : i < L.length) :
    Checked.markDeletion L ch lcs res i = .ok (markDeletion L ch lcs res i) := by
  unfold Checked.markDeletion markDeletion
  rw [sub_ok _ _ h1]
  simp only [bind_ok]
  split_ifs
  · rfl
  · exact removeStepChecked_ok L res i hi

theorem markAdditionChecked_ok (diffC : Json → Json → Except Err Json)
    (diff : Json → Json → Json) (L R : List Json) (ch : Nat) (lcs : LcsResult)
    (hdiff : ∀ a ∈ L, ∀ b, diffC a b = .ok (diff a b))
    (hlen : lcs.Indices1.length = lcs.Indices2.length)
    (hb : ∀ x ∈ lcs.Indices1, x + ch < L.length)
    (res : List (String × Json)) (i : Nat) (h1 : ch ≤ i) (hi : i < R.length) :
    Checked.markAddition diffC L R ch lcs res i = .ok (markAddition diff L R ch lcs res i) := by
  unfold Checked.markAddition markAddition
  rw [sub_ok _ _ h1]
  simp only [bind_ok]
  by_cases hc : lcs.Indices2.indexOf (i - ch) = lcs.Indices2.length
  · rw [if_pos hc, if_pos hc]
    exact addStepChecked_ok R res i hi
  · rw [if_neg hc, if_neg hc]
    have hlt : lcs.Indices2.indexOf (i - ch) < lcs.Indices1.length := by
      have := List.indexOf_le_length (a := i - ch) (l := lcs.Indices2)
      omega
    have hx := hb _ (List.get_mem lcs.Indices1 _ hlt)
    rw [subscript_ok lcs.Indices1 _ hlt]
    simp only [bind_ok]
    rw [subscript_getD L _ hx, subscript_getD R i hi]
    simp only [bind_ok]
    rw [hdiff _ (getD_mem L _ hx)]
    simp only [bind_ok, pure_ok]
    rw [List.getD_eq_getElem _ _ hlt]
    rfl

theorem foldC_ok {σ α : Type} (f : σ → α → Except Err σ) (g : σ → α → σ) (xs : List α)
    (hstep : ∀ s, ∀ x ∈ xs, f s x = .ok (g s x)) (s : σ) :
    Checked.foldC f s xs = .ok (xs.foldl g s) :=
  (foldC_inv f g (fun _ => True) xs (fun s _ x hx => ⟨hstep s x hx, trivial⟩) s trivial).1

theorem sliceChecked_ok (v : List Json) (front back : Nat) (h : front + back ≤ v.length) :
    Checked.slice v front back = .ok ((v.drop front).take (v.length - front - back)) := by
  unfold Checked.slice
  rw [if_pos h]

theorem ArrayDiffChecked_ok (h : Option (Json → String)) (diffC : Json → Json → Except Err Json)
    (diff : Json → Json → Json) (L R : List Json)
    (hdiff : ∀ a ∈ L, ∀ b, diffC a b = .ok (diff a b)) :
    Checked.ArrayDiff h diffC L R = .ok (ArrayDiff h diff L R) := by
  unfold Checked.ArrayDiff
  by_cases hLR : L = R
  · rw [if_pos hLR]
    unfold ArrayDiff
    rw [if_pos hLR]
  · rw [if_neg hLR]
    obtain ⟨ch, hk, he, hall, _⟩ := headLoop_spec h diff L R L.length 0 [("_t", Json.str "a")]
    rw [Nat.zero_add] at he
    obtain ⟨ct, hk2, he2, hall2, _⟩ := tailLoop_spec h diff L R ch L.length 0
      ((List.range' 0 ch).foldl (fun acc i => putChild acc (toString i)
        (diff (L.getD i Json.null) (R.getD i Json.null))) [("_t", Json.str "a")])
    rw [Nat.zero_add] at he2
    have hb : ch + ct ≤ L.length ∧ ch + ct ≤ R.length := by
      by_cases h0 : ct = 0
      · by_cases h1 : ch = 0
        · omega
        · have := hall (ch - 1) (Nat.zero_le _) (by omega)
          omega
      · have := hall2 (ct - 1) (Nat.zero_le _) (by omega)
        omega
    rw [ArrayDiff_of_loops h diff L R _ _ _ _ hLR he he2,
      headLoopChecked_ok h diffC diff L R hdiff _ _ _ (by omega), he]
    simp only [bind_ok]
    rw [tailLoopChecked_ok h diffC diff L R ch hdiff _ _ _ (by omega), he2]
    simp only [bind_ok]
    have e1 : R.length - ct - ch = R.length - ct - ch := rfl
    by_cases hA : ch + ct = L.length
    · rw [if_pos hA, if_pos hA, sub_ok _ _ (by omega)]
      simp only [bind_ok]
      rw [foldC_ok (Checked.addStep R) (addStep R) _ (fun s x hx =>
        addStepChecked_ok R s x (by have := List.mem_range'_1.1 hx; omega))]
      rfl
    · rw [if_neg hA, if_neg hA]
      by_cases hB : ch + ct = R.length
      · rw [if_pos hB, if_pos hB, sub_ok _ _ (by omega)]
        simp only [bind_ok]
        rw [foldC_ok (Checked.removeStep L) (removeStep L) _ (fun s x hx =>
          removeStepChecked_ok L s x (by have := List.mem_range'_1.1 hx; omega))]
        rfl
      · rw [if_neg hB, if_neg hB, sliceChecked_ok L ch ct hb.1, sliceChecked_ok R ch ct hb.2]
        simp only [bind_ok]
        rw [ComputeLcsChecked_ok]
        simp only [bind_ok]
        obtain ⟨_, hF, _, _, hb1, _⟩ := ComputeLcs_inv h
          ((L.drop ch).take (L.length - ch - ct)) ((R.drop ch).take (R.length - ch - ct))
        have hlenL : ((L.drop ch).take (L.length - ch - ct)).length = L.length - ct - ch := by
          simp only [List.length_take, List.length_drop]
          omega
        rw [hlenL] at hb1
        have hlen := hF.length_eq
        generalize ComputeLcs h ((L.drop ch).take (L.length - ch - ct))
          ((R.drop ch).take (R.length - ch - ct)) = lcs at hb1 hlen ⊢
        rw [sub_ok _ _ (by omega : ct ≤ L.length)]
        simp only [bind_ok]
        rw [foldC_ok (Checked.markDeletion L ch lcs) (markDeletion L ch lcs) _ (fun s x hx =>
          markDeletionChecked_ok L ch lcs s x (by have := List.mem_range'_1.1 hx; omega)
            (by have := List.mem_range'_1.1 hx; omega))]
        simp only [bind_ok]
        rw [sub_ok _ _ (by omega : ct ≤ R.length)]
        simp only [bind_ok]
        rw [foldC_ok (Checked.markAddition diffC L R ch lcs) (markAddition diff L R ch lcs) _
          (fun s x hx => markAdditionChecked_ok diffC diff L R ch lcs hdiff hlen
            (fun y hy => by have := hb1 y hy; omega) s x
            (by have := List.mem_range'_1.1 hx; omega)
            (by have := List.mem_range'_1.1 hx; omega))]
        rfl

theorem ObjectDiffChecked_ok (diffC : Json → Json → Except Err Json)
    (diff : Json → Json → Json) (l r : List (String × Json))
    (hdiff : ∀ e ∈ l, ∀ b, diffC e.2 b = .ok (diff e.2 b)) :
    Checked.ObjectDiff diffC l r = .ok (ObjectDiff diff l r) := by
  unfold Checked.ObjectDiff ObjectDiff
  rw [foldC_ok (Checked.objectDiffLeft diffC r) (objectDiffLeft diff r) l]
  · rfl
  · intro s e he
    unfold Checked.objectDiffLeft objectDiffLeft
    cases find r e.1 with
    | none => rfl
    | some v =>
      simp only []
      rw [hdiff e he]
      rfl

theorem textDeltaChecked_ok (o : Options) (a b : Json) :
    Checked.textDelta o a b = .ok (textDelta o a b) := by
  unfold Checked.textDelta textDelta
  split_ifs with h1
  · split
    · split_ifs with h2
      · rw [CreatePatchesChecked_ok]
        simp only [bind_ok]
        split_ifs <;> rfl
      · rfl
    · rfl
  · rfl

theorem leafDiffChecked_ok (o : Options) (a b : Json) :
    Checked.leafDiff o a b = .ok (leafDiff o a b) := by
  unfold Checked.leafDiff leafDiff
  rw [textDeltaChecked_ok]
  simp only [bind_ok]
  cases textDelta o a b with
  | some d => rfl
  | none =>
    simp only []
    split_ifs <;> rfl

theorem depth_le_depthList : ∀ (l : List Json) (x : Json), x ∈ l → x.depth ≤ Json.depthList l
  | [], _, h => by simp at h
  | y :: rest, x, h => by
    rw [Json.depthList]
    rcases List.mem_cons.1 h with h | h
    · rw [h]
      exact Nat.le_max_left _ _
    · exact le_trans (depth_le_depthList rest x h) (Nat.le_max_right _ _)

theorem depth_nullToEmpty (a : Json) : (nullToEmpty a).depth ≤ a.depth := by
  unfold nullToEmpty
  split_ifs
  · exact Nat.zero_le _
  · exact le_refl _

/-- With a budget above the depth of the left value, the checked `Diff` ends
without an error and returns what the embedding of `Diff` returns. -/
theorem DiffNChecked_ok (o : Options) : ∀ (n : Nat) (a b : Json), a.depth < n →
    Checked.DiffN o n a b = .ok (DiffN o n a b)
  | 0, _, _, h => by omega
  | n + 1, a, b, h => by
    have hda := depth_nullToEmpty a
    unfold Checked.DiffN DiffN
    generalize nullToEmpty a = a2 at hda ⊢
    generalize nullToEmpty b = b2
    cases a2 with
    | obj l =>
      cases b2 with
      | obj r =>
        rw [Json.depth] at hda
        exact ObjectDiffChecked_ok _ _ l r (fun e he b =>
          DiffNChecked_ok o n e.2 b (by
            have := depth_le_depthKvs l e.1 e.2 he
            omega))
      | _ => exact leafDiffChecked_ok o _ _
    | arr l =>
      cases b2 with
      | arr r =>
        rw [Json.depth] at hda
        simp only []
        split_ifs
        · exact ArrayDiffChecked_ok _ _ _ l r (fun x hx b =>
            DiffNChecked_ok o n x b (by
              have := depth_le_depthList l x hx
              omega))
        · exact leafDiffChecked_ok o _ _
      | _ => exact leafDiffChecked_ok o _ _
    | _ => exact leafDiffChecked_ok o _ _

/-- Claim C5: `Diff` is total.  For all values `L` and `R` and all option
settings (the object hash, if any, is a total function), the checked
embedding of `Diff` — in which a subscript out of range, a wrapped unsigned
difference, a `substr` or an iterator range past the end, and a loop or a
recursion that outlives its budget are errors — returns a value, the one
that the embedding of `Diff` returns.  So `Diff(L, R)` terminates, raises no
error, and every index used by `ArrayDiff` and `ComputeLcs` is in range. -/
theorem C5_diff_total (o : Options) (L R : Json) :
    Checked.Diff o L R = .ok (Diff o L R) :=
  DiffNChecked_ok o (L.depth + 1) L R (Nat.lt_succ_self _)

/-! ## Claims on containers in arrays, empty array deltas and reserved keys -/

/-- C31, failing input: between the common head and the common tail, two
containers at the same index are not paired.  With default options (no object
hash), for `L = [1, {"a": 1}, 2]` and `R = [3, {"a": 2}, 4]` the two objects
at index 1 match as array elements (`MatchArrayElement` compares the indices
of containers, and the matrix of `ComputeLcs` is filled with it), but the
backtracking loop of `ComputeLcs` asks `Match`, which compares the values.
The delta of the two objects is `{"a": [1, 2]}`, not null; the common-head
loop records it at `"0"` for `[{"a": 1}]` and `[{"a": 2}]`, and the
common-tail loop records it at `"1"` for `[1, {"a": 1}]` and `[2, {"a": 2}]`;
yet the delta of `L` and `R` removes the object of `L` at `"_1"`, adds the
object of `R` at `"1"`, and holds no delta of the two objects. -/
theorem C31_container_on_lcs_path :
    ItemMatch.MatchArrayElement none (Json.obj [("a", Json.num 1)]) 1
      (Json.obj [("a", Json.num 2)]) 1 = true ∧
    ItemMatch.Match none (Json.obj [("a", Json.num 1)]) (Json.obj [("a", Json.num 2)]) = false ∧
    Diff defaultOptions (Json.obj [("a", Json.num 1)]) (Json.obj [("a", Json.num 2)]) =
      Json.obj [("a", Json.arr [Json.num 1, Json.num 2])] ∧
    Diff defaultOptions (Json.arr [Json.obj [("a", Json.num 1)]])
        (Json.arr [Json.obj [("a", Json.num 2)]]) =
      Json.obj [("0", Json.obj [("a", Json.arr [Json.num 1, Json.num 2])]),
        ("_t", Json.str "a")] ∧
    Diff defaultOptions (Json.arr [Json.num 1, Json.obj [("a", Json.num 1)]])
        (Json.arr [Json.num 2, Json.obj [("a", Json.num 2)]]) =
      Json.obj [("0", Json.arr [Json.num 2]),
        ("1", Json.obj [("a", Json.arr [Json.num 1, Json.num 2])]),
        ("_0", Json.arr [Json.num 1, Json.num 0, Json.num 0]), ("_t", Json.str "a")] ∧
    Diff defaultOptions (Json.arr [Json.num 1, Json.obj [("a", Json.num 1)], Json.num 2])
        (Json.arr [Json.num 3, Json.obj [("a", Json.num 2)], Json.num 4]) =
      Json.obj [("0", Json.arr [Json.num 3]), ("1", Json.arr [Json.obj [("a", Json.num 2)]]),
        ("2", Json.arr [Json.num 4]),
        ("_0", Json.arr [Json.num 1, Json.num 0, Json.num 0]),
        ("_1", Json.arr [Json.obj [("a", Json.num 1)], Json.num 0, Json.num 0]),
        ("_2", Json.arr [Json.num 2, Json.num 0, Json.num 0]), ("_t", Json.str "a")] := by
  decide

/-- C32, failing input: with default options, for `L = [{"a": null}]` and
`R = [{"a": ""}]` the delta is the object whose only member is `"_t": "a"`,
and for `[L]` and `[R]` that object is nested at the key `"0"`. -/
theorem C32_uncollapsed_fast_path :
    Diff defaultOptions (Json.arr [Json.obj [("a", Json.null)]])
        (Json.arr [Json.obj [("a", Json.str "")]]) = Json.obj [("_t", Json.str "a")] ∧
    Diff defaultOptions (Json.arr [Json.arr [Json.obj [("a", Json.null)]]])
        (Json.arr [Json.arr [Json.obj [("a", Json.str "")]]]) =
      Json.obj [("0", Json.obj [("_t", Json.str "a")]), ("_t", Json.str "a")] := by
  decide

/-- C33, counterexample: the delta of the objects `{}` and `{"_t": 1}` has a
member named `"_t"`. -/
theorem C33_counterexample :
    Diff defaultOptions (Json.obj []) (Json.obj [("_t", Json.num 1)]) =
      Json.obj [("_t", Json.arr [Json.num 1])] := by
  decide

theorem contains_setKey {α : Type} (m : List (String × α)) (k : String) (v : α) (k2 : String) :
    contains (setKey m k v) k2 = true ↔ k2 = k ∨ contains m k2 = true := by
  unfold contains
  rw [find_setKey]
  split_ifs with h
  · simp [h]
  · simp [h]

theorem contains_of_mem {α : Type} : ∀ (m : List (String × α)) (k : String) (v : α),
    (k, v) ∈ m → contains m k = true
  | [], _, _, h => by simp at h
  | (k0, w) :: rest, k, v, h => by
    unfold contains find
    by_cases hk : k = k0
    · rw [if_pos hk]
      rfl
    · rw [if_neg hk]
      rcases List.mem_cons.1 h with h | h
      · injection h with h1 _
        exact absurd h1 hk
      · exact contains_of_mem rest k v h

theorem foldl_invariant_mem {α β : Type} (P : β → Prop) (f : β → α → β) :
    ∀ (l : List α) (acc : β), P acc → (∀ b x, x ∈ l → P b → P (f b x)) → P (l.foldl f acc)
  | [], _, h, _ => h
  | x :: rest, acc, h, hstep =>
    foldl_invariant_mem P f rest (f acc x) (hstep acc x (List.mem_cons_self _ _) h)
      (fun b y hy hb => hstep b y (List.mem_cons_of_mem _ hy) hb)

/-- Every member name of the delta of two objects is a member name of one
of them. -/
theorem ObjectDiff_keys (diff : Json → Json → Json) (l r M : List (String × Json))
    (h : ObjectDiff diff l r = Json.obj M) (k : String) (hk : contains M k = true) :
    contains l k = true ∨ contains r k = true := by
  unfold ObjectDiff at h
  simp only [] at h
  split_ifs at h
  injection h with h
  subst h
  revert hk
  refine foldl_invariant_mem
    (fun acc => contains acc k = true → contains l k = true ∨ contains r k = true)
    (objectDiffRight l) r _ ?_ ?_
  · refine foldl_invariant_mem
      (fun acc => contains acc k = true → contains l k = true ∨ contains r k = true)
      (objectDiffLeft diff r) l _ ?_ ?_
    · intro hc
      simp [contains, find] at hc
    · intro b x hx hb hc
      have hx2 : contains l x.1 = true := contains_of_mem l x.1 x.2 hx
      unfold objectDiffLeft at hc
      split at hc
      · simp only [] at hc
        split_ifs at hc
        · exact hb hc
        · rcases (contains_setKey _ _ _ _).1 hc with h1 | h1
          · rw [h1]
            exact Or.inl hx2
          · exact hb h1
      · rcases (contains_setKey _ _ _ _).1 hc with h1 | h1
        · rw [h1]
          exact Or.inl hx2
        · exact hb h1
  · intro b x hx hb hc
    have hx2 : contains r x.1 = true := contains_of_mem r x.1 x.2 hx
    unfold objectDiffRight at hc
    split_ifs at hc
    · exact hb hc
    · rcases (contains_setKey _ _ _ _).1 hc with h1 | h1
      · rw [h1]
        exact Or.inr hx2
      · exact hb h1

/-- Claim C33, amended: for all objects `L` and `R` that have no member named
`"_t"`, and all options, the object delta `Diff(L, R)` has no member named
`"_t"`. -/
theorem C33_reserved_key (o : Options) (l r M : List (String × Json))
    (hl : contains l "_t" = false) (hr : contains r "_t" = false)
    (h : Diff o (Json.obj l) (Json.obj r) = Json.obj M) : contains M "_t" = false := by
  rw [Diff_obj] at h
  cases hc : contains M "_t" with
  | false => rfl
  | true =>
    rcases ObjectDiff_keys _ l r M h "_t" hc with h1 | h1
    · rw [hl] at h1
      exact absurd h1 (by decide)
    · rw [hr] at h1
      exact absurd h1 (by decide)

theorem C33_reserved_key_witness :
    contains [("a", Json.arr [Json.num 1, Json.num 0, Json.num 0]), ("b", Json.arr [Json.num 2])]
      "_t" = false :=
  C33_reserved_key defaultOptions [("a", Json.num 1)] [("b", Json.num 2)] _ (by decide)
    (by decide) (by decide)

/-- C35, failing input: for `L = [0, 1]` and the delta `d` with the two moves
`"_0": ["", 1, 3]` and `"_1": ["", 0, 3]`, `Patch(L, d)` is `[1, 0]` and
`Unpatch([1, 0], d)` is `[1, 0]` again, not `L`. -/
theorem C35_two_moves_not_undone :
    Patch (Json.arr [Json.num 0, Json.num 1])
      (Json.obj [("_0", Json.arr [Json.str "", Json.num 1, Json.num 3]),
        ("_1", Json.arr [Json.str "", Json.num 0, Json.num 3]), ("_t", Json.str "a")]) =
      .ok (Json.arr [Json.num 1, Json.num 0]) ∧
    Unpatch (Json.arr [Json.num 1, Json.num 0])
      (Json.obj [("_0", Json.arr [Json.str "", Json.num 1, Json.num 3]),
        ("_1", Json.arr [Json.str "", Json.num 0, Json.num 3]), ("_t", Json.str "a")]) =
      .ok (Json.arr [Json.num 1, Json.num 0]) := by
  decide

/-- C36, failing input: for `L = [1, 2]` the array deltas with the member
`"05": [9]`, `"-1": [9]`, `"1x": [9]` or `"_05": [9, 0, 0]` are applied by
`Patch` and by `Unpatch`; a key that does not start with digits, such as
`"x"`, is rejected. -/
theorem C36_lenient_index_keys :
    Patch (Json.arr [Json.num 1, Json.num 2])
      (Json.obj [("05", Json.arr [Json.num 9]), ("_t", Json.str "a")]) =
      .ok (Json.arr [Json.num 1, Json.num 2, Json.num 9]) ∧
    Unpatch (Json.arr [Json.num 1, Json.num 2])
      (Json.obj [("05", Json.arr [Json.num 9]), ("_t", Json.str "a")]) =
      .ok (Json.arr [Json.num 1]) ∧
    Patch (Json.arr [Json.num 1, Json.num 2])
      (Json.obj [("-1", Json.arr [Json.num 9]), ("_t", Json.str "a")]) =
      .ok (Json.arr [Json.num 1, Json.num 2, Json.num 9]) ∧
    Patch (Json.arr [Json.num 1, Json.num 2])
      (Json.obj [("1x", Json.arr [Json.num 9]), ("_t", Json.str "a")]) =
      .ok (Json.arr [Json.num 1, Json.num 9, Json.num 2]) ∧
    Patch (Json.arr [Json.num 1, Json.num 2])
      (Json.obj [("_05", Json.arr [Json.num 9, Json.num 0, Json.num 0]), ("_t", Json.str "a")]) =
      .ok (Json.arr [Json.num 1]) ∧
    Unpatch (Json.arr [Json.num 1, Json.num 2])
      (Json.obj [("_05", Json.arr [Json.num 9, Json.num 0, Json.num 0]), ("_t", Json.str "a")]) =
      .ok (Json.arr [Json.num 1, Json.num 2, Json.num 9]) ∧
    Patch (Json.arr [Json.num 1, Json.num 2])
      (Json.obj [("_t", Json.str "a"), ("x", Json.arr [Json.num 9])]) =
      .error Err.invalidArgument := by
  decide

/-! ## Claims on text patches and on null arguments -/

theorem applyLoop_spec : ∀ (ps : List TextPatch) (hp : ps ≠ []) (res : String)
    (flags : List Bool),
    applyLoop ps res flags =
      (patchTarget (ps.getLast hp).diffs, flags ++ List.replicate ps.length true)
  | [], hp, _, _ => absurd rfl hp
  | [p], _, res, flags => by
    simp [applyLoop]
  | p :: q :: rest, _, res, flags => by
    rw [applyLoop, applyLoop_spec (q :: rest) (List.cons_ne_nil _ _) _ _, List.getLast_cons_cons]
    simp [List.replicate_succ]

theorem leafPatch_text_eq (t : String) (x y : Json) :
    leafPatch (Json.str t) [x, y, Json.num OP_TEXTDIFF] =
      match getString x with
      | .error e => .error e
      | .ok patchText =>
        match PatchesFromText patchText with
        | .error e => .error e
        | .ok patches =>
          if patches.isEmpty then .error Err.invalidTextline
          else if allSucceeded (ApplyPatches patches t).2 then
            .ok (Json.str (ApplyPatches patches t).1)
          else .error Err.textPatchFailed := rfl

/-- Claim C37: for every non-empty list of patches `p` and all strings `t1`
and `t2`, `ApplyPatches(p, t1) = ApplyPatches(p, t2)`; the returned text is
the concatenation of the insert and equal texts of the last patch and every
success flag is true; and `Patch` of a TextDiff delta returns the same result
for every string base. -/
theorem C37_apply_ignores_base (p : List TextPatch) (hp : p ≠ []) (t1 t2 : String) :
    ApplyPatches p t1 = ApplyPatches p t2 ∧
    (ApplyPatches p t1).1 = patchTarget (p.getLast hp).diffs ∧
    (ApplyPatches p t1).2 = List.replicate p.length true ∧
    ∀ x y : Json, Patch (Json.str t1) (Json.arr [x, y, Json.num OP_TEXTDIFF]) =
      Patch (Json.str t2) (Json.arr [x, y, Json.num OP_TEXTDIFF]) := by
  have he : p.isEmpty = false := by
    cases p with
    | nil => exact absurd rfl hp
    | cons _ _ => rfl
  have h : ∀ t, ApplyPatches p t =
      (patchTarget (p.getLast hp).diffs, List.replicate p.length true) := by
    intro t
    unfold ApplyPatches
    rw [he]
    simp only [Bool.false_eq_true, if_false]
    rw [applyLoop_spec p hp]
    rfl
  refine ⟨by rw [h t1, h t2], by rw [h t1], by rw [h t1], ?_⟩
  intro x y
  have hP : ∀ t, Patch (Json.str t) (Json.arr [x, y, Json.num OP_TEXTDIFF]) =
      leafPatch (Json.str t) [x, y, Json.num OP_TEXTDIFF] := fun _ => rfl
  rw [hP, hP, leafPatch_text_eq, leafPatch_text_eq]
  cases getString x with
  | error e => rfl
  | ok patchText =>
    simp only []
    cases hq : PatchesFromText patchText with
    | error e => rfl
    | ok patches =>
      simp only []
      by_cases hne : patches = []
      · subst hne
        rfl
      · have he2 : patches.isEmpty = false := by
          cases patches with
          | nil => exact absurd rfl hne
          | cons _ _ => rfl
        rw [he2]
        simp only [Bool.false_eq_true, if_false]
        have h2 : ∀ t, ApplyPatches patches t =
            (patchTarget (patches.getLast hne).diffs, List.replicate patches.length true) := by
          intro t
          unfold ApplyPatches
          rw [he2]
          simp only [Bool.false_eq_true, if_false]
          rw [applyLoop_spec patches hne]
          rfl
        rw [h2 t1, h2 t2]

theorem C37_apply_ignores_base_witness :
    ApplyPatches [{ diffs := [⟨DIFF_EQUAL, "a"⟩, ⟨DIFF_DELETE, "b"⟩, ⟨DIFF_INSERT, "c"⟩] }] "ab" =
      ApplyPatches [{ diffs := [⟨DIFF_EQUAL, "a"⟩, ⟨DIFF_DELETE, "b"⟩, ⟨DIFF_INSERT, "c"⟩] }]
        "zzz" :=
  (C37_apply_ignores_base
    [{ diffs := [⟨DIFF_EQUAL, "a"⟩, ⟨DIFF_DELETE, "b"⟩, ⟨DIFF_INSERT, "c"⟩] }] (by simp)
    "ab" "zzz").1

/-- Claim C38: for all options and all values `L` and `R`, `Diff(null, R)` is
`Diff("", R)` and `Diff(L, null)` is `Diff(L, "")`; `Diff(null, "")` and
`Diff("", null)` are null; and when `Diff(null, R)` or `Diff(L, null)` is a
Replaced delta, the slot of the null argument holds `""`. -/
theorem C38_null_is_empty_string (o : Options) (L R : Json) :
    Diff o Json.null R = Diff o (Json.str "") R ∧
    Diff o L Json.null = Diff o L (Json.str "") ∧
    Diff o Json.null (Json.str "") = Json.null ∧
    Diff o (Json.str "") Json.null = Json.null ∧
    (∀ x y, Diff o Json.null R = Json.arr [x, y] → x = Json.str "") ∧
    (∀ x y, Diff o L Json.null = Json.arr [x, y] → y = Json.str "") := by
  have hl : ∀ b, Diff o Json.null b = leafDiff o (Json.str "") (nullToEmpty b) := by
    intro b
    show DiffN o 1 Json.null b = _
    unfold DiffN
    have : nullToEmpty Json.null = Json.str "" := rfl
    rw [this]
  have hr : ∀ a, Diff o a Json.null = Diff o a (Json.str "") := by
    intro a
    show DiffN o (a.depth + 1) a Json.null = DiffN o (a.depth + 1) a (Json.str "")
    unfold DiffN
    rfl
  have hself : leafDiff o (Json.str "") (Json.str "") = Json.null := by
    have ht : textDelta o (Json.str "") (Json.str "") = none := by
      cases h : textDelta o (Json.str "") (Json.str "") with
      | none => rfl
      | some d =>
        obtain ⟨s1, s2, e1, e2, _, hlen, _⟩ := textDelta_some o _ _ d h
        injection e1 with e1
        injection e2 with e2
        subst e1 e2
        rcases hlen with h3 | h3 <;> exact absurd h3 (Nat.not_lt_zero _)
    have hM : ItemMatch.Match o.ObjectHash (Json.str "") (Json.str "") = true := by
      unfold ItemMatch.Match
      cases o.ObjectHash <;> simp [Json.is_object]
    unfold leafDiff
    rw [ht, hM]
    rfl
  have h2 : ∀ a b x y, leafDiff o a b = Json.arr [x, y] → x = a ∧ y = b := by
    intro a b x y h
    unfold leafDiff at h
    cases ht : textDelta o a b with
    | some d =>
      rw [ht] at h
      simp only [] at h
      obtain ⟨s1, s2, _, _, _, _, hd⟩ := textDelta_some o a b d ht
      rw [hd] at h
      injection h with h
      simp at h
    | none =>
      rw [ht] at h
      simp only [] at h
      split_ifs at h
      · injection h with h
        simp only [List.cons.injEq, and_true] at h
        exact ⟨h.1.symm, h.2.symm⟩
  have h1 : ∀ b, Diff o Json.null b = Diff o (Json.str "") b := by
    intro b
    rw [hl]
    show _ = DiffN o 1 (Json.str "") b
    unfold DiffN
    have : nullToEmpty (Json.str "") = Json.str "" := rfl
    rw [this]
  have h3 : Diff o L (Json.str "") = leafDiff o (nullToEmpty L) (Json.str "") := by
    show DiffN o (L.depth + 1) L (Json.str "") = _
    unfold DiffN
    have : nullToEmpty (Json.str "") = Json.str "" := rfl
    rw [this]
    generalize nullToEmpty L = a
    cases a <;> rfl
  refine ⟨h1 R, hr L, ?_, ?_, ?_, ?_⟩
  · rw [hl]
    exact hself
  · rw [hr, ← h1, hl]
    exact hself
  · intro x y h
    rw [hl] at h
    exact (h2 _ _ x y h).1
  · intro x y h
    rw [hr, h3] at h
    exact (h2 _ _ x y h).2

/-! ## Claims on array moves -/

theorem getSizeT_nat (j : Nat) (h : j < 18446744073709551616) :
    getSizeT (Json.num (j : Int)) = .ok j := by
  have : ((j : Int) % 18446744073709551616).toNat = j := by omega
  show Except.ok ((j : Int) % 18446744073709551616).toNat = _
  rw [this]

theorem classifyPatch_move (ops : PatchOps) (i j : Nat) (x : Json)
    (hi : i < 18446744073709551616) (hj : j < 18446744073709551616) :
    classifyPatch ops ("_" ++ toString i, Json.arr [x, Json.num (j : Int), Json.num 3]) =
      .ok { ops with removals := ops.removals ++ [⟨i, true, j⟩] } := by
  unfold classifyPatch
  simp only [if_neg (delKey_ne_tag i), delKey_head, if_true, delKey_drop, stoul_toString i hi]
  have h1 : isArrayOfSize (Json.arr [x, Json.num (j : Int), Json.num 3]) 3 = true := rfl
  have h2 : getInt (elemAt (Json.arr [x, Json.num (j : Int), Json.num 3]) 2) = .ok 3 := rfl
  have h3 : elemAt (Json.arr [x, Json.num (j : Int), Json.num 3]) 1 = Json.num (j : Int) := rfl
  rw [h1, h2, h3]
  simp only [if_true]
  rw [if_neg (by decide), if_pos (by decide), getSizeT_nat j hj]

/-- Claim C34: for every array `L` (shorter than `2^31`), indices `i` and `j`
below the length of `L`, and any placeholder value `x`,
`Patch(L, {"_t": "a", "_i": [x, j, 3]})` is `L` with the element `L[i]`
taken out and put in again at index `j`: the result has `L[i]` at index `j`,
and without that position it is `L` without position `i`. -/
theorem C34_single_move (L : List Json) (i j : Nat) (x : Json)
    (hi : i < L.length) (hj : j < L.length) (hb : L.length < indexBound) :
    Patch (Json.arr L)
      (Json.obj [("_" ++ toString i, Json.arr [x, Json.num (j : Int), Json.num 3]),
        ("_t", Json.str "a")]) =
      .ok (Json.arr ((L.eraseIdx i).insertIdx j (L.getD i Json.null))) ∧
    ((L.eraseIdx i).insertIdx j (L.getD i Json.null)).getD j Json.null = L.getD i Json.null ∧
    ((L.eraseIdx i).insertIdx j (L.getD i Json.null)).eraseIdx j = L.eraseIdx i := by
  have hb2 : L.length < 18446744073709551616 := lt_trans hb (by decide)
  have hlen : (L.eraseIdx i).length = L.length - 1 := List.length_eraseIdx_of_lt hi
  refine ⟨?_, ?_, ?_⟩
  · have htag : isArrayDelta [("_" ++ toString i, Json.arr [x, Json.num (j : Int), Json.num 3]),
        ("_t", Json.str "a")] = true := by
      unfold isArrayDelta find
      rw [if_neg (fun h => delKey_ne_tag i h.symm)]
      rfl
    rw [Patch_array_delta L _ htag]
    unfold ArrayPatch
    simp only [classifyPatchLoop, classifyPatch_move _ i j x (by omega) (by omega),
      classifyPatch_tag]
    have hne : L.isEmpty = false := by
      cases L with
      | nil => simp at hi
      | cons _ _ => rfl
    simp only [List.nil_append, List.insertionSort, List.orderedInsert, removeLoop, hne,
      Bool.false_eq_true, if_false, if_pos hi, if_true, modifyLoop, moveInsertLoop, insertLoop,
      insertClamped]
    rw [if_pos (by omega)]
  · rw [List.getD_eq_getElem _ _ (by rw [List.length_insertIdx _ _ (by omega)]; omega)]
    exact List.getElem_insertIdx_self _ _ _ (by omega)
  · exact List.eraseIdx_insertIdx _ _

theorem C34_single_move_witness :
    Patch (Json.arr [Json.num 0, Json.num 1, Json.num 2, Json.num 3])
      (Json.obj [("_" ++ toString 1, Json.arr [Json.str "", Json.num ((3 : Nat) : Int), Json.num 3]),
        ("_t", Json.str "a")]) =
      .ok (Json.arr (([Json.num 0, Json.num 1, Json.num 2, Json.num 3].eraseIdx 1).insertIdx 3
        ([Json.num 0, Json.num 1, Json.num 2, Json.num 3].getD 1 Json.null))) :=
  (C34_single_move [Json.num 0, Json.num 1, Json.num 2, Json.num 3] 1 3 (Json.str "")
    (by decide) (by decide) (by decide)).1

/-! ## The shape of the deltas that `Diff` returns -/

theorem contains_putChild (m : List (String × Json)) (k : String) (c : Json) (k2 : String)
    (h : contains m k2 = true) : contains (putChild m k c) k2 = true := by
  unfold putChild
  split_ifs
  · exact h
  · exact (contains_setKey m k c k2).2 (Or.inr h)

/-- An array delta written by `ArrayDiff` has the member `"_t"`. -/
theorem ArrayDiff_tag (h : Option (Json → String)) (diff : Json → Json → Json)
    (L R : List Json) (M : List (String × Json)) (hM : ArrayDiff h diff L R = Json.obj M) :
    contains M "_t" = true := by
  by_cases hLR : L = R
  · unfold ArrayDiff at hM
    rw [if_pos hLR] at hM
    cases hM
  · obtain ⟨ch, _, he, _, _⟩ := headLoop_spec h diff L R L.length 0 [("_t", Json.str "a")]
    obtain ⟨ct, _, he2, _, _⟩ := tailLoop_spec h diff L R (0 + ch) L.length 0
      ((List.range' 0 ch).foldl (fun acc i => putChild acc (toString i)
        (diff (L.getD i Json.null) (R.getD i Json.null))) [("_t", Json.str "a")])
    rw [ArrayDiff_of_loops h diff L R _ _ _ _ hLR he he2] at hM
    have h0 : contains [("_t", Json.str "a")] "_t" = true := rfl
    have h1 : contains ((List.range' 0 ch).foldl (fun acc i => putChild acc (toString i)
        (diff (L.getD i Json.null) (R.getD i Json.null))) [("_t", Json.str "a")]) "_t" = true :=
      foldl_invariant (fun m => contains m "_t" = true) _ _ _ h0
        (fun b x hb => contains_putChild b _ _ _ hb)
    have h2 := foldl_invariant (fun m => contains m "_t" = true)
      (fun acc i => putChild acc (toString (R.length - 1 - i))
        (diff (L.getD (L.length - 1 - i) Json.null) (R.getD (R.length - 1 - i) Json.null)))
      (List.range' 0 ct) _ h1 (fun b x hb => contains_putChild b _ _ _ hb)
    have hadd : ∀ b x, contains b "_t" = true → contains (addStep R b x) "_t" = true :=
      fun b x hb => (contains_setKey b _ _ _).2 (Or.inr hb)
    have hrem : ∀ b x, contains b "_t" = true → contains (removeStep L b x) "_t" = true :=
      fun b x hb => (contains_setKey b _ _ _).2 (Or.inr hb)
    simp only [] at hM
    split_ifs at hM with c1 c2 c3
    · injection hM with hM
      rw [← hM]
      exact foldl_invariant (fun m => contains m "_t" = true) _ _ _ h2 hadd
    · injection hM with hM
      rw [← hM]
      exact foldl_invariant (fun m => contains m "_t" = true) _ _ _ h2 hrem
    · injection hM with hM
      rw [← hM]
      refine foldl_invariant (fun m => contains m "_t" = true) _ _ _
        (foldl_invariant (fun m => contains m "_t" = true) _ _ _ h2 ?_) ?_
      · intro b x hb
        unfold markDeletion
        split_ifs
        · exact hb
        · exact hrem b x hb
      · intro b x hb
        unfold markAddition
        simp only []
        split_ifs
        · exact hadd b x hb
        · exact contains_putChild b _ _ _ hb

theorem leafDiff_not_obj (o : Options) (a b : Json) (M : List (String × Json)) :
    leafDiff o a b ≠ Json.obj M := by
  intro h
  unfold leafDiff at h
  cases ht : textDelta o a b with
  | some d =>
    rw [ht] at h
    simp only [] at h
    obtain ⟨s1, s2, _, _, _, _, hd⟩ := textDelta_some o a b d ht
    rw [hd] at h
    cases h
  | none =>
    rw [ht] at h
    simp only [] at h
    split_ifs at h

theorem DiffN_obj_nonempty (o : Options) (n : Nat) (a b : Json) (M : List (String × Json))
    (h : DiffN o n a b = Json.obj M) : M ≠ [] := by
  cases n with
  | zero => cases h
  | succ n =>
    unfold DiffN at h
    split at h
    · unfold ObjectDiff at h
      simp only [] at h
      split_ifs at h with he
      injection h with h
      subst h
      intro hnil
      rw [hnil] at he
      exact he rfl
    · split_ifs at h
      · have := ArrayDiff_tag _ _ _ _ M h
        intro hnil
        rw [hnil] at this
        cases this
      · exact absurd h (leafDiff_not_obj _ _ _ _)
    · exact absurd h (leafDiff_not_obj _ _ _ _)

theorem DiffN_emitted (o : Options) (n : Nat) (a b : Json) : isEmittedShape (DiffN o n a b) := by
  rcases DiffN_shape o n a b with h | ⟨m, h⟩ | h | h
  · exact Or.inl h
  · exact Or.inr (Or.inl ⟨m, h, DiffN_obj_nonempty o n a b m h⟩)
  · exact Or.inr (Or.inr (Or.inl h))
  · exact Or.inr (Or.inr (Or.inr h))

/-- Claim C39: for all values `L` and `R` and all options, `Diff(L, R)` is
null, an object with at least one member, a 2-array, or a 3-array
`[text, 0, 2]`; it is never a 1-array and never a 3-array with the operation
code 0 or 3.  So for objects `L` and `R` (their keys in map order) a member
`[v]` of `Diff(L, R)` stands at a key that only `R` has, with the value `v`,
and a member `[v, 0, 0]` stands at a key that only `L` has, with the value
`v`. -/
theorem C39_delta_shape (o : Options) (L R : Json) :
    isEmittedShape (Diff o L R) ∧
    (∀ v, Diff o L R ≠ Json.arr [v]) ∧
    (∀ x y, Diff o L R ≠ Json.arr [x, y, Json.num 0] ∧ Diff o L R ≠ Json.arr [x, y, Json.num 3]) ∧
    (∀ l r M, L = Json.obj l → R = Json.obj r → SortedKeys l → SortedKeys r →
      Diff o L R = Json.obj M → ∀ k v,
        (find M k = some (Json.arr [v]) → find l k = none ∧ find r k = some v) ∧
        (find M k = some (Json.arr [v, Json.num 0, Json.num 0]) →
          find l k = some v ∧ find r k = none)) := by
  have hs : isEmittedShape (Diff o L R) := DiffN_emitted o _ L R
  refine ⟨hs, ?_, ?_, ?_⟩
  · intro v hv
    rw [hv] at hs
    rcases hs with h | ⟨m, h, _⟩ | ⟨x, y, h⟩ | ⟨t, h⟩ <;> simp at h
  · intro x y
    constructor
    · intro hv
      rw [hv] at hs
      rcases hs with h | ⟨m, h, _⟩ | ⟨x, y, h⟩ | ⟨t, h⟩ <;> simp [OP_TEXTDIFF] at h
    · intro hv
      rw [hv] at hs
      rcases hs with h | ⟨m, h, _⟩ | ⟨x, y, h⟩ | ⟨t, h⟩ <;> simp [OP_TEXTDIFF] at h
  · intro l r M hL hR hl hr hM k v
    subst hL hR
    rw [Diff_obj] at hM
    obtain ⟨members, _, hfind, hobj⟩ := ObjectDiff_spec (DiffN o (Json.depthKvs l + 1)) l r hl hr
    rw [hobj] at hM
    split_ifs at hM
    injection hM with hM
    subst hM
    rw [hfind k]
    have hshape := DiffN_shape o (Json.depthKvs l + 1)
    constructor
    · intro hk
      cases hlk : find l k with
      | none =>
        cases hrk : find r k with
        | none => rw [hlk, hrk] at hk; simp [childDelta] at hk
        | some b =>
          rw [hlk, hrk] at hk
          simp only [childDelta, addedDelta, Option.some.injEq, Json.arr.injEq, List.cons.injEq,
            and_true] at hk
          rw [hk]
          exact ⟨rfl, rfl⟩
      | some a =>
        cases hrk : find r k with
        | none => rw [hlk, hrk] at hk; simp [childDelta, deletedDelta] at hk
        | some b =>
          rw [hlk, hrk] at hk
          simp only [childDelta] at hk
          split_ifs at hk
          injection hk with hk
          have := isArrayOfSize_one_of_shape _ (hshape a b)
          rw [hk] at this
          cases this
    · intro hk
      cases hlk : find l k with
      | none =>
        cases hrk : find r k with
        | none => rw [hlk, hrk] at hk; simp [childDelta] at hk
        | some b => rw [hlk, hrk] at hk; simp [childDelta, addedDelta] at hk
      | some a =>
        cases hrk : find r k with
        | none =>
          rw [hlk, hrk] at hk
          simp only [childDelta, deletedDelta, Option.some.injEq, Json.arr.injEq, List.cons.injEq,
            and_true] at hk
          rw [hk.1]
          exact ⟨rfl, rfl⟩
        | some b =>
          rw [hlk, hrk] at hk
          simp only [childDelta] at hk
          split_ifs at hk
          injection hk with hk
          have := isDeletedDelta_of_shape _ (hshape a b)
          rw [hk] at this
          cases this

theorem C39_delta_shape_witness :
    find [("a", Json.num 1)] "b" = none ∧ find [("b", Json.num 2)] "b" = some (Json.num 2) :=
  ((C39_delta_shape defaultOptions (Json.obj [("a", Json.num 1)]) (Json.obj [("b", Json.num 2)])).2.2.2
    [("a", Json.num 1)] [("b", Json.num 2)]
    [("a", Json.arr [Json.num 1, Json.num 0, Json.num 0]), ("b", Json.arr [Json.num 2])]
    rfl rfl (by simp [SortedKeys]) (by simp [SortedKeys]) (by decide) "b" (Json.num 2)).1
    (by decide)

/-! ## The members of an array delta, in general -/

theorem contains_iff_mem (I : List Nat) (x : Nat) : I.contains x = true ↔ x ∈ I := by
  simp only [List.contains_iff_exists_mem_beq, beq_iff_eq, exists_eq_right']

theorem foldl_markAddition_filterMap (diff : Json → Json → Json) (L R : List Json) (ch : Nat)
    (lcs : LcsResult) : ∀ (xs : List Nat) (m : List (String × Json)),
    xs.foldl (markAddition diff L R ch lcs) m =
      (xs.filterMap (markMember diff L R ch lcs)).foldl (fun acc e => setKey acc e.1 e.2) m
  | [], _ => rfl
  | x :: rest, m => by
    simp only [List.foldl_cons, List.filterMap_cons]
    have hstep : markAddition diff L R ch lcs m x =
        match markMember diff L R ch lcs x with
        | none => m
        | some e => setKey m e.1 e.2 := by
      unfold markAddition markMember
      by_cases hc : (x - ch) ∈ lcs.Indices2
      · have hc2 : lcs.Indices2.contains (x - ch) = true := (contains_iff_mem _ _).2 hc
        have hne : ¬ (lcs.Indices2.indexOf (x - ch) = lcs.Indices2.length) := by
          rw [List.indexOf_eq_length]
          exact fun hh => hh hc
        simp only [hc2, if_true, if_neg hne]
        unfold putChild
        split_ifs <;> rfl
      · have hc2 : lcs.Indices2.contains (x - ch) = false := by
          rw [Bool.eq_false_iff, ne_eq, contains_iff_mem]
          exact hc
        have he : lcs.Indices2.indexOf (x - ch) = lcs.Indices2.length :=
          List.indexOf_eq_length.2 hc
        simp only [hc2, Bool.false_eq_true, if_false, if_pos he]
        rfl
    rw [hstep]
    cases markMember diff L R ch lcs x with
    | none => exact foldl_markAddition_filterMap diff L R ch lcs rest m
    | some e => exact foldl_markAddition_filterMap diff L R ch lcs rest _

/-- The members stored by the loop "Mark additions and modifications": the
child deltas of the matched positions that are not null, and the added
elements of the other positions. -/
theorem filterMap_markMember_perm (diff : Json → Json → Json) (L R : List Json) (ch : Nat)
    (lcs : LcsResult) : ∀ (xs : List Nat),
    (xs.filterMap (markMember diff L R ch lcs)).Perm
      (((xs.filter (fun j => lcs.Indices2.contains (j - ch) &&
          !(diff (L.getD (lcs.Indices1.getD (lcs.Indices2.indexOf (j - ch)) 0 + ch) Json.null)
            (R.getD j Json.null)).is_null)).map
          (fun j => (j, diff (L.getD (lcs.Indices1.getD (lcs.Indices2.indexOf (j - ch)) 0 + ch)
            Json.null) (R.getD j Json.null)))).map modMember ++
       ((xs.filter (fun j => !lcs.Indices2.contains (j - ch))).map
          (fun j => (j, R.getD j Json.null))).map addMember)
  | [] => List.Perm.refl _
  | x :: rest => by
    have ih := filterMap_markMember_perm diff L R ch lcs rest
    simp only [List.filterMap_cons, List.filter_cons]
    unfold markMember
    cases hc : lcs.Indices2.contains (x - ch)
    · simp only [Bool.false_eq_true, if_false, Bool.false_and, Bool.not_false, if_true,
        List.map_cons]
      exact (ih.cons _).trans List.perm_middle.symm
    · cases hn : (diff (L.getD (lcs.Indices1.getD (lcs.Indices2.indexOf (x - ch)) 0 + ch)
          Json.null) (R.getD x Json.null)).is_null
      · simp only [if_true, Bool.false_eq_true, if_false, Bool.true_and, Bool.not_false,
          Bool.not_true, List.map_cons, List.cons_append]
        exact ih.cons _
      · simp only [if_true, Bool.true_and, Bool.not_true, Bool.false_eq_true, if_false]
        exact ih

theorem filter_not_contains_length (I : List Nat) (a k : Nat) (hI : I.Pairwise (· < ·))
    (hb : ∀ x ∈ I, x < k) :
    ((List.range' a k).filter (fun i => !I.contains (i - a))).length + I.length = k := by
  have h1 := List.length_eq_length_filter_add (l := List.range' a k)
    (fun i => I.contains (i - a))
  rw [filter_range_contains I a k hI hb, List.length_map, List.length_range'] at h1
  omega

theorem perm_append_swap {α : Type} (X D Y : List α) : (X ++ (D ++ Y)).Perm (D ++ (X ++ Y)) := by
  rw [← List.append_assoc, ← List.append_assoc]
  exact List.Perm.append_right _ List.perm_append_comm

/-- The members of an array delta: those of the common head (indices below
`ch`) and of the common tail (indices from `n - ct`), which are stored first,
and those of the part in between. -/
theorem array_members (m n ch ct : Nat) (HM TM MM dels adds : List (Nat × Json))
    (Emain : List (String × Json))
    (hm : m < 18446744073709551616) (hn : n < 18446744073709551616) (hle : ch + ct ≤ n)
    (hH : ∀ e ∈ HM, e.1 < ch) (hHn : (HM.map Prod.fst).Nodup)
    (hT : ∀ e ∈ TM, n - ct ≤ e.1 ∧ e.1 < n) (hTn : (TM.map Prod.fst).Nodup)
    (hMA : ∀ e ∈ MM ++ adds, ch ≤ e.1 ∧ e.1 < n - ct)
    (hMAn : ((MM ++ adds).map Prod.fst).Nodup)
    (hD : ∀ e ∈ dels, e.1 < m) (hDn : (dels.map Prod.fst).Nodup)
    (hE : Emain.Perm (dels.map delMember ++ (MM.map modMember ++ adds.map addMember))) :
    SortedKeys (Emain.foldl (fun acc e => setKey acc e.1 e.2)
      ((HM.map modMember ++ TM.map modMember).foldl (fun acc e => setKey acc e.1 e.2)
        [("_t", Json.str "a")])) ∧
    (Emain.foldl (fun acc e => setKey acc e.1 e.2)
      ((HM.map modMember ++ TM.map modMember).foldl (fun acc e => setKey acc e.1 e.2)
        [("_t", Json.str "a")])).Perm
      (("_t", Json.str "a") :: (dels.map delMember ++
        ((HM ++ (TM ++ MM)).map modMember ++ adds.map addMember))) := by
  rw [← List.foldl_append]
  apply members_of_entries dels (HM ++ (TM ++ MM)) adds
  · simp only [List.map_append, List.append_assoc]
    have h1 : (List.map modMember HM ++ (List.map modMember TM ++ Emain)).Perm
        (List.map modMember HM ++ (List.map modMember TM ++
          (dels.map delMember ++ (MM.map modMember ++ adds.map addMember)))) :=
      (hE.append_left _).append_left _
    refine h1.trans ?_
    refine ((perm_append_swap _ _ _).append_left _).trans ?_
    exact perm_append_swap _ _ _
  · intro e he
    have := hD e he
    omega
  · intro e he
    simp only [List.append_assoc, List.mem_append] at he
    rcases he with he | he | he | he
    · have := hH e he
      omega
    · have := hT e he
      omega
    · have := hMA e (List.mem_append_left _ he)
      omega
    · have := hMA e (List.mem_append_right _ he)
      omega
  · exact hDn
  · have hMAn2 : (MM.map Prod.fst ++ adds.map Prod.fst).Nodup := by
      rw [← List.map_append]
      exact hMAn
    have hmem : ∀ (X : List (Nat × Json)) (i : Nat), i ∈ X.map Prod.fst → ∃ e ∈ X, e.1 = i := by
      intro X i hi
      obtain ⟨e, he, rfl⟩ := List.mem_map.1 hi
      exact ⟨e, he, rfl⟩
    have hMA2 : ∀ i ∈ MM.map Prod.fst ++ adds.map Prod.fst, ch ≤ i ∧ i < n - ct := by
      intro i hi
      rw [← List.map_append] at hi
      obtain ⟨e, he, rfl⟩ := hmem _ i hi
      exact hMA e he
    simp only [List.append_assoc, List.map_append]
    rw [List.nodup_append]
    refine ⟨hHn, ?_, ?_⟩
    · rw [List.nodup_append]
      refine ⟨hTn, hMAn2, ?_⟩
      intro i h1 h2
      obtain ⟨e, he, rfl⟩ := hmem _ i h1
      have := hT e he
      have := hMA2 _ h2
      omega
    · intro i h1 h2
      obtain ⟨e, he, rfl⟩ := hmem _ i h1
      have := hH e he
      rcases List.mem_append.1 h2 with h3 | h3
      · obtain ⟨e2, he2, he3⟩ := hmem _ _ h3
        have := hT e2 he2
        omega
      · have := hMA2 _ h3
        omega

/-- What `ArrayDiff` returns for two different arrays: null, or an object
with the member `"_t"`, a member `"_i": [L[i], 0, 0]` for each index of a list
of indices of `L`, a member `"j": [R[j]]` for each index of a list of indices
of `R`, and child deltas at further indices of `R`; the two arrays without
the removed and without the added positions have the same length. -/
theorem ArrayDiff_wellformed (h : Option (Json → String)) (diff : Json → Json → Json)
    (L R : List Json) (hne : L ≠ R)
    (hbL : L.length < 18446744073709551616) (hbR : R.length < 18446744073709551616) :
    ∃ (ch : Nat) (dels mods adds : List (Nat × Json)),
      (ch = L.length ∨ ¬ (ch < L.length ∧ ch < R.length ∧
        ItemMatch.MatchArrayElement h (L.getD ch Json.null) ch (R.getD ch Json.null) ch = true)) ∧
      (∀ e ∈ dels, (ch ≤ e.1 ∧ e.1 < L.length) ∧ e.2 = L.getD e.1 Json.null) ∧
      (∀ e ∈ adds, (ch ≤ e.1 ∧ e.1 < R.length) ∧ e.2 = R.getD e.1 Json.null) ∧
      (∀ e ∈ mods, e.1 < R.length ∧ (e.2.is_null = false ∧ ∃ a b, e.2 = diff a b) ∧
        (e.1 < ch → e.2 = diff (L.getD e.1 Json.null) (R.getD e.1 Json.null))) ∧
      (∀ i, i < ch → (diff (L.getD i Json.null) (R.getD i Json.null)).is_null = false →
        (i, diff (L.getD i Json.null) (R.getD i Json.null)) ∈ mods) ∧
      L.length + adds.length = R.length + dels.length ∧
      (ArrayDiff h diff L R = Json.null ∨
        ∃ M, ArrayDiff h diff L R = Json.obj M ∧ SortedKeys M ∧
          M.Perm (("_t", Json.str "a") ::
            (dels.map delMember ++ (mods.map modMember ++ adds.map addMember)))) := by
  obtain ⟨ch, _, he, hall, hstop⟩ := headLoop_spec h diff L R L.length 0 [("_t", Json.str "a")]
  simp only [Nat.zero_add] at he hstop
  obtain ⟨ct, _, he2, hall2, _⟩ := tailLoop_spec h diff L R ch L.length 0
    ((List.range' 0 ch).foldl (fun acc i => putChild acc (toString i)
      (diff (L.getD i Json.null) (R.getD i Json.null))) [("_t", Json.str "a")])
  rw [Nat.zero_add] at he2
  have hb : ch + ct ≤ L.length ∧ ch + ct ≤ R.length := by
    by_cases h0 : ct = 0
    · by_cases h1 : ch = 0
      · omega
      · have := hall (ch - 1) (Nat.zero_le _) (by omega)
        omega
    · have := hall2 (ct - 1) (Nat.zero_le _) (by omega)
      omega
  rw [ArrayDiff_of_loops h diff L R _ _ _ _ hne he he2]
  -- the members of the common head and of the common tail
  have hres : (List.range' 0 ct).foldl (fun acc i => putChild acc (toString (R.length - 1 - i))
        (diff (L.getD (L.length - 1 - i) Json.null) (R.getD (R.length - 1 - i) Json.null)))
      ((List.range' 0 ch).foldl (fun acc i => putChild acc (toString i)
        (diff (L.getD i Json.null) (R.getD i Json.null))) [("_t", Json.str "a")]) =
      ((((List.range' 0 ch).filter (fun i =>
          !(diff (L.getD i Json.null) (R.getD i Json.null)).is_null)).map
          (fun i => (i, diff (L.getD i Json.null) (R.getD i Json.null)))).map modMember ++
        (((List.range' 0 ct).filter (fun i => !(diff (L.getD (L.length - 1 - i) Json.null)
          (R.getD (R.length - 1 - i) Json.null)).is_null)).map
          (fun i => (R.length - 1 - i, diff (L.getD (L.length - 1 - i) Json.null)
            (R.getD (R.length - 1 - i) Json.null)))).map modMember).foldl
        (fun acc e => setKey acc e.1 e.2) [("_t", Json.str "a")] := by
    rw [foldl_putChild_entries, foldl_putChild_entries, ← List.foldl_append, List.map_map,
      List.map_map]
    rfl
  rw [hres]
  generalize hHM : ((List.range' 0 ch).filter (fun i =>
      !(diff (L.getD i Json.null) (R.getD i Json.null)).is_null)).map
      (fun i => (i, diff (L.getD i Json.null) (R.getD i Json.null))) = HM
  generalize hTM : ((List.range' 0 ct).filter (fun i => !(diff (L.getD (L.length - 1 - i) Json.null)
      (R.getD (R.length - 1 - i) Json.null)).is_null)).map
      (fun i => (R.length - 1 - i, diff (L.getD (L.length - 1 - i) Json.null)
        (R.getD (R.length - 1 - i) Json.null))) = TM
  have hH : ∀ e ∈ HM, e.1 < ch ∧ (e.2.is_null = false ∧ ∃ a b, e.2 = diff a b) ∧
      e.2 = diff (L.getD e.1 Json.null) (R.getD e.1 Json.null) := by
    intro e he
    rw [← hHM] at he
    simp only [List.mem_map, List.mem_filter, List.mem_range'_1, Bool.not_eq_true'] at he
    obtain ⟨i, hi, rfl⟩ := he
    exact ⟨by simp only []; omega, ⟨hi.2, _, _, rfl⟩, rfl⟩
  have hHin : ∀ i, i < ch → (diff (L.getD i Json.null) (R.getD i Json.null)).is_null = false →
      (i, diff (L.getD i Json.null) (R.getD i Json.null)) ∈ HM := by
    intro i hi hnn
    rw [← hHM]
    refine List.mem_map.2 ⟨i, List.mem_filter.2 ⟨List.mem_range'_1.2 ⟨by omega, by omega⟩, ?_⟩, rfl⟩
    rw [hnn]
    rfl
  have hHn : (HM.map Prod.fst).Nodup := by
    rw [← hHM, List.map_map]
    simp only [Function.comp_def, List.map_id']
    exact (range_nodup _ _).filter _
  have hT : ∀ e ∈ TM, (R.length - ct ≤ e.1 ∧ e.1 < R.length) ∧
      (e.2.is_null = false ∧ ∃ a b, e.2 = diff a b) := by
    intro e he
    rw [← hTM] at he
    simp only [List.mem_map, List.mem_filter, List.mem_range'_1, Bool.not_eq_true'] at he
    obtain ⟨i, hi, rfl⟩ := he
    exact ⟨by simp only []; omega, hi.2, _, _, rfl⟩
  have hTn : (TM.map Prod.fst).Nodup := by
    rw [← hTM, List.map_map]
    simp only [Function.comp_def]
    refine List.Nodup.map_on ?_ ((range_nodup _ _).filter _)
    intro x hx y hy hxy
    have h1 := (List.mem_range'_1.1 (List.mem_filter.1 hx).1).2
    have h2 := (List.mem_range'_1.1 (List.mem_filter.1 hy).1).2
    omega
  have hmods : ∀ (MM : List (Nat × Json)),
      (∀ e ∈ MM, (ch ≤ e.1 ∧ e.1 < R.length - ct) ∧
        (e.2.is_null = false ∧ ∃ a b, e.2 = diff a b)) →
      ∀ e ∈ HM ++ (TM ++ MM), e.1 < R.length ∧ (e.2.is_null = false ∧ ∃ a b, e.2 = diff a b) ∧
        (e.1 < ch → e.2 = diff (L.getD e.1 Json.null) (R.getD e.1 Json.null)) := by
    intro MM hMM e he
    simp only [List.mem_append] at he
    rcases he with he | he | he
    · have := hH e he
      exact ⟨by omega, this.2.1, fun _ => this.2.2⟩
    · have := hT e he
      exact ⟨by omega, this.2, fun hlt => by omega⟩
    · have := hMM e he
      exact ⟨by omega, this.2, fun hlt => by omega⟩
  have hmodsin : ∀ (MM : List (Nat × Json)) (i : Nat), i < ch →
      (diff (L.getD i Json.null) (R.getD i Json.null)).is_null = false →
      (i, diff (L.getD i Json.null) (R.getD i Json.null)) ∈ HM ++ (TM ++ MM) :=
    fun MM i hi hnn => List.mem_append_left _ (hHin i hi hnn)
  by_cases hA : ch + ct = L.length
  · rw [if_pos hA, foldl_addStep_entries]
    refine ⟨ch, [], HM ++ (TM ++ []),
      (List.range' ch (R.length - ct - ch)).map (fun j => (j, R.getD j Json.null)),
      hstop, by simp, ?_, hmods [] (by simp), hmodsin [], ?_, Or.inr ⟨_, rfl, ?_⟩⟩
    · intro e he
      simp only [List.mem_map, List.mem_range'_1] at he
      obtain ⟨i, hi, rfl⟩ := he
      exact ⟨by simp only []; omega, rfl⟩
    · simp only [List.length_map, List.length_range', List.length_nil]
      omega
    · refine array_members L.length R.length ch ct HM TM [] [] _ _ hbL hbR hb.2
        (fun e he => (hH e he).1) hHn (fun e he => (hT e he).1) hTn ?_ ?_ (by simp) (by simp) ?_
      · intro e he
        simp only [List.nil_append, List.mem_map, List.mem_range'_1] at he
        obtain ⟨i, hi, rfl⟩ := he
        simp only []
        omega
      · rw [List.nil_append, List.map_map]
        simp only [Function.comp_def, List.map_id']
        exact range_nodup _ _
      · simp only [List.map_nil, List.nil_append, List.map_map]
        exact List.Perm.refl _
  · rw [if_neg hA]
    by_cases hB : ch + ct = R.length
    · rw [if_pos hB, foldl_removeStep_entries]
      refine ⟨ch, (List.range' ch (L.length - ct - ch)).map (fun i => (i, L.getD i Json.null)),
        HM ++ (TM ++ []), [], hstop, ?_, by simp, hmods [] (by simp), hmodsin [], ?_,
        Or.inr ⟨_, rfl, ?_⟩⟩
      · intro e he
        simp only [List.mem_map, List.mem_range'_1] at he
        obtain ⟨i, hi, rfl⟩ := he
        exact ⟨by simp only []; omega, rfl⟩
      · simp only [List.length_map, List.length_range', List.length_nil]
        omega
      · refine array_members L.length R.length ch ct HM TM [] _ [] _ hbL hbR hb.2
          (fun e he => (hH e he).1) hHn (fun e he => (hT e he).1) hTn (by simp) (by simp)
          ?_ ?_ ?_
        · intro e he
          simp only [List.mem_map, List.mem_range'_1] at he
          obtain ⟨i, hi, rfl⟩ := he
          simp only []
          omega
        · rw [List.map_map]
          simp only [Function.comp_def, List.map_id']
          exact range_nodup _ _
        · simp only [List.map_nil, List.append_nil, List.map_map]
          exact List.Perm.refl _
    · rw [if_neg hB]
      obtain ⟨_, hF, hI1, hI2, hb1, hb2⟩ := ComputeLcs_inv h
        ((L.drop ch).take (L.length - ch - ct)) ((R.drop ch).take (R.length - ch - ct))
      have hlenL : ((L.drop ch).take (L.length - ch - ct)).length = L.length - ct - ch := by
        simp only [List.length_take, List.length_drop]
        omega
      have hlenR : ((R.drop ch).take (R.length - ch - ct)).length = R.length - ct - ch := by
        simp only [List.length_take, List.length_drop]
        omega
      rw [hlenL] at hb1
      rw [hlenR] at hb2
      have hlen := hF.length_eq
      simp only []
      generalize ComputeLcs h ((L.drop ch).take (L.length - ch - ct))
        ((R.drop ch).take (R.length - ch - ct)) = lcs at hI1 hI2 hb1 hb2 hlen ⊢
      clear hF
      rw [foldl_markDeletion_entries, foldl_markAddition_filterMap, ← List.foldl_append]
      have hc1 := filter_not_contains_length lcs.Indices1 ch (L.length - ct - ch) hI1 hb1
      have hc2 := filter_not_contains_length lcs.Indices2 ch (R.length - ct - ch) hI2 hb2
      refine ⟨ch, ((List.range' ch (L.length - ct - ch)).filter
            (fun i => !lcs.Indices1.contains (i - ch))).map (fun i => (i, L.getD i Json.null)),
        HM ++ (TM ++ ((List.range' ch (R.length - ct - ch)).filter
          (fun j => lcs.Indices2.contains (j - ch) &&
            !(diff (L.getD (lcs.Indices1.getD (lcs.Indices2.indexOf (j - ch)) 0 + ch) Json.null)
              (R.getD j Json.null)).is_null)).map
          (fun j => (j, diff (L.getD (lcs.Indices1.getD (lcs.Indices2.indexOf (j - ch)) 0 + ch)
            Json.null) (R.getD j Json.null)))),
        ((List.range' ch (R.length - ct - ch)).filter
          (fun j => !lcs.Indices2.contains (j - ch))).map (fun j => (j, R.getD j Json.null)),
        hstop, ?_, ?_, hmods _ ?_, hmodsin _, ?_, ?_⟩
      · intro e he
        simp only [List.mem_map, List.mem_filter, List.mem_range'_1] at he
        obtain ⟨i, hi, rfl⟩ := he
        exact ⟨by simp only []; omega, rfl⟩
      · intro e he
        simp only [List.mem_map, List.mem_filter, List.mem_range'_1] at he
        obtain ⟨i, hi, rfl⟩ := he
        exact ⟨by simp only []; omega, rfl⟩
      · intro e he
        simp only [List.mem_map, List.mem_filter, List.mem_range'_1, Bool.and_eq_true,
          Bool.not_eq_true'] at he
        obtain ⟨i, hi, rfl⟩ := he
        exact ⟨by simp only []; omega, hi.2.2, _, _, rfl⟩
      · simp only [List.length_map]
        omega
      · have hm := array_members L.length R.length ch ct HM TM
          (((List.range' ch (R.length - ct - ch)).filter
            (fun j => lcs.Indices2.contains (j - ch) &&
              !(diff (L.getD (lcs.Indices1.getD (lcs.Indices2.indexOf (j - ch)) 0 + ch) Json.null)
                (R.getD j Json.null)).is_null)).map
            (fun j => (j, diff (L.getD (lcs.Indices1.getD (lcs.Indices2.indexOf (j - ch)) 0 + ch)
              Json.null) (R.getD j Json.null))))
          (((List.range' ch (L.length - ct - ch)).filter
            (fun i => !lcs.Indices1.contains (i - ch))).map (fun i => (i, L.getD i Json.null)))
          (((List.range' ch (R.length - ct - ch)).filter
            (fun j => !lcs.Indices2.contains (j - ch))).map (fun j => (j, R.getD j Json.null)))
          (((List.range' ch (L.length - ct - ch)).filter
              (fun i => !lcs.Indices1.contains (i - ch))).map
              (fun i => delMember (i, L.getD i Json.null)) ++
            (List.range' ch (R.length - ct - ch)).filterMap (markMember diff L R ch lcs))
          hbL hbR hb.2
          (fun e he => (hH e he).1) hHn (fun e he => (hT e he).1) hTn ?_ ?_ ?_ ?_ ?_
        · split_ifs
          · exact Or.inl rfl
          · exact Or.inr ⟨_, rfl, hm⟩
        · intro e he
          simp only [List.mem_append, List.mem_map, List.mem_filter, List.mem_range'_1] at he
          rcases he with ⟨i, hi, rfl⟩ | ⟨i, hi, rfl⟩ <;> simp only [] <;> omega
        · rw [List.map_append, List.map_map, List.map_map]
          simp only [Function.comp_def, List.map_id']
          rw [List.nodup_append]
          refine ⟨(range_nodup _ _).filter _, (range_nodup _ _).filter _, ?_⟩
          intro i h1 h2
          simp only [List.mem_filter, Bool.and_eq_true, Bool.not_eq_true'] at h1 h2
          rw [h1.2.1] at h2
          exact absurd h2.2 (by decide)
        · intro e he
          simp only [List.mem_map, List.mem_filter, List.mem_range'_1] at he
          obtain ⟨i, hi, rfl⟩ := he
          simp only []
          omega
        · rw [List.map_map]
          simp only [Function.comp_def, List.map_id']
          exact (range_nodup _ _).filter _
        · refine List.Perm.append ?_ (filterMap_markMember_perm diff L R ch lcs _)
          rw [List.map_map]
          exact List.Perm.refl _

theorem filter_map_all {α β : Type} (p : β → Bool) (f : α → β) (X : List α)
    (h : ∀ e ∈ X, p (f e) = true) : ((X.map f).filter p).length = X.length := by
  rw [List.filter_eq_self.2 (by
    intro b hb
    obtain ⟨e, he, rfl⟩ := List.mem_map.1 hb
    exact h e he), List.length_map]

theorem filter_map_none {α β : Type} (p : β → Bool) (f : α → β) (X : List α)
    (h : ∀ e ∈ X, p (f e) = false) : (X.map f).filter p = [] := by
  rw [List.filter_eq_nil_iff]
  intro b hb
  obtain ⟨e, he, rfl⟩ := List.mem_map.1 hb
  rw [h e he]
  decide

theorem isDelKey_delKey (i : Nat) : isDelKey ("_" ++ toString i) = true := by
  unfold isDelKey
  rw [delKey_head]
  simp [delKey_ne_tag i]

theorem isDelKey_numKey (i : Nat) : isDelKey (toString i) = false := by
  unfold isDelKey
  have := numKey_head i
  simp [this]

/-- Claim C40: for all arrays `L` and `R` (shorter than `2^31`) and all
options, whenever `Diff(L, R)` is an object `M`, it is an array delta; every
member other than `"_t"` is a member `"_i"` with `i < |L|` and the value
`[L[i], 0, 0]`, or a member with a decimal key `j < |R|` whose value, when it
is a 1-array, is `[R[j]]`; and `|L|` plus the number of 1-array members is
`|R|` plus the number of `"_i"` members. -/
theorem C40_array_delta_wellformed (o : Options) (L R : List Json) (M : List (String × Json))
    (hbL : L.length < indexBound) (hbR : R.length < indexBound)
    (h : Diff o (Json.arr L) (Json.arr R) = Json.obj M) :
    find M "_t" = some (Json.str "a") ∧
    (∀ k v, (k, v) ∈ M → k ≠ "_t" →
      (∃ i, k = "_" ++ toString i ∧ i < L.length ∧
        v = Json.arr [L.getD i Json.null, Json.num 0, Json.num 0]) ∨
      (∃ j, k = toString j ∧ j < R.length ∧
        (isArrayOfSize v 1 = true → v = Json.arr [R.getD j Json.null]))) ∧
    L.length + (M.filter (fun e => isArrayOfSize e.2 1)).length =
      R.length + (M.filter (fun e => isDelKey e.1)).length := by
  have hD : Diff o (Json.arr L) (Json.arr R) =
      if o.ArrayDiff = MODE_EFFICIENT then
        ArrayDiff o.ObjectHash (DiffN o (Json.depthList L + 1)) L R
      else leafDiff o (Json.arr L) (Json.arr R) := rfl
  rw [hD] at h
  split_ifs at h with hmode
  swap
  · exact absurd h (leafDiff_not_obj _ _ _ _)
  have hne : L ≠ R := by
    intro hLR
    unfold ArrayDiff at h
    rw [if_pos hLR] at h
    cases h
  obtain ⟨_, dels, mods, adds, _, hdel, hadd, hmod, _, hbal, hres⟩ :=
    ArrayDiff_wellformed o.ObjectHash (DiffN o (Json.depthList L + 1)) L R hne
      (lt_trans hbL (by decide)) (lt_trans hbR (by decide))
  rcases hres with hnull | ⟨M2, hM2, hs, hperm⟩
  · rw [hnull] at h
    cases h
  rw [hM2] at h
  injection h with h
  subst h
  have hone : ∀ e ∈ mods, isArrayOfSize e.2 1 = false := by
    intro e he
    obtain ⟨_, ⟨_, a, b, hab⟩, _⟩ := hmod e he
    rw [hab]
    exact isArrayOfSize_one_of_shape _ (DiffN_shape _ _ _ _)
  refine ⟨find_of_mem _ _ _ hs (hperm.mem_iff.2 (List.mem_cons_self _ _)), ?_, ?_⟩
  · intro k v hkv hk
    have hmem := hperm.mem_iff.1 hkv
    simp only [List.mem_cons, List.mem_append, List.mem_map] at hmem
    rcases hmem with h1 | ⟨e, he, h1⟩ | ⟨e, he, h1⟩ | ⟨e, he, h1⟩
    · injection h1 with h1 _
      exact absurd h1 hk
    · left
      injection h1 with h1 h2
      have := hdel e he
      exact ⟨e.1, h1.symm, this.1.2, by rw [← h2, this.2]; rfl⟩
    · right
      injection h1 with h1 h2
      have := hmod e he
      refine ⟨e.1, h1.symm, this.1, ?_⟩
      intro hv
      rw [← h2, hone e he] at hv
      cases hv
    · right
      injection h1 with h1 h2
      have := hadd e he
      exact ⟨e.1, h1.symm, this.1.2, fun _ => by rw [← h2, this.2]; rfl⟩
  · rw [(hperm.filter _).length_eq, (hperm.filter _).length_eq]
    simp only [List.filter_cons, List.filter_append]
    have t1 : isArrayOfSize (Json.str "a") 1 = false := rfl
    have t2 : isDelKey "_t" = false := by decide
    rw [filter_map_none (fun e : String × Json => isArrayOfSize e.2 1) delMember dels (fun _ _ => rfl),
      filter_map_none (fun e : String × Json => isArrayOfSize e.2 1) modMember mods hone,
      filter_map_none (fun e : String × Json => isDelKey e.1) modMember mods (fun e _ => isDelKey_numKey e.1),
      filter_map_none (fun e : String × Json => isDelKey e.1) addMember adds (fun e _ => isDelKey_numKey e.1)]
    simp only [t1, t2, Bool.false_eq_true, if_false, List.nil_append, List.append_nil]
    rw [filter_map_all (fun e : String × Json => isArrayOfSize e.2 1) addMember adds (fun _ _ => rfl),
      filter_map_all (fun e : String × Json => isDelKey e.1) delMember dels (fun e _ => isDelKey_delKey e.1)]
    exact hbal

theorem C40_array_delta_wellformed_witness :
    [Json.num 1, Json.num 2].length +
        ([("1", Json.arr [Json.num 3]), ("_1", Json.arr [Json.num 2, Json.num 0, Json.num 0]),
          ("_t", Json.str "a")].filter (fun e => isArrayOfSize e.2 1)).length =
      [Json.num 1, Json.num 3].length +
        ([("1", Json.arr [Json.num 3]), ("_1", Json.arr [Json.num 2, Json.num 0, Json.num 0]),
          ("_t", Json.str "a")].filter (fun e => isDelKey e.1)).length :=
  (C40_array_delta_wellformed defaultOptions [Json.num 1, Json.num 2] [Json.num 1, Json.num 3]
    [("1", Json.arr [Json.num 3]), ("_1", Json.arr [Json.num 2, Json.num 0, Json.num 0]),
      ("_t", Json.str "a")] (by decide) (by decide) (by decide)).2.2

/-! ## Containers at the same index -/

/-- Where the pair of containers at the same index lies between two elements
that changed places, a common subsequence holds one of the crossing pairs
only: with default options, for `L = [1, {"a": 1}, 2]` and
`R = [2, {"a": 2}, 1]` the common subsequence is the element 1, and the
objects at index 1 are removed at `"_1"` and added at `"1"`.  The same holds
for `R = [2, {"a": 1}, 1]`, where the two objects are equal. -/
theorem crossing_pairs_example :
    Diff defaultOptions (Json.arr [Json.num 1, Json.obj [("a", Json.num 1)], Json.num 2])
        (Json.arr [Json.num 2, Json.obj [("a", Json.num 2)], Json.num 1]) =
      Json.obj [("0", Json.arr [Json.num 2]), ("1", Json.arr [Json.obj [("a", Json.num 2)]]),
        ("_1", Json.arr [Json.obj [("a", Json.num 1)], Json.num 0, Json.num 0]),
        ("_2", Json.arr [Json.num 2, Json.num 0, Json.num 0]), ("_t", Json.str "a")] ∧
    Diff defaultOptions (Json.arr [Json.num 1, Json.obj [("a", Json.num 1)], Json.num 2])
        (Json.arr [Json.num 2, Json.obj [("a", Json.num 1)], Json.num 1]) =
      Json.obj [("0", Json.arr [Json.num 2]), ("1", Json.arr [Json.obj [("a", Json.num 1)]]),
        ("_1", Json.arr [Json.obj [("a", Json.num 1)], Json.num 0, Json.num 0]),
        ("_2", Json.arr [Json.num 2, Json.num 0, Json.num 0]), ("_t", Json.str "a")] := by
  decide

/-- Positional identity in the common head: for all arrays `L` and `R`
(shorter than `2^31`), all
options, and every index `i` of both such that at every index up to `i` the
elements of `L` and `R` match as array elements (with no object hash: the
element of `L` is a container, or it is a scalar equal to the element of `R`),
an array delta `Diff(L, R)` has no member `"_i"`, and its member `"i"` is
`Diff(L[i], R[i])` when that is not null; it has no member `"i"` otherwise. -/
theorem positional_identity_in_head (o : Options) (L R : List Json)
    (M : List (String × Json)) (i : Nat)
    (hbL : L.length < indexBound) (hbR : R.length < indexBound)
    (hM : Diff o (Json.arr L) (Json.arr R) = Json.obj M)
    (hiL : i < L.length) (hiR : i < R.length)
    (hmatch : ∀ i2, i2 ≤ i → ItemMatch.MatchArrayElement o.ObjectHash (L.getD i2 Json.null) i2
      (R.getD i2 Json.null) i2 = true) :
    find M ("_" ++ toString i) = none ∧
    find M (toString i) =
      if (Diff o (L.getD i Json.null) (R.getD i Json.null)).is_null then none
      else some (Diff o (L.getD i Json.null) (R.getD i Json.null)) := by
  have hD : Diff o (Json.arr L) (Json.arr R) =
      if o.ArrayDiff = MODE_EFFICIENT then
        ArrayDiff o.ObjectHash (DiffN o (Json.depthList L + 1)) L R
      else leafDiff o (Json.arr L) (Json.arr R) := rfl
  rw [hD] at hM
  split_ifs at hM with hmode
  swap
  · exact absurd hM (leafDiff_not_obj _ _ _ _)
  have hne : L ≠ R := by
    intro hLR
    unfold ArrayDiff at hM
    rw [if_pos hLR] at hM
    cases hM
  have hbL2 : L.length < 18446744073709551616 := lt_trans hbL (by decide)
  have hbR2 : R.length < 18446744073709551616 := lt_trans hbR (by decide)
  obtain ⟨ch, dels, mods, adds, hstop, hdel, hadd, hmod, hin, _, hres⟩ :=
    ArrayDiff_wellformed o.ObjectHash (DiffN o (Json.depthList L + 1)) L R hne hbL2 hbR2
  rcases hres with hnull | ⟨M2, hM2, hs, hperm⟩
  · rw [hnull] at hM
    cases hM
  rw [hM2] at hM
  injection hM with hM
  subst hM
  have hch : i < ch := by
    by_contra hc
    rcases hstop with h1 | h1
    · omega
    · exact h1 ⟨by omega, by omega, hmatch ch (by omega)⟩
  have hchild : DiffN o (Json.depthList L + 1) (L.getD i Json.null) (R.getD i Json.null) =
      Diff o (L.getD i Json.null) (R.getD i Json.null) :=
    DiffN_eq_Diff o _ _ _ (Nat.lt_succ_of_le (depth_getD_le L i))
  have hkeys : ∀ k v, (k, v) ∈ M2 → k = "_t" ∨ (∃ e ∈ dels, k = "_" ++ toString e.1) ∨
      (∃ e ∈ mods, k = toString e.1 ∧ v = e.2) ∨ (∃ e ∈ adds, k = toString e.1) := by
    intro k v hkv
    have hmem := hperm.mem_iff.1 hkv
    simp only [List.mem_cons, List.mem_append, List.mem_map] at hmem
    rcases hmem with h1 | ⟨e, he, h1⟩ | ⟨e, he, h1⟩ | ⟨e, he, h1⟩
    · injection h1 with h1 _
      exact Or.inl h1
    · injection h1 with h1 _
      exact Or.inr (Or.inl ⟨e, he, h1.symm⟩)
    · injection h1 with h1 h2
      exact Or.inr (Or.inr (Or.inl ⟨e, he, h1.symm, h2.symm⟩))
    · injection h1 with h1 _
      exact Or.inr (Or.inr (Or.inr ⟨e, he, h1.symm⟩))
  constructor
  · apply find_eq_none
    intro hk
    obtain ⟨⟨k, v⟩, hkv, hk2⟩ := List.mem_map.1 hk
    simp only [] at hk2
    subst hk2
    rcases hkeys _ v hkv with h1 | ⟨e, he, h1⟩ | ⟨e, he, h1, _⟩ | ⟨e, he, h1⟩
    · exact delKey_ne_tag i h1
    · have hb := hdel e he
      have := delKey_injective i e.1 (by omega) (by omega) h1
      omega
    · exact numKey_ne_delKey e.1 i h1.symm
    · exact numKey_ne_delKey e.1 i h1.symm
  · rw [← hchild]
    by_cases hn : (DiffN o (Json.depthList L + 1) (L.getD i Json.null)
        (R.getD i Json.null)).is_null = true
    · rw [if_pos hn]
      apply find_eq_none
      intro hk
      obtain ⟨⟨k, v⟩, hkv, hk2⟩ := List.mem_map.1 hk
      simp only [] at hk2
      subst hk2
      rcases hkeys _ v hkv with h1 | ⟨e, he, h1⟩ | ⟨e, he, h1, _⟩ | ⟨e, he, h1⟩
      · exact numKey_ne_tag i h1
      · exact numKey_ne_delKey i e.1 h1
      · have hb := hmod e he
        have hei := toString_nat_injective i e.1 (by omega) (by omega) h1
        have h3 := hb.2.2 (by omega)
        rw [← hei] at h3
        have h4 := hb.2.1.1
        rw [h3, hn] at h4
        cases h4
      · have hb := hadd e he
        have := toString_nat_injective i e.1 (by omega) (by omega) h1
        omega
    · rw [if_neg hn]
      have hn2 : (DiffN o (Json.depthList L + 1) (L.getD i Json.null)
          (R.getD i Json.null)).is_null = false := by
        cases hq : (DiffN o (Json.depthList L + 1) (L.getD i Json.null)
          (R.getD i Json.null)).is_null
        · rfl
        · exact absurd hq hn
      apply find_of_mem _ _ _ hs
      apply hperm.mem_iff.2
      apply List.mem_cons_of_mem
      apply List.mem_append_right
      apply List.mem_append_left
      exact List.mem_map.2 ⟨_, hin i hch hn2, rfl⟩

theorem positional_identity_in_head_example :
    find [("0", Json.obj [("a", Json.arr [Json.num 1, Json.num 2])]), ("2", Json.arr [Json.num 3]),
        ("_2", Json.arr [Json.num 2, Json.num 0, Json.num 0]),
        ("_3", Json.arr [Json.num 5, Json.num 0, Json.num 0]), ("_t", Json.str "a")]
      ("_" ++ toString 0) = none :=
  (positional_identity_in_head defaultOptions
    [Json.obj [("a", Json.num 1)], Json.arr [Json.num 1], Json.num 2, Json.num 5]
    [Json.obj [("a", Json.num 2)], Json.arr [Json.num 1], Json.num 3] _ 0
    (by decide) (by decide) (by decide) (by decide) (by decide)
    (fun i2 h2 => by
      have : i2 = 0 := by omega
      subst this
      decide)).1

/-! ## Appending to and removing from the end of an array of scalars -/

/-- On an array of scalars `L` and `L ++ X`, in either order, the common-head
loop consumes exactly `L`, the common-tail loop consumes nothing, and neither
stores a member. -/
theorem append_loops (n : Nat) (L X : List Json)
    (hL : ∀ x ∈ L, isShortScalar x = true) (hX : ∀ x ∈ X, isShortScalar x = true) :
    (headLoop none (DiffN defaultOptions (n + 1)) L (L ++ X) L.length 0
        [("_t", Json.str "a")] = (L.length, [("_t", Json.str "a")]) ∧
      tailLoop none (DiffN defaultOptions (n + 1)) L (L ++ X) L.length L.length 0
        [("_t", Json.str "a")] = (0, [("_t", Json.str "a")])) ∧
    (headLoop none (DiffN defaultOptions (n + 1)) (L ++ X) L (L ++ X).length 0
        [("_t", Json.str "a")] = (L.length, [("_t", Json.str "a")]) ∧
      tailLoop none (DiffN defaultOptions (n + 1)) (L ++ X) L L.length (L ++ X).length 0
        [("_t", Json.str "a")] = (0, [("_t", Json.str "a")])) := by
  have hLX : ∀ x ∈ L ++ X, isShortScalar x = true := by
    intro x hx
    rcases List.mem_append.1 hx with h | h
    · exact hL x h
    · exact hX x h
  have hget : ∀ i, i < L.length → (L ++ X).getD i Json.null = L.getD i Json.null := by
    intro i hi
    rw [List.getD_append _ _ _ _ hi]
  constructor
  · obtain ⟨ch, ct, h1, h2, hle1, hle2, -, -, hs1, -⟩ :=
      scalar_loops (DiffN defaultOptions (n + 1)) L (L ++ X)
        (fun x hx => scalar_not_container x (hL x hx))
        (fun x hx => scalar_DiffN_self n x (hLX x hx))
    have hch : ch = L.length := by
      rcases hs1 with h | h
      · exact h
      · by_contra hc
        apply h
        have hlt : ch < L.length := by omega
        refine ⟨hlt, ?_, (hget ch hlt).symm⟩
        rw [List.length_append]; omega
    have hct : ct = 0 := by omega
    subst hch
    subst hct
    exact ⟨h1, h2⟩
  · obtain ⟨ch, ct, h1, h2, hle1, hle2, -, -, hs1, -⟩ :=
      scalar_loops (DiffN defaultOptions (n + 1)) (L ++ X) L
        (fun x hx => scalar_not_container x (hLX x hx))
        (fun x hx => scalar_DiffN_self n x (hL x hx))
    have hch : ch = L.length := by
      rcases hs1 with h | h
      · rw [List.length_append] at h
        omega
      · by_contra hc
        apply h
        have hlt : ch < L.length := by omega
        refine ⟨?_, hlt, hget ch hlt⟩
        rw [List.length_append]; omega
    have hct : ct = 0 := by omega
    subst hch
    subst hct
    exact ⟨h1, h2⟩

theorem append_ne_self (L X : List Json) (hne : X ≠ []) : L ≠ L ++ X := by
  intro h
  have := congrArg List.length h
  rw [List.length_append] at this
  have : X.length = 0 := by omega
  exact hne (List.length_eq_zero.1 this)

/-- The members stored for the appended elements. -/
theorem append_entries (L X : List Json) :
    (List.range' L.length X.length).map (fun i => addMember (i, (L ++ X).getD i Json.null)) =
      (List.range X.length).map
        (fun i => (toString (L.length + i), Json.arr [X.getD i Json.null])) := by
  rw [List.range'_eq_map_range, List.map_map]
  apply List.map_congr_left
  intro i _
  simp only [Function.comp, addMember, addedDelta]
  rw [List.getD_append_right _ _ _ _ (by omega)]
  simp

/-- The members stored for the removed elements. -/
theorem removal_entries (L X : List Json) :
    (List.range' L.length X.length).map (fun i => delMember (i, (L ++ X).getD i Json.null)) =
      (List.range X.length).map
        (fun i => ("_" ++ toString (L.length + i),
          Json.arr [X.getD i Json.null, Json.num 0, Json.num 0])) := by
  rw [List.range'_eq_map_range, List.map_map]
  apply List.map_congr_left
  intro i _
  simp only [Function.comp, delMember, deletedDelta]
  rw [List.getD_append_right _ _ _ _ (by omega)]
  simp [OP_DELETED]

theorem Diff_append (L X : List Json)
    (hL : ∀ x ∈ L, isShortScalar x = true) (hX : ∀ x ∈ X, isShortScalar x = true)
    (hne : X ≠ []) (hlen : (L ++ X).length < 18446744073709551616) :
    ∃ M, Diff defaultOptions (Json.arr L) (Json.arr (L ++ X)) = Json.obj M ∧ SortedKeys M ∧
      M.Perm (("_t", Json.str "a") :: (List.range X.length).map
        (fun i => (toString (L.length + i), Json.arr [X.getD i Json.null]))) := by
  obtain ⟨⟨h1, h2⟩, -⟩ := append_loops (Json.depthList L) L X hL hX
  rw [Diff_arr_default, ArrayDiff_of_loops none _ L (L ++ X) L.length 0 _ _
    (append_ne_self L X hne) h1 h2]
  rw [if_pos (by omega)]
  have hk : (L ++ X).length - 0 - L.length = X.length := by
    rw [List.length_append]; omega
  rw [hk, foldl_addStep_entries]
  have hm := members_of_entries [] []
    ((List.range' L.length X.length).map (fun i => (i, (L ++ X).getD i Json.null)))
    ((List.range' L.length X.length).map (fun i => addMember (i, (L ++ X).getD i Json.null)))
    (by
      simp only [List.map_nil, List.nil_append, List.map_map]
      exact List.Perm.refl _)
    (by simp)
    (by
      intro e he
      simp only [List.nil_append, List.mem_map, List.mem_range'_1] at he
      obtain ⟨i, hi, rfl⟩ := he
      rw [List.length_append] at hlen
      simp only
      omega)
    (by simp)
    (by
      simp only [List.nil_append, List.map_map]
      have : (Prod.fst ∘ fun i => (i, (L ++ X).getD i Json.null)) = id := rfl
      rw [this, List.map_id]
      exact range_nodup _ _)
  refine ⟨_, rfl, hm.1, ?_⟩
  refine hm.2.trans ?_
  simp only [List.map_nil, List.nil_append, List.map_map]
  have : (addMember ∘ fun i => (i, (L ++ X).getD i Json.null)) =
      fun i => addMember (i, (L ++ X).getD i Json.null) := rfl
  rw [this, append_entries]

theorem Diff_remove_tail (L X : List Json)
    (hL : ∀ x ∈ L, isShortScalar x = true) (hX : ∀ x ∈ X, isShortScalar x = true)
    (hne : X ≠ []) (hlen : (L ++ X).length < 18446744073709551616) :
    ∃ M, Diff defaultOptions (Json.arr (L ++ X)) (Json.arr L) = Json.obj M ∧ SortedKeys M ∧
      M.Perm (("_t", Json.str "a") :: (List.range X.length).map
        (fun i => ("_" ++ toString (L.length + i),
          Json.arr [X.getD i Json.null, Json.num 0, Json.num 0]))) := by
  obtain ⟨-, h1, h2⟩ := append_loops (Json.depthList (L ++ X)) L X hL hX
  have hxl : 0 < X.length := List.length_pos.2 hne
  rw [Diff_arr_default, ArrayDiff_of_loops none _ (L ++ X) L L.length 0 _ _
    (fun h => append_ne_self L X hne h.symm) h1 h2]
  rw [if_neg (by rw [List.length_append]; omega), if_pos (by omega)]
  have hk : (L ++ X).length - 0 - L.length = X.length := by
    rw [List.length_append]; omega
  rw [hk, foldl_removeStep_entries]
  have hm := members_of_entries
    ((List.range' L.length X.length).map (fun i => (i, (L ++ X).getD i Json.null))) [] []
    ((List.range' L.length X.length).map (fun i => delMember (i, (L ++ X).getD i Json.null)))
    (by
      simp only [List.map_nil, List.append_nil, List.map_map]
      exact List.Perm.refl _)
    (by
      intro e he
      simp only [List.mem_map, List.mem_range'_1] at he
      obtain ⟨i, hi, rfl⟩ := he
      rw [List.length_append] at hlen
      simp only
      omega)
    (by simp)
    (by
      simp only [List.map_map]
      have : (Prod.fst ∘ fun i => (i, (L ++ X).getD i Json.null)) = id := rfl
      rw [this, List.map_id]
      exact range_nodup _ _)
    (by simp)
  refine ⟨_, rfl, hm.1, ?_⟩
  refine hm.2.trans ?_
  simp only [List.map_nil, List.append_nil, List.map_map]
  have : (delMember ∘ fun i => (i, (L ++ X).getD i Json.null)) =
      fun i => delMember (i, (L ++ X).getD i Json.null) := rfl
  rw [this, removal_entries]

/-- C9: for every array `L` and every non-empty array `X`, all of whose
elements are scalars (null, booleans, numbers, strings of at most 50
characters), with `L ++ X` of fewer than `2^64` elements, with default options
`Diff(L, L ++ X)` is the object whose members are exactly `"_t": "a"` and, for
each `i < |X|`, the member `"<|L| + i>": [X[i]]`, in the order of their
keys. -/
theorem C9_array_append (L X : List Json)
    (hL : ∀ x ∈ L, isShortScalar x = true) (hX : ∀ x ∈ X, isShortScalar x = true)
    (hne : X ≠ []) (hlen : (L ++ X).length < 18446744073709551616) :
    ∃ M, Diff defaultOptions (Json.arr L) (Json.arr (L ++ X)) = Json.obj M ∧ SortedKeys M ∧
      M.Perm (("_t", Json.str "a") :: (List.range X.length).map
        (fun i => (toString (L.length + i), Json.arr [X.getD i Json.null]))) :=
  Diff_append L X hL hX hne hlen

theorem C9_array_append_witness :
    ∃ M, Diff defaultOptions (Json.arr [Json.num 1, Json.str "a"])
        (Json.arr ([Json.num 1, Json.str "a"] ++ [Json.null, Json.bool true])) = Json.obj M ∧
      SortedKeys M ∧
      M.Perm (("_t", Json.str "a") :: (List.range [Json.null, Json.bool true].length).map
        (fun i => (toString ([Json.num 1, Json.str "a"].length + i),
          Json.arr [[Json.null, Json.bool true].getD i Json.null]))) :=
  C9_array_append [Json.num 1, Json.str "a"] [Json.null, Json.bool true]
    (by decide) (by decide) (by decide) (by decide)

/-- C10: for every array `L` and every non-empty array `X`, all of whose
elements are scalars (null, booleans, numbers, strings of at most 50
characters), with `L ++ X` of fewer than `2^64` elements, with default options
`Diff(L ++ X, L)` is the object whose members are exactly `"_t": "a"` and, for
each `i < |X|`, the member `"_<|L| + i>": [X[i], 0, 0]`, in the order of their
keys. -/
theorem C10_array_tail_removal (L X : List Json)
    (hL : ∀ x ∈ L, isShortScalar x = true) (hX : ∀ x ∈ X, isShortScalar x = true)
    (hne : X ≠ []) (hlen : (L ++ X).length < 18446744073709551616) :
    ∃ M, Diff defaultOptions (Json.arr (L ++ X)) (Json.arr L) = Json.obj M ∧ SortedKeys M ∧
      M.Perm (("_t", Json.str "a") :: (List.range X.length).map
        (fun i => ("_" ++ toString (L.length + i),
          Json.arr [X.getD i Json.null, Json.num 0, Json.num 0]))) :=
  Diff_remove_tail L X hL hX hne hlen

theorem C10_array_tail_removal_witness :
    ∃ M, Diff defaultOptions (Json.arr ([Json.num 1, Json.str "a"] ++ [Json.null, Json.bool true]))
        (Json.arr [Json.num 1, Json.str "a"]) = Json.obj M ∧
      SortedKeys M ∧
      M.Perm (("_t", Json.str "a") :: (List.range [Json.null, Json.bool true].length).map
        (fun i => ("_" ++ toString ([Json.num 1, Json.str "a"].length + i),
          Json.arr [[Json.null, Json.bool true].getD i Json.null, Json.num 0, Json.num 0]))) :=
  C10_array_tail_removal [Json.num 1, Json.str "a"] [Json.null, Json.bool true]
    (by decide) (by decide) (by decide) (by decide)

end JsonDiffPatch
